import Mathlib


/-!
# Tank Maze Game: the spatial core (`Maze`, `MazeGenerator`)

A shallow embedding of `src/world/Maze.cpp` and `src/world/MazeGenerator.cpp`.

Conventions of the embedding:
* `float` values (world coordinates, wall health, path costs) are exact rationals;
* `int` values are unbounded integers (grid coordinates never approach `INT_MAX`);
* a `while` loop is a function with a fuel argument that returns `none` when the
  fuel runs out; the theorems show that the fuel chosen by the caller suffices;
* `std::unordered_map` is a function into `Option`.
-/

namespace TankMaze

/-! ## Arithmetic of the rationals

The ring structures of `ℚ`, taken from its commutative ring directly, so that a statement about
coordinates or costs depends on the algebra of `ℚ` only. -/

/-- The ring `ℚ`. -/
instance ratRing : Ring ℚ := Rat.commRing.toRing

/-- The ring `ℚ` without regard to its unit. -/
instance ratNonUnitalRing : NonUnitalRing ℚ := Rat.commRing.toRing.toNonUnitalRing

/-- The commutative ring `ℚ` without regard to its unit. -/
instance ratNonUnitalCommRing : NonUnitalCommRing ℚ := Rat.commRing.toNonUnitalCommRing

/-! ## Data model (`Maze.hpp`, `Utils.hpp`) -/

/-- World-space point, `sf::Vector2f`. -/
structure Vec2 where
  x : ℚ
  y : ℚ
deriving DecidableEq

/-- Integer cell coordinates: `x` is the column, `y` is the row. -/
structure GridPos where
  x : Int
  y : Int
deriving DecidableEq, Repr

inductive WallType where
  | None
  | Destructible
  | Solid
  | Exit
deriving DecidableEq, Repr

inductive WallAttribute where
  | None
  | Gold
  | Heal
deriving DecidableEq, Repr

/-- The four flags of `Wall::roundedCorners`: top-left, top-right, bottom-right, bottom-left. -/
structure Corners where
  topLeft : Bool := false
  topRight : Bool := false
  bottomRight : Bool := false
  bottomLeft : Bool := false
deriving DecidableEq, Repr

/-- One cell, `struct Wall` without its drawable shape. The defaults are those of `Wall()`. -/
structure Wall where
  type : WallType := WallType.None
  wallAttribute : WallAttribute := WallAttribute.None
  health : ℚ := 0
  maxHealth : ℚ := 0
  roundedCorners : Corners := {}
deriving DecidableEq

instance : Inhabited Wall := ⟨{}⟩

/-- Result of a damage operation, `struct WallDestroyResult`. -/
structure WallDestroyResult where
  destroyed : Bool := false
  wallAttribute : WallAttribute := WallAttribute.None
  position : Vec2 := ⟨0, 0⟩
  gridX : Int := 0
  gridY : Int := 0
deriving DecidableEq

/-- The fields of `class Maze` (colours left out). -/
structure Maze where
  m_walls : List (List Wall) := []
  m_mazeData : List String := []
  m_startPosition : Vec2 := ⟨0, 0⟩
  m_exitPosition : Vec2 := ⟨0, 0⟩
  m_enemySpawnPoints : List Vec2 := []
  m_spawn1Position : Vec2 := ⟨0, 0⟩
  m_spawn2Position : Vec2 := ⟨0, 0⟩
  m_rows : Nat := 0
  m_cols : Nat := 0

/-- The constant `TILE_SIZE`, to which `m_tileSize` is initialised and never reassigned. -/
def m_tileSize : ℚ := 60

/-- Conversion `static_cast<int>(float)`: truncation toward zero. -/
def truncToInt (q : ℚ) : Int := Int.tdiv q.num q.den

namespace Maze

/-- The bounds test `!(r < 0 || r >= m_rows || c < 0 || c >= m_cols)`. -/
def inBounds (m : Maze) (row col : Int) : Bool :=
  !(decide (row < 0) || decide (row ≥ (m.m_rows : Int)) || decide (col < 0) || decide (col ≥ (m.m_cols : Int)))

/-- The cell `m_walls[row][col]` (read only after a bounds test). -/
def wallAt (m : Maze) (row col : Int) : Wall :=
  (m.m_walls.getD row.toNat []).getD col.toNat default

/-- The value of `m_walls[row][col].type`. -/
def typeAt (m : Maze) (row col : Int) : WallType :=
  (m.wallAt row col).type

def worldToGrid (pos : Vec2) : GridPos :=
  ⟨truncToInt (pos.x / m_tileSize), truncToInt (pos.y / m_tileSize)⟩

def gridToWorld (grid : GridPos) : Vec2 :=
  ⟨grid.x * m_tileSize + m_tileSize / 2, grid.y * m_tileSize + m_tileSize / 2⟩

def isWalkable (m : Maze) (row col : Int) : Bool :=
  if m.inBounds row col then
    decide (m.typeAt row col = WallType.None) || decide (m.typeAt row col = WallType.Exit)
  else false

def isDestructibleWall (m : Maze) (row col : Int) : Bool :=
  if m.inBounds row col then decide (m.typeAt row col = WallType.Destructible) else false

/-! ## Line of sight (`checkLineOfSight`, `getFirstBlockedPosition`) -/

/-- State of the integer line walk: current cell `(x0, y0)` and the error term. -/
structure LineState where
  x0 : Int
  y0 : Int
  err : Int
deriving DecidableEq, Repr

/-- Constants of one line walk: end cell, absolute deltas and step signs. -/
structure LineParams where
  x1 : Int
  y1 : Int
  dx : Int
  dy : Int
  sx : Int
  sy : Int
deriving DecidableEq, Repr

/-- The set-up shared by both walks:
`dx = abs(x1 - x0); dy = abs(y1 - y0); sx = x0 < x1 ? 1 : -1; sy = y0 < y1 ? 1 : -1`. -/
def lineParams (startGrid endGrid : GridPos) : LineParams :=
  { x1 := endGrid.x, y1 := endGrid.y,
    dx := |endGrid.x - startGrid.x|, dy := |endGrid.y - startGrid.y|,
    sx := if startGrid.x < endGrid.x then 1 else -1,
    sy := if startGrid.y < endGrid.y then 1 else -1 }

/-- The initial walk state: the start cell and `err = dx - dy`. -/
def lineInit (startGrid endGrid : GridPos) : LineState :=
  { x0 := startGrid.x, y0 := startGrid.y,
    err := |endGrid.x - startGrid.x| - |endGrid.y - startGrid.y| }

/-- The tail of the loop body:
`e2 = 2 * err; if (e2 > -dy) { err -= dy; x0 += sx; } if (e2 < dx) { err += dx; y0 += sy; }`. -/
def lineStep (p : LineParams) (s : LineState) : LineState :=
  let e2 := 2 * s.err
  let s1 : LineState := if e2 > -p.dy then { s with err := s.err - p.dy, x0 := s.x0 + p.sx } else s
  if e2 < p.dx then { s1 with err := s1.err + p.dx, y0 := s1.y0 + p.sy } else s1

/-- Fuel given to a line walk from `startGrid` to `endGrid`. -/
def lineFuel (startGrid endGrid : GridPos) : Nat :=
  (|endGrid.x - startGrid.x| + |endGrid.y - startGrid.y|).toNat + 1

/-- The cells the `while (true)` walk visits, in order, until `x0 == x1 && y0 == y1`. -/
def lineWalk (p : LineParams) : Nat → LineState → Option (List GridPos)
  | 0, _ => none
  | fuel + 1, s =>
    if s.x0 = p.x1 ∧ s.y0 = p.y1 then some [⟨s.x0, s.y0⟩]
    else (lineWalk p fuel (lineStep p s)).map (fun rest => ⟨s.x0, s.y0⟩ :: rest)

/-- The integer cell line from `startGrid` to `endGrid` that both line-of-sight functions walk. -/
def cellLine (startGrid endGrid : GridPos) : Option (List GridPos) :=
  lineWalk (lineParams startGrid endGrid) (lineFuel startGrid endGrid) (lineInit startGrid endGrid)

/-- The `while (true)` loop of `checkLineOfSight`; `result` is the local of that name. -/
def losLoop (m : Maze) (p : LineParams) : Nat → LineState → Int → Option Int
  | 0, _, _ => none
  | fuel + 1, s, result =>
    if m.inBounds s.y0 s.x0 && decide (m.typeAt s.y0 s.x0 = WallType.Solid) then some 2
    else
      let result :=
        if m.inBounds s.y0 s.x0 && decide (m.typeAt s.y0 s.x0 = WallType.Destructible) then 1 else result
      if s.x0 = p.x1 ∧ s.y0 = p.y1 then some result
      else losLoop m p fuel (lineStep p s) result

/-- The function `Maze::checkLineOfSight`: 0 clear, 1 destructible wall, 2 solid wall. -/
def checkLineOfSight (m : Maze) (start end_ : Vec2) : Option Int :=
  let startGrid := worldToGrid start
  let endGrid := worldToGrid end_
  losLoop m (lineParams startGrid endGrid) (lineFuel startGrid endGrid) (lineInit startGrid endGrid) 0

/-- The `while (true)` loop of `getFirstBlockedPosition`. -/
def blockedLoop (m : Maze) (p : LineParams) (end_ : Vec2) : Nat → LineState → Option Vec2
  | 0, _ => none
  | fuel + 1, s =>
    if m.inBounds s.y0 s.x0 &&
        (decide (m.typeAt s.y0 s.x0 = WallType.Solid) || decide (m.typeAt s.y0 s.x0 = WallType.Destructible))
    then some (gridToWorld ⟨s.x0, s.y0⟩)
    else if s.x0 = p.x1 ∧ s.y0 = p.y1 then some end_
    else blockedLoop m p end_ fuel (lineStep p s)

/-- The function `Maze::getFirstBlockedPosition`. -/
def getFirstBlockedPosition (m : Maze) (start end_ : Vec2) : Option Vec2 :=
  let startGrid := worldToGrid start
  let endGrid := worldToGrid end_
  blockedLoop m (lineParams startGrid endGrid) end_ (lineFuel startGrid endGrid) (lineInit startGrid endGrid)

/-- An in-bounds cell of type `Solid`. -/
def solidAt (m : Maze) (c : GridPos) : Bool :=
  m.inBounds c.y c.x && decide (m.typeAt c.y c.x = WallType.Solid)

/-- An in-bounds cell of type `Destructible`. -/
def destructibleAt (m : Maze) (c : GridPos) : Bool :=
  m.inBounds c.y c.x && decide (m.typeAt c.y c.x = WallType.Destructible)

/-- An in-bounds cell that is `Solid` or `Destructible`. -/
def blockedAt (m : Maze) (c : GridPos) : Bool :=
  m.inBounds c.y c.x &&
    (decide (m.typeAt c.y c.x = WallType.Solid) || decide (m.typeAt c.y c.x = WallType.Destructible))

end Maze

end TankMaze


namespace TankMaze

namespace Maze

/-! ## Fine trajectory check (`checkBulletPath`) -/

/-- The local `struct Node` of both searches. -/
structure Node where
  pos : GridPos
  gCost : ℚ
  fCost : ℚ
deriving DecidableEq

/-- The lambda `heuristic`: Manhattan distance. -/
def heuristic (a b : GridPos) : ℚ := ((|a.x - b.x| + |a.y - b.y| : Int) : ℚ)

/-- The entry `openSet.top()` of the min-queue ordered by `fCost`. Among entries of equal
`fCost` the queue order is unspecified; the model takes the earliest pushed one. -/
def pqTop : List Node → Option Node
  | [] => none
  | n :: ns => some (ns.foldl (fun best e => if e.fCost < best.fCost then e else best) n)

/-- The locals `openSet`, `cameFrom`, `gScore` of a search. -/
structure SearchState where
  openSet : List Node
  cameFrom : GridPos → Option GridPos
  gScore : GridPos → Option ℚ

/-- The four neighbours in the order of `dx[] = {0, 1, 0, -1}`, `dy[] = {-1, 0, 1, 0}`. -/
def neighbours (p : GridPos) : List GridPos :=
  [⟨p.x + 0, p.y + -1⟩, ⟨p.x + 1, p.y + 0⟩, ⟨p.x + 0, p.y + 1⟩, ⟨p.x + -1, p.y + 0⟩]

/-- Neighbour filter and move cost of `findPath`: walkable cells at cost 1. -/
def plainMoveCost (m : Maze) (neighbor : GridPos) : Option ℚ :=
  if !(m.isWalkable neighbor.y neighbor.x) then none else some 1

/-- Neighbour filter and move cost of `findPathThroughDestructible`: out-of-bounds and Solid
cells are skipped, Destructible cells cost `destructibleCost`, the others 1. -/
def destructibleMoveCost (m : Maze) (destructibleCost : ℚ) (neighbor : GridPos) : Option ℚ :=
  if neighbor.y < 0 ∨ neighbor.y ≥ (m.m_rows : Int) ∨ neighbor.x < 0 ∨ neighbor.x ≥ (m.m_cols : Int) then none
  else if m.typeAt neighbor.y neighbor.x = WallType.Solid then none
  else some (if m.typeAt neighbor.y neighbor.x = WallType.Destructible then destructibleCost else 1)

/-- The test `!gScore.count(neighbor) || tentativeG < gScore[neighbor]`. -/
def improves (tentativeG : ℚ) : Option ℚ → Bool
  | none => true
  | some g => decide (tentativeG < g)

/-- The test `gScore.count(current.pos) && current.gCost > gScore[current.pos]`. -/
def isStale (gCost : ℚ) : Option ℚ → Bool
  | none => false
  | some g => decide (gCost > g)

/-- One iteration of the `for (i < 4)` loop over the neighbours of `current`. -/
def relax (moveCost : GridPos → Option ℚ) (targetGrid : GridPos) (current : Node)
    (st : SearchState) (neighbor : GridPos) : SearchState :=
  match moveCost neighbor with
  | none => st
  | some c =>
    let tentativeG := current.gCost + c
    if improves tentativeG (st.gScore neighbor) then
      { openSet := st.openSet ++ [⟨neighbor, tentativeG, tentativeG + heuristic neighbor targetGrid⟩],
        cameFrom := fun q => if q = neighbor then some current.pos else st.cameFrom q,
        gScore := fun q => if q = neighbor then some tentativeG else st.gScore q }
    else st

/-- The `while (!openSet.empty())` loop shared by both searches. Result: `none` when the fuel
runs out, `some none` when the open set empties, `some (some st)` when the target is popped. -/
def searchLoop (moveCost : GridPos → Option ℚ) (targetGrid : GridPos) :
    Nat → SearchState → Option (Option SearchState)
  | 0, _ => none
  | fuel + 1, st =>
    match pqTop st.openSet with
    | none => some none
    | some current =>
      let st : SearchState := { st with openSet := st.openSet.erase current }
      if current.pos = targetGrid then some (some st)
      else if isStale current.gCost (st.gScore current.pos) then
        searchLoop moveCost targetGrid fuel st
      else
        searchLoop moveCost targetGrid fuel
          ((neighbours current.pos).foldl (relax moveCost targetGrid current) st)

/-- The state before the loop: `openSet.push({startGrid, 0, h}); gScore[startGrid] = 0`. -/
def searchInit (startGrid targetGrid : GridPos) : SearchState :=
  { openSet := [⟨startGrid, 0, heuristic startGrid targetGrid⟩],
    cameFrom := fun _ => none,
    gScore := fun q => if q = startGrid then some 0 else none }

/-- Fuel of the search loop of `findPath`: with unit costs every cell is expanded at most once
and pushes at most four entries. -/
def searchFuel (m : Maze) : Nat := 4 * (m.m_rows * m.m_cols) + 2

/-- Fuel of the search loop of `findPathThroughDestructible`. For a cost `p / q ≥ 0` in lowest
terms every `gScore` is a multiple of `1 / q` that does not exceed `cells * max p q / q`, every
push lowers the `gScore` of a cell or gives it its first one, and every iteration pops an
entry; so the loop ends within this many iterations. For a negative cost the loop of the code
need not end at all in exact arithmetic, and the model may then stop for lack of fuel. -/
def weightedSearchFuel (m : Maze) (destructibleCost : ℚ) : Nat :=
  2 * (m.m_rows * m.m_cols) *
    (m.m_rows * m.m_cols * max destructibleCost.num.toNat destructibleCost.den + 1) + 2

/-- The loop `while (curr != startGrid) { path.push_back(curr); curr = cameFrom[curr]; }`.
A missing key of `cameFrom` reads as the value-initialised `GridPos{0, 0}`. -/
def walkBack (cameFrom : GridPos → Option GridPos) (startGrid : GridPos) :
    Nat → GridPos → List GridPos → Option (List GridPos)
  | 0, _, _ => none
  | fuel + 1, curr, path =>
    if curr ≠ startGrid then walkBack cameFrom startGrid fuel ((cameFrom curr).getD ⟨0, 0⟩) (path ++ [curr])
    else some path

/-- Fuel of the walk back from the target: the walk visits pairwise different cells of the grid
until it reaches the start, or it comes back to a cell and then never ends. -/
def walkFuel (m : Maze) : Nat := m.m_rows * m.m_cols + 2

/-- The function `Maze::findPath`; `none` only if a loop ran out of fuel. -/
def findPath (m : Maze) (start target : Vec2) : Option (List Vec2) :=
  let startGrid := worldToGrid start
  let targetGrid := worldToGrid target
  if !(m.isWalkable startGrid.y startGrid.x) || !(m.isWalkable targetGrid.y targetGrid.x) then some []
  else
    match searchLoop (plainMoveCost m) targetGrid (searchFuel m) (searchInit startGrid targetGrid) with
    | none => none
    | some none => some []
    | some (some st) =>
      (walkBack st.cameFrom startGrid (walkFuel m) targetGrid []).map
        (fun path => (path.map gridToWorld).reverse)

/-- The struct `Maze::PathResult`. -/
structure PathResult where
  path : List Vec2 := []
  hasDestructibleWall : Bool := false
  firstDestructibleWallPos : Vec2 := ⟨0, 0⟩
  firstDestructibleWallGrid : GridPos := ⟨-1, -1⟩
deriving DecidableEq

/-- Body of `for (const auto &gridPos : gridPath)` in `findPathThroughDestructible`. -/
def collectStep (m : Maze) (result : PathResult) (gridPos : GridPos) : PathResult :=
  let result := { result with path := result.path ++ [gridToWorld gridPos] }
  if !result.hasDestructibleWall && m.isDestructibleWall gridPos.y gridPos.x then
    { result with hasDestructibleWall := true,
                  firstDestructibleWallPos := gridToWorld gridPos,
                  firstDestructibleWallGrid := gridPos }
  else result

/-- The function `Maze::findPathThroughDestructible`; `none` only if a loop ran out of fuel. -/
def findPathThroughDestructible (m : Maze) (start target : Vec2) (destructibleCost : ℚ) :
    Option PathResult :=
  let result : PathResult := {}
  let startGrid := worldToGrid start
  let targetGrid := worldToGrid target
  if !(m.isWalkable startGrid.y startGrid.x) then some result
  else if targetGrid.y ≥ 0 ∧ targetGrid.y < (m.m_rows : Int) ∧ targetGrid.x ≥ 0 ∧
      targetGrid.x < (m.m_cols : Int) ∧ m.typeAt targetGrid.y targetGrid.x = WallType.Solid then
    some result
  else
    match searchLoop (destructibleMoveCost m destructibleCost) targetGrid
        (weightedSearchFuel m destructibleCost) (searchInit startGrid targetGrid) with
    | none => none
    | some none => some result
    | some (some st) =>
      (walkBack st.cameFrom startGrid (walkFuel m) targetGrid []).map
        (fun gridPath => gridPath.reverse.foldl (collectStep m) result)

end Maze

end TankMaze


namespace TankMaze

namespace Maze

/-! ## Specification vocabulary for the searches -/

/-- A walk of 4-neighbour steps: `isWalk pass a cells b` says that `cells` are the cells entered
one after another when going from `a` to `b`, each of them satisfying `pass`. The start cell `a`
is not part of `cells`; the walk is empty exactly when `a = b`. -/
def isWalk (pass : GridPos → Prop) : GridPos → List GridPos → GridPos → Prop
  | a, [], b => a = b
  | a, c :: cs, b => c ∈ neighbours a ∧ pass c ∧ isWalk pass c cs b

/-- Passable for `findPath`: in bounds and Empty or Exit. -/
def walkableCell (m : Maze) (c : GridPos) : Prop := m.isWalkable c.y c.x = true

/-- Passable for `findPathThroughDestructible`: in bounds and not Solid. -/
def nonSolidCell (m : Maze) (c : GridPos) : Prop :=
  m.inBounds c.y c.x = true ∧ m.typeAt c.y c.x ≠ WallType.Solid

/-- Cost of entering the cells of a walk: `destructibleCost` for a Destructible cell, 1 otherwise. -/
def walkCost (m : Maze) (destructibleCost : ℚ) (cells : List GridPos) : ℚ :=
  (cells.map (fun c => if m.typeAt c.y c.x = WallType.Destructible then destructibleCost else 1)).sum

/-- Sum of the move costs of the cells of a walk. -/
def stepCosts (moveCost : GridPos → Option ℚ) (cells : List GridPos) : ℚ :=
  (cells.map (fun c => (moveCost c).getD 0)).sum

/-- The in-bounds cells of a maze. -/
def cellSet (m : Maze) : Finset GridPos :=
  (Finset.range m.m_rows ×ˢ Finset.range m.m_cols).image
    (fun rc => (⟨(rc.2 : Int), (rc.1 : Int)⟩ : GridPos))

/-- A route from the start cell `s` to a cell, with its accumulated cost. -/
inductive Route (moveCost : GridPos → Option ℚ) (s : GridPos) : GridPos → ℚ → Prop
  | start : Route moveCost s s 0
  | step {p n : GridPos} {c w : ℚ} :
      Route moveCost s p c → n ∈ neighbours p → moveCost n = some w → Route moveCost s n (c + w)

/-- Invariant of the search loop. `closed` is the set of expanded cells; `pending x b` marks the
neighbour relaxations of the cell under expansion that are still to be done. -/
structure SearchInv (moveCost : GridPos → Option ℚ) (cells : Finset GridPos) (s t : GridPos)
    (pending : GridPos → GridPos → Prop) (st : SearchState) (closed : Finset GridPos) : Prop where
  g_start : st.gScore s = some 0
  g_nonneg : ∀ n v, st.gScore n = some v → 0 ≤ v
  g_cells : ∀ n v, st.gScore n = some v → n ∈ cells
  chain : ∀ n v, st.gScore n = some v → n ≠ s →
    ∃ p vp w, st.cameFrom n = some p ∧ n ∈ neighbours p ∧ moveCost n = some w ∧
      st.gScore p = some vp ∧ vp + w ≤ v
  sound : ∀ n v, st.gScore n = some v → ∃ c, c ≤ v ∧ Route moveCost s n c
  open_ok : ∀ e ∈ st.openSet, ∃ v, st.gScore e.pos = some v ∧ v ≤ e.gCost ∧
    e.fCost = e.gCost + heuristic e.pos t
  open_nodup : st.openSet.Nodup
  frontier : ∀ n v, st.gScore n = some v → n ∉ closed →
    (⟨n, v, v + heuristic n t⟩ : Node) ∈ st.openSet
  closed_stale : ∀ e ∈ st.openSet, e.pos ∈ closed → ∀ v, st.gScore e.pos = some v → v < e.gCost
  closed_opt : ∀ n ∈ closed, ∃ v, st.gScore n = some v ∧ ∀ c, Route moveCost s n c → v ≤ c
  closed_ne : ∀ n ∈ closed, n ≠ t
  relaxed : ∀ n ∈ closed, ∀ v, st.gScore n = some v → ∀ nb ∈ neighbours n, ∀ w,
    moveCost nb = some w → ¬ pending n nb → ∃ vb, st.gScore nb = some vb ∧ vb ≤ v + w

/-- What holds of the state with which the search loop returns when it pops the target. -/
structure FoundPost (moveCost : GridPos → Option ℚ) (cells : Finset GridPos) (s t : GridPos)
    (st : SearchState) : Prop where
  g_start : st.gScore s = some 0
  g_nonneg : ∀ n v, st.gScore n = some v → 0 ≤ v
  g_cells : ∀ n v, st.gScore n = some v → n ∈ cells
  chain : ∀ n v, st.gScore n = some v → n ≠ s →
    ∃ p vp w, st.cameFrom n = some p ∧ n ∈ neighbours p ∧ moveCost n = some w ∧
      st.gScore p = some vp ∧ vp + w ≤ v
  optimal : ∃ v, st.gScore t = some v ∧ ∀ c, Route moveCost s t c → v ≤ c

/-- Share of a cell in the potential of a search state: its `gScore` in units of `1 / den`, and
`bound + 1` for a cell that has none yet. -/
def gUnits (den bound : Nat) : Option ℚ → Nat
  | none => bound + 1
  | some v => ⌊v * (den : ℚ)⌋₊

/-- Potential of a search state: the shares of the cells summed up. Every push lowers it. -/
def potential (cells : Finset GridPos) (den bound : Nat) (st : SearchState) : Nat :=
  cells.sum (fun n => gUnits den bound (st.gScore n))

/-- 1 for a cell without a `gScore`. -/
def unseenUnit : Option ℚ → Nat
  | none => 1
  | some _ => 0

/-- Number of the cells that have no `gScore` yet. -/
def unseen (cells : Finset GridPos) (st : SearchState) : Nat :=
  cells.sum (fun n => unseenUnit (st.gScore n))

/-- Invariant of the search loop for move costs that are non-negative multiples of `1 / den`,
none above `top / den`. Every `gScore` is such a multiple, and with `top` for each cell still
without one it stays within `bound`; the entries of `cameFrom` lead to a cell whose `gScore` is
lower, or equal with a lower `rank` (the order in which the links were set); every open entry
carries a `gCost` that its cell has had. -/
structure WeakInv (moveCost : GridPos → Option ℚ) (cells : Finset GridPos) (s : GridPos)
    (den top bound : Nat) (st : SearchState) (rank : GridPos → Nat) : Prop where
  g_start : st.gScore s = some 0
  g_cells : ∀ n v, st.gScore n = some v → n ∈ cells
  g_units : ∀ n v, st.gScore n = some v →
    ∃ k : Nat, v * (den : ℚ) = (k : ℚ) ∧ k + top * unseen cells st ≤ bound
  chain : ∀ n v, st.gScore n = some v → n ≠ s →
    ∃ p vp w, st.cameFrom n = some p ∧ n ∈ neighbours p ∧ moveCost n = some w ∧
      st.gScore p = some vp ∧ vp + w ≤ v ∧ (vp + w < v ∨ rank p < rank n)
  open_ok : ∀ e ∈ st.openSet, ∃ v, st.gScore e.pos = some v ∧ v ≤ e.gCost ∧
    ∃ k : Nat, e.gCost * (den : ℚ) = (k : ℚ) ∧ k ≤ bound

/-- A corridor of two Empty cells side by side. -/
def corridor2 : Maze := { m_walls := [[{}, {}]], m_rows := 1, m_cols := 2 }

/-- A row of three cells: Empty, Destructible (full health), Empty. -/
def breakable3 : Maze :=
  { m_walls := [[{}, { type := WallType.Destructible, health := 100, maxHealth := 100 }, {}]],
    m_rows := 1, m_cols := 3 }

/-- Invariant of the line walk: `rx`, `ry` steps remain on each axis. -/
structure LineInv (p : LineParams) (s : LineState) (rx ry : Int) : Prop where
  rx_nonneg : 0 ≤ rx
  ry_nonneg : 0 ≤ ry
  rx_le : rx ≤ p.dx
  ry_le : ry ≤ p.dy
  hx : p.x1 = s.x0 + p.sx * rx
  hy : p.y1 = s.y0 + p.sy * ry
  herr : s.err = p.dx - p.dy + rx * p.dy - ry * p.dx
  hsx : p.sx = 1 ∨ p.sx = -1
  hsy : p.sy = 1 ∨ p.sy = -1

end Maze

end TankMaze


namespace TankMaze

/-! ## The generator (`MazeGenerator.cpp`)

An access `v[i]` of a `std::vector` at a computed index is undefined outside the vector; the
model returns `GenError.outOfBounds` there. Reads whose index is confined to the grid by the
enclosing loop range or by an explicit bounds test use the total `cellAt`. -/

inductive GenError where
  | outOfBounds
  | outOfFuel
deriving DecidableEq, Repr

/-- State of the random engine `std::mt19937`: the sequence of its 32-bit outputs and the
number of outputs consumed so far. -/
structure Rng where
  draws : Nat → Nat
  pos : Nat

/-- One call `m_rng()`. -/
def Rng.next (r : Rng) : Nat × Rng := (r.draws r.pos, { r with pos := r.pos + 1 })

/-- Exchange of the entries `i` and `j` of a list, `std::iter_swap`. -/
def swapAt {α : Type} (l : List α) (i j : Nat) : List α :=
  match l[i]?, l[j]? with
  | some a, some b => (l.set i b).set j a
  | _, _ => l

/-- Loop of `shuffleList`: position `i` is exchanged with a position drawn in `0..i`. -/
def shuffleLoop {α : Type} : Nat → Nat → List α → Rng → List α × Rng
  | 0, _, l, r => (l, r)
  | n + 1, i, l, r =>
    let d := r.next
    shuffleLoop n (i + 1) (swapAt l i (d.1 % (i + 1))) d.2

/-- Model of `std::shuffle(first, last, m_rng)`. The C++ standard leaves the algorithm to the
library; the model is the Fisher-Yates shuffle, one draw per position, which reaches every
permutation. -/
def shuffleList {α : Type} (l : List α) (r : Rng) : List α × Rng :=
  shuffleLoop (l.length - 1) 1 l r

/-- Entry `(i, j)` of a vector of vectors, `d` outside of it. -/
def get2 {α : Type} (d : α) (m : List (List α)) (i j : Nat) : α :=
  (m.getD i []).getD j d

/-- The vector of vectors with entry `(i, j)` replaced by `v`. -/
def set2 {α : Type} (m : List (List α)) (i j : Nat) (v : α) : List (List α) :=
  m.set i ((m.getD i []).set j v)

/-- The test that `m[y][x]` is an element of the vector of vectors `m`. -/
def inRange2 {α : Type} (m : List (List α)) (y x : Int) : Bool :=
  decide (0 ≤ y ∧ y < (m.length : Int) ∧ 0 ≤ x ∧ x < ((m.getD y.toNat []).length : Int))

/-- Total read `grid[y][x]`, `'#'` outside the grid. -/
def cellAt (grid : List (List Char)) (y x : Int) : Char :=
  if 0 ≤ y ∧ 0 ≤ x then get2 '#' grid y.toNat x.toNat else '#'

/-- Checked read `grid[y][x]`. -/
def gridGet (grid : List (List Char)) (y x : Int) : Except GenError Char :=
  if inRange2 grid y x then Except.ok (get2 '#' grid y.toNat x.toNat)
  else Except.error GenError.outOfBounds

/-- Checked write `grid[y][x] = c`. -/
def gridSet (grid : List (List Char)) (y x : Int) (c : Char) : Except GenError (List (List Char)) :=
  if inRange2 grid y x then Except.ok (set2 grid y.toNat x.toNat c)
  else Except.error GenError.outOfBounds

/-- Total read `visited[y][x]` (used behind a bounds test). -/
def visitedAt (visited : List (List Bool)) (y x : Int) : Bool :=
  if 0 ≤ y ∧ 0 ≤ x then get2 false visited y.toNat x.toNat else false

/-- Checked write `visited[y][x] = true`. -/
def visitedSet (visited : List (List Bool)) (y x : Int) : Except GenError (List (List Bool)) :=
  if inRange2 visited y x then Except.ok (set2 visited y.toNat x.toNat true)
  else Except.error GenError.outOfBounds

/-- Checked read `v[i]` of a vector. -/
def vecGet {α : Type} (v : List α) (i : Nat) : Except GenError α :=
  match v[i]? with
  | some a => Except.ok a
  | none => Except.error GenError.outOfBounds

/-- The fields of `class MazeGenerator`. -/
structure MazeGenerator where
  m_width : Int
  m_height : Int
  m_grid : List (List Char) := []
  m_rng : Rng := ⟨fun _ => 0, 0⟩
  m_seed : Nat := 0
  m_seedSet : Bool := false
  m_enemyCount : Int := 5
  m_destructibleRatio : ℚ := 15 / 100
  m_multiplayerMode : Bool := false
  m_escapeMode : Bool := false
  m_startX : Int := 1
  m_startY : Int := 1
  m_endX : Int := 1
  m_endY : Int := 1
  m_spawn1X : Int := 1
  m_spawn1Y : Int := 1
  m_spawn2X : Int := 1
  m_spawn2Y : Int := 1

namespace MazeGenerator

/-- The constructor `MazeGenerator(width, height)`: even sizes are raised by one. -/
def new (width height : Int) : MazeGenerator :=
  { m_width := if width % 2 = 0 then width + 1 else width,
    m_height := if height % 2 = 0 then height + 1 else height }

def setSeed (g : MazeGenerator) (seed : Nat) : MazeGenerator :=
  { g with m_seed := seed, m_seedSet := true }

def setEnemyCount (g : MazeGenerator) (count : Int) : MazeGenerator :=
  { g with m_enemyCount := count }

def setDestructibleRatio (g : MazeGenerator) (ratio : ℚ) : MazeGenerator :=
  { g with m_destructibleRatio := ratio }

def setMultiplayerMode (g : MazeGenerator) (multiplayer : Bool) : MazeGenerator :=
  { g with m_multiplayerMode := multiplayer }

def setEscapeMode (g : MazeGenerator) (escape : Bool) : MazeGenerator :=
  { g with m_escapeMode := escape }

/-- The table `dx[] = {0, 2, 0, -2}` of `carvePassage`. -/
def carveDx (dir : Nat) : Int :=
  match dir with
  | 0 => 0
  | 1 => 2
  | 2 => 0
  | _ => -2

/-- The table `dy[] = {-2, 0, 2, 0}` of `carvePassage`. -/
def carveDy (dir : Nat) : Int :=
  match dir with
  | 0 => -2
  | 1 => 0
  | 2 => 2
  | _ => 0

/-- Body of the loop `for (int dir : dirs)` of `carvePassage(cx, cy)`; `recur` is the recursive
call `carvePassage`. -/
def carveStep (recur : Int → Int → MazeGenerator → Except GenError MazeGenerator) (cx cy : Int)
    (g : MazeGenerator) (dir : Nat) : Except GenError MazeGenerator :=
  let nx := cx + carveDx dir
  let ny := cy + carveDy dir
  if nx > 0 ∧ nx < g.m_width - 1 ∧ ny > 0 ∧ ny < g.m_height - 1 then
    if cellAt g.m_grid ny nx = '#' then
      match gridSet g.m_grid (cy + Int.tdiv (carveDy dir) 2) (cx + Int.tdiv (carveDx dir) 2) '.' with
      | Except.error e => Except.error e
      | Except.ok grid1 => recur nx ny { g with m_grid := grid1 }
    else Except.ok g
  else Except.ok g

/-- The function `carvePassage(cx, cy)`: recursive backtracker on the odd lattice. The fuel bounds
the recursion depth. -/
def carvePassage : Nat → Int → Int → MazeGenerator → Except GenError MazeGenerator
  | 0, _, _, _ => Except.error GenError.outOfFuel
  | fuel + 1, cx, cy, g =>
    let sh := shuffleList [0, 1, 2, 3] g.m_rng
    match gridSet g.m_grid cy cx '.' with
    | Except.error e => Except.error e
    | Except.ok grid0 =>
      sh.1.foldlM (carveStep (carvePassage fuel) cx cy) { g with m_rng := sh.2, m_grid := grid0 }

/-- The cells `(x, y)` with `1 ≤ y < height - 1`, `1 ≤ x < width - 1`, row by row. -/
def interior (width height : Int) : List (Int × Int) :=
  (List.range' 1 (height - 2).toNat).flatMap fun (y : Nat) =>
    (List.range' 1 (width - 2).toNat).map fun (x : Nat) => ((x : Int), (y : Int))

/-- The function `getEmptySpaces()`. -/
def getEmptySpaces (g : MazeGenerator) : List (Int × Int) :=
  (interior g.m_width g.m_height).filter fun p => cellAt g.m_grid p.2 p.1 = '.'

/-- Model of `std::sort` with a comparator `a.first > b.first`: descending in the key. The order
of entries with equal keys is unspecified in C++; the model is an insertion sort. -/
def sortDescending {α : Type} (key : α → Int) (l : List α) : List α :=
  l.insertionSort (fun a b => key a ≥ key b)

/-- The function `placeStartAndEnd()`. -/
def placeStartAndEnd (g : MazeGenerator) : Except GenError MazeGenerator :=
  let emptySpaces := getEmptySpaces g
  if emptySpaces.length < 2 then
    let g := { g with m_startX := 1, m_startY := 1, m_endX := g.m_width - 2, m_endY := g.m_height - 2 }
    match gridSet g.m_grid g.m_startY g.m_startX 'S' with
    | Except.error e => Except.error e
    | Except.ok grid0 =>
      match gridSet grid0 g.m_endY g.m_endX 'E' with
      | Except.error e => Except.error e
      | Except.ok grid1 => Except.ok { g with m_grid := grid1 }
  else
    let sh := shuffleList emptySpaces g.m_rng
    match vecGet sh.1 0 with
    | Except.error e => Except.error e
    | Except.ok s =>
      let distancePoints : List (Int × (Int × Int)) :=
        (sh.1.drop 1).map fun e => (|e.1 - s.1| + |e.2 - s.2|, e)
      let distancePoints := sortDescending (fun a => a.1) distancePoints
      let topCount : Nat := max 1 (distancePoints.length * 4 / 10)
      let d := sh.2.next
      let selectedIdx := d.1 % topCount
      match vecGet distancePoints selectedIdx with
      | Except.error e => Except.error e
      | Except.ok sel =>
        let g := { g with m_rng := d.2, m_startX := s.1, m_startY := s.2,
                          m_endX := sel.2.1, m_endY := sel.2.2 }
        match gridSet g.m_grid g.m_startY g.m_startX 'S' with
        | Except.error e => Except.error e
        | Except.ok grid0 =>
          match gridSet grid0 g.m_endY g.m_endX 'E' with
          | Except.error e => Except.error e
          | Except.ok grid1 => Except.ok { g with m_grid := grid1 }

/-- The steps `dx[] = {0, 1, 0, -1}`, `dy[] = {-1, 0, 1, 0}` of `ensurePath` and
`placeDestructibleWalls`, as pairs `(dx, dy)`. -/
def steps4 : List (Int × Int) := [(0, -1), (1, 0), (0, 1), (-1, 0)]

/-- The `for (i < 4)` loop of the search of `ensurePath` for the cell `(x, y)`. -/
def bfsExpand (g : MazeGenerator) (x y : Int) (queue : List (Int × Int)) (visited : List (List Bool)) :
    List (Int × Int) × List (List Bool) :=
  steps4.foldl
    (fun (qv : List (Int × Int) × List (List Bool)) (d : Int × Int) =>
      let nx := x + d.1
      let ny := y + d.2
      if nx > 0 ∧ nx < g.m_width - 1 ∧ ny > 0 ∧ ny < g.m_height - 1 ∧ visitedAt qv.2 ny nx = false then
        if cellAt g.m_grid ny nx ≠ '#' then
          (qv.1 ++ [(nx, ny)], set2 qv.2 ny.toNat nx.toNat true)
        else qv
      else qv)
    (queue, visited)

/-- The `while (!queue.empty())` loop of `ensurePath`: `true` when the end cell is taken from the
queue, `false` when the queue empties. -/
def bfsLoop (g : MazeGenerator) (endX endY : Int) :
    Nat → List (Int × Int) → List (List Bool) → Except GenError Bool
  | 0, _, _ => Except.error GenError.outOfFuel
  | _ + 1, [], _ => Except.ok false
  | fuel + 1, (x, y) :: queue, visited =>
    if x = endX ∧ y = endY then Except.ok true
    else
      let qv := bfsExpand g x y queue visited
      bfsLoop g endX endY fuel qv.1 qv.2

/-- The `while (x != endX || y != endY)` loop of `ensurePath`, which opens a staircase path. -/
def carvePathLoop (endX endY : Int) :
    Nat → Int → Int → List (List Char) → Rng → Except GenError (List (List Char) × Rng)
  | 0, x, y, grid, rng =>
    if x ≠ endX ∨ y ≠ endY then Except.error GenError.outOfFuel else Except.ok (grid, rng)
  | fuel + 1, x, y, grid, rng =>
    if x ≠ endX ∨ y ≠ endY then
      let d := rng.next
      let moveX : Bool := d.1 % 2 = 0
      let xy : Int × Int :=
        if moveX = true ∧ x ≠ endX then (x + (if endX > x then 1 else -1), y)
        else if y ≠ endY then (x, y + (if endY > y then 1 else -1))
        else if x ≠ endX then (x + (if endX > x then 1 else -1), y)
        else (x, y)
      match gridGet grid xy.2 xy.1 with
      | Except.error e => Except.error e
      | Except.ok c =>
        if c = '#' then
          match gridSet grid xy.2 xy.1 '.' with
          | Except.error e => Except.error e
          | Except.ok grid1 => carvePathLoop endX endY fuel xy.1 xy.2 grid1 d.2
        else carvePathLoop endX endY fuel xy.1 xy.2 grid d.2
    else Except.ok (grid, rng)

/-- The function `ensurePath(startX, startY, endX, endY)`. -/
def ensurePath (g : MazeGenerator) (startX startY endX endY : Int) : Except GenError MazeGenerator :=
  let visited : List (List Bool) :=
    List.replicate g.m_height.toNat (List.replicate g.m_width.toNat false)
  match visitedSet visited startY startX with
  | Except.error e => Except.error e
  | Except.ok visited =>
    match bfsLoop g endX endY (g.m_width.toNat * g.m_height.toNat + 2) [(startX, startY)] visited with
    | Except.error e => Except.error e
    | Except.ok true => Except.ok g
    | Except.ok false =>
      match carvePathLoop endX endY (|endX - startX| + |endY - startY|).toNat startX startY
          g.m_grid g.m_rng with
      | Except.error e => Except.error e
      | Except.ok gr => Except.ok { g with m_grid := gr.1, m_rng := gr.2 }

/-- The loop of `placeEnemies` that writes the markers, and of the attribute loops of
`placeDestructibleWalls`: `m_grid[y][x] = c` for each listed cell. -/
def markCells (c : Char) : List (Int × Int) → List (List Char) → Except GenError (List (List Char))
  | [], grid => Except.ok grid
  | p :: ps, grid =>
    match gridSet grid p.2 p.1 c with
    | Except.error e => Except.error e
    | Except.ok grid1 => markCells c ps grid1

/-- The function `placeEnemies()`. -/
def placeEnemies (g : MazeGenerator) : Except GenError MazeGenerator :=
  let minDistFromStart : Int := 5
  let emptySpaces := (interior g.m_width g.m_height).filter fun p =>
    cellAt g.m_grid p.2 p.1 = '.' ∧
      |p.1 - g.m_startX| + |p.2 - g.m_startY| > minDistFromStart ∧
      |p.1 - g.m_endX| + |p.2 - g.m_endY| > 3
  let sh := shuffleList emptySpaces g.m_rng
  match markCells 'X' (sh.1.take g.m_enemyCount.toNat) g.m_grid with
  | Except.error e => Except.error e
  | Except.ok grid1 => Except.ok { g with m_grid := grid1, m_rng := sh.2 }

/-- The test `hasAdjacentPath` of `placeDestructibleWalls`. -/
def hasAdjacentPath (g : MazeGenerator) (x y : Int) : Bool :=
  steps4.any fun d =>
    let nx := x + d.1
    let ny := y + d.2
    decide (nx ≥ 0 ∧ nx < g.m_width ∧ ny ≥ 0 ∧ ny < g.m_height) &&
      (decide (cellAt g.m_grid ny nx = '.') || decide (cellAt g.m_grid ny nx = 'S') ||
        decide (cellAt g.m_grid ny nx = 'E'))

/-- The first loop of `placeDestructibleWalls`: the solid interior cells next to a passage, each
kept when its roll `(m_rng() % 1000) / 1000` is below the ratio. -/
def destructibleCandidates (g : MazeGenerator) :
    List (Int × Int) → Rng → List (Int × Int) × Rng
  | [], rng => ([], rng)
  | p :: ps, rng =>
    if cellAt g.m_grid p.2 p.1 = '#' ∧ hasAdjacentPath g p.1 p.2 = true then
      let d := rng.next
      let rest := destructibleCandidates g ps d.2
      if ((d.1 % 1000 : Nat) : ℚ) / 1000 < g.m_destructibleRatio then (p :: rest.1, rest.2)
      else rest
    else destructibleCandidates g ps rng

/-- The attribute loops of `placeDestructibleWalls`: one roll per candidate, `'G'` below `gold`
per mille, `'H'` below `heal` per mille, `'*'` otherwise. -/
def assignAttributes (gold heal : Nat) :
    List (Int × Int) → List (List Char) → Rng → Except GenError (List (List Char) × Rng)
  | [], grid, rng => Except.ok (grid, rng)
  | p :: ps, grid, rng =>
    let d := rng.next
    let c : Char := if d.1 % 1000 < gold then 'G' else if d.1 % 1000 < heal then 'H' else '*'
    match gridSet grid p.2 p.1 c with
    | Except.error e => Except.error e
    | Except.ok grid1 => assignAttributes gold heal ps grid1 d.2

/-- The function `placeDestructibleWalls()`. -/
def placeDestructibleWalls (g : MazeGenerator) : Except GenError MazeGenerator :=
  let cand := destructibleCandidates g (interior g.m_width g.m_height) g.m_rng
  if g.m_multiplayerMode = false then
    if g.m_escapeMode = true then
      match assignAttributes 0 300 cand.1 g.m_grid cand.2 with
      | Except.error e => Except.error e
      | Except.ok gr => Except.ok { g with m_grid := gr.1, m_rng := gr.2 }
    else
      match markCells '*' cand.1 g.m_grid with
      | Except.error e => Except.error e
      | Except.ok grid1 => Except.ok { g with m_grid := grid1, m_rng := cand.2 }
  else if g.m_escapeMode = true then
    match assignAttributes 0 300 cand.1 g.m_grid cand.2 with
    | Except.error e => Except.error e
    | Except.ok gr => Except.ok { g with m_grid := gr.1, m_rng := gr.2 }
  else
    match assignAttributes 150 250 cand.1 g.m_grid cand.2 with
    | Except.error e => Except.error e
    | Except.ok gr => Except.ok { g with m_grid := gr.1, m_rng := gr.2 }

/-- The lambda `isEdgeArea` of `placeMultiplayerSpawns`. -/
def isEdgeArea (g : MazeGenerator) (x y : Int) : Bool :=
  let centerMarginX := Int.tdiv g.m_width 4
  let centerMarginY := Int.tdiv g.m_height 4
  decide (x < centerMarginX ∨ x ≥ g.m_width - centerMarginX ∨
    y < centerMarginY ∨ y ≥ g.m_height - centerMarginY)

/-- The test `m_grid[y][x] == '.' || m_grid[y][x] == 'S'`. -/
def isFree (g : MazeGenerator) (p : Int × Int) : Bool :=
  decide (cellAt g.m_grid p.2 p.1 = '.') || decide (cellAt g.m_grid p.2 p.1 = 'S')

/-- The index pairs `(i, j)`, `i < j`, both below 30, whose candidates lie at a Manhattan
distance within `[minSpawnDist, maxSpawnDist]`. -/
def validSpawnPairs (spawnCandidates : List (Int × Int)) (minSpawnDist maxSpawnDist : Int) :
    List (Nat × Nat) :=
  (List.range (min spawnCandidates.length 30)).flatMap fun i =>
    ((List.range (min spawnCandidates.length 30)).filter fun j => i + 1 ≤ j).filterMap fun j =>
      let a := spawnCandidates.getD i (0, 0)
      let b := spawnCandidates.getD j (0, 0)
      let dist := |a.1 - b.1| + |a.2 - b.2|
      if dist ≥ minSpawnDist ∧ dist ≤ maxSpawnDist then some (i, j) else none

/-- The entry `{x, y, minDist, distDiff}` of `endCandidates` for the cell `p`. -/
def endEntry (g : MazeGenerator) (p : Int × Int) : Int × Int × Int × Int :=
  let distToSpawn1 := |p.1 - g.m_spawn1X| + |p.2 - g.m_spawn1Y|
  let distToSpawn2 := |p.1 - g.m_spawn2X| + |p.2 - g.m_spawn2Y|
  (p.1, p.2, min distToSpawn1 distToSpawn2, |distToSpawn1 - distToSpawn2|)

/-- The fairness test `distDiff <= max(3, minDist / 3)`. -/
def isFair (e : Int × Int × Int × Int) : Bool :=
  decide (e.2.2.2 ≤ max 3 (Int.tdiv e.2.2.1 3))

/-- The spawn candidates of `placeMultiplayerSpawns` before the shuffle: the free cells of the
central region, of the wider region when these are fewer than 10, and all empty cells when fewer
than 2 remain. -/
def spawnCandidates (g : MazeGenerator) (emptySpaces : List (Int × Int)) : List (Int × Int) :=
  let centerMarginX := Int.tdiv g.m_width 4
  let centerMarginY := Int.tdiv g.m_height 4
  let centerMinX := centerMarginX
  let centerMaxX := g.m_width - centerMarginX
  let centerMinY := centerMarginY
  let centerMaxY := g.m_height - centerMarginY
  let spawnCandidates := emptySpaces.filter fun p =>
    isFree g p && decide (p.1 ≥ centerMinX ∧ p.1 < centerMaxX ∧ p.2 ≥ centerMinY ∧ p.2 < centerMaxY)
  let spawnCandidates :=
    if spawnCandidates.length < 10 then
      let smallMarginX := Int.tdiv g.m_width 6
      let smallMarginY := Int.tdiv g.m_height 6
      emptySpaces.filter fun p =>
        isFree g p && decide (p.1 ≥ smallMarginX ∧ p.1 < g.m_width - smallMarginX ∧
          p.2 ≥ smallMarginY ∧ p.2 < g.m_height - smallMarginY)
    else spawnCandidates
  if spawnCandidates.length < 2 then emptySpaces else spawnCandidates

/-- The part of `placeMultiplayerSpawns` that shuffles the candidates and chooses the two
spawns. -/
def chooseSpawns (g : MazeGenerator) (emptySpaces : List (Int × Int)) : Except GenError MazeGenerator :=
  let sh := shuffleList (spawnCandidates g emptySpaces) g.m_rng
  let spawnCandidates := sh.1
  let minSpawnDist := max 6 (Int.tdiv (min g.m_width g.m_height) 4)
  let maxSpawnDist := max 15 (Int.tdiv (min g.m_width g.m_height) 2)
  let pairs := validSpawnPairs spawnCandidates minSpawnDist maxSpawnDist
  if pairs ≠ [] then
    let d := sh.2.next
    let pairIdx := d.1 % pairs.length
    match vecGet pairs pairIdx with
    | Except.error e => Except.error e
    | Except.ok ij =>
      match vecGet spawnCandidates ij.1 with
      | Except.error e => Except.error e
      | Except.ok a =>
        match vecGet spawnCandidates ij.2 with
        | Except.error e => Except.error e
        | Except.ok b =>
          Except.ok { g with m_rng := d.2, m_spawn1X := a.1, m_spawn1Y := a.2,
                             m_spawn2X := b.1, m_spawn2Y := b.2 }
  else if spawnCandidates.length ≥ 2 then
    match vecGet spawnCandidates 0 with
    | Except.error e => Except.error e
    | Except.ok a =>
      match vecGet spawnCandidates 1 with
      | Except.error e => Except.error e
      | Except.ok b =>
        Except.ok { g with m_rng := sh.2, m_spawn1X := a.1, m_spawn1Y := a.2,
                           m_spawn2X := b.1, m_spawn2Y := b.2 }
  else
    Except.ok { g with m_rng := sh.2,
                       m_spawn1X := Int.tdiv g.m_width 2 - 2, m_spawn1Y := Int.tdiv g.m_height 2,
                       m_spawn2X := Int.tdiv g.m_width 2 + 2, m_spawn2Y := Int.tdiv g.m_height 2 }

/-- The sorted vector `endCandidates` of `placeMultiplayerSpawns`. -/
def endCandidates (g : MazeGenerator) (emptySpaces : List (Int × Int)) : List (Int × Int × Int × Int) :=
  let endCandidates : List (Int × Int × Int × Int) :=
    ((emptySpaces.filter fun p => isFree g p && isEdgeArea g p.1 p.2).map (endEntry g)).filter isFair
  let endCandidates :=
    if endCandidates.length < 5 then
      endCandidates ++
        ((emptySpaces.filter fun p => isFree g p && !(isEdgeArea g p.1 p.2)).map (endEntry g)).filter
          fun e => decide (e.2.2.1 > Int.tdiv (min g.m_width g.m_height) 3) && isFair e
    else endCandidates
  sortDescending (fun e => e.2.2.1) endCandidates

/-- The part of `placeMultiplayerSpawns` that chooses the exit. -/
def chooseEnd (g : MazeGenerator) (emptySpaces : List (Int × Int)) : Except GenError MazeGenerator :=
  let endCandidates := endCandidates g emptySpaces
  if endCandidates ≠ [] then
    let topCount : Nat := max 1 (endCandidates.length * 3 / 10)
    let d := g.m_rng.next
    let selectedIdx := d.1 % topCount
    match vecGet endCandidates selectedIdx with
    | Except.error e => Except.error e
    | Except.ok sel => Except.ok { g with m_rng := d.2, m_endX := sel.1, m_endY := sel.2.1 }
  else Except.ok { g with m_endX := g.m_width - 2, m_endY := g.m_height - 2 }

/-- The guarded write of a spawn marker at the end of `placeMultiplayerSpawns`. -/
def markSpawn (g : MazeGenerator) (grid : List (List Char)) (x y : Int) (c : Char) :
    Except GenError (List (List Char)) :=
  if y ≥ 0 ∧ y < g.m_height ∧ x ≥ 0 ∧ x < g.m_width then
    if cellAt grid y x = '.' ∨ cellAt grid y x = 'S' then gridSet grid y x c
    else Except.ok grid
  else Except.ok grid

/-- The function `placeMultiplayerSpawns()`. -/
def placeMultiplayerSpawns (g : MazeGenerator) : Except GenError MazeGenerator :=
  let emptySpaces := getEmptySpaces g
  if emptySpaces.length < 3 then
    let g := { g with m_spawn1X := Int.tdiv g.m_width 2 - 2, m_spawn1Y := Int.tdiv g.m_height 2,
                      m_spawn2X := Int.tdiv g.m_width 2 + 2, m_spawn2Y := Int.tdiv g.m_height 2,
                      m_endX := g.m_width - 2, m_endY := g.m_height - 2 }
    match gridSet g.m_grid g.m_spawn1Y g.m_spawn1X '1' with
    | Except.error e => Except.error e
    | Except.ok grid0 =>
      match gridSet grid0 g.m_spawn2Y g.m_spawn2X '2' with
      | Except.error e => Except.error e
      | Except.ok grid1 =>
        match gridSet grid1 g.m_endY g.m_endX 'E' with
        | Except.error e => Except.error e
        | Except.ok grid2 => Except.ok { g with m_grid := grid2 }
  else
    match chooseSpawns g emptySpaces with
    | Except.error e => Except.error e
    | Except.ok g =>
      match chooseEnd g emptySpaces with
      | Except.error e => Except.error e
      | Except.ok g =>
        match gridSet g.m_grid g.m_endY g.m_endX 'E' with
        | Except.error e => Except.error e
        | Except.ok grid0 =>
          match markSpawn g grid0 g.m_spawn1X g.m_spawn1Y '1' with
          | Except.error e => Except.error e
          | Except.ok grid1 =>
            match markSpawn g grid1 g.m_spawn2X g.m_spawn2Y '2' with
            | Except.error e => Except.error e
            | Except.ok grid2 => Except.ok { g with m_grid := grid2 }

/-- The placement branch of `generate()`: spawns or start and end, followed by `ensurePath`. -/
def placeAndConnect (g : MazeGenerator) : Except GenError MazeGenerator :=
  if g.m_multiplayerMode = true then
    match placeMultiplayerSpawns g with
    | Except.error e => Except.error e
    | Except.ok g1 =>
      match ensurePath g1 g1.m_spawn1X g1.m_spawn1Y g1.m_endX g1.m_endY with
      | Except.error e => Except.error e
      | Except.ok g2 => ensurePath g2 g2.m_spawn2X g2.m_spawn2Y g2.m_endX g2.m_endY
  else
    match placeStartAndEnd g with
    | Except.error e => Except.error e
    | Except.ok g1 => ensurePath g1 g1.m_startX g1.m_startY g1.m_endX g1.m_endY

/-- The function `generate()`. `mt19937 seed` is the output sequence of the engine seeded with
`seed`, and `now` the value of `std::time(nullptr)`. Returns the rows and the generator object
after the call. -/
def generate (mt19937 : Nat → Nat → Nat) (now : Nat) (g : MazeGenerator) :
    Except GenError (List String × MazeGenerator) :=
  let rng : Rng := if g.m_seedSet = true then ⟨mt19937 g.m_seed, 0⟩ else ⟨mt19937 (now % 4294967296), 0⟩
  let g := { g with m_rng := rng,
                    m_grid := List.replicate g.m_height.toNat (List.replicate g.m_width.toNat '#') }
  match carvePassage (g.m_width.toNat * g.m_height.toNat) 1 1 g with
  | Except.error e => Except.error e
  | Except.ok g1 =>
    match placeAndConnect g1 with
    | Except.error e => Except.error e
    | Except.ok g2 =>
      match placeEnemies g2 with
      | Except.error e => Except.error e
      | Except.ok g3 =>
        match placeDestructibleWalls g3 with
        | Except.error e => Except.error e
        | Except.ok g4 => Except.ok (g4.m_grid.map String.mk, g4)

end MazeGenerator

end TankMaze


namespace TankMaze

/-! ## Specification vocabulary for the generator -/

/-- A vector of `h` vectors of `w` entries each. -/
def GridWF {α : Type} (w h : Int) (m : List (List α)) : Prop :=
  (m.length : Int) = h ∧ ∀ row ∈ m, (row.length : Int) = w

/-- Number of entries equal to `a`. -/
def count2 {α : Type} [DecidableEq α] (a : α) (m : List (List α)) : Nat :=
  (m.map (List.count a)).sum

/-- The character at row `y`, column `x` of the rows returned by `generate`, `'#'` outside. -/
def rowsCell (rows : List String) (y x : Int) : Char :=
  cellAt (rows.map String.toList) y x

/-- A cell of the returned rows that is none of `'#'`, `'*'`, `'G'`, `'H'`: it decodes to an
Empty or Exit cell. -/
def openCell (rows : List String) (c : GridPos) : Prop :=
  rowsCell rows c.y c.x ≠ '#' ∧ rowsCell rows c.y c.x ≠ '*' ∧
    rowsCell rows c.y c.x ≠ 'G' ∧ rowsCell rows c.y c.x ≠ 'H'

/-- A cell of the working grid that is not `'#'`. -/
def passage (grid : List (List Char)) (c : GridPos) : Prop :=
  cellAt grid c.y c.x ≠ '#'

/-- The grid `grid2` keeps every non-wall cell of `grid1` and opens walls into `'.'` only. -/
def GridExtends (grid1 grid2 : List (List Char)) : Prop :=
  ∀ y x, cellAt grid2 y x = cellAt grid1 y x ∨ (cellAt grid1 y x = '#' ∧ cellAt grid2 y x = '.')

/-- The cell `(x, y)` lies strictly inside the border. -/
def isInterior (g : MazeGenerator) (x y : Int) : Prop :=
  0 < x ∧ x < g.m_width - 1 ∧ 0 < y ∧ y < g.m_height - 1

/-- Every cell of the working grid is `'#'` or `'.'`. -/
def onlyWallsAndFloor (grid : List (List Char)) : Prop :=
  ∀ y x, cellAt grid y x = '#' ∨ cellAt grid y x = '.'

/-- What carving keeps and changes: the sizes are kept, the grid keeps its shape and its
alphabet, a floor cell stays a floor cell, and no field other than the grid and the engine
changes. -/
structure CarvePost (g g2 : MazeGenerator) : Prop where
  width_eq : g2.m_width = g.m_width
  height_eq : g2.m_height = g.m_height
  wf : GridWF g.m_width g.m_height g2.m_grid
  alphabet : onlyWallsAndFloor g2.m_grid
  floor_kept : ∀ y x, cellAt g.m_grid y x = '.' → cellAt g2.m_grid y x = '.'
  walls_le : count2 '#' g2.m_grid ≤ count2 '#' g.m_grid
  others : g2 = { g with m_grid := g2.m_grid, m_rng := g2.m_rng }

/-- Specification of `carvePassage` run with a given fuel. -/
def CarveSpec (fuel : Nat) : Prop :=
  ∀ (g : MazeGenerator) (cx cy : Int),
    GridWF g.m_width g.m_height g.m_grid → isInterior g cx cy → onlyWallsAndFloor g.m_grid →
    cellAt g.m_grid cy cx = '#' → count2 '#' g.m_grid ≤ fuel →
    ∃ g2, MazeGenerator.carvePassage fuel cx cy g = Except.ok g2 ∧ CarvePost g g2 ∧
      cellAt g2.m_grid cy cx = '.' ∧ count2 '#' g2.m_grid < count2 '#' g.m_grid

/-- The cell `b` is reached from `a` by 4-neighbour steps through non-wall cells of the grid. -/
def connected (grid : List (List Char)) (a b : GridPos) : Prop :=
  ∃ cells, Maze.isWalk (passage grid) a cells b

/-- Invariant of the search of `ensurePath`: the matrix `visited` has the shape of the grid and
every queued cell is connected to the start cell. -/
structure BfsInv (g : MazeGenerator) (s : GridPos) (queue : List (Int × Int))
    (visited : List (List Bool)) : Prop where
  wf : GridWF g.m_width g.m_height visited
  reach : ∀ p ∈ queue, connected g.m_grid s ⟨p.1, p.2⟩

/-- The cell `(x, y)` lies in the grid of the generator. -/
def inGrid (g : MazeGenerator) (x y : Int) : Prop :=
  0 ≤ y ∧ y < g.m_height ∧ 0 ≤ x ∧ x < g.m_width

/-- Every cell of `grid` is a wall, a floor or a position marker, and each marker sits at the
position that the generator `g` records for it in its mode. -/
def TagCells (g : MazeGenerator) (grid : List (List Char)) : Prop :=
  ∀ y x, cellAt grid y x = '#' ∨ cellAt grid y x = '.' ∨
    (cellAt grid y x = 'S' ∧ g.m_multiplayerMode = false ∧ x = g.m_startX ∧ y = g.m_startY) ∨
    (cellAt grid y x = 'E' ∧ x = g.m_endX ∧ y = g.m_endY) ∨
    (cellAt grid y x = '1' ∧ g.m_multiplayerMode = true ∧ x = g.m_spawn1X ∧ y = g.m_spawn1Y) ∨
    (cellAt grid y x = '2' ∧ g.m_multiplayerMode = true ∧ x = g.m_spawn2X ∧ y = g.m_spawn2Y)

/-- The character `c` is the marker that the generator `g` records at `(x, y)`. -/
def tagAt (g : MazeGenerator) (c : Char) (x y : Int) : Prop :=
  (c = 'S' ∧ g.m_multiplayerMode = false ∧ x = g.m_startX ∧ y = g.m_startY) ∨
  (c = 'E' ∧ x = g.m_endX ∧ y = g.m_endY) ∨
  (c = '1' ∧ g.m_multiplayerMode = true ∧ x = g.m_spawn1X ∧ y = g.m_spawn1Y) ∨
  (c = '2' ∧ g.m_multiplayerMode = true ∧ x = g.m_spawn2X ∧ y = g.m_spawn2Y)

/-- State of the generator after the placement: the grid has its shape, its cells are tagged as
recorded, and the recorded positions of the mode lie in the grid. -/
structure Tagged (g : MazeGenerator) : Prop where
  wf : GridWF g.m_width g.m_height g.m_grid
  cells : TagCells g g.m_grid
  endIn : inGrid g g.m_endX g.m_endY
  startIn : g.m_multiplayerMode = false → inGrid g g.m_startX g.m_startY
  spawnIn : g.m_multiplayerMode = true →
    inGrid g g.m_spawn1X g.m_spawn1Y ∧ inGrid g g.m_spawn2X g.m_spawn2Y

/-- State of the generator after `ensurePath`: the placement invariant, and the exit is connected
to the start, or to both spawns. -/
structure Linked (g : MazeGenerator) : Prop where
  tagged : Tagged g
  single : g.m_multiplayerMode = false →
    connected g.m_grid ⟨g.m_startX, g.m_startY⟩ ⟨g.m_endX, g.m_endY⟩
  dual : g.m_multiplayerMode = true →
    connected g.m_grid ⟨g.m_spawn1X, g.m_spawn1Y⟩ ⟨g.m_endX, g.m_endY⟩ ∧
    connected g.m_grid ⟨g.m_spawn2X, g.m_spawn2Y⟩ ⟨g.m_endX, g.m_endY⟩

/-- The grid `grid2` is `grid1` with some floor cells turned into enemy markers and some wall
cells turned into destructible walls. -/
def Decorated (grid1 grid2 : List (List Char)) : Prop :=
  ∀ y x, cellAt grid2 y x = cellAt grid1 y x ∨
    (cellAt grid1 y x = '.' ∧ cellAt grid2 y x = 'X') ∨
    (cellAt grid1 y x = '#' ∧
      (cellAt grid2 y x = '*' ∨ cellAt grid2 y x = 'G' ∨ cellAt grid2 y x = 'H'))

/-- The cell `c` of the returned rows carries a start or spawn marker. -/
def isSpawnMark (rows : List String) (c : GridPos) : Prop :=
  rowsCell rows c.y c.x = 'S' ∨ rowsCell rows c.y c.x = '1' ∨ rowsCell rows c.y c.x = '2'

end TankMaze


namespace TankMaze

namespace Maze

/-! ## Mutation of the grid (`bulletHit`, `bulletHitWithResult`, `applyWallDamage`) -/

/-- Assignment through the reference `Wall &wall = m_walls[row][col]`. -/
def setWall (m : Maze) (row col : Int) (w : Wall) : Maze :=
  { m with m_walls := set2 m.m_walls row.toNat col.toNat w }

/-- The function `bulletHit`: the returned flag and the maze after the call. -/
def bulletHit (m : Maze) (bulletPos : Vec2) (damage : ℚ) : Bool × Maze :=
  let c := truncToInt (bulletPos.x / m_tileSize)
  let r := truncToInt (bulletPos.y / m_tileSize)
  if r < 0 ∨ r ≥ (m.m_rows : Int) ∨ c < 0 ∨ c ≥ (m.m_cols : Int) then (false, m)
  else
    let wall := m.wallAt r c
    if wall.type = WallType.Solid then (true, m)
    else if wall.type = WallType.Destructible then
      let wall := { wall with health := wall.health - damage }
      if wall.health ≤ 0 then (true, m.setWall r c { wall with type := WallType.None })
      else (true, m.setWall r c wall)
    else (false, m)

/-- The function `bulletHitWithResult`: the result and the maze after the call. -/
def bulletHitWithResult (m : Maze) (bulletPos : Vec2) (damage : ℚ) : WallDestroyResult × Maze :=
  let result : WallDestroyResult := {}
  let c := truncToInt (bulletPos.x / m_tileSize)
  let r := truncToInt (bulletPos.y / m_tileSize)
  if r < 0 ∨ r ≥ (m.m_rows : Int) ∨ c < 0 ∨ c ≥ (m.m_cols : Int) then (result, m)
  else
    let wall := m.wallAt r c
    if wall.type = WallType.Solid then
      ({ destroyed := false, wallAttribute := WallAttribute.None,
         position := ⟨c * m_tileSize + m_tileSize / 2, r * m_tileSize + m_tileSize / 2⟩,
         gridX := c, gridY := r }, m)
    else if wall.type = WallType.Destructible then
      let wall := { wall with health := wall.health - damage }
      if wall.health ≤ 0 then
        ({ destroyed := true, wallAttribute := wall.wallAttribute,
           position := ⟨c * m_tileSize + m_tileSize / 2, r * m_tileSize + m_tileSize / 2⟩,
           gridX := c, gridY := r },
         m.setWall r c { wall with type := WallType.None })
      else
        ({ destroyed := false, wallAttribute := WallAttribute.None,
           position := ⟨c * m_tileSize + m_tileSize / 2, r * m_tileSize + m_tileSize / 2⟩,
           gridX := c, gridY := r },
         m.setWall r c wall)
    else (result, m)

/-- The function `applyWallDamage`: the result and the maze after the call. -/
def applyWallDamage (m : Maze) (row col : Int) (damage : ℚ) (forceDestroy : Bool) :
    WallDestroyResult × Maze :=
  let result : WallDestroyResult := {}
  if row < 0 ∨ row ≥ (m.m_rows : Int) ∨ col < 0 ∨ col ≥ (m.m_cols : Int) then (result, m)
  else
    let wall := m.wallAt row col
    if wall.type = WallType.Destructible then
      if forceDestroy = true then
        ({ destroyed := true, wallAttribute := wall.wallAttribute,
           position := ⟨col * m_tileSize + m_tileSize / 2, row * m_tileSize + m_tileSize / 2⟩,
           gridX := col, gridY := row },
         m.setWall row col { wall with type := WallType.None })
      else
        let wall := { wall with health := wall.health - damage }
        if wall.health ≤ 0 then
          ({ destroyed := true, wallAttribute := wall.wallAttribute,
             position := ⟨col * m_tileSize + m_tileSize / 2, row * m_tileSize + m_tileSize / 2⟩,
             gridX := col, gridY := row },
           m.setWall row col { wall with type := WallType.None })
        else
          ({ destroyed := false, wallAttribute := WallAttribute.None,
             position := ⟨col * m_tileSize + m_tileSize / 2, row * m_tileSize + m_tileSize / 2⟩,
             gridX := col, gridY := row },
           m.setWall row col wall)
    else (result, m)

/-! ## Corner classification (`isWall`, `calculateRoundedCorners`) -/

/-- The function `isWall`: out of bounds, Solid or Destructible. -/
def isWall (m : Maze) (row col : Int) : Bool :=
  if row < 0 ∨ row ≥ (m.m_rows : Int) ∨ col < 0 ∨ col ≥ (m.m_cols : Int) then true
  else decide (m.typeAt row col = WallType.Solid) || decide (m.typeAt row col = WallType.Destructible)

/-- The four flags computed in the loop body of `calculateRoundedCorners` for the cell
`(r, c)`: `{roundTopLeft, roundTopRight, roundBottomRight, roundBottomLeft}`. -/
def cornerFlags (m : Maze) (r c : Int) : Corners :=
  let hasTop := m.isWall (r - 1) c
  let hasBottom := m.isWall (r + 1) c
  let hasLeft := m.isWall r (c - 1)
  let hasRight := m.isWall r (c + 1)
  { topLeft := !hasTop && !hasLeft,
    topRight := !hasTop && !hasRight,
    bottomRight := !hasBottom && !hasRight,
    bottomLeft := !hasBottom && !hasLeft }

/-- The loop body of `calculateRoundedCorners` for the cell `(r, c)`. -/
def roundAt (m : Maze) (r c : Int) : Maze :=
  let wall := m.wallAt r c
  if wall.type ≠ WallType.Solid ∧ wall.type ≠ WallType.Destructible ∧ wall.type ≠ WallType.Exit then m
  else m.setWall r c { wall with roundedCorners := m.cornerFlags r c }

/-- The function `calculateRoundedCorners`: both loops, rows outside, columns inside. -/
def calculateRoundedCorners (m : Maze) : Maze :=
  (List.range m.m_rows).foldl
    (fun (m : Maze) (r : Nat) =>
      (List.range m.m_cols).foldl (fun (m : Maze) (c : Nat) => m.roundAt (r : Int) (c : Int)) m)
    m

/-! ## Placement of a wall (`canPlaceWall`, `placeWall`) -/

/-- The function `canPlaceWall`; `hypot` is `std::hypot`. -/
def canPlaceWall (hypot : ℚ → ℚ → ℚ) (m : Maze) (worldPos : Vec2) : Bool :=
  let c := truncToInt (worldPos.x / m_tileSize)
  let r := truncToInt (worldPos.y / m_tileSize)
  if r < 0 ∨ r ≥ (m.m_rows : Int) ∨ c < 0 ∨ c ≥ (m.m_cols : Int) then false
  else
    let wall := m.wallAt r c
    if wall.type ≠ WallType.None then false
    else
      let cellCenter : Vec2 := ⟨c * m_tileSize + m_tileSize / 2, r * m_tileSize + m_tileSize / 2⟩
      let distToStart := hypot (cellCenter.x - m.m_startPosition.x) (cellCenter.y - m.m_startPosition.y)
      if distToStart < m_tileSize then false
      else
        let distToExit := hypot (cellCenter.x - m.m_exitPosition.x) (cellCenter.y - m.m_exitPosition.y)
        if distToExit < m_tileSize then false
        else true

/-- The function `placeWall`: the returned flag and the maze after the call. -/
def placeWall (hypot : ℚ → ℚ → ℚ) (m : Maze) (worldPos : Vec2) : Bool × Maze :=
  if !(canPlaceWall hypot m worldPos) then (false, m)
  else
    let c := truncToInt (worldPos.x / m_tileSize)
    let r := truncToInt (worldPos.y / m_tileSize)
    let wall := m.wallAt r c
    let wall := { wall with type := WallType.Destructible, wallAttribute := WallAttribute.None,
                            health := 100, maxHealth := 100 }
    (true, (m.setWall r c wall).calculateRoundedCorners)

/-! ## Decoding of the text (`loadFromString`, `getMazeData`) -/

/-- The centre `{x + m_tileSize / 2.f, y + m_tileSize / 2.f}` of the cell in row `r`, column `c`,
with `x = c * m_tileSize`, `y = r * m_tileSize`. -/
def cellCentre (r c : Nat) : Vec2 :=
  ⟨(c : ℚ) * m_tileSize + m_tileSize / 2, (r : ℚ) * m_tileSize + m_tileSize / 2⟩

/-- The `switch (ch)` of `loadFromString` for the character `ch` of row `r`, column `c`. -/
def loadCell (m : Maze) (r c : Nat) (ch : Char) : Maze :=
  let wall := m.wallAt r c
  if ch = '#' then m.setWall r c { wall with type := WallType.Solid }
  else if ch = '*' then
    m.setWall r c { wall with type := WallType.Destructible, wallAttribute := WallAttribute.None,
                              health := 100, maxHealth := 100 }
  else if ch = 'G' then
    m.setWall r c { wall with type := WallType.Destructible, wallAttribute := WallAttribute.Gold,
                              health := 100, maxHealth := 100 }
  else if ch = 'H' then
    m.setWall r c { wall with type := WallType.Destructible, wallAttribute := WallAttribute.Heal,
                              health := 100, maxHealth := 100 }
  else if ch = 'S' then
    { m.setWall r c { wall with type := WallType.None } with m_startPosition := cellCentre r c }
  else if ch = 'E' then
    { m.setWall r c { wall with type := WallType.Exit } with m_exitPosition := cellCentre r c }
  else if ch = 'X' then
    { m.setWall r c { wall with type := WallType.None } with
      m_enemySpawnPoints := m.m_enemySpawnPoints ++ [cellCentre r c] }
  else if ch = '1' then
    { m.setWall r c { wall with type := WallType.None } with m_spawn1Position := cellCentre r c }
  else if ch = '2' then
    { m.setWall r c { wall with type := WallType.None } with m_spawn2Position := cellCentre r c }
  else m.setWall r c { wall with type := WallType.None }

/-- The inner loop of `loadFromString` over the characters of row `r`, from column `c` on. -/
def loadRow (r : Nat) : Nat → List Char → Maze → Maze
  | _, [], m => m
  | c, ch :: rest, m => loadRow r (c + 1) rest (m.loadCell r c ch)

/-- The outer loop of `loadFromString` over the rows, from row `r` on. -/
def loadRows : Nat → List String → Maze → Maze
  | _, [], m => m
  | r, row :: rest, m => loadRows (r + 1) rest (loadRow r 0 row.toList m)

/-- The function `loadFromString`. -/
def loadFromString (m : Maze) (map : List String) : Maze :=
  if map = [] then m
  else
    let rows := map.length
    let cols := map.foldl (fun (k : Nat) (row : String) => max k row.length) 0
    let m : Maze :=
      { m with m_mazeData := map, m_rows := rows, m_cols := cols,
               m_walls := List.replicate rows (List.replicate cols ({} : Wall)),
               m_enemySpawnPoints := [],
               m_spawn1Position := ⟨0, 0⟩, m_spawn2Position := ⟨0, 0⟩ }
    (loadRows 0 map m).calculateRoundedCorners

/-- The function `getMazeData`. -/
def getMazeData (m : Maze) : List String := m.m_mazeData

end Maze

end TankMaze


namespace TankMaze

namespace Maze

/-! ## Specification vocabulary for the mutable grid -/

/-- The world point `p` lies in the cell of row `r`, column `c`. -/
def inCell (p : Vec2) (r c : Int) : Prop :=
  (c : ℚ) * m_tileSize ≤ p.x ∧ p.x < ((c : ℚ) + 1) * m_tileSize ∧
    (r : ℚ) * m_tileSize ≤ p.y ∧ p.y < ((r : ℚ) + 1) * m_tileSize

/-- The matrix `m_walls` has `m_rows` rows of `m_cols` cells. -/
def MazeWF (m : Maze) : Prop :=
  GridWF (m.m_cols : Int) (m.m_rows : Int) m.m_walls

/-- A neighbour that counts as an obstacle for the corners: out of bounds, Solid or
Destructible. -/
def obstacleAt (m : Maze) (r c : Int) : Prop :=
  m.inBounds r c = false ∨ m.typeAt r c = WallType.Solid ∨ m.typeAt r c = WallType.Destructible

/-- A cell whose corners are classified: Solid, Destructible or Exit. -/
def obstacleCell (m : Maze) (r c : Int) : Prop :=
  m.typeAt r c = WallType.Solid ∨ m.typeAt r c = WallType.Destructible ∨
    m.typeAt r c = WallType.Exit

/-- The corner rule at the cell `(r, c)`: a corner is rounded exactly when the two orthogonal
neighbours that share it are both not obstacles. North is the row `r - 1`, west the column
`c - 1`. -/
structure Classified (m : Maze) (r c : Int) : Prop where
  topLeft : (m.wallAt r c).roundedCorners.topLeft = true ↔
    (¬ m.obstacleAt (r - 1) c ∧ ¬ m.obstacleAt r (c - 1))
  topRight : (m.wallAt r c).roundedCorners.topRight = true ↔
    (¬ m.obstacleAt (r - 1) c ∧ ¬ m.obstacleAt r (c + 1))
  bottomRight : (m.wallAt r c).roundedCorners.bottomRight = true ↔
    (¬ m.obstacleAt (r + 1) c ∧ ¬ m.obstacleAt r (c + 1))
  bottomLeft : (m.wallAt r c).roundedCorners.bottomLeft = true ↔
    (¬ m.obstacleAt (r + 1) c ∧ ¬ m.obstacleAt r (c - 1))

/-- Number of rounded corners. -/
def roundedCount (k : Corners) : Nat :=
  (if k.topLeft then 1 else 0) + (if k.topRight then 1 else 0) +
    (if k.bottomRight then 1 else 0) + (if k.bottomLeft then 1 else 0)

/-- The maze `m2` is `m` with other corner flags: same sizes, positions and text, and in every
cell the same kind, attribute and health. -/
structure SameCells (m m2 : Maze) : Prop where
  rows_eq : m2.m_rows = m.m_rows
  cols_eq : m2.m_cols = m.m_cols
  cells : ∀ r c, m2.wallAt r c = { m.wallAt r c with roundedCorners := (m2.wallAt r c).roundedCorners }
  others : m2 = { m with m_walls := m2.m_walls }

/-- The states of a maze object: the constructed object, and what the public mutating calls
make of a state. -/
inductive Reachable (hypot : ℚ → ℚ → ℚ) : Maze → Prop
  | init : Reachable hypot {}
  | load (m : Maze) (map : List String) : Reachable hypot m → Reachable hypot (m.loadFromString map)
  | hit (m : Maze) (p : Vec2) (d : ℚ) : Reachable hypot m → Reachable hypot (m.bulletHit p d).2
  | hitWithResult (m : Maze) (p : Vec2) (d : ℚ) :
      Reachable hypot m → Reachable hypot (m.bulletHitWithResult p d).2
  | damage (m : Maze) (row col : Int) (d : ℚ) (forceDestroy : Bool) :
      Reachable hypot m → Reachable hypot (m.applyWallDamage row col d forceDestroy).2
  | place (m : Maze) (p : Vec2) : Reachable hypot m → Reachable hypot (m.placeWall hypot p).2

/-- The cell invariant as the specification words it: an attribute other than None only on a
Destructible cell, and health at most zero only on an Empty cell. -/
def statedCellInvariant (w : Wall) : Prop :=
  (w.wallAttribute ≠ WallAttribute.None → w.type = WallType.Destructible) ∧
    (w.health ≤ 0 → w.type = WallType.None)

/-- The cell invariant that the operations keep: an attribute other than None only on a cell
that is Destructible or was destroyed (Empty), and health at most zero never on a Destructible
cell. -/
def cellInvariant (w : Wall) : Prop :=
  (w.wallAttribute ≠ WallAttribute.None →
    w.type = WallType.Destructible ∨ w.type = WallType.None) ∧
    (w.health ≤ 0 → w.type ≠ WallType.Destructible)

/-- Invariant of the loops of `calculateRoundedCorners`, started on `m`: the current maze `m2`
differs from `m` in corner flags only, and the obstacle cells processed so far (the set `S`)
carry the flags of the rule. -/
structure RoundInv (m m2 : Maze) (S : Nat → Nat → Prop) : Prop where
  same : SameCells m m2
  done : ∀ r c : Nat, S r c → m.obstacleCell r c →
    (m2.wallAt r c).roundedCorners = m.cornerFlags r c

/-- What the decoding loops keep: the text, the sizes and the shape of the matrix. -/
structure LoadKeeps (m m2 : Maze) : Prop where
  data : m2.m_mazeData = m.m_mazeData
  rows : m2.m_rows = m.m_rows
  cols : m2.m_cols = m.m_cols
  wf : MazeWF m → MazeWF m2

/-- Every cell of the matrix satisfies the cell invariant that the operations keep. -/
def cellsKeep (m : Maze) : Prop :=
  ∀ i j : Nat, cellInvariant (get2 default m.m_walls i j)

/-- Invariant of the decoding loops of `loadFromString` before the character of row `r`, column
`c`: every cell satisfies the cell invariant, and the cells not yet visited are as `Wall()`
makes them. -/
structure LoadInv (m : Maze) (r c : Nat) : Prop where
  good : cellsKeep m
  fresh : ∀ i j : Nat, (r < i ∨ (i = r ∧ c ≤ j)) → get2 default m.m_walls i j = default

/-! ### Example mazes -/

/-- The one-cell maze `#`. -/
def solidOnly : Maze := ({} : Maze).loadFromString ["#"]

/-- The one-cell maze `G`. -/
def goldOnly : Maze := ({} : Maze).loadFromString ["G"]

/-- A horizontal run of three Solid cells in the open. -/
def wallRow3 : Maze := ({} : Maze).loadFromString [".....", ".###.", "....."]

/-- A Destructible cell west of a Solid cell, in the open. -/
def besideWall : Maze := ({} : Maze).loadFromString ["....", ".*#.", "...."]

/-- A single Solid cell in the open. -/
def loneWall : Maze := ({} : Maze).loadFromString ["...", ".#.", "..."]

end Maze

end TankMaze


namespace TankMaze

/-! ## Specification vocabulary for the configuration of the generator -/

/-- The two generator objects carry the same configuration: sizes, seed, enemy count, ratio and
mode flags. -/
structure SameConfig (g1 g2 : MazeGenerator) : Prop where
  width : g2.m_width = g1.m_width
  height : g2.m_height = g1.m_height
  seed : g2.m_seed = g1.m_seed
  seedSet : g2.m_seedSet = g1.m_seedSet
  enemyCount : g2.m_enemyCount = g1.m_enemyCount
  ratio : g2.m_destructibleRatio = g1.m_destructibleRatio
  multiplayer : g2.m_multiplayerMode = g1.m_multiplayerMode
  escape : g2.m_escapeMode = g1.m_escapeMode

/-- The start position left over in the two objects is the same. -/
def SameStart (g1 g2 : MazeGenerator) : Prop :=
  g2.m_startX = g1.m_startX ∧ g2.m_startY = g1.m_startY

/-- The object `g` with the eight position fields of `q`. -/
def withPos (g q : MazeGenerator) : MazeGenerator :=
  { g with m_startX := q.m_startX, m_startY := q.m_startY, m_endX := q.m_endX, m_endY := q.m_endY,
           m_spawn1X := q.m_spawn1X, m_spawn1Y := q.m_spawn1Y,
           m_spawn2X := q.m_spawn2X, m_spawn2Y := q.m_spawn2Y }

/-- The object `g` with the spawn fields of `q`. -/
def withSpawns (g q : MazeGenerator) : MazeGenerator :=
  { g with m_spawn1X := q.m_spawn1X, m_spawn1Y := q.m_spawn1Y,
           m_spawn2X := q.m_spawn2X, m_spawn2Y := q.m_spawn2Y }

/-- The object `g` with the exit and spawn fields of `q`. -/
def withEndSpawns (g q : MazeGenerator) : MazeGenerator :=
  { g with m_endX := q.m_endX, m_endY := q.m_endY,
           m_spawn1X := q.m_spawn1X, m_spawn1Y := q.m_spawn1Y,
           m_spawn2X := q.m_spawn2X, m_spawn2Y := q.m_spawn2Y }

/-- The object `r` is `g` with another grid and engine state. -/
def OnlyGrid (g r : MazeGenerator) : Prop :=
  ∃ grid rng, r = { g with m_grid := grid, m_rng := rng }

/-- The object `r` is `g` with another grid, engine state, start and exit. -/
def PlacedSingle (g r : MazeGenerator) : Prop :=
  ∃ grid rng sx sy ex ey,
    r = { g with m_grid := grid, m_rng := rng, m_startX := sx, m_startY := sy,
                 m_endX := ex, m_endY := ey }

/-- The object `r` is `g` with another grid, engine state, exit and spawns. -/
def PlacedDual (g r : MazeGenerator) : Prop :=
  ∃ grid rng ex ey ax ay bx b_y,
    r = { g with m_grid := grid, m_rng := rng, m_endX := ex, m_endY := ey,
                 m_spawn1X := ax, m_spawn1Y := ay, m_spawn2X := bx, m_spawn2Y := b_y }

/-- What one run of `generate` keeps of the object: the configuration, the start position in
dual-spawn mode, and the spawn positions in single-spawn mode. -/
structure RunKeeps (g r : MazeGenerator) : Prop where
  config : SameConfig g r
  start : g.m_multiplayerMode = true → SameStart g r
  spawns : g.m_multiplayerMode = false → r = withSpawns r g

/-- The rows of a result of `generate`. -/
def rowsOf (r : Except GenError (List String × MazeGenerator)) : Except GenError (List String) :=
  match r with
  | Except.ok p => Except.ok p.1
  | Except.error e => Except.error e

/-- The object `g` with the exit fields of `q`. -/
def withEnd (g q : MazeGenerator) : MazeGenerator :=
  { g with m_endX := q.m_endX, m_endY := q.m_endY }

/-- The object of a result with the spawn fields of `q`. -/
def resultWithSpawns (q : MazeGenerator) (p : List String × MazeGenerator) :
    List String × MazeGenerator :=
  (p.1, withSpawns p.2 q)

namespace MazeGenerator

/-- The part of `generate()` that follows the call `carvePassage(1, 1)`. -/
def finishRun (g1 : MazeGenerator) : Except GenError (List String × MazeGenerator) :=
  match placeAndConnect g1 with
  | Except.error e => Except.error e
  | Except.ok g2 =>
    match placeEnemies g2 with
    | Except.error e => Except.error e
    | Except.ok g3 =>
      match placeDestructibleWalls g3 with
      | Except.error e => Except.error e
      | Except.ok g4 => Except.ok (g4.m_grid.map String.mk, g4)

/-- The object on which `generate()` calls `carvePassage(1, 1)`: engine seeded, grid filled with
walls. -/
def seeded (mt19937 : Nat → Nat → Nat) (now : Nat) (g : MazeGenerator) : MazeGenerator :=
  { g with m_rng := (if g.m_seedSet = true then ⟨mt19937 g.m_seed, 0⟩ else ⟨mt19937 (now % 4294967296), 0⟩),
           m_grid := List.replicate g.m_height.toNat (List.replicate g.m_width.toNat '#') }

end MazeGenerator

/-- A generator object made by the constructor and configured by every setter. -/
def configured (width height : Int) (seed : Nat) (enemyCount : Int) (ratio : ℚ)
    (dualSpawn escape : Bool) : MazeGenerator :=
  (((((MazeGenerator.new width height).setSeed seed).setEnemyCount enemyCount).setDestructibleRatio
    ratio).setMultiplayerMode dualSpawn).setEscapeMode escape

/-- An engine output stream for the examples: the outputs `seed, seed + 7, seed + 14, ...`. -/
def exampleEngine (seed i : Nat) : Nat := seed + 7 * i

/-- A generator object fresh from the constructor, configured for dual-spawn mode. -/
def freshDual : MazeGenerator := configured 9 7 5 2 0 true false

/-- A generator object configured like `freshDual` after one run in single-spawn mode: the call
sequence constructor, setters, `generate()`, `setMultiplayerMode(true)`. -/
def reusedDual : MazeGenerator :=
  match MazeGenerator.generate exampleEngine 0 (configured 9 7 5 2 0 false false) with
  | Except.ok p => p.2.setMultiplayerMode true
  | Except.error _ => configured 9 7 5 2 0 true false

end TankMaze


namespace TankMaze

namespace Maze

/-! ## Collision test (`checkCollision`) -/

/-- The states that a maze object reaches from the state `m0` through damage and placement
calls alone, with no call of `loadFromString`. -/
inductive MutatedFrom (hypot : ℚ → ℚ → ℚ) (m0 : Maze) : Maze → Prop
  | start : MutatedFrom hypot m0 m0
  | hit (m : Maze) (p : Vec2) (d : ℚ) :
      MutatedFrom hypot m0 m → MutatedFrom hypot m0 (m.bulletHit p d).2
  | hitWithResult (m : Maze) (p : Vec2) (d : ℚ) :
      MutatedFrom hypot m0 m → MutatedFrom hypot m0 (m.bulletHitWithResult p d).2
  | damage (m : Maze) (row col : Int) (d : ℚ) (forceDestroy : Bool) :
      MutatedFrom hypot m0 m → MutatedFrom hypot m0 (m.applyWallDamage row col d forceDestroy).2
  | place (m : Maze) (p : Vec2) :
      MutatedFrom hypot m0 m → MutatedFrom hypot m0 (m.placeWall hypot p).2

/-- The world point `p` lies outside the grid rectangle
`[0, cols * tileSize) x [0, rows * tileSize)`. -/
def outsideGrid (m : Maze) (p : Vec2) : Prop :=
  p.x < 0 ∨ (m.m_cols : ℚ) * m_tileSize ≤ p.x ∨ p.y < 0 ∨ (m.m_rows : ℚ) * m_tileSize ≤ p.y

/-- The world point `p` lies at least one tile outside the grid rectangle on the low sides, or
outside of it on the high sides: the points whose truncated cell coordinates fail the bounds
test. -/
def farOutsideGrid (m : Maze) (p : Vec2) : Prop :=
  p.x ≤ -m_tileSize ∨ (m.m_cols : ℚ) * m_tileSize ≤ p.x ∨
    p.y ≤ -m_tileSize ∨ (m.m_rows : ℚ) * m_tileSize ≤ p.y

/-- A stand-in for `std::hypot` in the examples: `|a| + |b|`, which is the exact value
whenever one argument is zero. -/
def axisHypot (a b : ℚ) : ℚ := |a| + |b|

/-- The one-cell maze `*`. -/
def brickOnly : Maze := ({} : Maze).loadFromString ["*"]

/-- The one-cell maze `.`. -/
def floorOnly : Maze := ({} : Maze).loadFromString ["."]

/-- A corridor with the start at its west end and the exit at its east end. -/
def corridorSE : Maze := ({} : Maze).loadFromString ["S...E"]

/-- A corridor whose two westmost cells are far from the start and from the exit. -/
def corridorFar : Maze := ({} : Maze).loadFromString ["..S.E"]

/-- A maze object that has decoded a single-spawn text before. -/
def usedMaze : Maze := ({} : Maze).loadFromString ["S.E"]

/-! ## Decoding, as the specification words it -/

/-- The character of the text at row `r`, column `c`, if there is one. -/
def charAt (map : List String) (r c : Nat) : Option Char :=
  (map.getD r "").toList.get? c

/-- The cell that a character decodes to: kind, attribute, health and maximal health. -/
def decodeChar (ch : Option Char) : Wall :=
  if ch = some '#' then { type := WallType.Solid }
  else if ch = some '*' then
    { type := WallType.Destructible, wallAttribute := WallAttribute.None,
      health := 100, maxHealth := 100 }
  else if ch = some 'G' then
    { type := WallType.Destructible, wallAttribute := WallAttribute.Gold,
      health := 100, maxHealth := 100 }
  else if ch = some 'H' then
    { type := WallType.Destructible, wallAttribute := WallAttribute.Heal,
      health := 100, maxHealth := 100 }
  else if ch = some 'E' then { type := WallType.Exit }
  else {}

/-- The centres of the cells of one row that carry the character `ch`, from column `c` on, in
reading order. -/
def rowCentres (ch : Char) (r : Nat) : Nat → List Char → List Vec2
  | _, [] => []
  | c, x :: rest =>
    if x = ch then cellCentre r c :: rowCentres ch r (c + 1) rest else rowCentres ch r (c + 1) rest

/-- The centres of the cells of the text that carry the character `ch`, from row `r` on, in
reading order. -/
def markerCentres (ch : Char) : Nat → List String → List Vec2
  | _, [] => []
  | r, row :: rest => rowCentres ch r 0 row.toList ++ markerCentres ch (r + 1) rest

/-- The last centre of a list, or `d` when the list is empty. -/
def lastOr (d : Vec2) (l : List Vec2) : Vec2 := l.getLast?.getD d

end Maze

end TankMaze


namespace TankMaze

/-! ## Specification vocabulary for the markers of a generated grid -/

/-- Number of cells of the rows that carry the character `ch`. -/
def countChar (ch : Char) (rows : List String) : Nat :=
  count2 ch (rows.map String.toList)

/-- The rows of a result of `generate` with the start and exit positions recorded in the
object. -/
def runSummary (r : Except GenError (List String × MazeGenerator)) :
    Option (List String × (Int × Int) × (Int × Int)) :=
  match r with
  | Except.ok p => some (p.1, (p.2.m_startX, p.2.m_startY), (p.2.m_endX, p.2.m_endY))
  | Except.error _ => none

/-- The rows of a result of `generate` with the two spawn positions and the exit position
recorded in the object. -/
def dualSummary (r : Except GenError (List String × MazeGenerator)) :
    Option (List String × (Int × Int) × (Int × Int) × (Int × Int)) :=
  match r with
  | Except.ok p =>
    some (p.1, (p.2.m_spawn1X, p.2.m_spawn1Y), (p.2.m_spawn2X, p.2.m_spawn2Y),
      (p.2.m_endX, p.2.m_endY))
  | Except.error _ => none

/-- The interior cells of the rows that were left Empty by the placement of start and exit
(they show `.` or `X`), whose Manhattan distance from the start cell is above `beyond` and whose
Manhattan distance from the exit cell is above 3. The set `C` of the specification is
`enemyCells rows width height start exit_ 4`. -/
def enemyCells (rows : List String) (width height : Int) (start exit_ : Int × Int)
    (beyond : Int) : List (Int × Int) :=
  (MazeGenerator.interior width height).filter fun p =>
    (rowsCell rows p.2 p.1 = '.' ∨ rowsCell rows p.2 p.1 = 'X') ∧
      |p.1 - start.1| + |p.2 - start.2| > beyond ∧ |p.1 - exit_.1| + |p.2 - exit_.2| > 3

/-- The Manhattan distance of two cells. -/
def manhattan (a b : Int × Int) : Int := |a.1 - b.1| + |a.2 - b.2|

/-- The exit `e` is fair to the spawns `a` and `b`, as the specification words it: the two
distances differ by no more than `max(3, min(d1, d2) / 3)`. -/
def fairExit (e a b : Int × Int) : Prop :=
  |manhattan e a - manhattan e b| ≤ max 3 (Int.tdiv (min (manhattan e a) (manhattan e b)) 3)

/-- The character that a roll `(m_rng() % 1000) / 1000` gives a selected wall in dual-spawn
mode without escape, as the specification words it. -/
def rolledChar (draw : Nat) : Char :=
  if ((draw % 1000 : Nat) : ℚ) / 1000 < 15 / 100 then 'G'
  else if ((draw % 1000 : Nat) : ℚ) / 1000 < 25 / 100 then 'H'
  else '*'

end TankMaze


namespace TankMaze

/-! ## Specification vocabulary for the placement of the exit in dual-spawn mode -/

/-- Every interior cell two columns or two rows away from `(x, y)` is a floor cell of `grid`. -/
def Branched (g : MazeGenerator) (grid : List (List Char)) (x y : Int) : Prop :=
  ∀ d : Nat, isInterior g (x + MazeGenerator.carveDx d) (y + MazeGenerator.carveDy d) →
    cellAt grid (y + MazeGenerator.carveDy d) (x + MazeGenerator.carveDx d) = '.'

/-- Every cell with odd coordinates that the carving from `g` to `g2` has opened has all its
interior neighbours on the odd lattice open in `g2`. -/
def CarveClosed (g g2 : MazeGenerator) : Prop :=
  ∀ x y, x % 2 = 1 → y % 2 = 1 → cellAt g.m_grid y x = '#' → cellAt g2.m_grid y x = '.' →
    Branched g g2.m_grid x y

/-- Completeness of `carvePassage` run with a given fuel from a cell with odd coordinates. -/
def CarveFull (fuel : Nat) : Prop :=
  ∀ (g : MazeGenerator) (cx cy : Int) (g2 : MazeGenerator),
    GridWF g.m_width g.m_height g.m_grid → isInterior g cx cy → onlyWallsAndFloor g.m_grid →
    cellAt g.m_grid cy cx = '#' → count2 '#' g.m_grid ≤ fuel → cx % 2 = 1 → cy % 2 = 1 →
    MazeGenerator.carvePassage fuel cx cy g = Except.ok g2 → CarveClosed g g2

/-- Completeness of `carvePassage` on a grid of height 3, run from a cell of the middle row with
all cells to its left open and all cells from it on closed: the whole middle row ends open. -/
def RowFull (fuel : Nat) : Prop :=
  ∀ (g : MazeGenerator) (cx : Int) (g2 : MazeGenerator),
    GridWF g.m_width g.m_height g.m_grid → g.m_height = 3 → g.m_width % 2 = 1 → cx % 2 = 1 →
    isInterior g cx 1 → onlyWallsAndFloor g.m_grid → count2 '#' g.m_grid ≤ fuel →
    (∀ x, cx ≤ x → cellAt g.m_grid 1 x = '#') →
    (∀ x, 1 ≤ x → x < cx → cellAt g.m_grid 1 x = '.') →
    MazeGenerator.carvePassage fuel cx 1 g = Except.ok g2 →
    ∀ x, 1 ≤ x → x < g.m_width - 1 → cellAt g2.m_grid 1 x = '.'

/-- Completeness of `carvePassage` on a grid of width 3, run from a cell of the middle column
with all cells above it open and all cells from it on closed: the whole middle column ends
open. -/
def ColumnFull (fuel : Nat) : Prop :=
  ∀ (g : MazeGenerator) (cy : Int) (g2 : MazeGenerator),
    GridWF g.m_width g.m_height g.m_grid → g.m_width = 3 → g.m_height % 2 = 1 → cy % 2 = 1 →
    isInterior g 1 cy → onlyWallsAndFloor g.m_grid → count2 '#' g.m_grid ≤ fuel →
    (∀ y, cy ≤ y → cellAt g.m_grid y 1 = '#') →
    (∀ y, 1 ≤ y → y < cy → cellAt g.m_grid y 1 = '.') →
    MazeGenerator.carvePassage fuel 1 cy g = Except.ok g2 →
    ∀ y, 1 ≤ y → y < g.m_height - 1 → cellAt g2.m_grid y 1 = '.'

namespace Maze

/-- The cells `w` and `v` have the same kind, attribute, health and maximal health. -/
def sameKind (w v : Wall) : Prop :=
  w.type = v.type ∧ w.wallAttribute = v.wallAttribute ∧ w.health = v.health ∧
    w.maxHealth = v.maxHealth

/-- What the decoding loops make of the positions of `m` on a stretch of text with the listed
marker centres: each single position is the last centre of its marker, or the value that it
had, and the centres of the enemy markers are appended to the list. -/
structure Decoded (m m2 : Maze) (starts exits enemies ones twos : List Vec2) : Prop where
  start : m2.m_startPosition = lastOr m.m_startPosition starts
  exitPos : m2.m_exitPosition = lastOr m.m_exitPosition exits
  enemyList : m2.m_enemySpawnPoints = m.m_enemySpawnPoints ++ enemies
  spawn1 : m2.m_spawn1Position = lastOr m.m_spawn1Position ones
  spawn2 : m2.m_spawn2Position = lastOr m.m_spawn2Position twos

end Maze

namespace MazeGenerator

/-- The cell `p` passes the tests that admit a free cell to `endCandidates`: the fairness test,
and either the edge test or the distance test of the second loop. -/
def exitCandidate (g : MazeGenerator) (p : Int × Int) : Bool :=
  isFair (endEntry g p) &&
    (isEdgeArea g p.1 p.2 || decide ((endEntry g p).2.2.1 > Int.tdiv (min g.m_width g.m_height) 3))

/-- The spawn candidates that `placeMultiplayerSpawns` examines in pairs: the first 30 of the
shuffled candidates, in their order after the shuffle. -/
def examinedSpawns (g : MazeGenerator) : List (Int × Int) :=
  (shuffleList (spawnCandidates g (getEmptySpaces g)) g.m_rng).1.take 30

/-- The distance `d` lies within the band `[max(6, min(w,h)/4), max(15, min(w,h)/2)]`, as the
specification words it. -/
def inBand (width height d : Int) : Prop :=
  max 6 (Int.tdiv (min width height) 4) ≤ d ∧ d ≤ max 15 (Int.tdiv (min width height) 2)

/-- The interior cells with odd coordinates. -/
def latticeCells (width height : Int) : List (Int × Int) :=
  (interior width height).filter fun p => decide (p.1 % 2 = 1 ∧ p.2 % 2 = 1)

/-- An object of the given size with the spawns `a` and `b`. -/
def withSpawnsAt (width height : Int) (a b : Int × Int) : MazeGenerator :=
  { m_width := width, m_height := height,
    m_spawn1X := a.1, m_spawn1Y := a.2, m_spawn2X := b.1, m_spawn2Y := b.2 }

/-- On a grid of the given size, for every two interior cells taken as spawns, the fallback exit
`(width - 2, height - 2)` is fair or one of the listed cells passes the tests of
`endCandidates`. -/
def exitServed (width height : Int) (cells : List (Int × Int)) : Bool :=
  (interior width height).all fun a => (interior width height).all fun b =>
    isFair (endEntry (withSpawnsAt width height a b) (width - 2, height - 2)) ||
      cells.any (exitCandidate (withSpawnsAt width height a b))

end MazeGenerator

end TankMaze


namespace TankMaze
namespace Maze

/-- The two-cell maze `..`. -/
def floorPair : Maze := ({} : Maze).loadFromString [".."]

end Maze

end TankMaze


namespace TankMaze

/-! ## The weighted search in binary32 arithmetic

The costs of `findPathThroughDestructible` are values of type `float`. The definitions below
repeat its search with every sum rounded as the hardware rounds it, for values that neither
overflow nor are NaN. -/

/-- The power `2 ^ e` for an integer exponent. -/
def pow2 (e : Int) : ℚ :=
  if 0 ≤ e then ((2 ^ e.toNat : Nat) : ℚ) else 1 / ((2 ^ (-e).toNat : Nat) : ℚ)

/-- The largest `k` with `2 ^ k ≤ n`, found by counting up from `k`. -/
def log2Up (n : Nat) : Nat → Nat → Nat
  | 0, k => k
  | fuel + 1, k => if 2 ^ (k + 1) ≤ n then log2Up n fuel (k + 1) else k

/-- The integer binary logarithm, rounded down. -/
def natLog2 (n : Nat) : Nat := log2Up n n 0

/-- The exponent `e` with `2 ^ e ≤ |q| < 2 ^ (e + 1)` of a rational `q ≠ 0`. -/
def binaryExponent (q : ℚ) : Int :=
  let e0 : Int := (natLog2 q.num.natAbs : Int) - (natLog2 q.den : Int)
  if pow2 e0 ≤ |q| then e0 else e0 - 1

/-- The multiple of `ulp` nearest to `q`, the one with the even factor when two are equally
near. -/
def roundToMultiple (ulp q : ℚ) : ℚ :=
  let k : Int := ⌊q / ulp⌋
  let r : ℚ := q / ulp - k
  if r < 1 / 2 then k * ulp
  else if 1 / 2 < r then (k + 1) * ulp
  else if k % 2 = 0 then k * ulp else (k + 1) * ulp

/-- Rounding to binary32, to nearest with ties to even: 24 significant bits, the exponent not
below -126. Overflow is not modelled: the result of rounding a value beyond the largest finite
`float` is the rounded value and not infinity. -/
def binary32 (q : ℚ) : ℚ :=
  if q = 0 then 0 else roundToMultiple (pow2 (max (binaryExponent q) (-126) - 23)) q

namespace Maze

/-- The body of the loop over the neighbours, as `relax`, with the sums of type `float` rounded
by `fl`: `tentativeG = current.gCost + moveCost` and `fCost = tentativeG + heuristic(...)`,
where `heuristic` converts an `int` to `float`. -/
def relaxF (fl : ℚ → ℚ) (moveCost : GridPos → Option ℚ) (targetGrid : GridPos) (current : Node)
    (st : SearchState) (neighbor : GridPos) : SearchState :=
  match moveCost neighbor with
  | none => st
  | some c =>
    let tentativeG := fl (current.gCost + c)
    if improves tentativeG (st.gScore neighbor) then
      { openSet := st.openSet ++
          [⟨neighbor, tentativeG, fl (tentativeG + fl (heuristic neighbor targetGrid))⟩],
        cameFrom := fun q => if q = neighbor then some current.pos else st.cameFrom q,
        gScore := fun q => if q = neighbor then some tentativeG else st.gScore q }
    else st

/-- The `while (!openSet.empty())` loop, as `searchLoop`, with the sums rounded by `fl`. -/
def searchLoopF (fl : ℚ → ℚ) (moveCost : GridPos → Option ℚ) (targetGrid : GridPos) :
    Nat → SearchState → Option (Option SearchState)
  | 0, _ => none
  | fuel + 1, st =>
    match pqTop st.openSet with
    | none => some none
    | some current =>
      let st : SearchState := { st with openSet := st.openSet.erase current }
      if current.pos = targetGrid then some (some st)
      else if isStale current.gCost (st.gScore current.pos) then
        searchLoopF fl moveCost targetGrid fuel st
      else
        searchLoopF fl moveCost targetGrid fuel
          ((neighbours current.pos).foldl (relaxF fl moveCost targetGrid current) st)

/-- The state before the loop, as `searchInit`, with the heuristic converted to `float`. -/
def searchInitF (fl : ℚ → ℚ) (startGrid targetGrid : GridPos) : SearchState :=
  { openSet := [⟨startGrid, 0, fl (heuristic startGrid targetGrid)⟩],
    cameFrom := fun _ => none,
    gScore := fun q => if q = startGrid then some 0 else none }

/-- The function `Maze::findPathThroughDestructible` with its sums of type `float` rounded by
`fl`; `destructibleCost` is the value of the `float` argument. The search loop runs for at most
`fuel` iterations; the result is `none` if they do not suffice or the walk back does not end. -/
def findPathThroughDestructibleF (fl : ℚ → ℚ) (fuel : Nat) (m : Maze) (start target : Vec2)
    (destructibleCost : ℚ) : Option PathResult :=
  let result : PathResult := {}
  let startGrid := worldToGrid start
  let targetGrid := worldToGrid target
  if !(m.isWalkable startGrid.y startGrid.x) then some result
  else if targetGrid.y ≥ 0 ∧ targetGrid.y < (m.m_rows : Int) ∧ targetGrid.x ≥ 0 ∧
      targetGrid.x < (m.m_cols : Int) ∧ m.typeAt targetGrid.y targetGrid.x = WallType.Solid then
    some result
  else
    match searchLoopF fl (destructibleMoveCost m destructibleCost) targetGrid fuel
        (searchInitF fl startGrid targetGrid) with
    | none => none
    | some none => some result
    | some (some st) =>
      (walkBack st.cameFrom startGrid (walkFuel m) targetGrid []).map
        (fun gridPath => gridPath.reverse.foldl (collectStep m) result)

/-- A maze with two routes from the cell of row 5, column 3 to the cell of row 2, column 1:
through the Destructible cell of row 4, column 3 and then eight more cells, or through five
Empty cells, the Destructible cell of row 3, column 1, and one more cell. -/
def twoRoutes : Maze :=
  ({} : Maze).loadFromString ["#...", "#.#.", "#.#.", ".*#.", ".##*", "...."]

end Maze

end TankMaze


namespace TankMaze
namespace Maze

theorem lineInv_init (a b : GridPos) :
    LineInv (lineParams a b) (lineInit a b) |b.x - a.x| |b.y - a.y| := by
  refine ⟨abs_nonneg _, abs_nonneg _, le_refl _, le_refl _, ?_, ?_, ?_, ?_, ?_⟩
  · simp only [lineParams, lineInit]
    split_ifs with h
    · rw [abs_of_pos (by omega)]; ring
    · rw [abs_of_nonpos (by omega)]; ring
  · simp only [lineParams, lineInit]
    split_ifs with h
    · rw [abs_of_pos (by omega)]; ring
    · rw [abs_of_nonpos (by omega)]; ring
  · simp only [lineParams, lineInit]; ring
  · simp only [lineParams]; split_ifs <;> simp
  · simp only [lineParams]; split_ifs <;> simp

theorem lineInv_done_iff {p : LineParams} {s : LineState} {rx ry : Int}
    (h : LineInv p s rx ry) : (s.x0 = p.x1 ∧ s.y0 = p.y1) ↔ (rx = 0 ∧ ry = 0) := by
  obtain ⟨h1, h2, h3, h4, hx, hy, he, hsx, hsy⟩ := h
  constructor
  · rintro ⟨e1, e2⟩
    constructor
    · rcases hsx with h | h <;> rw [h] at hx <;> omega
    · rcases hsy with h | h <;> rw [h] at hy <;> omega
  · rintro ⟨e1, e2⟩
    subst e1 e2
    simp at hx hy
    exact ⟨hx.symm, hy.symm⟩

theorem lineInv_step {p : LineParams} {s : LineState} {rx ry : Int}
    (h : LineInv p s rx ry) (hnd : ¬ (rx = 0 ∧ ry = 0)) :
    ∃ rx2 ry2, LineInv p (lineStep p s) rx2 ry2 ∧ rx2 + ry2 < rx + ry := by
  obtain ⟨h1, h2, h3, h4, hx, hy, he, hsx, hsy⟩ := h
  have hdx : 0 ≤ p.dx := le_trans h1 h3
  have hdy : 0 ≤ p.dy := le_trans h2 h4
  -- the x step is taken only while steps remain on the x axis
  have hxs : 2 * s.err > -p.dy → 1 ≤ rx := by
    intro hgt
    by_contra hc
    have hrx : rx = 0 := by omega
    have hry : 1 ≤ ry := by omega
    have : (ry - 1) * p.dx ≥ 0 := mul_nonneg (by omega) hdx
    rw [hrx] at he
    nlinarith
  have hys : 2 * s.err < p.dx → 1 ≤ ry := by
    intro hlt
    by_contra hc
    have hry : ry = 0 := by omega
    have hrx : 1 ≤ rx := by omega
    have : (rx - 1) * p.dy ≥ 0 := mul_nonneg (by omega) hdy
    rw [hry] at he
    nlinarith
  have hprog : 2 * s.err > -p.dy ∨ 2 * s.err < p.dx := by
    by_contra hc
    push_neg at hc
    omega
  by_cases hA : 2 * s.err > -p.dy <;> by_cases hB : 2 * s.err < p.dx
  · refine ⟨rx - 1, ry - 1, ?_, by omega⟩
    have := hxs hA; have := hys hB
    simp only [lineStep, hA, hB, if_true]
    refine ⟨by omega, by omega, by omega, by omega, ?_, ?_, ?_, hsx, hsy⟩
    · simp only; rw [hx]; ring
    · simp only; rw [hy]; ring
    · simp only; rw [he]; ring
  · refine ⟨rx - 1, ry, ?_, by omega⟩
    have := hxs hA
    simp only [lineStep, hA, hB, if_true, if_false]
    refine ⟨by omega, by omega, by omega, by omega, ?_, ?_, ?_, hsx, hsy⟩
    · simp only; rw [hx]; ring
    · simp only; rw [hy]
    · simp only; rw [he]; ring
  · refine ⟨rx, ry - 1, ?_, by omega⟩
    have := hys hB
    simp only [lineStep, hA, hB, if_true, if_false]
    refine ⟨by omega, by omega, by omega, by omega, ?_, ?_, ?_, hsx, hsy⟩
    · simp only; rw [hx]
    · simp only; rw [hy]; ring
    · simp only; rw [he]; ring
  · exact absurd hprog (by tauto)

/-- The line walk finishes within `rx + ry + 1` iterations and ends on the end cell. -/
theorem lineWalk_terminates (p : LineParams) :
    ∀ (fuel : Nat) (s : LineState) (rx ry : Int), LineInv p s rx ry → rx + ry < fuel →
      ∃ line, lineWalk p fuel s = some line ∧ line.head? = some ⟨s.x0, s.y0⟩ ∧
        line.getLast? = some ⟨p.x1, p.y1⟩ := by
  intro fuel
  induction fuel with
  | zero =>
    intro s rx ry h hlt
    have := h.rx_nonneg; have := h.ry_nonneg
    omega
  | succ n ih =>
    intro s rx ry h hlt
    by_cases hd : s.x0 = p.x1 ∧ s.y0 = p.y1
    · refine ⟨[⟨s.x0, s.y0⟩], by simp [lineWalk, hd], by simp, ?_⟩
      simp [hd.1, hd.2]
    · have hnd : ¬ (rx = 0 ∧ ry = 0) := fun hc => hd ((lineInv_done_iff h).2 hc)
      obtain ⟨rx2, ry2, hinv2, hdec⟩ := lineInv_step h hnd
      obtain ⟨line, hl, hh, hlast⟩ := ih (lineStep p s) rx2 ry2 hinv2 (by omega)
      refine ⟨⟨s.x0, s.y0⟩ :: line, by simp [lineWalk, hd, hl], by simp, ?_⟩
      cases line with
      | nil => simp at hh
      | cons c cs => simpa [List.getLast?_cons_cons] using hlast

theorem cellLine_total (a b : GridPos) :
    ∃ line, cellLine a b = some line ∧ line.head? = some a ∧ line.getLast? = some b := by
  have h := lineWalk_terminates (lineParams a b) (lineFuel a b) (lineInit a b) _ _ (lineInv_init a b)
    (by
      have h1 : 0 ≤ |b.x - a.x| := abs_nonneg _
      have h2 : 0 ≤ |b.y - a.y| := abs_nonneg _
      simp only [lineFuel]
      omega)
  obtain ⟨line, h1, h2, h3⟩ := h
  exact ⟨line, h1, h2, h3⟩

/-- The early-exit loop of `checkLineOfSight` computes the classification of the whole line. -/
theorem losLoop_eq (m : Maze) (p : LineParams) :
    ∀ (fuel : Nat) (s : LineState) (result : Int) (line : List GridPos),
      lineWalk p fuel s = some line →
      losLoop m p fuel s result =
        some (if line.any m.solidAt then 2 else if line.any m.destructibleAt then 1 else result) := by
  intro fuel
  induction fuel with
  | zero => intro s result line h; simp [lineWalk] at h
  | succ n ih =>
    intro s result line h
    unfold lineWalk at h
    unfold losLoop
    by_cases hS : (m.inBounds s.y0 s.x0 && decide (m.typeAt s.y0 s.x0 = WallType.Solid)) = true
    · have hsol : m.solidAt ⟨s.x0, s.y0⟩ = true := hS
      by_cases hd : s.x0 = p.x1 ∧ s.y0 = p.y1
      · rw [if_pos hd, Option.some.injEq] at h
        subst h
        simp [hS, hsol]
      · rw [if_neg hd, Option.map_eq_some'] at h
        obtain ⟨rest, _, rfl⟩ := h
        simp [hS, hsol]
    · have hsol : m.solidAt ⟨s.x0, s.y0⟩ = false := by
        simpa [solidAt] using hS
      rw [if_neg hS]
      by_cases hd : s.x0 = p.x1 ∧ s.y0 = p.y1
      · rw [if_pos hd, Option.some.injEq] at h
        subst h
        simp only [if_pos hd, List.any_cons, List.any_nil, Bool.or_false, hsol]
        simp [destructibleAt]
      · rw [if_neg hd, Option.map_eq_some'] at h
        obtain ⟨rest, hrest, rfl⟩ := h
        simp only [if_neg hd]
        rw [ih _ _ _ hrest]
        simp only [List.any_cons, hsol, Bool.false_or]
        by_cases hD : (m.inBounds s.y0 s.x0 && decide (m.typeAt s.y0 s.x0 = WallType.Destructible)) = true
        · have hdes : m.destructibleAt ⟨s.x0, s.y0⟩ = true := hD
          simp [hD, hdes]
        · have hdes : m.destructibleAt ⟨s.x0, s.y0⟩ = false := by
            simpa [destructibleAt] using hD
          simp [hD, hdes]

/-- The loop of `getFirstBlockedPosition` returns the first blocked cell of the line, or `end_`. -/
theorem blockedLoop_eq (m : Maze) (p : LineParams) (end_ : Vec2) :
    ∀ (fuel : Nat) (s : LineState) (line : List GridPos),
      lineWalk p fuel s = some line →
      blockedLoop m p end_ fuel s =
        some (match line.find? m.blockedAt with
              | some c => gridToWorld c
              | none => end_) := by
  intro fuel
  induction fuel with
  | zero => intro s line h; simp [lineWalk] at h
  | succ n ih =>
    intro s line h
    unfold lineWalk at h
    unfold blockedLoop
    by_cases hB : (m.inBounds s.y0 s.x0 &&
        (decide (m.typeAt s.y0 s.x0 = WallType.Solid) || decide (m.typeAt s.y0 s.x0 = WallType.Destructible))) = true
    · have hb : m.blockedAt ⟨s.x0, s.y0⟩ = true := hB
      by_cases hd : s.x0 = p.x1 ∧ s.y0 = p.y1
      · rw [if_pos hd, Option.some.injEq] at h
        subst h
        simp [hB, hb]
      · rw [if_neg hd, Option.map_eq_some'] at h
        obtain ⟨rest, _, rfl⟩ := h
        simp [hB, hb]
    · have hb : m.blockedAt ⟨s.x0, s.y0⟩ = false := by
        simpa [blockedAt] using hB
      rw [if_neg hB]
      by_cases hd : s.x0 = p.x1 ∧ s.y0 = p.y1
      · rw [if_pos hd, Option.some.injEq] at h
        subst h
        simp [hb, if_pos hd]
      · rw [if_neg hd, Option.map_eq_some'] at h
        obtain ⟨rest, hrest, rfl⟩ := h
        simp only [if_neg hd]
        rw [ih _ _ hrest]
        simp [List.find?_cons, hb]

end Maze
end TankMaze


namespace TankMaze
namespace Maze

/-! ### Basic facts on the heuristic, the neighbours and the queue -/

theorem heuristic_self (t : GridPos) : heuristic t t = 0 := by
  simp [heuristic]

theorem heuristic_nonneg (a t : GridPos) : 0 ≤ heuristic a t := by
  unfold heuristic
  have h1 : 0 ≤ |a.x - t.x| := abs_nonneg _
  have h2 : 0 ≤ |a.y - t.y| := abs_nonneg _
  exact_mod_cast add_nonneg h1 h2

theorem mem_neighbours {p n : GridPos} :
    n ∈ neighbours p ↔
      (n = ⟨p.x, p.y - 1⟩ ∨ n = ⟨p.x + 1, p.y⟩ ∨ n = ⟨p.x, p.y + 1⟩ ∨ n = ⟨p.x - 1, p.y⟩) := by
  simp [neighbours, sub_eq_add_neg]

/-- The Manhattan heuristic is consistent for steps of cost at least 1. -/
theorem heuristic_step {p n : GridPos} (t : GridPos) (h : n ∈ neighbours p) :
    heuristic p t ≤ 1 + heuristic n t := by
  unfold heuristic
  have key : |p.x - t.x| + |p.y - t.y| ≤ 1 + (|n.x - t.x| + |n.y - t.y|) := by
    rcases mem_neighbours.1 h with h | h | h | h <;> subst h <;> simp only <;>
      rcases abs_cases (p.x - t.x) with ⟨e1, _⟩ | ⟨e1, _⟩ <;>
      rcases abs_cases (p.y - t.y) with ⟨e2, _⟩ | ⟨e2, _⟩ <;>
      first
      | (rcases abs_cases (p.y - 1 - t.y) with ⟨e3, _⟩ | ⟨e3, _⟩ <;> omega)
      | (rcases abs_cases (p.x + 1 - t.x) with ⟨e3, _⟩ | ⟨e3, _⟩ <;> omega)
      | (rcases abs_cases (p.y + 1 - t.y) with ⟨e3, _⟩ | ⟨e3, _⟩ <;> omega)
      | (rcases abs_cases (p.x - 1 - t.x) with ⟨e3, _⟩ | ⟨e3, _⟩ <;> omega)
  exact_mod_cast key

theorem not_mem_neighbours_self (p : GridPos) : p ∉ neighbours p := by
  intro h
  rcases mem_neighbours.1 h with h | h | h | h <;>
    · have hx := congrArg GridPos.x h
      have hy := congrArg GridPos.y h
      simp only at hx hy
      omega

theorem neighbours_length (p : GridPos) : (neighbours p).length = 4 := rfl

theorem neighbours_symm {p n : GridPos} (h : n ∈ neighbours p) : p ∈ neighbours n := by
  rcases mem_neighbours.1 h with h | h | h | h <;> subst h <;> rw [mem_neighbours] <;> simp

theorem foldl_min_mem (ns : List Node) (n : Node) :
    let r := ns.foldl (fun best e => if e.fCost < best.fCost then e else best) n
    (r = n ∨ r ∈ ns) ∧ r.fCost ≤ n.fCost ∧ ∀ e ∈ ns, r.fCost ≤ e.fCost := by
  induction ns generalizing n with
  | nil => simp
  | cons a as ih =>
    simp only [List.foldl_cons]
    by_cases h : a.fCost < n.fCost
    · simp only [h, if_true]
      obtain ⟨h1, h2, h3⟩ := ih a
      refine ⟨?_, ?_, ?_⟩
      · rcases h1 with h1 | h1
        · right; rw [h1]; exact List.mem_cons_self _ _
        · right; exact List.mem_cons_of_mem _ h1
      · exact le_trans h2 (le_of_lt h)
      · intro e he
        rcases List.mem_cons.1 he with he | he
        · rw [he]; exact h2
        · exact h3 e he
    · simp only [h, if_false]
      obtain ⟨h1, h2, h3⟩ := ih n
      refine ⟨?_, h2, ?_⟩
      · rcases h1 with h1 | h1
        · left; exact h1
        · right; exact List.mem_cons_of_mem _ h1
      · intro e he
        rcases List.mem_cons.1 he with he | he
        · rw [he]; exact le_trans h2 (not_lt.1 h)
        · exact h3 e he

theorem pqTop_none {l : List Node} (h : pqTop l = none) : l = [] := by
  cases l with
  | nil => rfl
  | cons a as => simp [pqTop] at h

theorem pqTop_some {l : List Node} {cur : Node} (h : pqTop l = some cur) :
    cur ∈ l ∧ ∀ e ∈ l, cur.fCost ≤ e.fCost := by
  cases l with
  | nil => simp [pqTop] at h
  | cons a as =>
    simp only [pqTop, Option.some.injEq] at h
    obtain ⟨h1, h2, h3⟩ := foldl_min_mem as a
    rw [h] at h1 h2 h3
    refine ⟨?_, ?_⟩
    · rcases h1 with h1 | h1
      · rw [h1]; exact List.mem_cons_self _ _
      · exact List.mem_cons_of_mem _ h1
    · intro e he
      rcases List.mem_cons.1 he with he | he
      · rw [he]; exact h2
      · exact h3 e he

theorem mem_cellSet (m : Maze) (c : GridPos) : c ∈ m.cellSet ↔ m.inBounds c.y c.x = true := by
  simp only [cellSet, Finset.mem_image, Finset.mem_product, Finset.mem_range, Prod.exists,
    inBounds, Bool.not_eq_true', Bool.or_eq_false_iff, decide_eq_false_iff_not, not_lt, ge_iff_le,
    not_le]
  constructor
  · rintro ⟨r, c2, ⟨hr, hc⟩, rfl⟩
    simp only
    omega
  · rintro ⟨⟨⟨h1, h2⟩, h3⟩, h4⟩
    refine ⟨c.y.toNat, c.x.toNat, ⟨by omega, by omega⟩, ?_⟩
    cases c with
    | mk x y =>
      simp only at h1 h2 h3 h4
      simp only [GridPos.mk.injEq]
      omega

theorem card_cellSet_le (m : Maze) : m.cellSet.card ≤ m.m_rows * m.m_cols := by
  unfold cellSet
  refine le_trans Finset.card_image_le ?_
  simp

theorem gridToWorld_injective {a b : GridPos} (h : gridToWorld a = gridToWorld b) : a = b := by
  cases a with
  | mk ax ay =>
    cases b with
    | mk bx b_y =>
      simp only [gridToWorld, Vec2.mk.injEq, m_tileSize] at h
      obtain ⟨h1, h2⟩ := h
      have e1 : (ax : ℚ) = bx := by linarith
      have e2 : (ay : ℚ) = b_y := by linarith
      simp only [GridPos.mk.injEq]
      exact ⟨by exact_mod_cast e1, by exact_mod_cast e2⟩

end Maze
end TankMaze


namespace TankMaze
namespace Maze

/-! ### The search invariant -/

theorem searchInv_init (moveCost : GridPos → Option ℚ) (cells : Finset GridPos) (s t : GridPos)
    (hs : s ∈ cells) :
    SearchInv moveCost cells s t (fun _ _ => False) (searchInit s t) ∅ := by
  have hg : ∀ n v, (searchInit s t).gScore n = some v → n = s ∧ v = 0 := by
    intro n v h
    simp only [searchInit] at h
    by_cases hn : n = s
    · simp [hn] at h; exact ⟨hn, h.symm⟩
    · simp [hn] at h
  refine ⟨by simp [searchInit], ?_, ?_, ?_, ?_, ?_, ?_, ?_, ?_, ?_, ?_, ?_⟩
  · intro n v h; rw [(hg n v h).2]
  · intro n v h; rw [(hg n v h).1]; exact hs
  · intro n v h hne; exact absurd (hg n v h).1 hne
  · intro n v h
    obtain ⟨rfl, rfl⟩ := hg n v h
    exact ⟨0, le_refl _, Route.start⟩
  · intro e he
    simp only [searchInit, List.mem_singleton] at he
    subst he
    exact ⟨0, by simp [searchInit], le_refl _, by simp⟩
  · simp [searchInit]
  · intro n v h _
    obtain ⟨rfl, rfl⟩ := hg n v h
    simp [searchInit]
  · intro e _ hc; simp at hc
  · intro n hn; simp at hn
  · intro n hn; simp at hn
  · intro n hn; simp at hn

/-- Weakening of the pending set, given the relaxations that stop being pending. -/
theorem searchInv_pending {moveCost : GridPos → Option ℚ} {cells : Finset GridPos} {s t : GridPos}
    {P Q : GridPos → GridPos → Prop} {st : SearchState} {closed : Finset GridPos}
    (hinv : SearchInv moveCost cells s t P st closed)
    (h : ∀ n ∈ closed, ∀ v, st.gScore n = some v → ∀ nb ∈ neighbours n, ∀ w,
      moveCost nb = some w → P n nb → ¬ Q n nb → ∃ vb, st.gScore nb = some vb ∧ vb ≤ v + w) :
    SearchInv moveCost cells s t Q st closed := by
  refine ⟨hinv.g_start, hinv.g_nonneg, hinv.g_cells, hinv.chain, hinv.sound, hinv.open_ok,
    hinv.open_nodup, hinv.frontier, hinv.closed_stale, hinv.closed_opt, hinv.closed_ne, ?_⟩
  intro n hn v hv nb hnb w hw hQ
  by_cases hP : P n nb
  · exact h n hn v hv nb hnb w hw hP hQ
  · exact hinv.relaxed n hn v hv nb hnb w hw hP

/-- For every route, either its end is closed with a `gScore` below the route cost, or some
fresh open entry has an `fCost` below the route cost plus the heuristic of the end. -/
theorem route_bound {moveCost : GridPos → Option ℚ} {cells : Finset GridPos} {s t : GridPos}
    {st : SearchState} {closed : Finset GridPos}
    (hmc : ∀ n w, moveCost n = some w → 1 ≤ w ∧ n ∈ cells)
    (hinv : SearchInv moveCost cells s t (fun _ _ => False) st closed)
    {x : GridPos} {c : ℚ} (hr : Route moveCost s x c) :
    (x ∈ closed ∧ ∃ v, st.gScore x = some v ∧ v ≤ c) ∨
    (∃ n vn, st.gScore n = some vn ∧ (⟨n, vn, vn + heuristic n t⟩ : Node) ∈ st.openSet ∧
      vn + heuristic n t ≤ c + heuristic x t) := by
  induction hr with
  | start =>
    by_cases hs : s ∈ closed
    · exact Or.inl ⟨hs, 0, hinv.g_start, le_refl _⟩
    · exact Or.inr ⟨s, 0, hinv.g_start, hinv.frontier s 0 hinv.g_start hs, le_refl _⟩
  | @step p n c w _ hn hw ih =>
    have hw1 : 1 ≤ w := (hmc n w hw).1
    rcases ih with ⟨hp, vp, hvp, hle⟩ | ⟨q, vq, hq, hmem, hle⟩
    · obtain ⟨vb, hvb, hvble⟩ := hinv.relaxed p hp vp hvp n hn w hw (fun h => h)
      by_cases hnc : n ∈ closed
      · exact Or.inl ⟨hnc, vb, hvb, by linarith⟩
      · exact Or.inr ⟨n, vb, hvb, hinv.frontier n vb hvb hnc, by linarith⟩
    · have hstep := heuristic_step t hn
      exact Or.inr ⟨q, vq, hq, hmem, by linarith⟩

/-- Dropping a stale entry keeps the invariant. -/
theorem searchInv_stale {moveCost : GridPos → Option ℚ} {cells : Finset GridPos} {s t : GridPos}
    {st : SearchState} {closed : Finset GridPos} {cur : Node} {g : ℚ}
    (hinv : SearchInv moveCost cells s t (fun _ _ => False) st closed)
    (hg : st.gScore cur.pos = some g) (hstale : cur.gCost > g) :
    SearchInv moveCost cells s t (fun _ _ => False)
      { st with openSet := st.openSet.erase cur } closed := by
  refine ⟨hinv.g_start, hinv.g_nonneg, hinv.g_cells, hinv.chain, hinv.sound, ?_, ?_, ?_, ?_,
    hinv.closed_opt, hinv.closed_ne, hinv.relaxed⟩
  · intro e he
    exact hinv.open_ok e (List.mem_of_mem_erase he)
  · exact hinv.open_nodup.erase cur
  · intro n v hv hn
    have hmem := hinv.frontier n v hv hn
    refine (List.mem_erase_of_ne ?_).2 hmem
    intro heq
    rw [← heq] at hg hstale
    simp only at hg hstale
    rw [hv] at hg
    injection hg with hg
    linarith
  · intro e he
    exact hinv.closed_stale e (List.mem_of_mem_erase he)

end Maze
end TankMaze


namespace TankMaze
namespace Maze

/-- Popping a fresh entry with the least `fCost` closes its cell with an optimal `gScore`. -/
theorem searchInv_close {moveCost : GridPos → Option ℚ} {cells : Finset GridPos} {s t : GridPos}
    {st : SearchState} {closed : Finset GridPos} {cur : Node}
    (hmc : ∀ n w, moveCost n = some w → 1 ≤ w ∧ n ∈ cells)
    (hinv : SearchInv moveCost cells s t (fun _ _ => False) st closed)
    (htop : pqTop st.openSet = some cur) (hnt : cur.pos ≠ t)
    (hfresh : ∀ g, st.gScore cur.pos = some g → ¬ cur.gCost > g) :
    cur.pos ∉ closed ∧ cur.pos ∈ cells ∧ st.gScore cur.pos = some cur.gCost ∧
    SearchInv moveCost cells s t (fun x b => x = cur.pos ∧ b ∈ neighbours cur.pos)
      { st with openSet := st.openSet.erase cur } (insert cur.pos closed) := by
  obtain ⟨hmem, hmin⟩ := pqTop_some htop
  obtain ⟨v, hv, hvle, hf⟩ := hinv.open_ok cur hmem
  have hnot := hfresh v hv
  have hveq : v = cur.gCost := le_antisymm hvle (not_lt.1 hnot)
  subst hveq
  have hnc : cur.pos ∉ closed := by
    intro hc
    have := hinv.closed_stale cur hmem hc _ hv
    exact lt_irrefl _ this
  have hopt : ∀ c, Route moveCost s cur.pos c → cur.gCost ≤ c := by
    intro c hr
    rcases route_bound hmc hinv hr with ⟨hc, _⟩ | ⟨n, vn, _, hn, hle⟩
    · exact absurd hc hnc
    · have h1 := hmin _ hn
      simp only at h1
      rw [hf] at h1
      linarith
  refine ⟨hnc, hinv.g_cells _ _ hv, hv, ?_⟩
  refine ⟨hinv.g_start, hinv.g_nonneg, hinv.g_cells, hinv.chain, hinv.sound, ?_, ?_, ?_, ?_,
    ?_, ?_, ?_⟩
  · intro e he
    exact hinv.open_ok e (List.mem_of_mem_erase he)
  · exact hinv.open_nodup.erase cur
  · intro n v hv2 hn
    have hn1 : n ≠ cur.pos := fun h => hn (by rw [h]; exact Finset.mem_insert_self _ _)
    have hn2 : n ∉ closed := fun h => hn (Finset.mem_insert_of_mem h)
    have hm := hinv.frontier n v hv2 hn2
    refine (List.mem_erase_of_ne ?_).2 hm
    intro heq
    apply hn1
    rw [← heq]
  · intro e he hc v hv2
    have he1 : e ∈ st.openSet := List.mem_of_mem_erase he
    rcases Finset.mem_insert.1 hc with hc | hc
    · obtain ⟨v3, hv3, hle3, hf3⟩ := hinv.open_ok e he1
      rw [hc] at hv2 hv3 hf3
      rw [hv] at hv2 hv3
      injection hv2 with hv2
      injection hv3 with hv3
      subst hv2 hv3
      rcases lt_or_eq_of_le hle3 with hlt | heq
      · exact hlt
      · exfalso
        have hecur : e = cur := by
          cases e with
          | mk ep eg ef =>
            cases cur with
            | mk cp cg cf =>
              simp only at hc heq hf3 hf
              simp only [Node.mk.injEq]
              refine ⟨hc, heq.symm, ?_⟩
              rw [hf3, hf, heq]
        rw [hecur] at he
        exact (List.Nodup.mem_erase_iff hinv.open_nodup).1 he |>.1 rfl
    · exact hinv.closed_stale e he1 hc v hv2
  · intro n hn
    rcases Finset.mem_insert.1 hn with hn | hn
    · rw [hn]; exact ⟨_, hv, hopt⟩
    · exact hinv.closed_opt n hn
  · intro n hn
    rcases Finset.mem_insert.1 hn with hn | hn
    · rw [hn]; exact hnt
    · exact hinv.closed_ne n hn
  · intro n hn v hv2 nb hnb w hw hpend
    rcases Finset.mem_insert.1 hn with hn | hn
    · exact absurd ⟨hn, by rw [← hn]; exact hnb⟩ hpend
    · exact hinv.relaxed n hn v hv2 nb hnb w hw (fun h => h)

/-- One neighbour relaxation keeps the invariant and removes that neighbour from the pending set. -/
theorem relax_inv {moveCost : GridPos → Option ℚ} {cells : Finset GridPos} {s t : GridPos}
    {st : SearchState} {closed : Finset GridPos} {cur : Node} {nb : GridPos} {rest : List GridPos}
    (hmc : ∀ n w, moveCost n = some w → 1 ≤ w ∧ n ∈ cells)
    (hinv : SearchInv moveCost cells s t (fun x b => x = cur.pos ∧ b ∈ nb :: rest) st closed)
    (hcur : cur.pos ∈ closed) (hg : st.gScore cur.pos = some cur.gCost)
    (hnb : nb ∈ neighbours cur.pos) :
    SearchInv moveCost cells s t (fun x b => x = cur.pos ∧ b ∈ rest)
      (relax moveCost t cur st nb) closed ∧
    (relax moveCost t cur st nb).gScore cur.pos = some cur.gCost ∧
    (relax moveCost t cur st nb).openSet.length ≤ st.openSet.length + 1 := by
  unfold relax
  cases hm : moveCost nb with
  | none =>
    simp only []
    refine ⟨searchInv_pending hinv ?_, hg, Nat.le_succ _⟩
    intro n _ v _ b _ w hw hP hQ
    have hb : b = nb := by
      rcases hP with ⟨h1, h2⟩
      rcases List.mem_cons.1 h2 with h2 | h2
      · exact h2
      · exact absurd ⟨h1, h2⟩ hQ
    rw [hb, hm] at hw
    exact absurd hw (by simp)
  | some w =>
    have hw1 : 1 ≤ w := (hmc nb w hm).1
    have hnbc : nb ∈ cells := (hmc nb w hm).2
    have hg0 : 0 ≤ cur.gCost := hinv.g_nonneg _ _ hg
    simp only []
    by_cases hbetter : improves (cur.gCost + w) (st.gScore nb) = true
    · -- the neighbour gets a better score
      rw [if_pos hbetter]
      have hF2 : ∀ g0, st.gScore nb = some g0 → cur.gCost + w < g0 := by
        intro g0 h0
        rw [h0] at hbetter
        simpa [improves] using hbetter
      have hns : nb ≠ s := by
        intro h
        have := hF2 0 (by rw [h]; exact hinv.g_start)
        linarith
      have hnc : nb ∉ closed := by
        intro hc
        obtain ⟨v, hv, hopt⟩ := hinv.closed_opt nb hc
        obtain ⟨c0, hc0, hr0⟩ := hinv.sound _ _ hg
        have h1 := hopt _ (Route.step hr0 hnb hm)
        have h2 := hF2 v hv
        linarith
      have hne : nb ≠ cur.pos := fun h => hnc (h ▸ hcur)
      have hne2 : cur.pos ≠ nb := fun h => hne h.symm
      refine ⟨?_, by simp [hne2, hg], by simp⟩
      refine ⟨?_, ?_, ?_, ?_, ?_, ?_, ?_, ?_, ?_, ?_, hinv.closed_ne, ?_⟩
      · -- g_start
        have : s ≠ nb := fun h => hns h.symm
        simp [this, hinv.g_start]
      · -- g_nonneg
        intro n v hv
        by_cases hn : n = nb
        · simp only [hn, if_true, Option.some.injEq] at hv
          linarith
        · simp only [hn, if_false] at hv
          exact hinv.g_nonneg n v hv
      · -- g_cells
        intro n v hv
        by_cases hn : n = nb
        · rw [hn]; exact hnbc
        · simp only [hn, if_false] at hv
          exact hinv.g_cells n v hv
      · -- chain
        intro n v hv hnes
        by_cases hn : n = nb
        · simp only [hn, if_true, Option.some.injEq] at hv
          subst hn
          refine ⟨cur.pos, cur.gCost, w, by simp, hnb, hm, by simp [hne2, hg], by linarith⟩
        · simp only [hn, if_false] at hv
          obtain ⟨p, vp, w2, h1, h2, h3, h4, h5⟩ := hinv.chain n v hv hnes
          by_cases hp : p = nb
          · refine ⟨p, cur.gCost + w, w2, by simp [hn, h1], h2, h3, by simp [hp], ?_⟩
            have := hF2 vp (by rw [← hp]; exact h4)
            linarith
          · exact ⟨p, vp, w2, by simp [hn, h1], h2, h3, by simp [hp, h4], h5⟩
      · -- sound
        intro n v hv
        by_cases hn : n = nb
        · simp only [hn, if_true, Option.some.injEq] at hv
          obtain ⟨c0, hc0, hr0⟩ := hinv.sound _ _ hg
          rw [hn]
          exact ⟨c0 + w, by linarith, Route.step hr0 hnb hm⟩
        · simp only [hn, if_false] at hv
          exact hinv.sound n v hv
      · -- open_ok
        intro e he
        rcases List.mem_append.1 he with he | he
        · obtain ⟨v, hv, hle, hf⟩ := hinv.open_ok e he
          by_cases hp : e.pos = nb
          · refine ⟨cur.gCost + w, by simp [hp], ?_, hf⟩
            have := hF2 v (by rw [← hp]; exact hv)
            linarith
          · exact ⟨v, by simp [hp, hv], hle, hf⟩
        · simp only [List.mem_singleton] at he
          subst he
          exact ⟨cur.gCost + w, by simp, le_refl _, rfl⟩
      · -- open_nodup
        refine List.Nodup.append hinv.open_nodup (List.nodup_singleton _) ?_
        intro e he he2
        simp only [List.mem_singleton] at he2
        subst he2
        obtain ⟨v, hv, hle, _⟩ := hinv.open_ok _ he
        simp only at hv hle
        have := hF2 v hv
        linarith
      · -- frontier
        intro n v hv hn2
        by_cases hn : n = nb
        · simp only [hn, if_true, Option.some.injEq] at hv
          subst hv
          rw [hn]
          exact List.mem_append_right _ (List.mem_singleton_self _)
        · simp only [hn, if_false] at hv
          exact List.mem_append_left _ (hinv.frontier n v hv hn2)
      · -- closed_stale
        intro e he hc v hv
        rcases List.mem_append.1 he with he | he
        · have hp : e.pos ≠ nb := fun h => hnc (h ▸ hc)
          simp only [hp, if_false] at hv
          exact hinv.closed_stale e he hc v hv
        · simp only [List.mem_singleton] at he
          subst he
          exact absurd hc hnc
      · -- closed_opt
        intro n hn
        have hp : n ≠ nb := fun h => hnc (h ▸ hn)
        obtain ⟨v, hv, hopt⟩ := hinv.closed_opt n hn
        exact ⟨v, by simp [hp, hv], hopt⟩
      · -- relaxed
        intro n hn v hv b hb w2 hw2 hQ
        have hp : n ≠ nb := fun h => hnc (h ▸ hn)
        simp only [hp, if_false] at hv
        by_cases hbn : b = nb
        · subst hbn
          by_cases hnc2 : n = cur.pos
          · rw [hnc2, hg] at hv
            injection hv with hv
            rw [hm] at hw2
            injection hw2 with hw2
            exact ⟨cur.gCost + w, by simp, by rw [← hv, ← hw2]⟩
          · obtain ⟨vb, hvb, hle⟩ := hinv.relaxed n hn v hv b hb w2 hw2 (fun h => hnc2 h.1)
            have := hF2 vb hvb
            exact ⟨cur.gCost + w, by simp, by linarith⟩
        · have hnP : ¬ (n = cur.pos ∧ b ∈ nb :: rest) := by
            rintro ⟨h1, h2⟩
            rcases List.mem_cons.1 h2 with h2 | h2
            · exact hbn h2
            · exact hQ ⟨h1, h2⟩
          obtain ⟨vb, hvb, hle⟩ := hinv.relaxed n hn v hv b hb w2 hw2 hnP
          exact ⟨vb, by simp [hbn, hvb], hle⟩
    · -- no improvement
      rw [if_neg hbetter]
      refine ⟨searchInv_pending hinv ?_, hg, Nat.le_succ _⟩
      intro n _ v hv b _ w2 hw2 hP hQ
      have hb : b = nb := by
        rcases hP with ⟨h1, h2⟩
        rcases List.mem_cons.1 h2 with h2 | h2
        · exact h2
        · exact absurd ⟨h1, h2⟩ hQ
      subst hb
      rw [hm] at hw2
      injection hw2 with hw2
      rw [hP.1, hg] at hv
      injection hv with hv
      cases hgb : st.gScore b with
      | none => rw [hgb] at hbetter; simp [improves] at hbetter
      | some vb =>
        rw [hgb] at hbetter
        simp only [improves, decide_eq_true_eq, not_lt] at hbetter
        exact ⟨vb, rfl, by rw [← hv, ← hw2]; exact hbetter⟩

end Maze
end TankMaze


namespace TankMaze
namespace Maze

/-- Relaxing a list of neighbours of the closed cell `cur.pos` keeps the invariant. -/
theorem relaxAll_inv {moveCost : GridPos → Option ℚ} {cells : Finset GridPos} {s t : GridPos}
    {closed : Finset GridPos} {cur : Node}
    (hmc : ∀ n w, moveCost n = some w → 1 ≤ w ∧ n ∈ cells) (hcur : cur.pos ∈ closed) :
    ∀ (l : List GridPos) (st : SearchState), (∀ b ∈ l, b ∈ neighbours cur.pos) →
      SearchInv moveCost cells s t (fun x b => x = cur.pos ∧ b ∈ l) st closed →
      st.gScore cur.pos = some cur.gCost →
      SearchInv moveCost cells s t (fun _ _ => False) (l.foldl (relax moveCost t cur) st) closed ∧
      (l.foldl (relax moveCost t cur) st).openSet.length ≤ st.openSet.length + l.length := by
  intro l
  induction l with
  | nil =>
    intro st _ hinv _
    refine ⟨searchInv_pending hinv ?_, le_refl _⟩
    intro n _ v _ nb _ w _ hP
    simp at hP
  | cons b bs ih =>
    intro st hl hinv hg
    obtain ⟨h1, h2, h3⟩ := relax_inv hmc hinv hcur hg (hl b (List.mem_cons_self _ _))
    obtain ⟨h4, h5⟩ := ih _ (fun x hx => hl x (List.mem_cons_of_mem _ hx)) h1 h2
    refine ⟨h4, ?_⟩
    simp only [List.foldl_cons, List.length_cons]
    omega

theorem closed_subset_cells {moveCost : GridPos → Option ℚ} {cells : Finset GridPos} {s t : GridPos}
    {P : GridPos → GridPos → Prop} {st : SearchState} {closed : Finset GridPos}
    (hinv : SearchInv moveCost cells s t P st closed) : closed ⊆ cells := by
  intro n hn
  obtain ⟨v, hv, _⟩ := hinv.closed_opt n hn
  exact hinv.g_cells n v hv

/-- The search loop ends within its fuel. It ends with an empty open set only when the target
has no route, and otherwise with the target popped at an optimal `gScore`. -/
theorem searchLoop_spec {moveCost : GridPos → Option ℚ} {cells : Finset GridPos} {s t : GridPos}
    (hmc : ∀ n w, moveCost n = some w → 1 ≤ w ∧ n ∈ cells) :
    ∀ (fuel : Nat) (st : SearchState) (closed : Finset GridPos),
      SearchInv moveCost cells s t (fun _ _ => False) st closed →
      st.openSet.length + 4 * (cells \ closed).card < fuel →
      ∃ out, searchLoop moveCost t fuel st = some out ∧
        ((out = none ∧ ∀ c, ¬ Route moveCost s t c) ∨
         (∃ st2, out = some st2 ∧ FoundPost moveCost cells s t st2)) := by
  intro fuel
  induction fuel with
  | zero => intro st closed _ h; omega
  | succ k ih =>
    intro st closed hinv hfuel
    unfold searchLoop
    cases htop : pqTop st.openSet with
    | none =>
      have hnil := pqTop_none htop
      refine ⟨none, rfl, Or.inl ⟨rfl, ?_⟩⟩
      intro c hr
      rcases route_bound hmc hinv hr with ⟨hc, _⟩ | ⟨n, vn, _, hn, _⟩
      · exact hinv.closed_ne t hc rfl
      · rw [hnil] at hn; simp at hn
    | some cur =>
      obtain ⟨hmem, hmin⟩ := pqTop_some htop
      simp only []
      by_cases htgt : cur.pos = t
      · rw [if_pos htgt]
        refine ⟨_, rfl, Or.inr ⟨_, rfl, ?_⟩⟩
        refine ⟨hinv.g_start, hinv.g_nonneg, hinv.g_cells, hinv.chain, ?_⟩
        obtain ⟨v, hv, hle, hf⟩ := hinv.open_ok cur hmem
        rw [htgt] at hv hf
        rw [heuristic_self] at hf
        refine ⟨v, hv, ?_⟩
        intro c hr
        rcases route_bound hmc hinv hr with ⟨hc, _⟩ | ⟨n, vn, _, hn, hle2⟩
        · exact absurd rfl (hinv.closed_ne t hc)
        · have h1 := hmin _ hn
          simp only at h1
          rw [heuristic_self] at hle2
          linarith
      · rw [if_neg htgt]
        have hlen : (st.openSet.erase cur).length = st.openSet.length - 1 :=
          List.length_erase_of_mem hmem
        have hpos : 0 < st.openSet.length := List.length_pos_of_mem hmem
        by_cases hst : isStale cur.gCost (st.gScore cur.pos) = true
        · rw [if_pos hst]
          obtain ⟨g, hg, hgt⟩ : ∃ g, st.gScore cur.pos = some g ∧ cur.gCost > g := by
            cases hgs : st.gScore cur.pos with
            | none => rw [hgs] at hst; simp [isStale] at hst
            | some g =>
              rw [hgs] at hst
              exact ⟨g, rfl, by simpa [isStale] using hst⟩
          have hinv2 := searchInv_stale hinv hg hgt
          exact ih _ closed hinv2 (by simp only [hlen]; omega)
        · rw [if_neg hst]
          have hfresh : ∀ g, st.gScore cur.pos = some g → ¬ cur.gCost > g := by
            intro g hg hgt
            apply hst
            rw [hg]
            simpa [isStale] using hgt
          obtain ⟨hnc, hcell, hg, hinv2⟩ := searchInv_close hmc hinv htop htgt hfresh
          obtain ⟨hinv3, hlen3⟩ := relaxAll_inv hmc (Finset.mem_insert_self _ _)
            (neighbours cur.pos) _ (fun b hb => hb) hinv2 hg
          refine ih _ (insert cur.pos closed) hinv3 ?_
          have hcard : (cells \ insert cur.pos closed).card + 1 = (cells \ closed).card := by
            have hmem2 : cur.pos ∈ cells \ closed := Finset.mem_sdiff.2 ⟨hcell, hnc⟩
            rw [Finset.sdiff_insert, Finset.card_erase_of_mem hmem2]
            have := Finset.card_pos.2 ⟨_, hmem2⟩
            omega
          rw [neighbours_length] at hlen3
          simp only [hlen] at hlen3
          omega

end Maze
end TankMaze


namespace TankMaze
namespace Maze

/-! ### Walks, routes and the walk back from the target -/

theorem isWalk_snoc {pass : GridPos → Prop} {n : GridPos} :
    ∀ (cs : List GridPos) (a p : GridPos), isWalk pass a cs p → n ∈ neighbours p → pass n →
      isWalk pass a (cs ++ [n]) n := by
  intro cs
  induction cs with
  | nil =>
    intro a p h hn hp
    simp only [isWalk] at h
    subst h
    exact ⟨hn, hp, rfl⟩
  | cons c cs ih =>
    intro a p h hn hp
    obtain ⟨h1, h2, h3⟩ := h
    exact ⟨h1, h2, ih c p h3 hn hp⟩

theorem isWalk_mono {pass pass2 : GridPos → Prop} (hpq : ∀ c, pass c → pass2 c) :
    ∀ (cs : List GridPos) (a b : GridPos), isWalk pass a cs b → isWalk pass2 a cs b := by
  intro cs
  induction cs with
  | nil => intro a b h; exact h
  | cons c cs ih =>
    intro a b h
    exact ⟨h.1, hpq c h.2.1, ih c b h.2.2⟩

theorem isWalk_pass {pass : GridPos → Prop} :
    ∀ (cs : List GridPos) (a b : GridPos), isWalk pass a cs b → ∀ c ∈ cs, pass c := by
  intro cs
  induction cs with
  | nil => intro a b _ c hc; simp at hc
  | cons d ds ih =>
    intro a b h c hc
    rcases List.mem_cons.1 hc with hc | hc
    · rw [hc]; exact h.2.1
    · exact ih d b h.2.2 c hc

theorem isWalk_getLast {pass : GridPos → Prop} :
    ∀ (cs : List GridPos) (a b : GridPos), isWalk pass a cs b → cs ≠ [] → cs.getLast? = some b := by
  intro cs
  induction cs with
  | nil => intro a b _ h; exact absurd rfl h
  | cons d ds ih =>
    intro a b h _
    cases ds with
    | nil =>
      have : d = b := h.2.2
      simp [this]
    | cons e es =>
      rw [List.getLast?_cons_cons]
      exact ih d b h.2.2 (by simp)

theorem stepCosts_append (moveCost : GridPos → Option ℚ) (xs ys : List GridPos) :
    stepCosts moveCost (xs ++ ys) = stepCosts moveCost xs + stepCosts moveCost ys := by
  simp [stepCosts]

/-- A walk whose cells all have a move cost extends a route by its step costs. -/
theorem route_of_isWalk {moveCost : GridPos → Option ℚ} {s : GridPos} :
    ∀ (cs : List GridPos) (a b : GridPos) (c : ℚ), Route moveCost s a c →
      isWalk (fun x => ∃ w, moveCost x = some w) a cs b →
      Route moveCost s b (c + stepCosts moveCost cs) := by
  intro cs
  induction cs with
  | nil =>
    intro a b c hr h
    simp only [isWalk] at h
    subst h
    simpa [stepCosts] using hr
  | cons d ds ih =>
    intro a b c hr h
    obtain ⟨h1, ⟨w, hw⟩, h3⟩ := h
    have := ih d b (c + w) (Route.step hr h1 hw) h3
    have e : c + stepCosts moveCost (d :: ds) = c + w + stepCosts moveCost ds := by
      simp [stepCosts, hw]; ring
    rw [e]
    exact this

/-- A measure for a strict order on the cells of a finite set: the number of cells below. -/
theorem order_measure (cells : Finset GridPos) (lt : GridPos → GridPos → Prop)
    (hirr : ∀ a, ¬ lt a a) (htrans : ∀ a b c, lt a b → lt b c → lt a c) :
    ∃ μ : GridPos → Nat, (∀ n, μ n ≤ cells.card) ∧ ∀ p n, p ∈ cells → lt p n → μ p < μ n := by
  classical
  refine ⟨fun n => (cells.filter (fun x => lt x n)).card, fun n => Finset.card_filter_le _ _, ?_⟩
  intro p n hp hlt
  apply Finset.card_lt_card
  rw [Finset.ssubset_iff_of_subset]
  · refine ⟨p, Finset.mem_filter.2 ⟨hp, hlt⟩, ?_⟩
    intro hc
    exact hirr p (Finset.mem_filter.1 hc).2
  · intro x hx
    rw [Finset.mem_filter] at hx ⊢
    exact ⟨hx.1, htrans x p n hx.2 hlt⟩

/-- The walk back along `cameFrom` ends at the start and yields, reversed, a walk from the start
whose step costs do not exceed the `gScore` of the cell it began at, when every link lowers a
measure `μ` that the fuel exceeds. -/
theorem walkBack_spec {moveCost : GridPos → Option ℚ} {s : GridPos} {st : SearchState}
    (μ : GridPos → Nat)
    (hnonneg : ∀ n v, st.gScore n = some v → 0 ≤ v)
    (hchain : ∀ n v, st.gScore n = some v → n ≠ s →
      ∃ p vp w, st.cameFrom n = some p ∧ n ∈ neighbours p ∧ moveCost n = some w ∧
        st.gScore p = some vp ∧ vp + w ≤ v ∧ μ p < μ n) :
    ∀ (fuel : Nat) (n : GridPos) (v : ℚ) (acc : List GridPos),
      st.gScore n = some v → μ n < fuel →
      ∃ fwd, walkBack st.cameFrom s fuel n acc = some (acc ++ fwd.reverse) ∧
        isWalk (fun x => ∃ w, moveCost x = some w) s fwd n ∧ (∀ c ∈ fwd, c ≠ s) ∧
        stepCosts moveCost fwd ≤ v := by
  intro fuel
  induction fuel with
  | zero => intro n v acc _ h; omega
  | succ k ih =>
    intro n v acc hv hfuel
    unfold walkBack
    by_cases hn : n = s
    · refine ⟨[], by simp [hn], by simp [isWalk, hn], by simp, ?_⟩
      simpa [stepCosts] using hnonneg n v hv
    · obtain ⟨p, vp, w, h1, h2, h3, h4, h5, h6⟩ := hchain n v hv hn
      obtain ⟨fwd, e1, e2, e3, e4⟩ := ih p vp (acc ++ [n]) h4 (by omega)
      refine ⟨fwd ++ [n], ?_, isWalk_snoc fwd s p e2 h2 ⟨w, h3⟩, ?_, ?_⟩
      · rw [if_pos hn, h1]
        simp only [Option.getD_some]
        rw [e1]
        simp
      · intro c hc
        rcases List.mem_append.1 hc with hc | hc
        · exact e3 c hc
        · simp only [List.mem_singleton] at hc
          rw [hc]; exact hn
      · rw [stepCosts_append]
        have : stepCosts moveCost [n] = w := by simp [stepCosts, h3]
        rw [this]
        linarith

/-- The walk back from a cell with a `gScore` ends within the fuel `walkFuel` when the
`gScore` falls along every link. -/
theorem walkBack_falling (m : Maze) {moveCost : GridPos → Option ℚ} {s : GridPos}
    {st : SearchState} (lt : GridPos → GridPos → Prop)
    (hirr : ∀ a, ¬ lt a a) (htrans : ∀ a b c, lt a b → lt b c → lt a c)
    (hnonneg : ∀ n v, st.gScore n = some v → 0 ≤ v)
    (hcells : ∀ n v, st.gScore n = some v → n ∈ m.cellSet)
    (hchain : ∀ n v, st.gScore n = some v → n ≠ s →
      ∃ p vp w, st.cameFrom n = some p ∧ n ∈ neighbours p ∧ moveCost n = some w ∧
        st.gScore p = some vp ∧ vp + w ≤ v ∧ lt p n)
    (n : GridPos) (v : ℚ) (hv : st.gScore n = some v) :
    ∃ fwd, walkBack st.cameFrom s (walkFuel m) n [] = some fwd.reverse ∧
      isWalk (fun x => ∃ w, moveCost x = some w) s fwd n ∧ (∀ c ∈ fwd, c ≠ s) ∧
      stepCosts moveCost fwd ≤ v := by
  obtain ⟨μ, hμ1, hμ2⟩ := order_measure m.cellSet lt hirr htrans
  have hchain2 : ∀ n v, st.gScore n = some v → n ≠ s →
      ∃ p vp w, st.cameFrom n = some p ∧ n ∈ neighbours p ∧ moveCost n = some w ∧
        st.gScore p = some vp ∧ vp + w ≤ v ∧ μ p < μ n := by
    intro n v hv hn
    obtain ⟨p, vp, w, h1, h2, h3, h4, h5, h6⟩ := hchain n v hv hn
    exact ⟨p, vp, w, h1, h2, h3, h4, h5, hμ2 p n (hcells p vp h4) h6⟩
  have hfuel : μ n < walkFuel m := by
    have h1 := hμ1 n
    have h2 := card_cellSet_le m
    unfold walkFuel
    omega
  obtain ⟨fwd, e1, e2, e3, e4⟩ := walkBack_spec μ hnonneg hchain2 (walkFuel m) n v [] hv hfuel
  exact ⟨fwd, by simpa using e1, e2, e3, e4⟩

/-- The search loop gives with more fuel what it gives with less. -/
theorem searchLoop_mono (moveCost : GridPos → Option ℚ) (t : GridPos) :
    ∀ (fuel fuel2 : Nat) (st : SearchState) (out : Option SearchState),
      searchLoop moveCost t fuel st = some out → fuel ≤ fuel2 →
      searchLoop moveCost t fuel2 st = some out := by
  intro fuel
  induction fuel with
  | zero => intro fuel2 st out h _; unfold searchLoop at h; cases h
  | succ k ih =>
    intro fuel2 st out h hle
    obtain ⟨j, rfl⟩ : ∃ j, fuel2 = j + 1 := ⟨fuel2 - 1, by omega⟩
    unfold searchLoop at h ⊢
    cases htop : pqTop st.openSet with
    | none => rw [htop] at h; exact h
    | some cur =>
      rw [htop] at h
      simp only [] at h ⊢
      split_ifs at h ⊢ with h1 h2
      · exact h
      · exact ih j _ out h (by omega)
      · exact ih j _ out h (by omega)

/-- Outcome of a search with move costs of at least 1, started on an in-bounds start cell with
at least the fuel of `searchFuel`: either the target is popped and the walk back yields a
cheapest walk, or the open set empties and the target has no walk at all. -/
theorem search_outcome (m : Maze) {moveCost : GridPos → Option ℚ} (s t : GridPos)
    (hmc : ∀ n w, moveCost n = some w → 1 ≤ w ∧ n ∈ m.cellSet) (hs : s ∈ m.cellSet)
    (fuel : Nat) (hfuel2 : searchFuel m ≤ fuel) :
    (∃ st fwd, searchLoop moveCost t fuel (searchInit s t) = some (some st) ∧
      walkBack st.cameFrom s (walkFuel m) t [] = some fwd.reverse ∧
      isWalk (fun x => ∃ w, moveCost x = some w) s fwd t ∧ (∀ c ∈ fwd, c ≠ s) ∧
      ∀ cs, isWalk (fun x => ∃ w, moveCost x = some w) s cs t →
        stepCosts moveCost fwd ≤ stepCosts moveCost cs) ∨
    (searchLoop moveCost t fuel (searchInit s t) = some none ∧
      ∀ cs, ¬ isWalk (fun x => ∃ w, moveCost x = some w) s cs t) := by
  have hinv := searchInv_init moveCost m.cellSet s t hs
  have hfuel : (searchInit s t).openSet.length + 4 * (m.cellSet \ ∅).card < searchFuel m := by
    have := card_cellSet_le m
    simp only [searchInit, searchFuel, Finset.sdiff_empty, List.length_singleton]
    omega
  obtain ⟨out, hout0, hcase⟩ := searchLoop_spec hmc (searchFuel m) _ ∅ hinv hfuel
  have hout := searchLoop_mono moveCost t _ fuel _ out hout0 hfuel2
  rcases hcase with ⟨rfl, hno⟩ | ⟨st, rfl, hpost⟩
  · right
    refine ⟨hout, ?_⟩
    intro cs hw
    have := route_of_isWalk cs s t 0 Route.start hw
    exact hno _ this
  · left
    obtain ⟨v, hv, hopt⟩ := hpost.optimal
    have hchain : ∀ n v, st.gScore n = some v → n ≠ s →
        ∃ p vp w, st.cameFrom n = some p ∧ n ∈ neighbours p ∧ moveCost n = some w ∧
          st.gScore p = some vp ∧ vp + w ≤ v ∧
          (st.gScore p).getD 0 < (st.gScore n).getD 0 := by
      intro n v hv hn
      obtain ⟨p, vp, w, h1, h2, h3, h4, h5⟩ := hpost.chain n v hv hn
      refine ⟨p, vp, w, h1, h2, h3, h4, h5, ?_⟩
      rw [h4, hv]
      have := (hmc n w h3).1
      simp only [Option.getD_some]
      linarith
    obtain ⟨fwd, e1, e2, e3, e4⟩ := walkBack_falling m
      (fun p n => (st.gScore p).getD 0 < (st.gScore n).getD 0)
      (fun a => lt_irrefl _) (fun a b c hab hbc => lt_trans hab hbc)
      hpost.g_nonneg hpost.g_cells hchain t v hv
    refine ⟨st, fwd, hout, e1, e2, e3, ?_⟩
    intro cs hw
    have hr := route_of_isWalk cs s t 0 Route.start hw
    have := hopt _ hr
    linarith

end Maze
end TankMaze


namespace TankMaze
namespace Maze

/-! ### The two move-cost functions -/

theorem isWalkable_inBounds {m : Maze} {r c : Int} (h : m.isWalkable r c = true) :
    m.inBounds r c = true := by
  unfold isWalkable at h
  by_cases hb : m.inBounds r c = true
  · exact hb
  · simp [hb] at h

theorem inBounds_iff (m : Maze) (r c : Int) :
    m.inBounds r c = true ↔ (0 ≤ r ∧ r < (m.m_rows : Int) ∧ 0 ≤ c ∧ c < (m.m_cols : Int)) := by
  simp only [inBounds, Bool.not_eq_true', Bool.or_eq_false_iff, decide_eq_false_iff_not, not_lt,
    ge_iff_le, not_le]
  constructor
  · rintro ⟨⟨⟨h1, h2⟩, h3⟩, h4⟩; exact ⟨h1, h2, h3, h4⟩
  · rintro ⟨h1, h2, h3, h4⟩; exact ⟨⟨⟨h1, h2⟩, h3⟩, h4⟩

theorem plainMoveCost_eq_some (m : Maze) (n : GridPos) (w : ℚ) :
    plainMoveCost m n = some w ↔ (m.walkableCell n ∧ w = 1) := by
  unfold plainMoveCost walkableCell
  by_cases h : m.isWalkable n.y n.x = true
  · simp [h, eq_comm]
  · simp [h]

theorem plainMoveCost_pass (m : Maze) (n : GridPos) :
    (∃ w, plainMoveCost m n = some w) ↔ m.walkableCell n := by
  constructor
  · rintro ⟨w, hw⟩; exact ((plainMoveCost_eq_some m n w).1 hw).1
  · intro h; exact ⟨1, (plainMoveCost_eq_some m n 1).2 ⟨h, rfl⟩⟩

theorem plainMoveCost_ok (m : Maze) :
    ∀ n w, plainMoveCost m n = some w → 1 ≤ w ∧ n ∈ m.cellSet := by
  intro n w h
  obtain ⟨h1, h2⟩ := (plainMoveCost_eq_some m n w).1 h
  exact ⟨by rw [h2], (mem_cellSet m n).2 (isWalkable_inBounds h1)⟩

theorem stepCosts_plain (m : Maze) :
    ∀ cs : List GridPos, (∀ c ∈ cs, m.walkableCell c) →
      stepCosts (plainMoveCost m) cs = (cs.length : ℚ) := by
  intro cs
  induction cs with
  | nil => intro _; simp [stepCosts]
  | cons d ds ih =>
    intro h
    have hd := (plainMoveCost_eq_some m d 1).2 ⟨h d (List.mem_cons_self _ _), rfl⟩
    have := ih (fun c hc => h c (List.mem_cons_of_mem _ hc))
    simp only [stepCosts, List.map_cons, List.sum_cons, hd, Option.getD_some, List.length_cons,
      Nat.cast_add, Nat.cast_one] at this ⊢
    rw [this]; ring

theorem destructibleMoveCost_eq_some (m : Maze) (dc : ℚ) (n : GridPos) (w : ℚ) :
    destructibleMoveCost m dc n = some w ↔
      (m.nonSolidCell n ∧ w = if m.typeAt n.y n.x = WallType.Destructible then dc else 1) := by
  unfold destructibleMoveCost nonSolidCell
  rw [inBounds_iff]
  by_cases hb : n.y < 0 ∨ n.y ≥ (m.m_rows : Int) ∨ n.x < 0 ∨ n.x ≥ (m.m_cols : Int)
  · rw [if_pos hb]
    constructor
    · intro h; simp at h
    · rintro ⟨⟨h1, _⟩, _⟩; omega
  · rw [if_neg hb]
    have hin : 0 ≤ n.y ∧ n.y < (m.m_rows : Int) ∧ 0 ≤ n.x ∧ n.x < (m.m_cols : Int) := by omega
    by_cases hS : m.typeAt n.y n.x = WallType.Solid
    · simp [hS]
    · simp [hS, hin, eq_comm]

theorem destructibleMoveCost_pass (m : Maze) (dc : ℚ) (n : GridPos) :
    (∃ w, destructibleMoveCost m dc n = some w) ↔ m.nonSolidCell n := by
  constructor
  · rintro ⟨w, hw⟩; exact ((destructibleMoveCost_eq_some m dc n w).1 hw).1
  · intro h; exact ⟨_, (destructibleMoveCost_eq_some m dc n _).2 ⟨h, rfl⟩⟩

theorem destructibleMoveCost_ok (m : Maze) (dc : ℚ) (hdc : 1 ≤ dc) :
    ∀ n w, destructibleMoveCost m dc n = some w → 1 ≤ w ∧ n ∈ m.cellSet := by
  intro n w h
  obtain ⟨h1, h2⟩ := (destructibleMoveCost_eq_some m dc n w).1 h
  refine ⟨?_, (mem_cellSet m n).2 h1.1⟩
  rw [h2]
  split_ifs
  · exact hdc
  · exact le_refl _

theorem stepCosts_destructible (m : Maze) (dc : ℚ) :
    ∀ cs : List GridPos, (∀ c ∈ cs, m.nonSolidCell c) →
      stepCosts (destructibleMoveCost m dc) cs = walkCost m dc cs := by
  intro cs
  induction cs with
  | nil => intro _; simp [stepCosts, walkCost]
  | cons d ds ih =>
    intro h
    have hd := (destructibleMoveCost_eq_some m dc d _).2 ⟨h d (List.mem_cons_self _ _), rfl⟩
    have := ih (fun c hc => h c (List.mem_cons_of_mem _ hc))
    simp only [stepCosts, walkCost, List.map_cons, List.sum_cons, hd, Option.getD_some] at this ⊢
    rw [this]

theorem isWalk_congr {pass pass2 : GridPos → Prop} (h : ∀ c, pass c ↔ pass2 c)
    (cs : List GridPos) (a b : GridPos) : isWalk pass a cs b ↔ isWalk pass2 a cs b :=
  ⟨isWalk_mono (fun c hc => (h c).1 hc) cs a b, isWalk_mono (fun c hc => (h c).2 hc) cs a b⟩

/-- Outcome of `findPath` on a walkable start cell. -/
theorem findPath_outcome (m : Maze) (start target : Vec2)
    (hs : m.walkableCell (worldToGrid start)) (ht : m.walkableCell (worldToGrid target)) :
    (∃ fwd, m.findPath start target = some (fwd.map gridToWorld) ∧
      isWalk m.walkableCell (worldToGrid start) fwd (worldToGrid target) ∧
      (∀ c ∈ fwd, c ≠ worldToGrid start) ∧
      ∀ cs, isWalk m.walkableCell (worldToGrid start) cs (worldToGrid target) →
        fwd.length ≤ cs.length) ∨
    (m.findPath start target = some [] ∧
      ∀ cs, ¬ isWalk m.walkableCell (worldToGrid start) cs (worldToGrid target)) := by
  have hs2 : worldToGrid start ∈ m.cellSet := (mem_cellSet m _).2 (isWalkable_inBounds hs)
  have hcongr := isWalk_congr (plainMoveCost_pass m)
  have hpre : (!(m.isWalkable (worldToGrid start).y (worldToGrid start).x) ||
      !(m.isWalkable (worldToGrid target).y (worldToGrid target).x)) = false := by
    unfold walkableCell at hs ht
    simp [hs, ht]
  rcases search_outcome m (worldToGrid start) (worldToGrid target) (plainMoveCost_ok m) hs2
      (searchFuel m) (le_refl _) with ⟨st, fwd, h1, h2, h3, h4, h5⟩ | ⟨h1, h2⟩
  · left
    have h3w := (hcongr fwd _ _).1 h3
    refine ⟨fwd, ?_, h3w, h4, ?_⟩
    · unfold findPath
      simp only [hpre, h1, h2]
      simp [List.map_reverse]
    · intro cs hcs
      have := h5 cs ((hcongr cs _ _).2 hcs)
      rw [stepCosts_plain m fwd (isWalk_pass fwd _ _ h3w),
        stepCosts_plain m cs (isWalk_pass cs _ _ hcs)] at this
      exact_mod_cast this
  · right
    refine ⟨?_, fun cs hcs => h2 cs ((hcongr cs _ _).2 hcs)⟩
    unfold findPath
    simp only [hpre, h1]
    simp

end Maze
end TankMaze


namespace TankMaze
namespace Maze

/-! ### The destructible-aware search -/

theorem isDestructibleWall_iff (m : Maze) (r c : Int) :
    m.isDestructibleWall r c = true ↔
      (m.inBounds r c = true ∧ m.typeAt r c = WallType.Destructible) := by
  unfold isDestructibleWall
  by_cases h : m.inBounds r c = true <;> simp [h]

/-- What the loop over `gridPath` computes. -/
theorem collect_spec (m : Maze) :
    ∀ (cells : List GridPos) (r : PathResult),
      (cells.foldl (collectStep m) r).path = r.path ++ cells.map gridToWorld ∧
      (r.hasDestructibleWall = true →
        (cells.foldl (collectStep m) r).hasDestructibleWall = true ∧
        (cells.foldl (collectStep m) r).firstDestructibleWallGrid = r.firstDestructibleWallGrid ∧
        (cells.foldl (collectStep m) r).firstDestructibleWallPos = r.firstDestructibleWallPos) ∧
      (r.hasDestructibleWall = false →
        (cells.foldl (collectStep m) r).hasDestructibleWall =
          cells.any (fun c => m.isDestructibleWall c.y c.x) ∧
        (∀ d, cells.find? (fun c => m.isDestructibleWall c.y c.x) = some d →
          (cells.foldl (collectStep m) r).firstDestructibleWallGrid = d ∧
          (cells.foldl (collectStep m) r).firstDestructibleWallPos = gridToWorld d) ∧
        (cells.find? (fun c => m.isDestructibleWall c.y c.x) = none →
          (cells.foldl (collectStep m) r).firstDestructibleWallGrid = r.firstDestructibleWallGrid ∧
          (cells.foldl (collectStep m) r).firstDestructibleWallPos = r.firstDestructibleWallPos)) := by
  intro cells
  induction cells with
  | nil => intro r; simp
  | cons c cs ih =>
    intro r
    simp only [List.foldl_cons]
    obtain ⟨ih1, ih2, ih3⟩ := ih (collectStep m r c)
    have hpath : (collectStep m r c).path = r.path ++ [gridToWorld c] := by
      unfold collectStep
      simp only []
      split_ifs <;> rfl
    refine ⟨by rw [ih1, hpath]; simp, ?_, ?_⟩
    · intro hr
      have hstep : collectStep m r c = { r with path := r.path ++ [gridToWorld c] } := by
        unfold collectStep
        simp [hr]
      have hh : (collectStep m r c).hasDestructibleWall = true := by rw [hstep]; exact hr
      obtain ⟨a1, a2, a3⟩ := ih2 hh
      refine ⟨a1, ?_, ?_⟩
      · rw [a2, hstep]
      · rw [a3, hstep]
    · intro hr
      by_cases hd : m.isDestructibleWall c.y c.x = true
      · have hstep : collectStep m r c =
            { path := r.path ++ [gridToWorld c], hasDestructibleWall := true,
              firstDestructibleWallPos := gridToWorld c, firstDestructibleWallGrid := c } := by
          unfold collectStep
          simp [hr, hd]
        have hh : (collectStep m r c).hasDestructibleWall = true := by rw [hstep]
        obtain ⟨a1, a2, a3⟩ := ih2 hh
        refine ⟨by rw [a1]; simp [hd], ?_, ?_⟩
        · intro d hfind
          simp only [List.find?_cons, hd, Option.some.injEq] at hfind
          subst hfind
          rw [a2, a3, hstep]
          exact ⟨rfl, rfl⟩
        · intro hfind
          simp [List.find?_cons, hd] at hfind
      · have hd2 : m.isDestructibleWall c.y c.x = false := by simpa using hd
        have hstep : collectStep m r c = { r with path := r.path ++ [gridToWorld c] } := by
          unfold collectStep
          simp [hr, hd2]
        have hh : (collectStep m r c).hasDestructibleWall = false := by rw [hstep]; exact hr
        obtain ⟨b1, b2, b3⟩ := ih3 hh
        refine ⟨by rw [b1]; simp [hd2], ?_, ?_⟩
        · intro d hfind
          simp only [List.find?_cons, hd2] at hfind
          exact b2 d hfind
        · intro hfind
          simp only [List.find?_cons, hd2] at hfind
          obtain ⟨e1, e2⟩ := b3 hfind
          rw [e1, e2, hstep]
          exact ⟨rfl, rfl⟩

/-- Outcome of the destructible-aware search when neither endpoint is rejected. -/
theorem findPathThroughDestructible_outcome (m : Maze) (start target : Vec2) (dc : ℚ)
    (hdc : 1 ≤ dc) (hs : m.walkableCell (worldToGrid start))
    (ht : ¬ (m.inBounds (worldToGrid target).y (worldToGrid target).x = true ∧
      m.typeAt (worldToGrid target).y (worldToGrid target).x = WallType.Solid)) :
    (∃ fwd, m.findPathThroughDestructible start target dc = some (fwd.foldl (collectStep m) {}) ∧
      isWalk m.nonSolidCell (worldToGrid start) fwd (worldToGrid target) ∧
      (∀ c ∈ fwd, c ≠ worldToGrid start) ∧
      ∀ cs, isWalk m.nonSolidCell (worldToGrid start) cs (worldToGrid target) →
        walkCost m dc fwd ≤ walkCost m dc cs) ∨
    (m.findPathThroughDestructible start target dc = some {} ∧
      ∀ cs, ¬ isWalk m.nonSolidCell (worldToGrid start) cs (worldToGrid target)) := by
  have hs2 : worldToGrid start ∈ m.cellSet := (mem_cellSet m _).2 (isWalkable_inBounds hs)
  have hcongr := isWalk_congr (destructibleMoveCost_pass m dc)
  have hpre : (!(m.isWalkable (worldToGrid start).y (worldToGrid start).x)) = false := by
    unfold walkableCell at hs
    simp [hs]
  have hpre2 : ¬ ((worldToGrid target).y ≥ 0 ∧ (worldToGrid target).y < (m.m_rows : Int) ∧
      (worldToGrid target).x ≥ 0 ∧ (worldToGrid target).x < (m.m_cols : Int) ∧
      m.typeAt (worldToGrid target).y (worldToGrid target).x = WallType.Solid) := by
    rintro ⟨h1, h2, h3, h4, h5⟩
    exact ht ⟨(inBounds_iff m _ _).2 ⟨h1, h2, h3, h4⟩, h5⟩
  have hfuel : searchFuel m ≤ weightedSearchFuel m dc := by
    unfold searchFuel weightedSearchFuel
    have hden : 1 ≤ max dc.num.toNat dc.den := le_max_of_le_right dc.den_pos
    generalize m.m_rows * m.m_cols = C
    generalize max dc.num.toNat dc.den = M at hden
    have h3 : C ≤ C * M := Nat.le_mul_of_pos_right C hden
    have h4 : C * C ≤ C * (C * M) := Nat.mul_le_mul_left C h3
    rcases Nat.eq_zero_or_pos C with h0 | hpos
    · subst h0; simp
    · have h5 : C ≤ C * C := Nat.le_mul_of_pos_right C hpos
      nlinarith
  rcases search_outcome m (worldToGrid start) (worldToGrid target)
      (destructibleMoveCost_ok m dc hdc) hs2 (weightedSearchFuel m dc) hfuel with
    ⟨st, fwd, h1, h2, h3, h4, h5⟩ | ⟨h1, h2⟩
  · left
    have h3w := (hcongr fwd _ _).1 h3
    refine ⟨fwd, ?_, h3w, h4, ?_⟩
    · unfold findPathThroughDestructible
      simp only [hpre, if_neg hpre2, h1, h2]
      simp
    · intro cs hcs
      have := h5 cs ((hcongr cs _ _).2 hcs)
      rw [stepCosts_destructible m dc fwd (isWalk_pass fwd _ _ h3w),
        stepCosts_destructible m dc cs (isWalk_pass cs _ _ hcs)] at this
      exact this
  · right
    refine ⟨?_, fun cs hcs => h2 cs ((hcongr cs _ _).2 hcs)⟩
    unfold findPathThroughDestructible
    simp only [hpre, if_neg hpre2, h1]
    simp

/-- The end cell of a non-empty walk satisfies the passability predicate. -/
theorem isWalk_end_pass {pass : GridPos → Prop} (cs : List GridPos) (a b : GridPos)
    (h : isWalk pass a cs b) (hne : cs ≠ []) : pass b ∧ b ∈ cs := by
  have hl := isWalk_getLast cs a b h hne
  have hmem : b ∈ cs := List.mem_of_getLast?_eq_some hl
  exact ⟨isWalk_pass cs a b h b hmem, hmem⟩

end Maze
end TankMaze


namespace TankMaze
namespace Maze

/-! ### Cutting walks at a cell -/

theorem isWalk_append {pass : GridPos → Prop} :
    ∀ (xs ys : List GridPos) (a b : GridPos),
      isWalk pass a (xs ++ ys) b ↔ ∃ mid, isWalk pass a xs mid ∧ isWalk pass mid ys b := by
  intro xs
  induction xs with
  | nil =>
    intro ys a b
    constructor
    · intro h; exact ⟨a, rfl, h⟩
    · rintro ⟨mid, h1, h2⟩
      simp only [isWalk] at h1
      subst h1
      exact h2
  | cons x xs ih =>
    intro ys a b
    simp only [List.cons_append, isWalk]
    constructor
    · rintro ⟨h1, h2, h3⟩
      obtain ⟨mid, h4, h5⟩ := (ih ys x b).1 h3
      exact ⟨mid, ⟨h1, h2, h4⟩, h5⟩
    · rintro ⟨mid, ⟨h1, h2, h4⟩, h5⟩
      exact ⟨h1, h2, (ih ys x b).2 ⟨mid, h4, h5⟩⟩

/-- A walk through `d` splits into a walk that ends on `d` and a walk that starts from `d`. -/
theorem isWalk_split {pass : GridPos → Prop} (xs ys : List GridPos) (d a b : GridPos)
    (h : isWalk pass a (xs ++ d :: ys) b) :
    isWalk pass a (xs ++ [d]) d ∧ isWalk pass d ys b := by
  have e : xs ++ d :: ys = (xs ++ [d]) ++ ys := by simp
  rw [e] at h
  obtain ⟨mid, h1, h2⟩ := (isWalk_append (xs ++ [d]) ys a b).1 h
  have hl := isWalk_getLast (xs ++ [d]) a mid h1 (by simp)
  rw [List.getLast?_concat, Option.some.injEq] at hl
  subst hl
  exact ⟨h1, h2⟩

theorem isWalk_join {pass : GridPos → Prop} (xs ys : List GridPos) (d a b : GridPos)
    (h1 : isWalk pass a (xs ++ [d]) d) (h2 : isWalk pass d ys b) :
    isWalk pass a (xs ++ d :: ys) b := by
  have e : xs ++ d :: ys = (xs ++ [d]) ++ ys := by simp
  rw [e]
  exact (isWalk_append (xs ++ [d]) ys a b).2 ⟨d, h1, h2⟩

theorem split_first {d : GridPos} :
    ∀ l : List GridPos, d ∈ l → ∃ xs ys, l = xs ++ d :: ys ∧ d ∉ xs := by
  intro l
  induction l with
  | nil => intro h; simp at h
  | cons a as ih =>
    intro h
    by_cases ha : a = d
    · exact ⟨[], as, by simp [ha], by simp⟩
    · have hmem : d ∈ as := by
        rcases List.mem_cons.1 h with h | h
        · exact absurd h.symm ha
        · exact h
      obtain ⟨xs, ys, e, hx⟩ := ih hmem
      refine ⟨a :: xs, ys, by simp [e], ?_⟩
      intro hc
      rcases List.mem_cons.1 hc with hc | hc
      · exact ha hc.symm
      · exact hx hc

theorem split_last {d : GridPos} (l : List GridPos) (h : d ∈ l) :
    ∃ xs ys, l = xs ++ d :: ys ∧ d ∉ ys := by
  obtain ⟨xs, ys, e, hx⟩ := split_first l.reverse (List.mem_reverse.2 h)
  refine ⟨ys.reverse, xs.reverse, ?_, by simpa using hx⟩
  have := congrArg List.reverse e
  simpa using this

/-- A walk through `d` can be shortened to one that enters `d` exactly once. -/
theorem isWalk_once {pass : GridPos → Prop} (cs : List GridPos) (d a b : GridPos)
    (h : isWalk pass a cs b) (hd : d ∈ cs) :
    ∃ xs vs, isWalk pass a (xs ++ d :: vs) b ∧ d ∉ xs ∧ d ∉ vs ∧
      (xs ++ d :: vs).length ≤ cs.length := by
  obtain ⟨xs, ys, e, hx⟩ := split_first cs hd
  obtain ⟨us, vs, e2, hv⟩ := split_last (d :: ys) (List.mem_cons_self _ _)
  subst e
  obtain ⟨h1, h2⟩ := isWalk_split xs ys d a b h
  -- the part after the last visit of `d`
  have h3 : isWalk pass d vs b := by
    have h4 : isWalk pass a (xs ++ d :: ys) b := h
    rw [e2] at h4
    have e3 : xs ++ (us ++ d :: vs) = (xs ++ us) ++ d :: vs := by simp
    rw [e3] at h4
    exact (isWalk_split (xs ++ us) vs d a b h4).2
  refine ⟨xs, vs, isWalk_join xs vs d a b h1 h3, hx, hv, ?_⟩
  have hlen : (d :: ys).length = (us ++ d :: vs).length := by rw [e2]
  simp only [List.length_append, List.length_cons] at hlen ⊢
  omega

/-- With `d` the only Destructible cell, a walk of in-bounds cells costs its length plus twice
the number of times it enters `d`, at the default cost 3. -/
theorem walkCost_three (m : Maze) (d : GridPos)
    (hD : ∀ c : GridPos, (m.inBounds c.y c.x = true ∧ m.typeAt c.y c.x = WallType.Destructible) ↔ c = d) :
    ∀ cs : List GridPos, (∀ c ∈ cs, m.inBounds c.y c.x = true) →
      walkCost m 3 cs = (cs.length : ℚ) + 2 * (cs.count d : ℚ) := by
  intro cs
  induction cs with
  | nil => intro _; simp [walkCost]
  | cons a as ih =>
    intro h
    have hrec := ih (fun c hc => h c (List.mem_cons_of_mem _ hc))
    have ha := h a (List.mem_cons_self _ _)
    unfold walkCost at hrec ⊢
    simp only [List.map_cons, List.sum_cons, List.length_cons, Nat.cast_add, Nat.cast_one]
    rw [hrec]
    by_cases had : a = d
    · have : m.typeAt a.y a.x = WallType.Destructible := ((hD a).2 had).2
      rw [if_pos this, had, List.count_cons_self]
      push_cast
      ring
    · have : ¬ m.typeAt a.y a.x = WallType.Destructible := fun hc => had ((hD a).1 ⟨ha, hc⟩)
      rw [if_neg this, List.count_cons_of_ne (fun h => had h.symm)]
      ring

theorem walkable_nonSolid {m : Maze} {c : GridPos} (h : m.walkableCell c) :
    m.nonSolidCell c ∧ m.typeAt c.y c.x ≠ WallType.Destructible := by
  have hb := isWalkable_inBounds h
  unfold walkableCell isWalkable at h
  rw [hb] at h
  simp only [if_true, Bool.or_eq_true, decide_eq_true_eq] at h
  refine ⟨⟨hb, ?_⟩, ?_⟩
  · rcases h with h | h <;> rw [h] <;> decide
  · rcases h with h | h <;> rw [h] <;> decide

end Maze
end TankMaze


namespace TankMaze
namespace Maze

/-! ### The search with non-negative move costs: it ends, and so does the walk back -/

/-- A sum over the cells of a value that depends on the `gScore`, after the `gScore` of one cell
has changed. -/
theorem sum_gScore_update (cells : Finset GridPos) (F : Option ℚ → Nat)
    (g : GridPos → Option ℚ) (nb : GridPos) (hnb : nb ∈ cells) (a : Option ℚ) :
    cells.sum (fun q => F (if q = nb then a else g q)) + F (g nb) =
      cells.sum (fun q => F (g q)) + F a := by
  rw [← Finset.add_sum_erase cells _ hnb, ← Finset.add_sum_erase cells (fun q => F (g q)) hnb]
  have herase : (cells.erase nb).sum (fun q => F (if q = nb then a else g q)) =
      (cells.erase nb).sum (fun q => F (g q)) := by
    apply Finset.sum_congr rfl
    intro q hq
    rw [if_neg (Finset.ne_of_mem_erase hq)]
  rw [herase]
  simp only [if_true]
  omega

theorem weak_nonneg {moveCost : GridPos → Option ℚ} {cells : Finset GridPos} {s : GridPos}
    {den top bound : Nat} {st : SearchState} {rank : GridPos → Nat} (hden : 0 < den)
    (hinv : WeakInv moveCost cells s den top bound st rank) (n : GridPos) (v : ℚ)
    (hv : st.gScore n = some v) : 0 ≤ v := by
  obtain ⟨k, hk, _⟩ := hinv.g_units n v hv
  have hd : (0 : ℚ) < (den : ℚ) := by exact_mod_cast hden
  have hk0 : (0 : ℚ) ≤ (k : ℚ) := by exact_mod_cast Nat.zero_le k
  by_contra hc
  have : v * (den : ℚ) < 0 := mul_neg_of_neg_of_pos (not_le.1 hc) hd
  linarith

/-- A push of a neighbour whose `gScore` improves keeps the invariant and lowers the measure of
the loop, whatever the `fCost` of the new entry. -/
theorem push_weak {moveCost : GridPos → Option ℚ} {cells : Finset GridPos} {s : GridPos}
    {den top bound : Nat} (hden : 0 < den)
    (hmc : ∀ n w, moveCost n = some w →
      (∃ k : Nat, w * (den : ℚ) = (k : ℚ) ∧ k ≤ top) ∧ n ∈ cells)
    {cur : Node} {st : SearchState} {rank : GridPos → Nat} (nb : GridPos)
    (hnb : nb ∈ neighbours cur.pos)
    (hinv : WeakInv moveCost cells s den top bound st rank)
    (hg : st.gScore cur.pos = some cur.gCost) (w : ℚ) (hmove : moveCost nb = some w)
    (himp : improves (cur.gCost + w) (st.gScore nb) = true) (f : ℚ) :
    ∃ rank2, WeakInv moveCost cells s den top bound
        { openSet := st.openSet ++ [⟨nb, cur.gCost + w, f⟩],
          cameFrom := fun q => if q = nb then some cur.pos else st.cameFrom q,
          gScore := fun q => if q = nb then some (cur.gCost + w) else st.gScore q } rank2 ∧
      (if cur.pos = nb then some (cur.gCost + w) else st.gScore cur.pos) = some cur.gCost ∧
      (st.openSet ++ [(⟨nb, cur.gCost + w, f⟩ : Node)]).length +
          2 * potential cells den bound
            { openSet := st.openSet ++ [⟨nb, cur.gCost + w, f⟩],
              cameFrom := fun q => if q = nb then some cur.pos else st.cameFrom q,
              gScore := fun q => if q = nb then some (cur.gCost + w) else st.gScore q } ≤
        st.openSet.length + 2 * potential cells den bound st := by
  have hd : (0 : ℚ) < (den : ℚ) := by exact_mod_cast hden
  obtain ⟨⟨kw, hkw, hkwtop⟩, hnbcell⟩ := hmc nb w hmove
  obtain ⟨kc, hkc, hkcb⟩ := hinv.g_units cur.pos cur.gCost hg
  have hw0 : 0 ≤ w := by
    by_contra hc
    have : w * (den : ℚ) < 0 := mul_neg_of_neg_of_pos (not_le.1 hc) hd
    have hk0 : (0 : ℚ) ≤ (kw : ℚ) := by exact_mod_cast Nat.zero_le kw
    linarith
  have hc0 : 0 ≤ cur.gCost := weak_nonneg hden hinv _ _ hg
  have htk : (cur.gCost + w) * (den : ℚ) = ((kc + kw : Nat) : ℚ) := by
    push_cast; rw [add_mul, hkc, hkw]
  have hne : nb ≠ cur.pos := fun h => not_mem_neighbours_self cur.pos (h ▸ hnb)
  have hnes : nb ≠ s := by
    intro h
    rw [h, hinv.g_start] at himp
    simp only [improves, decide_eq_true_eq] at himp
    linarith
  -- the old value of the neighbour and what the update does to the two sums
  have hsumU := sum_gScore_update cells unseenUnit st.gScore nb hnbcell (some (cur.gCost + w))
  have hsumP := sum_gScore_update cells (gUnits den bound) st.gScore nb hnbcell
    (some (cur.gCost + w))
  have hfloor : gUnits den bound (some (cur.gCost + w)) = kc + kw := by
    show ⌊(cur.gCost + w) * (den : ℚ)⌋₊ = kc + kw
    rw [htk, Nat.floor_natCast]
  have hold : (st.gScore nb = none ∧ 1 ≤ unseen cells st) ∨
      ∃ v0 k0 : Nat, st.gScore nb = some ((k0 : ℚ) / (den : ℚ)) ∧ v0 = k0 ∧ kc + kw < k0 ∧
        k0 + top * unseen cells st ≤ bound := by
    cases hgn : st.gScore nb with
    | none =>
      left
      refine ⟨rfl, ?_⟩
      have : unseenUnit (st.gScore nb) ≤ unseen cells st :=
        Finset.single_le_sum (f := fun q => unseenUnit (st.gScore q))
          (fun _ _ => Nat.zero_le _) hnbcell
      rw [hgn] at this
      exact this
    | some v0 =>
      right
      obtain ⟨k0, hk0, hk0b⟩ := hinv.g_units nb v0 hgn
      rw [hgn] at himp
      simp only [improves, decide_eq_true_eq] at himp
      have hlt : (cur.gCost + w) * (den : ℚ) < v0 * (den : ℚ) :=
        mul_lt_mul_of_pos_right himp hd
      rw [htk, hk0] at hlt
      have hlt2 : kc + kw < k0 := by exact_mod_cast hlt
      refine ⟨k0, k0, ?_, rfl, hlt2, hk0b⟩
      congr 1
      rw [← hk0]
      field_simp
  have hU2 : unseen cells
      { openSet := st.openSet ++ [⟨nb, cur.gCost + w, f⟩],
        cameFrom := fun q => if q = nb then some cur.pos else st.cameFrom q,
        gScore := fun q => if q = nb then some (cur.gCost + w) else st.gScore q } +
      unseenUnit (st.gScore nb) = unseen cells st := by
    have := hsumU
    simp only [unseenUnit, add_zero] at this
    exact this
  have hP2 : potential cells den bound
      { openSet := st.openSet ++ [⟨nb, cur.gCost + w, f⟩],
        cameFrom := fun q => if q = nb then some cur.pos else st.cameFrom q,
        gScore := fun q => if q = nb then some (cur.gCost + w) else st.gScore q } +
      gUnits den bound (st.gScore nb) = potential cells den bound st + (kc + kw) := by
    rw [← hfloor]
    exact hsumP
  have hnew : kc + kw + top * unseen cells
      { openSet := st.openSet ++ [⟨nb, cur.gCost + w, f⟩],
        cameFrom := fun q => if q = nb then some cur.pos else st.cameFrom q,
        gScore := fun q => if q = nb then some (cur.gCost + w) else st.gScore q } ≤ bound := by
    rcases hold with ⟨hn, hU⟩ | ⟨v0, k0, hn, _, hlt, hb⟩
    · rw [hn] at hU2
      simp only [unseenUnit] at hU2
      rw [← hU2] at hkcb
      nlinarith
    · rw [hn] at hU2
      simp only [unseenUnit, add_zero] at hU2
      rw [hU2]
      omega
  have hUle : unseen cells
      { openSet := st.openSet ++ [⟨nb, cur.gCost + w, f⟩],
        cameFrom := fun q => if q = nb then some cur.pos else st.cameFrom q,
        gScore := fun q => if q = nb then some (cur.gCost + w) else st.gScore q } ≤
      unseen cells st := by omega
  refine ⟨fun q => if q = nb then rank cur.pos + 1 else rank q, ?_, ?_, ?_⟩
  · constructor
    · show (if s = nb then some (cur.gCost + w) else st.gScore s) = some 0
      rw [if_neg (fun h => hnes h.symm)]
      exact hinv.g_start
    · intro n v hv
      have hv2 : (if n = nb then some (cur.gCost + w) else st.gScore n) = some v := hv
      by_cases hn : n = nb
      · rw [hn]; exact hnbcell
      · rw [if_neg hn] at hv2
        exact hinv.g_cells n v hv2
    · intro n v hv
      have hv2 : (if n = nb then some (cur.gCost + w) else st.gScore n) = some v := hv
      by_cases hn : n = nb
      · rw [if_pos hn] at hv2
        have hvv : cur.gCost + w = v := Option.some.inj hv2
        exact ⟨kc + kw, by rw [← hvv]; exact htk, hnew⟩
      · rw [if_neg hn] at hv2
        obtain ⟨k, hk, hkb⟩ := hinv.g_units n v hv2
        refine ⟨k, hk, ?_⟩
        have := Nat.mul_le_mul_left top hUle
        omega
    · intro n v hv hns
      have hv2 : (if n = nb then some (cur.gCost + w) else st.gScore n) = some v := hv
      by_cases hn : n = nb
      · rw [if_pos hn] at hv2
        have hvv : cur.gCost + w = v := Option.some.inj hv2
        refine ⟨cur.pos, cur.gCost, w, ?_, by rw [hn]; exact hnb, by rw [hn]; exact hmove,
          ?_, by rw [hvv], Or.inr ?_⟩
        · show (if n = nb then some cur.pos else st.cameFrom n) = some cur.pos
          rw [if_pos hn]
        · show (if cur.pos = nb then some (cur.gCost + w) else st.gScore cur.pos) =
            some cur.gCost
          rw [if_neg (fun h => hne h.symm)]
          exact hg
        · show (if cur.pos = nb then rank cur.pos + 1 else rank cur.pos) <
            (if n = nb then rank cur.pos + 1 else rank n)
          rw [if_neg (fun h => hne h.symm), if_pos hn]
          omega
      · rw [if_neg hn] at hv2
        obtain ⟨p, vp, w0, h1, h2, h3, h4, h5, h6⟩ := hinv.chain n v hv2 hns
        by_cases hp : p = nb
        · -- the parent is the improved cell: its value fell
          rcases hold with ⟨hnone, _⟩ | ⟨v0, k0, hsome, _, hlt, _⟩
          · rw [hp, hnone] at h4; cases h4
          · rw [hp, hsome] at h4
            have hvp : (k0 : ℚ) / (den : ℚ) = vp := Option.some.inj h4
            have hfall : cur.gCost + w < vp := by
              rw [← hvp, lt_div_iff₀ hd, htk]
              exact_mod_cast hlt
            refine ⟨p, cur.gCost + w, w0, ?_, h2, h3, ?_, by linarith, Or.inl (by linarith)⟩
            · show (if n = nb then some cur.pos else st.cameFrom n) = some p
              rw [if_neg hn]; exact h1
            · show (if p = nb then some (cur.gCost + w) else st.gScore p) = _
              rw [if_pos hp]
        · refine ⟨p, vp, w0, ?_, h2, h3, ?_, h5, ?_⟩
          · show (if n = nb then some cur.pos else st.cameFrom n) = some p
            rw [if_neg hn]; exact h1
          · show (if p = nb then some (cur.gCost + w) else st.gScore p) = _
            rw [if_neg hp]; exact h4
          · rcases h6 with h6 | h6
            · exact Or.inl h6
            · right
              show (if p = nb then rank cur.pos + 1 else rank p) <
                (if n = nb then rank cur.pos + 1 else rank n)
              rw [if_neg hp, if_neg hn]
              exact h6
    · intro e he
      have he2 : e ∈ st.openSet ++
          [⟨nb, cur.gCost + w, f⟩] := he
      rcases List.mem_append.1 he2 with he3 | he3
      · obtain ⟨v, hv, hle, hk⟩ := hinv.open_ok e he3
        by_cases hpos : e.pos = nb
        · refine ⟨cur.gCost + w, ?_, ?_, hk⟩
          · show (if e.pos = nb then some (cur.gCost + w) else st.gScore e.pos) = _
            rw [if_pos hpos]
          · rw [hpos] at hv
            rw [hv] at himp
            simp only [improves, decide_eq_true_eq] at himp
            linarith
        · refine ⟨v, ?_, hle, hk⟩
          show (if e.pos = nb then some (cur.gCost + w) else st.gScore e.pos) = _
          rw [if_neg hpos]; exact hv
      · simp only [List.mem_singleton] at he3
        rw [he3]
        refine ⟨cur.gCost + w, ?_, le_refl _, kc + kw, htk, by omega⟩
        show (if nb = nb then some (cur.gCost + w) else st.gScore nb) = _
        rw [if_pos rfl]
  · show (if cur.pos = nb then some (cur.gCost + w) else st.gScore cur.pos) = some cur.gCost
    rw [if_neg (fun h => hne h.symm)]
    exact hg
  · rw [List.length_append, List.length_singleton]
    have hdrop : potential cells den bound
        { openSet := st.openSet ++ [⟨nb, cur.gCost + w, f⟩],
          cameFrom := fun q => if q = nb then some cur.pos else st.cameFrom q,
          gScore := fun q => if q = nb then some (cur.gCost + w) else st.gScore q } + 1 ≤
        potential cells den bound st := by
      rcases hold with ⟨hn, hU⟩ | ⟨v0, k0, hn, _, hlt, hb⟩
      · rw [hn] at hP2
        simp only [gUnits] at hP2
        have hcap : kc + kw ≤ bound := by
          have := Nat.mul_le_mul_left top hU
          omega
        omega
      · rw [hn] at hP2
        have hfl : gUnits den bound (some ((k0 : ℚ) / (den : ℚ))) = k0 := by
          show ⌊(k0 : ℚ) / (den : ℚ) * (den : ℚ)⌋₊ = k0
          rw [div_mul_cancel₀ _ (ne_of_gt hd), Nat.floor_natCast]
        rw [hfl] at hP2
        omega
    omega


/-- One relaxation keeps the invariant and does not raise the measure of the loop. -/
theorem relax_weak {moveCost : GridPos → Option ℚ} {cells : Finset GridPos} {s : GridPos}
    {den top bound : Nat} (t : GridPos) (hden : 0 < den)
    (hmc : ∀ n w, moveCost n = some w →
      (∃ k : Nat, w * (den : ℚ) = (k : ℚ) ∧ k ≤ top) ∧ n ∈ cells)
    {cur : Node} {st : SearchState} {rank : GridPos → Nat} (nb : GridPos)
    (hnb : nb ∈ neighbours cur.pos)
    (hinv : WeakInv moveCost cells s den top bound st rank)
    (hg : st.gScore cur.pos = some cur.gCost) :
    ∃ rank2, WeakInv moveCost cells s den top bound (relax moveCost t cur st nb) rank2 ∧
      (relax moveCost t cur st nb).gScore cur.pos = some cur.gCost ∧
      (relax moveCost t cur st nb).openSet.length +
          2 * potential cells den bound (relax moveCost t cur st nb) ≤
        st.openSet.length + 2 * potential cells den bound st := by
  unfold relax
  cases hmove : moveCost nb with
  | none => exact ⟨rank, hinv, hg, le_refl _⟩
  | some w =>
    simp only []
    by_cases himp : improves (cur.gCost + w) (st.gScore nb) = true
    · rw [if_pos himp]
      exact push_weak hden hmc nb hnb hinv hg w hmove himp _
    · rw [if_neg himp]
      exact ⟨rank, hinv, hg, le_refl _⟩

end Maze
end TankMaze


namespace TankMaze
namespace Maze

/-- The relaxation of a list of neighbours keeps the invariant and does not raise the measure of
the loop. -/
theorem relaxAll_weak {moveCost : GridPos → Option ℚ} {cells : Finset GridPos} {s : GridPos}
    {den top bound : Nat} (t : GridPos) (hden : 0 < den)
    (hmc : ∀ n w, moveCost n = some w →
      (∃ k : Nat, w * (den : ℚ) = (k : ℚ) ∧ k ≤ top) ∧ n ∈ cells)
    {cur : Node} :
    ∀ (l : List GridPos) (st : SearchState) (rank : GridPos → Nat),
      (∀ b ∈ l, b ∈ neighbours cur.pos) →
      WeakInv moveCost cells s den top bound st rank →
      st.gScore cur.pos = some cur.gCost →
      ∃ rank2, WeakInv moveCost cells s den top bound (l.foldl (relax moveCost t cur) st) rank2 ∧
        (l.foldl (relax moveCost t cur) st).openSet.length +
            2 * potential cells den bound (l.foldl (relax moveCost t cur) st) ≤
          st.openSet.length + 2 * potential cells den bound st := by
  intro l
  induction l with
  | nil => intro st rank _ hinv _; exact ⟨rank, hinv, le_refl _⟩
  | cons b bs ih =>
    intro st rank hl hinv hg
    obtain ⟨rank1, hinv1, hg1, hle1⟩ := relax_weak t hden hmc b (hl b (List.mem_cons_self _ _))
      hinv hg
    obtain ⟨rank2, hinv2, hle2⟩ := ih _ rank1
      (fun c hc => hl c (List.mem_cons_of_mem _ hc)) hinv1 hg1
    exact ⟨rank2, hinv2, le_trans hle2 hle1⟩

/-- The search loop with non-negative move costs ends within a fuel above its measure, the
number of open entries plus twice the potential; when it ends with the target popped, the
invariant holds and the target has a `gScore`. -/
theorem searchLoop_weak {moveCost : GridPos → Option ℚ} {cells : Finset GridPos} {s : GridPos}
    {den top bound : Nat} (t : GridPos) (hden : 0 < den)
    (hmc : ∀ n w, moveCost n = some w →
      (∃ k : Nat, w * (den : ℚ) = (k : ℚ) ∧ k ≤ top) ∧ n ∈ cells) :
    ∀ (fuel : Nat) (st : SearchState) (rank : GridPos → Nat),
      WeakInv moveCost cells s den top bound st rank →
      st.openSet.length + 2 * potential cells den bound st < fuel →
      ∃ out, searchLoop moveCost t fuel st = some out ∧
        ∀ st2, out = some st2 →
          (∃ rank2, WeakInv moveCost cells s den top bound st2 rank2) ∧
          ∃ v, st2.gScore t = some v := by
  intro fuel
  induction fuel with
  | zero => intro st rank _ h; omega
  | succ k ih =>
    intro st rank hinv hfuel
    unfold searchLoop
    cases htop : pqTop st.openSet with
    | none => exact ⟨none, rfl, fun st2 h => by cases h⟩
    | some cur =>
      obtain ⟨hmem, _⟩ := pqTop_some htop
      simp only []
      have hinv1 : WeakInv moveCost cells s den top bound
          { st with openSet := st.openSet.erase cur } rank :=
        ⟨hinv.g_start, hinv.g_cells, hinv.g_units, hinv.chain,
          fun e he => hinv.open_ok e (List.mem_of_mem_erase he)⟩
      have hlen : (st.openSet.erase cur).length = st.openSet.length - 1 :=
        List.length_erase_of_mem hmem
      have hpos : 0 < st.openSet.length := List.length_pos_of_mem hmem
      have hpot : potential cells den bound { st with openSet := st.openSet.erase cur } =
          potential cells den bound st := rfl
      obtain ⟨v, hv, hvle, _⟩ := hinv.open_ok cur hmem
      by_cases htgt : cur.pos = t
      · rw [if_pos htgt]
        refine ⟨_, rfl, ?_⟩
        intro st2 h2
        have : st2 = { st with openSet := st.openSet.erase cur } := (Option.some.inj h2).symm
        rw [this]
        exact ⟨⟨rank, hinv1⟩, v, by rw [← htgt]; exact hv⟩
      · rw [if_neg htgt]
        by_cases hst : isStale cur.gCost (st.gScore cur.pos) = true
        · rw [if_pos hst]
          exact ih _ rank hinv1 (by rw [hpot, hlen]; omega)
        · rw [if_neg hst]
          have hg : st.gScore cur.pos = some cur.gCost := by
            rw [hv] at hst ⊢
            simp only [isStale, decide_eq_true_eq, gt_iff_lt, not_lt] at hst
            rw [le_antisymm hvle hst]
          obtain ⟨rank2, hinv2, hle2⟩ := relaxAll_weak t hden hmc (neighbours cur.pos)
            { st with openSet := st.openSet.erase cur } rank (fun b hb => hb) hinv1 hg
          refine ih _ rank2 hinv2 ?_
          rw [hpot] at hle2
          have hlen2 : ({ st with openSet := st.openSet.erase cur } : SearchState).openSet.length =
              st.openSet.length - 1 := hlen
          rw [hlen2] at hle2
          omega

/-- A state with one open entry for the start at `gCost` 0 and no other `gScore` satisfies the
invariant. -/
theorem weak_init_of (moveCost : GridPos → Option ℚ) (cells : Finset GridPos) (s : GridPos)
    (f : ℚ) (den top bound : Nat) (hs : s ∈ cells) (hb : top * cells.card ≤ bound)
    (st0 : SearchState) (hgs : ∀ n, st0.gScore n = if n = s then some 0 else none)
    (hop : st0.openSet = [⟨s, 0, f⟩]) :
    WeakInv moveCost cells s den top bound st0 (fun _ => 0) ∧
      1 + 2 * potential cells den bound st0 ≤ 1 + 2 * (cells.card * (bound + 1)) := by
  have hU : unseen cells st0 ≤ cells.card := by
    unfold unseen
    have := Finset.sum_le_card_nsmul cells (fun n => unseenUnit (st0.gScore n)) 1
      (fun n _ => by
        show unseenUnit (st0.gScore n) ≤ 1
        cases st0.gScore n <;> simp [unseenUnit])
    simpa using this
  have hP : potential cells den bound st0 ≤ cells.card * (bound + 1) := by
    unfold potential
    have := Finset.sum_le_card_nsmul cells
      (fun n => gUnits den bound (st0.gScore n)) (bound + 1)
      (fun n _ => by
        show gUnits den bound (st0.gScore n) ≤ bound + 1
        rw [hgs]
        by_cases hn : n = s
        · rw [if_pos hn]; simp [gUnits]
        · rw [if_neg hn]; simp [gUnits])
    simpa using this
  refine ⟨⟨?_, ?_, ?_, ?_, ?_⟩, ?_⟩
  · rw [hgs, if_pos rfl]
  · intro n v hv
    rw [hgs] at hv
    by_cases hn : n = s
    · rw [hn]; exact hs
    · rw [if_neg hn] at hv; cases hv
  · intro n v hv
    rw [hgs] at hv
    by_cases hn : n = s
    · rw [if_pos hn] at hv
      have : (0 : ℚ) = v := Option.some.inj hv
      refine ⟨0, by rw [← this]; simp, ?_⟩
      have := Nat.mul_le_mul_left top hU
      omega
    · rw [if_neg hn] at hv; cases hv
  · intro n v hv hns
    rw [hgs, if_neg hns] at hv; cases hv
  · intro e he
    rw [hop] at he
    simp only [List.mem_singleton] at he
    rw [he]
    refine ⟨0, ?_, le_refl _, 0, by simp, Nat.zero_le _⟩
    rw [hgs, if_pos rfl]
  · omega

/-- The state before the loop satisfies the invariant, whatever the `fCost` of its entry. -/
theorem weak_init (moveCost : GridPos → Option ℚ) (cells : Finset GridPos) (s : GridPos)
    (f : ℚ) (den top bound : Nat) (hs : s ∈ cells) (hb : top * cells.card ≤ bound) :
    WeakInv moveCost cells s den top bound
        { openSet := [⟨s, 0, f⟩], cameFrom := fun _ => none,
          gScore := fun q => if q = s then some 0 else none } (fun _ => 0) ∧
      1 + 2 * potential cells den bound
          { openSet := [⟨s, 0, f⟩], cameFrom := fun _ => none,
            gScore := fun q => if q = s then some 0 else none } ≤
        1 + 2 * (cells.card * (bound + 1)) :=
  weak_init_of moveCost cells s f den top bound hs hb _ (fun _ => rfl) rfl

/-- The walk back in a state that satisfies the invariant ends within `walkFuel`. -/
theorem walkBack_weak (m : Maze) {moveCost : GridPos → Option ℚ} {s : GridPos}
    {den top bound : Nat} {st : SearchState} {rank : GridPos → Nat} (hden : 0 < den)
    (hmc : ∀ n w, moveCost n = some w →
      (∃ k : Nat, w * (den : ℚ) = (k : ℚ) ∧ k ≤ top) ∧ n ∈ m.cellSet)
    (hinv : WeakInv moveCost m.cellSet s den top bound st rank)
    (n : GridPos) (v : ℚ) (hv : st.gScore n = some v) :
    ∃ fwd, walkBack st.cameFrom s (walkFuel m) n [] = some fwd.reverse ∧
      isWalk (fun x => ∃ w, moveCost x = some w) s fwd n ∧ (∀ c ∈ fwd, c ≠ s) ∧
      stepCosts moveCost fwd ≤ v := by
  have hd : (0 : ℚ) < (den : ℚ) := by exact_mod_cast hden
  apply walkBack_falling m
    (fun p n => (st.gScore p).getD 0 < (st.gScore n).getD 0 ∨
      ((st.gScore p).getD 0 = (st.gScore n).getD 0 ∧ rank p < rank n))
  · intro a h
    rcases h with h | h
    · exact lt_irrefl _ h
    · exact lt_irrefl _ h.2
  · intro a b c hab hbc
    rcases hab with hab | ⟨hab1, hab2⟩
    · rcases hbc with hbc | ⟨hbc1, _⟩
      · exact Or.inl (lt_trans hab hbc)
      · exact Or.inl (by rw [← hbc1]; exact hab)
    · rcases hbc with hbc | ⟨hbc1, hbc2⟩
      · exact Or.inl (by rw [hab1]; exact hbc)
      · exact Or.inr ⟨hab1.trans hbc1, lt_trans hab2 hbc2⟩
  · exact fun n v hv => weak_nonneg hden hinv n v hv
  · exact hinv.g_cells
  · intro n v hv hn
    obtain ⟨p, vp, w, h1, h2, h3, h4, h5, h6⟩ := hinv.chain n v hv hn
    refine ⟨p, vp, w, h1, h2, h3, h4, h5, ?_⟩
    obtain ⟨⟨kw, hkw, _⟩, _⟩ := hmc n w h3
    have hw0 : 0 ≤ w := by
      by_contra hc
      have : w * (den : ℚ) < 0 := mul_neg_of_neg_of_pos (not_le.1 hc) hd
      have hk0 : (0 : ℚ) ≤ (kw : ℚ) := by exact_mod_cast Nat.zero_le kw
      linarith
    rw [h4, hv]
    simp only [Option.getD_some]
    rcases h6 with h6 | h6
    · exact Or.inl (by linarith)
    · rcases lt_or_eq_of_le (show vp ≤ v by linarith) with h7 | h7
      · exact Or.inl h7
      · exact Or.inr ⟨h7, h6⟩
  · exact hv

/-- The move costs of `findPathThroughDestructible` for a cost `p / q ≥ 0` in lowest terms
are multiples of `1 / q`, none above `max p q / q`, and only in-bounds cells have one. -/
theorem destructibleMoveCost_units (m : Maze) (dc : ℚ) (hdc : 0 ≤ dc) :
    ∀ n w, destructibleMoveCost m dc n = some w →
      (∃ k : Nat, w * (dc.den : ℚ) = (k : ℚ) ∧ k ≤ max dc.num.toNat dc.den) ∧
        n ∈ m.cellSet := by
  intro n w h
  obtain ⟨h1, h2⟩ := (destructibleMoveCost_eq_some m dc n w).1 h
  refine ⟨?_, (mem_cellSet m n).2 h1.1⟩
  rw [h2]
  split_ifs
  · refine ⟨dc.num.toNat, ?_, le_max_left _ _⟩
    have hnum : 0 ≤ dc.num := Rat.num_nonneg.2 hdc
    have h3 : ((dc.num.toNat : Nat) : ℚ) = ((dc.num : Int) : ℚ) := by
      have : ((dc.num.toNat : Nat) : Int) = dc.num := Int.toNat_of_nonneg hnum
      exact_mod_cast this
    rw [h3]
    exact Rat.mul_den_eq_num dc
  · exact ⟨dc.den, by simp, le_max_right _ _⟩

/-- The search of `findPathThroughDestructible` with a cost of at least 0 ends within its fuel:
with an empty open set, or with the target popped, and then the walk back reaches the start
within its fuel and yields a walk through in-bounds non-Solid cells. -/
theorem weighted_search_ends (m : Maze) (s t : GridPos) (dc : ℚ) (hdc : 0 ≤ dc)
    (hs : s ∈ m.cellSet) :
    searchLoop (destructibleMoveCost m dc) t (weightedSearchFuel m dc) (searchInit s t) =
      some none ∨
    ∃ st fwd, searchLoop (destructibleMoveCost m dc) t (weightedSearchFuel m dc)
        (searchInit s t) = some (some st) ∧ t ∈ m.cellSet ∧
      walkBack st.cameFrom s (walkFuel m) t [] = some fwd.reverse ∧
      isWalk (fun x => ∃ w, destructibleMoveCost m dc x = some w) s fwd t ∧
      ∀ c ∈ fwd, c ≠ s := by
  have hmc := destructibleMoveCost_units m dc hdc
  have hcard := card_cellSet_le m
  have hb : max dc.num.toNat dc.den * m.cellSet.card ≤
      m.m_rows * m.m_cols * max dc.num.toNat dc.den := by
    rw [Nat.mul_comm]
    exact Nat.mul_le_mul_right _ hcard
  obtain ⟨hinv, hmeasure⟩ := weak_init (destructibleMoveCost m dc) m.cellSet s
    (heuristic s t) dc.den (max dc.num.toNat dc.den)
    (m.m_rows * m.m_cols * max dc.num.toNat dc.den) hs hb
  have hinv : WeakInv (destructibleMoveCost m dc) m.cellSet s dc.den (max dc.num.toNat dc.den)
      (m.m_rows * m.m_cols * max dc.num.toNat dc.den) (searchInit s t) (fun _ => 0) := hinv
  have hmeasure : (searchInit s t).openSet.length +
      2 * potential m.cellSet dc.den (m.m_rows * m.m_cols * max dc.num.toNat dc.den)
        (searchInit s t) ≤
      1 + 2 * (m.cellSet.card * (m.m_rows * m.m_cols * max dc.num.toNat dc.den + 1)) :=
    hmeasure
  have hfuel : (searchInit s t).openSet.length +
      2 * potential m.cellSet dc.den (m.m_rows * m.m_cols * max dc.num.toNat dc.den)
        (searchInit s t) < weightedSearchFuel m dc := by
    unfold weightedSearchFuel
    have h1 : m.cellSet.card * (m.m_rows * m.m_cols * max dc.num.toNat dc.den + 1) ≤
        m.m_rows * m.m_cols * (m.m_rows * m.m_cols * max dc.num.toNat dc.den + 1) :=
      Nat.mul_le_mul_right _ hcard
    have h2 : 2 * (m.m_rows * m.m_cols) *
        (m.m_rows * m.m_cols * max dc.num.toNat dc.den + 1) =
        2 * (m.m_rows * m.m_cols * (m.m_rows * m.m_cols * max dc.num.toNat dc.den + 1)) := by
      ring
    omega
  obtain ⟨out, hout, hpost⟩ := searchLoop_weak t dc.den_pos hmc _ _ _ hinv hfuel
  cases out with
  | none => exact Or.inl hout
  | some st =>
    right
    obtain ⟨⟨rank2, hinv2⟩, v, hv⟩ := hpost st rfl
    obtain ⟨fwd, e1, e2, e3, _⟩ := walkBack_weak m dc.den_pos hmc hinv2 t v hv
    exact ⟨st, fwd, hout, hinv2.g_cells t v hv, e1, e2, e3⟩

/-- For every cost of at least 0, `findPathThroughDestructible` returns a result. -/
theorem findPathThroughDestructible_returns (m : Maze) (start target : Vec2) (dc : ℚ)
    (hdc : 0 ≤ dc) : ∃ r, m.findPathThroughDestructible start target dc = some r := by
  unfold findPathThroughDestructible
  simp only []
  split_ifs with h1 h2
  · exact ⟨_, rfl⟩
  · exact ⟨_, rfl⟩
  · have hs : worldToGrid start ∈ m.cellSet := by
      rw [mem_cellSet]
      apply isWalkable_inBounds
      simpa using h1
    rcases weighted_search_ends m (worldToGrid start) (worldToGrid target) dc hdc hs with
      h | ⟨st, fwd, h, _, hw, _⟩
    · rw [h]; exact ⟨_, rfl⟩
    · rw [h]
      simp only []
      rw [hw]
      exact ⟨_, rfl⟩

end Maze
end TankMaze


namespace TankMaze
namespace Maze

/-- C2. When the cells of `start` and `target` are walkable and joined by a walk through
walkable cells, `findPath` returns a list whose number of waypoints is the least number of
4-neighbour steps of such a walk; it is the empty list when both points lie in the same cell. -/
theorem findPath_length_is_shortest (m : Maze) (start target : Vec2)
    (hs : m.walkableCell (worldToGrid start)) (ht : m.walkableCell (worldToGrid target))
    (hconn : ∃ cs, isWalk m.walkableCell (worldToGrid start) cs (worldToGrid target)) :
    ∃ p, m.findPath start target = some p ∧
      (∃ cs, isWalk m.walkableCell (worldToGrid start) cs (worldToGrid target) ∧
        cs.length = p.length) ∧
      (∀ cs, isWalk m.walkableCell (worldToGrid start) cs (worldToGrid target) →
        p.length ≤ cs.length) ∧
      (worldToGrid start = worldToGrid target → p = []) := by
  rcases findPath_outcome m start target hs ht with ⟨fwd, h1, h2, h3, h4⟩ | ⟨_, h2⟩
  · refine ⟨_, h1, ⟨fwd, h2, by simp⟩, ?_, ?_⟩
    · intro cs hcs
      simpa using h4 cs hcs
    · intro heq
      have := h4 [] (by simp [isWalk, heq])
      have hnil : fwd = [] := List.length_eq_zero.1 (by simpa using this)
      simp [hnil]
  · obtain ⟨cs, hcs⟩ := hconn
    exact absurd hcs (h2 cs)

/-- A two-cell corridor of Empty cells. -/
theorem findPath_length_is_shortest_witness :
    ∃ p, corridor2.findPath ⟨30, 30⟩ ⟨90, 30⟩ = some p ∧
      (∃ cs, isWalk corridor2.walkableCell (worldToGrid ⟨30, 30⟩) cs (worldToGrid ⟨90, 30⟩) ∧
        cs.length = p.length) ∧
      (∀ cs, isWalk corridor2.walkableCell (worldToGrid ⟨30, 30⟩) cs (worldToGrid ⟨90, 30⟩) →
        p.length ≤ cs.length) ∧
      (worldToGrid ⟨30, 30⟩ = worldToGrid ⟨90, 30⟩ → p = []) :=
  findPath_length_is_shortest corridor2 ⟨30, 30⟩ ⟨90, 30⟩
    (by unfold walkableCell; decide!) (by unfold walkableCell; decide!)
    ⟨[⟨1, 0⟩], by unfold isWalk isWalk walkableCell; decide!⟩

/-- C3. `findPath` always returns. A non-empty result is the list of centres of the cells of a
walk from the start cell to the target cell: every cell is walkable (hence in bounds), the first
is a 4-neighbour of the start cell, each later one a 4-neighbour of its predecessor, the last is
the target cell, and the centre of the start cell does not occur. When no walk through walkable
cells joins the two cells, the result is empty. -/
theorem findPath_is_walk (m : Maze) (start target : Vec2) :
    ∃ p, m.findPath start target = some p ∧
      (p ≠ [] → ∃ cs, p = cs.map gridToWorld ∧
        isWalk m.walkableCell (worldToGrid start) cs (worldToGrid target) ∧
        (∀ c ∈ cs, m.inBounds c.y c.x = true ∧
          (m.typeAt c.y c.x = WallType.None ∨ m.typeAt c.y c.x = WallType.Exit)) ∧
        p.getLast? = some (gridToWorld (worldToGrid target)) ∧
        gridToWorld (worldToGrid start) ∉ p) ∧
      ((¬ ∃ cs, isWalk m.walkableCell (worldToGrid start) cs (worldToGrid target)) → p = []) := by
  by_cases hs : m.walkableCell (worldToGrid start)
  · by_cases ht : m.walkableCell (worldToGrid target)
    · rcases findPath_outcome m start target hs ht with ⟨fwd, h1, h2, h3, h4⟩ | ⟨h1, h2⟩
      · refine ⟨_, h1, ?_, ?_⟩
        · intro hne
          have hfwd : fwd ≠ [] := by
            intro h; apply hne; simp [h]
          refine ⟨fwd, rfl, h2, ?_, ?_, ?_⟩
          · intro c hc
            have hw := isWalk_pass fwd _ _ h2 c hc
            refine ⟨isWalkable_inBounds hw, ?_⟩
            unfold walkableCell isWalkable at hw
            rw [isWalkable_inBounds hw] at hw
            simpa using hw
          · have := isWalk_getLast fwd _ _ h2 hfwd
            rw [List.getLast?_map, this]
            rfl
          · intro hmem
            obtain ⟨c, hc, hceq⟩ := List.mem_map.1 hmem
            exact h3 c hc (gridToWorld_injective hceq)
        · intro hno
          exact absurd ⟨fwd, h2⟩ hno
      · exact ⟨[], h1, fun h => absurd rfl h, fun _ => rfl⟩
    · refine ⟨[], ?_, fun h => absurd rfl h, fun _ => rfl⟩
      unfold walkableCell at ht
      unfold findPath
      simp [ht]
  · refine ⟨[], ?_, fun h => absurd rfl h, fun _ => rfl⟩
    unfold walkableCell at hs
    unfold findPath
    simp [hs]

end Maze
end TankMaze


namespace TankMaze
namespace Maze

/-- In exact arithmetic, for a cost `destructibleCost ≥ 1`, `findPathThroughDestructible`
returns, and when its path is non-empty the path is the list of centres of a walk from the start
cell to the target cell through in-bounds non-Solid cells whose cost (1 for each cell entered,
`destructibleCost` for each Destructible cell entered) is at most that of every such walk. -/
theorem findPathThroughDestructible_cost_minimal (m : Maze) (start target : Vec2)
    (destructibleCost : ℚ) (hdc : 1 ≤ destructibleCost) :
    ∃ r, m.findPathThroughDestructible start target destructibleCost = some r ∧
      (r.path ≠ [] → ∃ cells, r.path = cells.map gridToWorld ∧
        isWalk m.nonSolidCell (worldToGrid start) cells (worldToGrid target) ∧
        ∀ cs, isWalk m.nonSolidCell (worldToGrid start) cs (worldToGrid target) →
          walkCost m destructibleCost cells ≤ walkCost m destructibleCost cs) := by
  by_cases hs : m.walkableCell (worldToGrid start)
  · by_cases ht : (m.inBounds (worldToGrid target).y (worldToGrid target).x = true ∧
        m.typeAt (worldToGrid target).y (worldToGrid target).x = WallType.Solid)
    · refine ⟨{}, ?_, fun h => absurd rfl h⟩
      obtain ⟨h1, h2⟩ := ht
      obtain ⟨a, b, c, d⟩ := (inBounds_iff m _ _).1 h1
      unfold walkableCell at hs
      unfold findPathThroughDestructible
      simp [hs, h2, a, b, c, d]
    · rcases findPathThroughDestructible_outcome m start target destructibleCost hdc hs ht with
        ⟨fwd, h1, h2, _, h4⟩ | ⟨h1, _⟩
      · refine ⟨_, h1, fun _ => ⟨fwd, ?_, h2, h4⟩⟩
        have := (collect_spec m fwd {}).1
        simpa using this
      · exact ⟨{}, h1, fun h => absurd rfl h⟩
  · refine ⟨{}, ?_, fun h => absurd rfl h⟩
    unfold walkableCell at hs
    unfold findPathThroughDestructible
    simp [hs]

end Maze
end TankMaze


namespace TankMaze
namespace Maze

/-- C6. Default cost 3, a grid whose only Destructible cell is `D`, a walkable start cell. If the
shortest walk (through in-bounds non-Solid cells) from the start cell to the target cell that
enters `D` has `L` steps and every such walk that avoids `D` has more than `2 * L` steps, then
`findPathThroughDestructible` returns a path of `L` waypoints with `hasDestructibleWall = true`,
strictly shorter than the result of `findPath` whenever that result is non-empty, and the result
of `findPath` is empty when no walk avoids `D`. -/
theorem destructible_route_preferred (m : Maze) (start target : Vec2) (D : GridPos) (L : Nat)
    (hD : ∀ c : GridPos,
      (m.inBounds c.y c.x = true ∧ m.typeAt c.y c.x = WallType.Destructible) ↔ c = D)
    (hs : m.walkableCell (worldToGrid start))
    (hL : ∃ cs, isWalk m.nonSolidCell (worldToGrid start) cs (worldToGrid target) ∧ D ∈ cs ∧
      cs.length = L)
    (hmin : ∀ cs, isWalk m.nonSolidCell (worldToGrid start) cs (worldToGrid target) → D ∈ cs →
      L ≤ cs.length)
    (hdetour : ∀ cs, isWalk m.nonSolidCell (worldToGrid start) cs (worldToGrid target) → D ∉ cs →
      2 * L < cs.length) :
    ∃ r p, m.findPathThroughDestructible start target 3 = some r ∧
      m.findPath start target = some p ∧
      r.hasDestructibleWall = true ∧
      r.path.length = L ∧
      (p ≠ [] → r.path.length < p.length) ∧
      ((¬ ∃ cs, isWalk m.nonSolidCell (worldToGrid start) cs (worldToGrid target) ∧ D ∉ cs) →
        p = []) := by
  obtain ⟨cs1, hw1, hD1, hlen1⟩ := hL
  have hne1 : cs1 ≠ [] := List.ne_nil_of_mem hD1
  have hDdes : m.inBounds D.y D.x = true ∧ m.typeAt D.y D.x = WallType.Destructible :=
    (hD D).2 rfl
  -- the target is not Solid
  have ht : ¬ (m.inBounds (worldToGrid target).y (worldToGrid target).x = true ∧
      m.typeAt (worldToGrid target).y (worldToGrid target).x = WallType.Solid) := by
    rintro ⟨_, h2⟩
    exact (isWalk_end_pass cs1 _ _ hw1 hne1).1.2 h2
  -- a walk that enters `D` once, of `L` steps and cost `L + 2`
  obtain ⟨xs, vs, hw0, hx, hv, hle0⟩ := isWalk_once cs1 D _ _ hw1 hD1
  have hD0 : D ∈ xs ++ D :: vs := by simp
  have hlen0 : (xs ++ D :: vs).length = L := by
    have := hmin _ hw0 hD0
    omega
  have hinb : ∀ cs, isWalk m.nonSolidCell (worldToGrid start) cs (worldToGrid target) →
      ∀ c ∈ cs, m.inBounds c.y c.x = true :=
    fun cs h c hc => (isWalk_pass cs _ _ h c hc).1
  have hcost0 : walkCost m 3 (xs ++ D :: vs) = (L : ℚ) + 2 := by
    rw [walkCost_three m D hD _ (hinb _ hw0), hlen0]
    have : (xs ++ D :: vs).count D = 1 := by
      rw [List.count_append, List.count_cons_self, List.count_eq_zero_of_not_mem hx,
        List.count_eq_zero_of_not_mem hv]
    rw [this]
    norm_num
  have hL1 : 1 ≤ L := by
    rw [← hlen0]
    simp only [List.length_append, List.length_cons]
    omega
  rcases findPathThroughDestructible_outcome m start target 3 (by norm_num) hs ht with
    ⟨fwd, hr, hwf, _, hopt⟩ | ⟨_, hno⟩
  swap
  · exact absurd hw1 (hno cs1)
  have hcostf : walkCost m 3 fwd = (fwd.length : ℚ) + 2 * (fwd.count D : ℚ) :=
    walkCost_three m D hD _ (hinb _ hwf)
  have hoptf : (fwd.length : ℚ) + 2 * (fwd.count D : ℚ) ≤ (L : ℚ) + 2 := by
    rw [← hcostf, ← hcost0]
    exact hopt _ hw0
  have hoptn : fwd.length + 2 * fwd.count D ≤ L + 2 := by exact_mod_cast hoptf
  -- the returned walk enters `D`
  have hDf : D ∈ fwd := by
    by_contra hnot
    have h2 := hdetour fwd hwf hnot
    have hL2 : L = 1 := by omega
    have hnil : xs = [] ∧ vs = [] := by
      have : xs.length + (vs.length + 1) = 1 := by
        have h3 := hlen0
        simp only [List.length_append, List.length_cons] at h3
        omega
      exact ⟨List.length_eq_zero.1 (by omega), List.length_eq_zero.1 (by omega)⟩
    rw [hnil.1, hnil.2] at hw0
    have htD : D = worldToGrid target := hw0.2.2
    have hfne : fwd ≠ [] := by
      intro h; rw [h] at h2; simp at h2
    have := (isWalk_end_pass fwd _ _ hwf hfne).2
    rw [← htD] at this
    exact hnot this
  have hcnt : 1 ≤ fwd.count D := List.count_pos_iff.2 hDf
  have hlenf : fwd.length = L := by
    have := hmin fwd hwf hDf
    omega
  obtain ⟨c1, _, c3⟩ := collect_spec m fwd {}
  obtain ⟨d1, _, _⟩ := c3 rfl
  have hhas : (fwd.foldl (collectStep m) {}).hasDestructibleWall = true := by
    rw [d1, List.any_eq_true]
    exact ⟨D, hDf, (isDestructibleWall_iff m _ _).2 hDdes⟩
  have hplen : (fwd.foldl (collectStep m) {}).path.length = L := by
    rw [c1]; simpa using hlenf
  -- a walk through walkable cells avoids `D`
  have hwalk : ∀ cs, isWalk m.walkableCell (worldToGrid start) cs (worldToGrid target) →
      isWalk m.nonSolidCell (worldToGrid start) cs (worldToGrid target) ∧ D ∉ cs := by
    intro cs h
    refine ⟨isWalk_mono (fun c hc => (walkable_nonSolid hc).1) cs _ _ h, ?_⟩
    intro hc
    exact (walkable_nonSolid (isWalk_pass cs _ _ h D hc)).2 hDdes.2
  by_cases htw : m.walkableCell (worldToGrid target)
  · rcases findPath_outcome m start target hs htw with ⟨fwd2, hp, hw2, _, _⟩ | ⟨hp, _⟩
    · obtain ⟨hw3, hD3⟩ := hwalk fwd2 hw2
      have h2 := hdetour fwd2 hw3 hD3
      refine ⟨_, _, hr, hp, hhas, hplen, ?_, ?_⟩
      · intro _
        rw [hplen]
        simp only [List.length_map]
        omega
      · intro hno
        exact absurd ⟨fwd2, hw3, hD3⟩ hno
    · exact ⟨_, _, hr, hp, hhas, hplen, fun h => absurd rfl h, fun _ => rfl⟩
  · have hp : m.findPath start target = some [] := by
      unfold walkableCell at htw
      unfold findPath
      simp [htw]
    exact ⟨_, _, hr, hp, hhas, hplen, fun h => absurd rfl h, fun _ => rfl⟩

/-- The row Empty, Destructible, Empty, from the first cell to the third: the only walk of two
steps goes through the Destructible cell and no walk avoids it. -/
theorem destructible_route_preferred_witness :
    ∃ r p, breakable3.findPathThroughDestructible ⟨30, 30⟩ ⟨150, 30⟩ 3 = some r ∧
      breakable3.findPath ⟨30, 30⟩ ⟨150, 30⟩ = some p ∧
      r.hasDestructibleWall = true ∧
      r.path.length = 2 ∧
      (p ≠ [] → r.path.length < p.length) ∧
      ((¬ ∃ cs, isWalk breakable3.nonSolidCell (worldToGrid ⟨30, 30⟩) cs (worldToGrid ⟨150, 30⟩) ∧
        (⟨1, 0⟩ : GridPos) ∉ cs) → p = []) := by
  have e0 : worldToGrid ⟨30, 30⟩ = ⟨0, 0⟩ := by decide!
  have e2 : worldToGrid ⟨150, 30⟩ = ⟨2, 0⟩ := by decide!
  -- every walk from the first cell starts by entering the middle cell
  have hfirst : ∀ (c : GridPos), c ∈ neighbours ⟨0, 0⟩ → breakable3.nonSolidCell c → c = ⟨1, 0⟩ := by
    intro c hc hp
    have hb := (inBounds_iff breakable3 _ _).1 hp.1
    rcases mem_neighbours.1 hc with h | h | h | h <;> subst h <;>
      first
      | rfl
      | (exfalso; simp only [breakable3] at hb; omega)
  have hthrough : ∀ cs, isWalk breakable3.nonSolidCell ⟨0, 0⟩ cs ⟨2, 0⟩ →
      (⟨1, 0⟩ : GridPos) ∈ cs ∧ 2 ≤ cs.length := by
    intro cs h
    cases cs with
    | nil => simp [isWalk] at h
    | cons c rest =>
      have hc := hfirst c h.1 h.2.1
      subst hc
      refine ⟨List.mem_cons_self _ _, ?_⟩
      cases rest with
      | nil => have h3 := h.2.2; simp [isWalk] at h3
      | cons c2 rest2 => simp
  refine destructible_route_preferred breakable3 ⟨30, 30⟩ ⟨150, 30⟩ ⟨1, 0⟩ 2 ?_ ?_ ?_ ?_ ?_
  · intro c
    constructor
    · rintro ⟨hb, ht⟩
      have hb2 := (inBounds_iff breakable3 _ _).1 hb
      have hy : c.y = 0 := by
        have := hb2.1; have := hb2.2.1
        simp only [breakable3] at *
        omega
      have hx : c.x = 0 ∨ c.x = 1 ∨ c.x = 2 := by
        have := hb2.2.2.1; have := hb2.2.2.2
        simp only [breakable3] at *
        omega
      cases c with
      | mk x y =>
        simp only at hx hy ht
        subst hy
        rcases hx with hx | hx | hx <;> subst hx
        · exact absurd ht (by decide)
        · rfl
        · exact absurd ht (by decide)
    · intro h
      subst h
      exact ⟨by decide, by decide⟩
  · unfold walkableCell; decide!
  · rw [e0, e2]
    refine ⟨[⟨1, 0⟩, ⟨2, 0⟩], ?_, by simp, rfl⟩
    unfold isWalk isWalk isWalk nonSolidCell
    decide
  · rw [e0, e2]
    intro cs h _
    exact (hthrough cs h).2
  · rw [e0, e2]
    intro cs h hnot
    exact absurd (hthrough cs h).1 hnot

end Maze
end TankMaze


namespace TankMaze
namespace Maze

theorem not_walkable_of (m : Maze) (c : GridPos)
    (h : m.inBounds c.y c.x = false ∨ m.typeAt c.y c.x = WallType.Solid ∨
      m.typeAt c.y c.x = WallType.Destructible) :
    m.isWalkable c.y c.x = false := by
  unfold isWalkable
  rcases h with h | h | h
  · simp [h]
  · simp [h]
  · simp [h]

/-- The endpoint tests, for the cells that `worldToGrid` computes. `findPath` returns the empty
list when the computed start cell or target cell is out of bounds, Solid or Destructible.
`findPathThroughDestructible` returns the default result, with an empty path and
`hasDestructibleWall = false`, when the computed start cell is out of bounds or neither Empty
nor Exit, when the computed target cell is Solid, and (the search being run there, for a cost of
at least 0) when the computed target cell is out of bounds. A Destructible target cell is not
rejected: for a cost of at least 1, when a walk through non-Solid cells reaches it from a
walkable start cell, the returned path is non-empty and ends on the centre of the target cell. -/
theorem pathfinders_reject_impassable (m : Maze) (start target : Vec2) (destructibleCost : ℚ) :
    ((m.inBounds (worldToGrid start).y (worldToGrid start).x = false ∨
        m.typeAt (worldToGrid start).y (worldToGrid start).x = WallType.Solid ∨
        m.typeAt (worldToGrid start).y (worldToGrid start).x = WallType.Destructible ∨
        m.inBounds (worldToGrid target).y (worldToGrid target).x = false ∨
        m.typeAt (worldToGrid target).y (worldToGrid target).x = WallType.Solid ∨
        m.typeAt (worldToGrid target).y (worldToGrid target).x = WallType.Destructible) →
      m.findPath start target = some []) ∧
    ((m.inBounds (worldToGrid start).y (worldToGrid start).x = false ∨
        (m.typeAt (worldToGrid start).y (worldToGrid start).x ≠ WallType.None ∧
         m.typeAt (worldToGrid start).y (worldToGrid start).x ≠ WallType.Exit)) →
      m.findPathThroughDestructible start target destructibleCost = some {}) ∧
    ((m.inBounds (worldToGrid target).y (worldToGrid target).x = true ∧
        m.typeAt (worldToGrid target).y (worldToGrid target).x = WallType.Solid) →
      ∃ r, m.findPathThroughDestructible start target destructibleCost = some r ∧
        r.path = [] ∧ r.hasDestructibleWall = false) ∧
    (0 ≤ destructibleCost →
      m.inBounds (worldToGrid target).y (worldToGrid target).x = false →
      ∃ r, m.findPathThroughDestructible start target destructibleCost = some r ∧
        r.path = [] ∧ r.hasDestructibleWall = false) ∧
    (1 ≤ destructibleCost → m.walkableCell (worldToGrid start) →
      (m.inBounds (worldToGrid target).y (worldToGrid target).x = true ∧
        m.typeAt (worldToGrid target).y (worldToGrid target).x = WallType.Destructible) →
      (∃ cs, isWalk m.nonSolidCell (worldToGrid start) cs (worldToGrid target)) →
      ∃ r, m.findPathThroughDestructible start target destructibleCost = some r ∧
        r.path ≠ [] ∧ r.path.getLast? = some (gridToWorld (worldToGrid target)) ∧
        r.hasDestructibleWall = true) := by
  have hstartRej : m.isWalkable (worldToGrid start).y (worldToGrid start).x = false →
      m.findPathThroughDestructible start target destructibleCost = some {} := by
    intro h
    unfold findPathThroughDestructible
    simp [h]
  refine ⟨?_, ?_, ?_, ?_, ?_⟩
  · intro h
    have hw : m.isWalkable (worldToGrid start).y (worldToGrid start).x = false ∨
        m.isWalkable (worldToGrid target).y (worldToGrid target).x = false := by
      rcases h with h | h | h | h | h | h
      · exact Or.inl (not_walkable_of m _ (Or.inl h))
      · exact Or.inl (not_walkable_of m _ (Or.inr (Or.inl h)))
      · exact Or.inl (not_walkable_of m _ (Or.inr (Or.inr h)))
      · exact Or.inr (not_walkable_of m _ (Or.inl h))
      · exact Or.inr (not_walkable_of m _ (Or.inr (Or.inl h)))
      · exact Or.inr (not_walkable_of m _ (Or.inr (Or.inr h)))
    unfold findPath
    rcases hw with hw | hw <;> simp [hw]
  · intro h
    apply hstartRej
    unfold isWalkable
    rcases h with h | ⟨h1, h2⟩
    · simp [h]
    · simp [h1, h2]
  · rintro ⟨hin, hsol⟩
    by_cases hs : m.walkableCell (worldToGrid start)
    · refine ⟨{}, ?_, rfl, rfl⟩
      obtain ⟨a, b, c, d⟩ := (inBounds_iff m _ _).1 hin
      unfold walkableCell at hs
      unfold findPathThroughDestructible
      simp [hs, hsol, a, b, c, d]
    · refine ⟨{}, hstartRej ?_, rfl, rfl⟩
      unfold walkableCell at hs
      simpa using hs
  · intro hdc hout
    have hin : ¬ m.inBounds (worldToGrid target).y (worldToGrid target).x = true := by
      rw [hout]; simp
    by_cases hs : m.walkableCell (worldToGrid start)
    · have hsc : worldToGrid start ∈ m.cellSet := (mem_cellSet m _).2 (isWalkable_inBounds hs)
      rcases weighted_search_ends m (worldToGrid start) (worldToGrid target) destructibleCost
        hdc hsc with h | ⟨st, fwd, _, ht, _⟩
      · refine ⟨{}, ?_, rfl, rfl⟩
        have a : ¬ ((worldToGrid target).y ≥ 0 ∧
            (worldToGrid target).y < (m.m_rows : Int) ∧ (worldToGrid target).x ≥ 0 ∧
            (worldToGrid target).x < (m.m_cols : Int)) :=
          fun hc => hin ((inBounds_iff m _ _).2 hc)
        unfold walkableCell at hs
        unfold findPathThroughDestructible
        simp only []
        rw [if_neg (by simp [hs]), if_neg (fun hc => a ⟨hc.1, hc.2.1, hc.2.2.1, hc.2.2.2.1⟩), h]
      · exact absurd ((mem_cellSet m _).1 ht) hin
    · refine ⟨{}, hstartRej ?_, rfl, rfl⟩
      unfold walkableCell at hs
      simpa using hs
  · intro hdc hs htd hwalk
    have ht : ¬ (m.inBounds (worldToGrid target).y (worldToGrid target).x = true ∧
        m.typeAt (worldToGrid target).y (worldToGrid target).x = WallType.Solid) := by
      rintro ⟨_, h2⟩
      rw [htd.2] at h2
      exact absurd h2 (by decide)
    rcases findPathThroughDestructible_outcome m start target destructibleCost hdc hs ht with
      ⟨fwd, hr, hw, _, _⟩ | ⟨_, hno⟩
    · have hne : fwd ≠ [] := by
        intro hnil
        rw [hnil] at hw
        have heq : worldToGrid start = worldToGrid target := hw
        rw [← heq] at htd
        exact (walkable_nonSolid hs).2 htd.2
      obtain ⟨c1, _, c3⟩ := collect_spec m fwd {}
      obtain ⟨d1, _, _⟩ := c3 rfl
      have hpath : (fwd.foldl (collectStep m) {}).path = fwd.map gridToWorld := by
        simpa using c1
      refine ⟨_, hr, ?_, ?_, ?_⟩
      · rw [hpath]
        simpa using hne
      · rw [hpath, List.getLast?_map, isWalk_getLast fwd _ _ hw hne]
        rfl
      · rw [d1, List.any_eq_true]
        exact ⟨_, (isWalk_end_pass fwd _ _ hw hne).2, (isDestructibleWall_iff m _ _).2 htd⟩
    · obtain ⟨cs, hcs⟩ := hwalk
      exact absurd hcs (hno cs)

end Maze
end TankMaze


namespace TankMaze

/-! ### Vectors of vectors -/

theorem getD_set_eq {α : Type} (d : α) (l : List α) (i j : Nat) (v : α) (hi : i < l.length) :
    (l.set i v).getD j d = if j = i then v else l.getD j d := by
  simp only [List.getD_eq_getElem?_getD, List.getElem?_set]
  by_cases h : i = j
  · subst h; simp [hi]
  · have h2 : ¬ j = i := fun e => h e.symm
    simp [h, h2]

theorem get2_set2 {α : Type} (d : α) (m : List (List α)) (i j : Nat) (v : α)
    (hi : i < m.length) (hj : j < (m.getD i []).length) (i2 j2 : Nat) :
    get2 d (set2 m i j v) i2 j2 = if i2 = i ∧ j2 = j then v else get2 d m i2 j2 := by
  unfold get2 set2
  rw [getD_set_eq [] m i i2 _ hi]
  by_cases h1 : i2 = i
  · subst h1
    simp only [if_true, true_and]
    exact getD_set_eq d _ j j2 v hj
  · simp [h1]

theorem GridWF.set2 {α : Type} {w h : Int} {m : List (List α)} (hwf : GridWF w h m)
    (i j : Nat) (v : α) : GridWF w h (set2 m i j v) := by
  obtain ⟨h1, h2⟩ := hwf
  refine ⟨by simpa [TankMaze.set2] using h1, ?_⟩
  intro row hrow
  unfold TankMaze.set2 at hrow
  by_cases hi : i < m.length
  · rcases List.mem_or_eq_of_mem_set hrow with hr | hr
    · exact h2 row hr
    · rw [hr, List.length_set]
      apply h2
      rw [List.getD_eq_getElem?_getD, List.getElem?_eq_getElem hi]
      exact List.getElem_mem hi
  · rw [List.set_eq_of_length_le (by omega)] at hrow
    exact h2 row hrow

theorem GridWF.row_length {α : Type} {w h : Int} {m : List (List α)} (hwf : GridWF w h m)
    {i : Nat} (hi : (i : Int) < h) : ((m.getD i []).length : Int) = w := by
  obtain ⟨h1, h2⟩ := hwf
  have hi2 : i < m.length := by omega
  apply h2
  rw [List.getD_eq_getElem?_getD, List.getElem?_eq_getElem hi2]
  exact List.getElem_mem hi2

theorem inRange2_iff {α : Type} {w h : Int} {m : List (List α)} (hwf : GridWF w h m) (y x : Int) :
    inRange2 m y x = true ↔ (0 ≤ y ∧ y < h ∧ 0 ≤ x ∧ x < w) := by
  unfold inRange2
  rw [decide_eq_true_iff, hwf.1]
  constructor
  · rintro ⟨a, b, c, d⟩
    have := hwf.row_length (i := y.toNat) (by omega)
    exact ⟨a, b, c, by omega⟩
  · rintro ⟨a, b, c, d⟩
    have := hwf.row_length (i := y.toNat) (by omega)
    exact ⟨a, b, c, by omega⟩

theorem get2_default {α : Type} {w h : Int} (d : α) {m : List (List α)} (hwf : GridWF w h m)
    (i j : Nat) (hout : ¬ ((i : Int) < h ∧ (j : Int) < w)) : get2 d m i j = d := by
  unfold get2
  by_cases hi : (i : Int) < h
  · have hlen := hwf.row_length hi
    have hj : ¬ (j : Int) < w := fun hj => hout ⟨hi, hj⟩
    rw [List.getD_eq_getElem?_getD (l := m.getD i []), List.getElem?_eq_none (by omega)]
    rfl
  · have : m.length ≤ i := by have := hwf.1; omega
    rw [List.getD_eq_getElem?_getD (l := m), List.getElem?_eq_none this]
    rfl

/-! ### The working grid -/

theorem cellAt_outside {w h : Int} {grid : List (List Char)} (hwf : GridWF w h grid) (y x : Int)
    (hout : ¬ (0 ≤ y ∧ y < h ∧ 0 ≤ x ∧ x < w)) : cellAt grid y x = '#' := by
  unfold cellAt
  by_cases hp : 0 ≤ y ∧ 0 ≤ x
  · rw [if_pos hp]
    apply get2_default '#' hwf
    intro hc
    apply hout
    omega
  · rw [if_neg hp]

theorem gridSet_ok {w h : Int} {grid : List (List Char)} (hwf : GridWF w h grid) (y x : Int) (c : Char)
    (hin : 0 ≤ y ∧ y < h ∧ 0 ≤ x ∧ x < w) :
    gridSet grid y x c = Except.ok (set2 grid y.toNat x.toNat c) := by
  unfold gridSet
  rw [if_pos ((inRange2_iff hwf y x).2 hin)]

theorem gridSet_error {w h : Int} {grid : List (List Char)} (hwf : GridWF w h grid) (y x : Int) (c : Char)
    (hout : ¬ (0 ≤ y ∧ y < h ∧ 0 ≤ x ∧ x < w)) :
    gridSet grid y x c = Except.error GenError.outOfBounds := by
  unfold gridSet
  have : ¬ inRange2 grid y x = true := fun hc => hout ((inRange2_iff hwf y x).1 hc)
  rw [if_neg this]

theorem gridGet_ok {w h : Int} {grid : List (List Char)} (hwf : GridWF w h grid) (y x : Int)
    (hin : 0 ≤ y ∧ y < h ∧ 0 ≤ x ∧ x < w) :
    gridGet grid y x = Except.ok (cellAt grid y x) := by
  unfold gridGet cellAt
  rw [if_pos ((inRange2_iff hwf y x).2 hin), if_pos ⟨hin.1, hin.2.2.1⟩]

theorem cellAt_set2 {w h : Int} {grid : List (List Char)} (hwf : GridWF w h grid) (y x : Int) (c : Char)
    (hin : 0 ≤ y ∧ y < h ∧ 0 ≤ x ∧ x < w) (y2 x2 : Int) :
    cellAt (set2 grid y.toNat x.toNat c) y2 x2 =
      if y2 = y ∧ x2 = x then c else cellAt grid y2 x2 := by
  have hi : y.toNat < grid.length := by have := hwf.1; omega
  have hj : x.toNat < (grid.getD y.toNat []).length := by
    have := hwf.row_length (i := y.toNat) (by omega)
    omega
  unfold cellAt
  by_cases hp : 0 ≤ y2 ∧ 0 ≤ x2
  · rw [if_pos hp, if_pos hp, get2_set2 '#' grid _ _ c hi hj]
    by_cases he : y2 = y ∧ x2 = x
    · rw [if_pos he, if_pos ⟨by rw [he.1], by rw [he.2]⟩]
    · rw [if_neg he, if_neg]
      intro hc
      apply he
      omega
  · rw [if_neg hp, if_neg hp, if_neg]
    intro hc
    apply hp
    rw [hc.1, hc.2]
    exact ⟨hin.1, hin.2.2.1⟩

theorem GridWF.replicate {α : Type} (w h : Int) (hw : 0 ≤ w) (hh : 0 ≤ h) (a : α) :
    GridWF w h (List.replicate h.toNat (List.replicate w.toNat a)) := by
  refine ⟨by simp [hh], ?_⟩
  intro row hrow
  rw [List.eq_of_mem_replicate hrow]
  simp [hw]

theorem getD_replicate {α : Type} (d a : α) (n i : Nat) :
    (List.replicate n a).getD i d = if i < n then a else d := by
  rw [List.getD_eq_getElem?_getD]
  by_cases hy : i < n
  · rw [List.getElem?_eq_getElem (by simpa using hy)]
    simp [hy]
  · rw [List.getElem?_eq_none (by simpa using hy)]
    simp [hy]

theorem get2_replicate {α : Type} (d a : α) (n k i j : Nat) :
    get2 d (List.replicate n (List.replicate k a)) i j = if i < n ∧ j < k then a else d := by
  unfold get2
  rw [getD_replicate]
  by_cases hy : i < n
  · rw [if_pos hy, getD_replicate]
    by_cases hx : j < k <;> simp [hy, hx]
  · rw [if_neg hy]
    simp [hy]

theorem cellAt_replicate (w h : Int) (y x : Int) :
    cellAt (List.replicate h.toNat (List.replicate w.toNat '#')) y x = '#' := by
  unfold cellAt
  split_ifs with hp
  · rw [get2_replicate]
    split_ifs <;> rfl
  · rfl

end TankMaze


namespace TankMaze

/-! ### The shuffle is a permutation -/

theorem count_getElem_pos {α : Type} [DecidableEq α] (l : List α) (i : Nat) (h : i < l.length)
    (x : α) : (if l[i] = x then 1 else 0) ≤ l.count x := by
  split_ifs with hx
  · exact List.count_pos_iff.2 (hx ▸ List.getElem_mem h)
  · exact Nat.zero_le _

theorem swapAt_perm {α : Type} (l : List α) (i j : Nat) : (swapAt l i j).Perm l := by
  classical
  unfold swapAt
  cases hi : l[i]? with
  | none => exact List.Perm.refl _
  | some a =>
    cases hj : l[j]? with
    | none => exact List.Perm.refl _
    | some b =>
      simp only []
      obtain ⟨hil, hia⟩ := List.getElem?_eq_some_iff.1 hi
      obtain ⟨hjl, hjb⟩ := List.getElem?_eq_some_iff.1 hj
      rw [List.perm_iff_count]
      intro x
      by_cases hij : i = j
      · subst hij
        have hab : a = b := by rw [← hia, ← hjb]
        rw [List.set_set, ← hia, List.count_set l[i] x l i hil]
        have h1 := count_getElem_pos l i hil x
        simp only [beq_iff_eq] at h1 ⊢
        split_ifs at h1 ⊢ <;> omega
      · have hjl2 : j < (l.set i b).length := by simpa using hjl
        rw [List.count_set a x (l.set i b) j hjl2, List.count_set b x l i hil,
          List.getElem_set_ne hij]
        have h1 := count_getElem_pos l i hil x
        simp only [beq_iff_eq, hia, hjb] at h1 ⊢
        split_ifs at h1 ⊢ <;> omega

theorem shuffleLoop_perm {α : Type} :
    ∀ (n i : Nat) (l : List α) (r : Rng), (shuffleLoop n i l r).1.Perm l := by
  intro n
  induction n with
  | zero => intro i l r; exact List.Perm.refl _
  | succ k ih =>
    intro i l r
    unfold shuffleLoop
    exact (ih _ _ _).trans (swapAt_perm l i _)

theorem shuffleList_perm {α : Type} (l : List α) (r : Rng) : (shuffleList l r).1.Perm l :=
  shuffleLoop_perm _ _ l r

/-! ### Counting entries -/

theorem sum_map_set {β : Type} (f : β → Nat) :
    ∀ (l : List β) (i : Nat) (b : β) (h : i < l.length),
      ((l.set i b).map f).sum + f l[i] = (l.map f).sum + f b := by
  intro l
  induction l with
  | nil => intro i b h; simp at h
  | cons a as ih =>
    intro i b h
    cases i with
    | zero => simp; omega
    | succ k =>
      have hk : k < as.length := by simpa using h
      have := ih k b hk
      simp only [List.set_cons_succ, List.map_cons, List.sum_cons, List.getElem_cons_succ]
      omega

theorem count2_set2 {α : Type} [DecidableEq α] (a : α) (m : List (List α)) (i j : Nat) (v : α)
    (hi : i < m.length) (hj : j < (m.getD i []).length) (d : α) :
    count2 a (set2 m i j v) + (if get2 d m i j = a then 1 else 0) =
      count2 a m + (if v = a then 1 else 0) := by
  unfold count2 set2 get2
  have hrow : m.getD i [] = m[i] := by
    rw [List.getD_eq_getElem?_getD, List.getElem?_eq_getElem hi]; rfl
  rw [hrow] at hj ⊢
  have h1 := sum_map_set (List.count a) m i (m[i].set j v) hi
  have h2 := List.count_set v a m[i] j hj
  have h3 := count_getElem_pos m[i] j hj a
  have h4 : (m[i]).getD j d = (m[i])[j] := by
    rw [List.getD_eq_getElem?_getD, List.getElem?_eq_getElem hj]; rfl
  rw [h4]
  simp only [beq_iff_eq] at h2
  split_ifs at h2 h3 ⊢ <;> omega

/-! ### The interior cells -/

theorem mem_interior (w h : Int) (p : Int × Int) :
    p ∈ MazeGenerator.interior w h ↔ (1 ≤ p.2 ∧ p.2 < h - 1 ∧ 1 ≤ p.1 ∧ p.1 < w - 1) := by
  unfold MazeGenerator.interior
  rw [List.mem_flatMap]
  constructor
  · rintro ⟨y, hy, hp⟩
    rw [List.mem_map] at hp
    obtain ⟨x, hx, rfl⟩ := hp
    rw [List.mem_range'_1] at hy hx
    simp only
    omega
  · rintro ⟨h1, h2, h3, h4⟩
    refine ⟨p.2.toNat, ?_, ?_⟩
    · rw [List.mem_range'_1]; omega
    · rw [List.mem_map]
      refine ⟨p.1.toNat, ?_, ?_⟩
      · rw [List.mem_range'_1]; omega
      · cases p with
        | mk x y =>
          simp only at h1 h2 h3 h4
          simp only [Prod.mk.injEq]
          omega

end TankMaze


namespace TankMaze

theorem CarvePost.refl (g : MazeGenerator) (hwf : GridWF g.m_width g.m_height g.m_grid)
    (ha : onlyWallsAndFloor g.m_grid) : CarvePost g g :=
  ⟨rfl, rfl, hwf, ha, fun _ _ h => h, le_refl _, rfl⟩

theorem CarvePost.trans {g1 g2 g3 : MazeGenerator} (h12 : CarvePost g1 g2) (h23 : CarvePost g2 g3) :
    CarvePost g1 g3 := by
  refine ⟨h23.width_eq.trans h12.width_eq, h23.height_eq.trans h12.height_eq, ?_, h23.alphabet,
    fun y x h => h23.floor_kept y x (h12.floor_kept y x h), le_trans h23.walls_le h12.walls_le, ?_⟩
  · have := h23.wf
    rw [h12.width_eq, h12.height_eq] at this
    exact this
  · have e1 := h12.others
    have e2 := h23.others
    rw [e2, e1]

namespace MazeGenerator

/-! ### Carving -/

theorem carveDir_cases (dir : Nat) :
    (carveDx dir = 0 ∧ carveDy dir = -2) ∨ (carveDx dir = 2 ∧ carveDy dir = 0) ∨
    (carveDx dir = 0 ∧ carveDy dir = 2) ∨ (carveDx dir = -2 ∧ carveDy dir = 0) := by
  rcases dir with _ | _ | _ | d
  · left; exact ⟨rfl, rfl⟩
  · right; left; exact ⟨rfl, rfl⟩
  · right; right; left; exact ⟨rfl, rfl⟩
  · right; right; right; exact ⟨rfl, rfl⟩

/-- Writing `'.'` into an in-bounds cell of a grid over the alphabet `'#'`, `'.'`. -/
theorem set_floor_post (g : MazeGenerator) (hwf : GridWF g.m_width g.m_height g.m_grid)
    (ha : onlyWallsAndFloor g.m_grid) (y x : Int)
    (hin : 0 ≤ y ∧ y < g.m_height ∧ 0 ≤ x ∧ x < g.m_width) :
    CarvePost g { g with m_grid := set2 g.m_grid y.toNat x.toNat '.' } ∧
    (cellAt g.m_grid y x = '#' →
      count2 '#' (set2 g.m_grid y.toNat x.toNat '.') + 1 = count2 '#' g.m_grid) := by
  have hi : y.toNat < g.m_grid.length := by have := hwf.1; omega
  have hj : x.toNat < (g.m_grid.getD y.toNat []).length := by
    have := hwf.row_length (i := y.toNat) (by omega)
    omega
  have hcount := count2_set2 '#' g.m_grid y.toNat x.toNat '.' hi hj '#'
  have hcell : cellAt g.m_grid y x = get2 '#' g.m_grid y.toNat x.toNat := by
    unfold cellAt
    rw [if_pos ⟨hin.1, hin.2.2.1⟩]
  rw [← hcell] at hcount
  have hne : ¬ ('.' : Char) = '#' := by decide
  rw [if_neg hne] at hcount
  refine ⟨⟨rfl, rfl, hwf.set2 _ _ _, ?_, ?_, ?_, rfl⟩, ?_⟩
  · intro y2 x2
    simp only
    rw [cellAt_set2 hwf y x '.' hin]
    split_ifs
    · right; rfl
    · exact ha y2 x2
  · intro y2 x2 h
    simp only
    rw [cellAt_set2 hwf y x '.' hin]
    split_ifs
    · rfl
    · exact h
  · simp only
    omega
  · intro h
    rw [if_pos h] at hcount
    omega

theorem carveMid_cases (dir : Nat) :
    (carveDx dir = 0 ∧ carveDy dir = -2 ∧ Int.tdiv (carveDx dir) 2 = 0 ∧ Int.tdiv (carveDy dir) 2 = -1) ∨
    (carveDx dir = 2 ∧ carveDy dir = 0 ∧ Int.tdiv (carveDx dir) 2 = 1 ∧ Int.tdiv (carveDy dir) 2 = 0) ∨
    (carveDx dir = 0 ∧ carveDy dir = 2 ∧ Int.tdiv (carveDx dir) 2 = 0 ∧ Int.tdiv (carveDy dir) 2 = 1) ∨
    (carveDx dir = -2 ∧ carveDy dir = 0 ∧ Int.tdiv (carveDx dir) 2 = -1 ∧ Int.tdiv (carveDy dir) 2 = 0) := by
  rcases dir with _ | _ | _ | d
  · left; exact ⟨rfl, rfl, by decide, by decide⟩
  · right; left; exact ⟨rfl, rfl, by decide, by decide⟩
  · right; right; left; exact ⟨rfl, rfl, by decide, by decide⟩
  · right; right; right
    exact ⟨rfl, rfl, by show Int.tdiv (-2) 2 = -1; decide, by show Int.tdiv 0 2 = 0; decide⟩

/-- One direction of the loop of `carvePassage`, given the specification of the recursive
calls. -/
theorem carveStep_spec (fuel : Nat) (ih : CarveSpec fuel) (g : MazeGenerator) (cx cy : Int)
    (dir : Nat) (hwf : GridWF g.m_width g.m_height g.m_grid) (hint : isInterior g cx cy)
    (ha : onlyWallsAndFloor g.m_grid) (hfuel : count2 '#' g.m_grid ≤ fuel) :
    ∃ g2, carveStep (carvePassage fuel) cx cy g dir = Except.ok g2 ∧ CarvePost g g2 ∧
      ((isInterior g (cx + carveDx dir) (cy + carveDy dir) ∧
          cellAt g.m_grid (cy + carveDy dir) (cx + carveDx dir) = '#') →
        cellAt g2.m_grid (cy + Int.tdiv (carveDy dir) 2) (cx + Int.tdiv (carveDx dir) 2) = '.' ∧
        cellAt g2.m_grid (cy + carveDy dir) (cx + carveDx dir) = '.') ∧
      (¬ (isInterior g (cx + carveDx dir) (cy + carveDy dir) ∧
          cellAt g.m_grid (cy + carveDy dir) (cx + carveDx dir) = '#') → g2 = g) := by
  unfold carveStep
  simp only []
  have hmidfacts : ∀ (_ : isInterior g (cx + carveDx dir) (cy + carveDy dir)),
      (0 ≤ cy + Int.tdiv (carveDy dir) 2 ∧ cy + Int.tdiv (carveDy dir) 2 < g.m_height ∧
        0 ≤ cx + Int.tdiv (carveDx dir) 2 ∧ cx + Int.tdiv (carveDx dir) 2 < g.m_width) ∧
      ¬ (cy + carveDy dir = cy + Int.tdiv (carveDy dir) 2 ∧
        cx + carveDx dir = cx + Int.tdiv (carveDx dir) 2) := by
    intro hv
    unfold isInterior at hv hint
    rcases carveMid_cases dir with ⟨e1, e2, e3, e4⟩ | ⟨e1, e2, e3, e4⟩ | ⟨e1, e2, e3, e4⟩ |
      ⟨e1, e2, e3, e4⟩ <;> rw [e3, e4] <;> rw [e1, e2] at hv ⊢ <;> omega
  generalize cy + Int.tdiv (carveDy dir) 2 = my at hmidfacts ⊢
  generalize cx + Int.tdiv (carveDx dir) 2 = mx at hmidfacts ⊢
  generalize cy + carveDy dir = ny at hmidfacts ⊢
  generalize cx + carveDx dir = nx at hmidfacts ⊢
  by_cases hv : nx > 0 ∧ nx < g.m_width - 1 ∧ ny > 0 ∧ ny < g.m_height - 1
  · rw [if_pos hv]
    by_cases hc : cellAt g.m_grid ny nx = '#'
    · rw [if_pos hc]
      obtain ⟨hmid, hne⟩ := hmidfacts hv
      rw [gridSet_ok hwf _ _ '.' hmid]
      simp only []
      obtain ⟨hpost1, _⟩ := set_floor_post g hwf ha _ _ hmid
      have hcell1 : cellAt (set2 g.m_grid my.toNat mx.toNat '.') ny nx = '#' := by
        rw [cellAt_set2 hwf _ _ '.' hmid, if_neg hne]
        exact hc
      obtain ⟨g2, hrun, hpost2, hcell2, _⟩ := ih _ nx ny hpost1.wf hv hpost1.alphabet hcell1
        (le_trans hpost1.walls_le hfuel)
      refine ⟨g2, hrun, hpost1.trans hpost2, ?_, ?_⟩
      · intro _
        refine ⟨?_, hcell2⟩
        apply hpost2.floor_kept
        simp only
        rw [cellAt_set2 hwf _ _ '.' hmid, if_pos ⟨rfl, rfl⟩]
      · intro hn
        exact absurd ⟨hv, hc⟩ hn
    · rw [if_neg hc]
      exact ⟨g, rfl, CarvePost.refl g hwf ha, fun h => absurd h.2 hc, fun _ => rfl⟩
  · rw [if_neg hv]
    exact ⟨g, rfl, CarvePost.refl g hwf ha, fun h => absurd h.1 hv, fun _ => rfl⟩

/-- The loop over the shuffled directions. -/
theorem carveFold_spec (fuel : Nat) (ih : CarveSpec fuel) (cx cy : Int) :
    ∀ (dirs : List Nat) (g : MazeGenerator), GridWF g.m_width g.m_height g.m_grid →
      isInterior g cx cy → onlyWallsAndFloor g.m_grid → count2 '#' g.m_grid ≤ fuel →
      ∃ g2, dirs.foldlM (carveStep (carvePassage fuel) cx cy) g = Except.ok g2 ∧ CarvePost g g2 := by
  intro dirs
  induction dirs with
  | nil =>
    intro g hwf _ ha _
    exact ⟨g, rfl, CarvePost.refl g hwf ha⟩
  | cons d ds ihd =>
    intro g hwf hint ha hfuel
    obtain ⟨g1, hrun1, hpost1, _, _⟩ := carveStep_spec fuel ih g cx cy d hwf hint ha hfuel
    have hwf1 : GridWF g1.m_width g1.m_height g1.m_grid := by
      rw [hpost1.width_eq, hpost1.height_eq]; exact hpost1.wf
    have hint1 : isInterior g1 cx cy := by
      unfold isInterior at hint ⊢
      rw [hpost1.width_eq, hpost1.height_eq]; exact hint
    obtain ⟨g2, hrun2, hpost2⟩ := ihd g1 hwf1 hint1 hpost1.alphabet (le_trans hpost1.walls_le hfuel)
    refine ⟨g2, ?_, hpost1.trans hpost2⟩
    rw [List.foldlM_cons, hrun1]
    exact hrun2

/-- The recursion of `carvePassage` ends within a fuel equal to the number of wall cells. -/
theorem carvePassage_spec : ∀ fuel, CarveSpec fuel := by
  intro fuel
  induction fuel with
  | zero =>
    intro g cx cy hwf hint ha hc hfuel
    exfalso
    have hin : 0 ≤ cy ∧ cy < g.m_height ∧ 0 ≤ cx ∧ cx < g.m_width := by
      unfold isInterior at hint; omega
    have := (set_floor_post g hwf ha cy cx hin).2 hc
    omega
  | succ k ih =>
    intro g cx cy hwf hint ha hc hfuel
    have hin : 0 ≤ cy ∧ cy < g.m_height ∧ 0 ≤ cx ∧ cx < g.m_width := by
      unfold isInterior at hint; omega
    obtain ⟨hpost0, hcount0⟩ := set_floor_post g hwf ha cy cx hin
    have hcount := hcount0 hc
    unfold carvePassage
    simp only []
    rw [gridSet_ok hwf _ _ '.' hin]
    simp only []
    -- the state the loop starts from
    have hpostA : CarvePost g { g with m_rng := (shuffleList [0, 1, 2, 3] g.m_rng).2, m_grid := set2 g.m_grid cy.toNat cx.toNat '.' } :=
      ⟨rfl, rfl, hpost0.wf, hpost0.alphabet, hpost0.floor_kept, hpost0.walls_le, rfl⟩
    obtain ⟨g2, hrun, hpost2⟩ := carveFold_spec k ih cx cy (shuffleList [0, 1, 2, 3] g.m_rng).1 _
      hpostA.wf hint hpostA.alphabet (by simp only; omega)
    refine ⟨g2, hrun, hpostA.trans hpost2, ?_, ?_⟩
    · apply hpost2.floor_kept
      simp only
      rw [cellAt_set2 hwf _ _ '.' hin, if_pos ⟨rfl, rfl⟩]
    · have := hpost2.walls_le
      simp only at this
      omega

end MazeGenerator
end TankMaze


namespace TankMaze

/-! ### Extension of grids and connectivity -/

theorem GridExtends.unchanged (grid : List (List Char)) : GridExtends grid grid :=
  fun _ _ => Or.inl rfl

theorem GridExtends.compose {g1 g2 g3 : List (List Char)} (h12 : GridExtends g1 g2)
    (h23 : GridExtends g2 g3) : GridExtends g1 g3 := by
  intro y x
  rcases h12 y x with h | ⟨h1, h2⟩
  · rcases h23 y x with h' | ⟨h1', h2'⟩
    · left; rw [h', h]
    · right; exact ⟨by rw [← h]; exact h1', h2'⟩
  · rcases h23 y x with h' | ⟨h1', h2'⟩
    · right; exact ⟨h1, by rw [h', h2]⟩
    · right; exact ⟨h1, h2'⟩

theorem GridExtends.passage {g1 g2 : List (List Char)} (h : GridExtends g1 g2) (c : GridPos)
    (hc : passage g1 c) : passage g2 c := by
  unfold TankMaze.passage at hc ⊢
  rcases h c.y c.x with h1 | ⟨h1, h2⟩
  · rw [h1]; exact hc
  · rw [h2]; decide

theorem GridExtends.kept {g1 g2 : List (List Char)} (h : GridExtends g1 g2) (y x : Int)
    (hc : cellAt g1 y x ≠ '#') : cellAt g2 y x = cellAt g1 y x := by
  rcases h y x with h1 | ⟨h1, _⟩
  · exact h1
  · exact absurd h1 hc

theorem connected.mono {g1 g2 : List (List Char)} (h : GridExtends g1 g2) {a b : GridPos}
    (hc : connected g1 a b) : connected g2 a b := by
  obtain ⟨cells, hw⟩ := hc
  exact ⟨cells, Maze.isWalk_mono (fun c hp => h.passage c hp) cells a b hw⟩

theorem connected.step {grid : List (List Char)} {a p n : GridPos} (hc : connected grid a p)
    (hn : n ∈ Maze.neighbours p) (hp : passage grid n) : connected grid a n := by
  obtain ⟨cells, hw⟩ := hc
  exact ⟨cells ++ [n], Maze.isWalk_snoc cells a p hw hn hp⟩

theorem GridExtends.set_floor {w h : Int} {grid : List (List Char)} (hwf : GridWF w h grid)
    (y x : Int) (hin : 0 ≤ y ∧ y < h ∧ 0 ≤ x ∧ x < w) (hc : cellAt grid y x = '#') :
    GridExtends grid (set2 grid y.toNat x.toNat '.') := by
  intro y2 x2
  rw [cellAt_set2 hwf y x '.' hin]
  by_cases he : y2 = y ∧ x2 = x
  · rw [if_pos he, he.1, he.2]
    right; exact ⟨hc, rfl⟩
  · rw [if_neg he]
    left; rfl

/-- One step of a coordinate towards its target value. -/
theorem step_toward (x e w : Int) (hne : x ≠ e) (hx : 0 ≤ x ∧ x < w) (he : 0 ≤ e ∧ e < w) :
    |e - (x + (if e > x then 1 else -1))| + 1 = |e - x| ∧
    0 ≤ x + (if e > x then 1 else -1) ∧ x + (if e > x then 1 else -1) < w := by
  by_cases h : e > x
  · rw [if_pos h, abs_of_nonneg (by omega), abs_of_nonneg (by omega)]
    omega
  · rw [if_neg h, abs_of_nonpos (by omega), abs_of_nonpos (by omega)]
    omega

namespace MazeGenerator

/-! ### The staircase path of `ensurePath` -/

theorem carvePathLoop_spec (w h : Int) (endX endY : Int)
    (he : 0 ≤ endY ∧ endY < h ∧ 0 ≤ endX ∧ endX < w) :
    ∀ (fuel : Nat) (x y : Int) (grid : List (List Char)) (rng : Rng),
      GridWF w h grid → (0 ≤ y ∧ y < h ∧ 0 ≤ x ∧ x < w) →
      (|endX - x| + |endY - y|).toNat ≤ fuel →
      ∃ grid2 rng2, carvePathLoop endX endY fuel x y grid rng = Except.ok (grid2, rng2) ∧
        GridWF w h grid2 ∧ GridExtends grid grid2 ∧ connected grid2 ⟨x, y⟩ ⟨endX, endY⟩ := by
  intro fuel
  induction fuel with
  | zero =>
    intro x y grid rng hwf hin hfuel
    have hx : |endX - x| = 0 := by
      have := abs_nonneg (endX - x); have := abs_nonneg (endY - y); omega
    have hy : |endY - y| = 0 := by
      have := abs_nonneg (endX - x); have := abs_nonneg (endY - y); omega
    have ex : x = endX := by have := abs_eq_zero.1 hx; omega
    have ey : y = endY := by have := abs_eq_zero.1 hy; omega
    refine ⟨grid, rng, ?_, hwf, GridExtends.unchanged _, ⟨[], ?_⟩⟩
    · unfold carvePathLoop
      rw [if_neg (by rw [ex, ey]; simp)]
    · simp [Maze.isWalk, ex, ey]
  | succ k ih =>
    intro x y grid rng hwf hin hfuel
    unfold carvePathLoop
    by_cases hd : x ≠ endX ∨ y ≠ endY
    · rw [if_pos hd]
      simp only []
      generalize hxy : (if (decide (rng.next.1 % 2 = 0) = true ∧ x ≠ endX) then
          (x + (if endX > x then 1 else -1), y)
        else if y ≠ endY then (x, y + (if endY > y then 1 else -1))
        else if x ≠ endX then (x + (if endX > x then 1 else -1), y)
        else (x, y)) = xy
      -- the new cell is a neighbour, in bounds, one step closer to the end
      have hprop : (⟨xy.1, xy.2⟩ : GridPos) ∈ Maze.neighbours ⟨x, y⟩ ∧
          (0 ≤ xy.2 ∧ xy.2 < h ∧ 0 ≤ xy.1 ∧ xy.1 < w) ∧
          (|endX - xy.1| + |endY - xy.2|).toNat ≤ k := by
        have hnx := abs_nonneg (endX - x)
        have hny := abs_nonneg (endY - y)
        have hsx : ∀ (_ : x ≠ endX),
            (⟨x + (if endX > x then 1 else -1), y⟩ : GridPos) ∈ Maze.neighbours ⟨x, y⟩ ∧
            (0 ≤ y ∧ y < h ∧ 0 ≤ x + (if endX > x then 1 else -1) ∧
              x + (if endX > x then 1 else -1) < w) ∧
            (|endX - (x + (if endX > x then 1 else -1))| + |endY - y|).toNat ≤ k := by
          intro hne
          obtain ⟨s1, s2, s3⟩ := step_toward x endX w hne ⟨hin.2.2.1, hin.2.2.2⟩ ⟨he.2.2.1, he.2.2.2⟩
          refine ⟨?_, ⟨hin.1, hin.2.1, s2, s3⟩, by omega⟩
          rw [Maze.mem_neighbours]
          by_cases hgt : endX > x
          · rw [if_pos hgt]; right; left; rfl
          · rw [if_neg hgt]; right; right; right; rfl
        have hsy : ∀ (_ : y ≠ endY),
            (⟨x, y + (if endY > y then 1 else -1)⟩ : GridPos) ∈ Maze.neighbours ⟨x, y⟩ ∧
            (0 ≤ y + (if endY > y then 1 else -1) ∧ y + (if endY > y then 1 else -1) < h ∧
              0 ≤ x ∧ x < w) ∧
            (|endX - x| + |endY - (y + (if endY > y then 1 else -1))|).toNat ≤ k := by
          intro hne
          obtain ⟨s1, s2, s3⟩ := step_toward y endY h hne ⟨hin.1, hin.2.1⟩ ⟨he.1, he.2.1⟩
          refine ⟨?_, ⟨s2, s3, hin.2.2.1, hin.2.2.2⟩, by omega⟩
          rw [Maze.mem_neighbours]
          by_cases hgt : endY > y
          · rw [if_pos hgt]; right; right; left; rfl
          · rw [if_neg hgt]; left; rfl
        subst hxy
        by_cases c1 : decide (rng.next.1 % 2 = 0) = true ∧ x ≠ endX
        · rw [if_pos c1]
          exact hsx c1.2
        · rw [if_neg c1]
          by_cases c2 : y ≠ endY
          · rw [if_pos c2]
            exact hsy c2
          · rw [if_neg c2]
            have c3 : x ≠ endX := by
              rcases hd with hd | hd
              · exact hd
              · exact absurd hd c2
            rw [if_pos c3]
            exact hsx c3
      obtain ⟨hnb, hin2, hdist⟩ := hprop
      rw [gridGet_ok hwf _ _ hin2]
      simp only []
      by_cases hc : cellAt grid xy.2 xy.1 = '#'
      · rw [if_pos hc, gridSet_ok hwf _ _ '.' hin2]
        simp only []
        have hwf1 : GridWF w h (set2 grid xy.2.toNat xy.1.toNat '.') := hwf.set2 _ _ _
        have hext1 := GridExtends.set_floor hwf xy.2 xy.1 hin2 hc
        obtain ⟨grid2, rng2, hrun, hwf2, hext2, hconn⟩ := ih xy.1 xy.2 _ rng.next.2 hwf1 hin2 hdist
        refine ⟨grid2, rng2, hrun, hwf2, hext1.compose hext2, ?_⟩
        have hp : passage grid2 ⟨xy.1, xy.2⟩ := by
          apply hext2.passage
          unfold passage
          simp only
          rw [cellAt_set2 hwf _ _ '.' hin2, if_pos ⟨rfl, rfl⟩]
          decide
        obtain ⟨cells, hw⟩ := hconn
        exact ⟨⟨xy.1, xy.2⟩ :: cells, hnb, hp, hw⟩
      · rw [if_neg hc]
        obtain ⟨grid2, rng2, hrun, hwf2, hext2, hconn⟩ := ih xy.1 xy.2 grid rng.next.2 hwf hin2 hdist
        refine ⟨grid2, rng2, hrun, hwf2, hext2, ?_⟩
        have hp : passage grid2 ⟨xy.1, xy.2⟩ := hext2.passage _ hc
        obtain ⟨cells, hw⟩ := hconn
        exact ⟨⟨xy.1, xy.2⟩ :: cells, hnb, hp, hw⟩
    · rw [if_neg hd]
      have ex : x = endX := by by_contra hne; exact hd (Or.inl hne)
      have ey : y = endY := by by_contra hne; exact hd (Or.inr hne)
      exact ⟨grid, rng, rfl, hwf, GridExtends.unchanged _, ⟨[], by simp [Maze.isWalk, ex, ey]⟩⟩

end MazeGenerator
end TankMaze


namespace TankMaze
namespace MazeGenerator

/-! ### The breadth-first search of `ensurePath` -/

theorem bfsFold_spec (g : MazeGenerator) (s : GridPos) (x y : Int)
    (hxy : connected g.m_grid s ⟨x, y⟩) :
    ∀ (steps : List (Int × Int)) (qv : List (Int × Int) × List (List Bool)),
      (∀ d ∈ steps, (⟨x + d.1, y + d.2⟩ : GridPos) ∈ Maze.neighbours ⟨x, y⟩) →
      BfsInv g s qv.1 qv.2 →
      BfsInv g s
        (steps.foldl
          (fun (qv : List (Int × Int) × List (List Bool)) (d : Int × Int) =>
            if x + d.1 > 0 ∧ x + d.1 < g.m_width - 1 ∧ y + d.2 > 0 ∧ y + d.2 < g.m_height - 1 ∧
                visitedAt qv.2 (y + d.2) (x + d.1) = false then
              if cellAt g.m_grid (y + d.2) (x + d.1) ≠ '#' then
                (qv.1 ++ [(x + d.1, y + d.2)], set2 qv.2 (y + d.2).toNat (x + d.1).toNat true)
              else qv
            else qv) qv).1
        (steps.foldl
          (fun (qv : List (Int × Int) × List (List Bool)) (d : Int × Int) =>
            if x + d.1 > 0 ∧ x + d.1 < g.m_width - 1 ∧ y + d.2 > 0 ∧ y + d.2 < g.m_height - 1 ∧
                visitedAt qv.2 (y + d.2) (x + d.1) = false then
              if cellAt g.m_grid (y + d.2) (x + d.1) ≠ '#' then
                (qv.1 ++ [(x + d.1, y + d.2)], set2 qv.2 (y + d.2).toNat (x + d.1).toNat true)
              else qv
            else qv) qv).2 ∧
      (steps.foldl
          (fun (qv : List (Int × Int) × List (List Bool)) (d : Int × Int) =>
            if x + d.1 > 0 ∧ x + d.1 < g.m_width - 1 ∧ y + d.2 > 0 ∧ y + d.2 < g.m_height - 1 ∧
                visitedAt qv.2 (y + d.2) (x + d.1) = false then
              if cellAt g.m_grid (y + d.2) (x + d.1) ≠ '#' then
                (qv.1 ++ [(x + d.1, y + d.2)], set2 qv.2 (y + d.2).toNat (x + d.1).toNat true)
              else qv
            else qv) qv).1.length +
        count2 false (steps.foldl
          (fun (qv : List (Int × Int) × List (List Bool)) (d : Int × Int) =>
            if x + d.1 > 0 ∧ x + d.1 < g.m_width - 1 ∧ y + d.2 > 0 ∧ y + d.2 < g.m_height - 1 ∧
                visitedAt qv.2 (y + d.2) (x + d.1) = false then
              if cellAt g.m_grid (y + d.2) (x + d.1) ≠ '#' then
                (qv.1 ++ [(x + d.1, y + d.2)], set2 qv.2 (y + d.2).toNat (x + d.1).toNat true)
              else qv
            else qv) qv).2 ≤ qv.1.length + count2 false qv.2 := by
  intro steps
  induction steps with
  | nil => intro qv _ hinv; exact ⟨hinv, le_refl _⟩
  | cons d ds ih =>
    intro qv hnb hinv
    simp only [List.foldl_cons]
    have hd := hnb d (List.mem_cons_self _ _)
    have hds : ∀ d ∈ ds, (⟨x + d.1, y + d.2⟩ : GridPos) ∈ Maze.neighbours ⟨x, y⟩ :=
      fun e he => hnb e (List.mem_cons_of_mem _ he)
    by_cases hc : x + d.1 > 0 ∧ x + d.1 < g.m_width - 1 ∧ y + d.2 > 0 ∧ y + d.2 < g.m_height - 1 ∧
        visitedAt qv.2 (y + d.2) (x + d.1) = false
    · rw [if_pos hc]
      by_cases hp : cellAt g.m_grid (y + d.2) (x + d.1) ≠ '#'
      · rw [if_pos hp]
        obtain ⟨c1, c2, c3, c4, c5⟩ := hc
        have hi : (y + d.2).toNat < qv.2.length := by have := hinv.wf.1; omega
        have hj : (x + d.1).toNat < (qv.2.getD (y + d.2).toNat []).length := by
          have := hinv.wf.row_length (i := (y + d.2).toNat) (by omega)
          omega
        have hcount := count2_set2 false qv.2 (y + d.2).toNat (x + d.1).toNat true hi hj false
        have hvis : get2 false qv.2 (y + d.2).toNat (x + d.1).toNat = false := by
          unfold visitedAt at c5
          rw [if_pos ⟨by omega, by omega⟩] at c5
          exact c5
        rw [hvis] at hcount
        simp only [if_true, Bool.true_eq_false, if_false, add_zero] at hcount
        have hinv2 : BfsInv g s (qv.1 ++ [(x + d.1, y + d.2)])
            (set2 qv.2 (y + d.2).toNat (x + d.1).toNat true) := by
          refine ⟨hinv.wf.set2 _ _ _, ?_⟩
          intro p hp2
          rcases List.mem_append.1 hp2 with hp2 | hp2
          · exact hinv.reach p hp2
          · simp only [List.mem_singleton] at hp2
            subst hp2
            exact hxy.step hd hp
        obtain ⟨r1, r2⟩ := ih (qv.1 ++ [(x + d.1, y + d.2)],
          set2 qv.2 (y + d.2).toNat (x + d.1).toNat true) hds hinv2
        refine ⟨r1, le_trans r2 ?_⟩
        simp only [List.length_append, List.length_singleton]
        omega
      · rw [if_neg hp]
        exact ih qv hds hinv
    · rw [if_neg hc]
      exact ih qv hds hinv

theorem steps4_neighbours (x y : Int) :
    ∀ d ∈ steps4, (⟨x + d.1, y + d.2⟩ : GridPos) ∈ Maze.neighbours ⟨x, y⟩ := by
  intro d hd
  unfold steps4 at hd
  simp only [List.mem_cons, List.mem_singleton, List.not_mem_nil, or_false] at hd
  rw [Maze.mem_neighbours]
  rcases hd with h | h | h | h <;> subst h <;> simp [sub_eq_add_neg]

theorem bfsExpand_spec (g : MazeGenerator) (s : GridPos) (x y : Int)
    (queue : List (Int × Int)) (visited : List (List Bool))
    (hxy : connected g.m_grid s ⟨x, y⟩) (hinv : BfsInv g s queue visited) :
    BfsInv g s (bfsExpand g x y queue visited).1 (bfsExpand g x y queue visited).2 ∧
    (bfsExpand g x y queue visited).1.length + count2 false (bfsExpand g x y queue visited).2 ≤
      queue.length + count2 false visited := by
  unfold bfsExpand
  exact bfsFold_spec g s x y hxy steps4 (queue, visited) (steps4_neighbours x y) hinv

/-- The search ends within its fuel, and it answers `true` only when the end cell is connected
to the start cell. -/
theorem bfsLoop_spec (g : MazeGenerator) (s : GridPos) (endX endY : Int) :
    ∀ (fuel : Nat) (queue : List (Int × Int)) (visited : List (List Bool)),
      BfsInv g s queue visited → queue.length + count2 false visited < fuel →
      ∃ b, bfsLoop g endX endY fuel queue visited = Except.ok b ∧
        (b = true → connected g.m_grid s ⟨endX, endY⟩) := by
  intro fuel
  induction fuel with
  | zero => intro queue visited _ h; omega
  | succ k ih =>
    intro queue visited hinv hfuel
    cases queue with
    | nil => exact ⟨false, rfl, fun h => absurd h (by simp)⟩
    | cons p rest =>
      obtain ⟨x, y⟩ := p
      unfold bfsLoop
      by_cases he : x = endX ∧ y = endY
      · rw [if_pos he]
        refine ⟨true, rfl, fun _ => ?_⟩
        have := hinv.reach (x, y) (List.mem_cons_self _ _)
        rw [he.1, he.2] at this
        exact this
      · rw [if_neg he]
        simp only []
        have hxy := hinv.reach (x, y) (List.mem_cons_self _ _)
        have hinv2 : BfsInv g s rest visited :=
          ⟨hinv.wf, fun p hp => hinv.reach p (List.mem_cons_of_mem _ hp)⟩
        obtain ⟨r1, r2⟩ := bfsExpand_spec g s x y rest visited hxy hinv2
        apply ih _ _ r1
        simp only [List.length_cons] at hfuel
        omega

theorem count2_replicate_le {α : Type} [DecidableEq α] (a : α) (w h : Nat) :
    count2 a (List.replicate h (List.replicate w a)) ≤ w * h := by
  unfold count2
  rw [List.map_replicate, List.sum_replicate]
  simp only [List.count_replicate_self, smul_eq_mul]
  rw [Nat.mul_comm]

/-- The function `ensurePath` succeeds on in-bounds end points, only opens walls, and leaves
the end cell connected to the start cell. -/
theorem ensurePath_spec (g : MazeGenerator) (startX startY endX endY : Int)
    (hwf : GridWF g.m_width g.m_height g.m_grid)
    (hs : 0 ≤ startY ∧ startY < g.m_height ∧ 0 ≤ startX ∧ startX < g.m_width)
    (he : 0 ≤ endY ∧ endY < g.m_height ∧ 0 ≤ endX ∧ endX < g.m_width) :
    ∃ g2, ensurePath g startX startY endX endY = Except.ok g2 ∧
      GridWF g.m_width g.m_height g2.m_grid ∧ GridExtends g.m_grid g2.m_grid ∧
      connected g2.m_grid ⟨startX, startY⟩ ⟨endX, endY⟩ ∧
      g2 = { g with m_grid := g2.m_grid, m_rng := g2.m_rng } := by
  have hw0 : 0 ≤ g.m_width := by omega
  have hh0 : 0 ≤ g.m_height := by omega
  have hwfv : GridWF g.m_width g.m_height
      (List.replicate g.m_height.toNat (List.replicate g.m_width.toNat false)) :=
    GridWF.replicate _ _ hw0 hh0 false
  unfold ensurePath
  simp only []
  have hvs : visitedSet (List.replicate g.m_height.toNat (List.replicate g.m_width.toNat false))
      startY startX = Except.ok (set2 (List.replicate g.m_height.toNat
        (List.replicate g.m_width.toNat false)) startY.toNat startX.toNat true) := by
    unfold visitedSet
    rw [if_pos ((inRange2_iff hwfv startY startX).2 hs)]
  rw [hvs]
  simp only []
  have hinv : BfsInv g ⟨startX, startY⟩ [(startX, startY)]
      (set2 (List.replicate g.m_height.toNat (List.replicate g.m_width.toNat false))
        startY.toNat startX.toNat true) := by
    refine ⟨hwfv.set2 _ _ _, ?_⟩
    intro p hp
    simp only [List.mem_singleton] at hp
    subst hp
    exact ⟨[], rfl⟩
  have hmeasure : [(startX, startY)].length +
      count2 false (set2 (List.replicate g.m_height.toNat (List.replicate g.m_width.toNat false))
        startY.toNat startX.toNat true) < g.m_width.toNat * g.m_height.toNat + 2 := by
    have hi : startY.toNat < (List.replicate g.m_height.toNat
        (List.replicate g.m_width.toNat false)).length := by simp; omega
    have hj : startX.toNat < ((List.replicate g.m_height.toNat
        (List.replicate g.m_width.toNat false)).getD startY.toNat []).length := by
      have := hwfv.row_length (i := startY.toNat) (by omega)
      omega
    have hcount := count2_set2 false _ startY.toNat startX.toNat true hi hj false
    have hle := count2_replicate_le false g.m_width.toNat g.m_height.toNat
    simp only [Bool.true_eq_false, if_false, add_zero] at hcount
    simp only [List.length_singleton]
    split_ifs at hcount <;> omega
  obtain ⟨b, hb, hbt⟩ := bfsLoop_spec g ⟨startX, startY⟩ endX endY _ _ _ hinv hmeasure
  rw [hb]
  cases b with
  | true =>
    exact ⟨g, rfl, hwf, GridExtends.unchanged _, hbt rfl, rfl⟩
  | false =>
    simp only []
    obtain ⟨grid2, rng2, hrun, hwf2, hext, hconn⟩ := carvePathLoop_spec g.m_width g.m_height
      endX endY he (|endX - startX| + |endY - startY|).toNat startX startY g.m_grid g.m_rng hwf hs
      (le_refl _)
    rw [hrun]
    exact ⟨_, rfl, hwf2, hext, hconn, rfl⟩

end MazeGenerator
end TankMaze


namespace TankMaze
namespace MazeGenerator

/-! ### The carving started by `generate` -/

/-- The loop over the directions opens the first direction that it finds closed: when some
listed direction leads to a closed interior cell, the loop ends with both the cell between and
the cell beyond some direction open. -/
theorem carveFold_opens (fuel : Nat) (ih : CarveSpec fuel) (cx cy : Int) :
    ∀ (dirs : List Nat) (g : MazeGenerator), GridWF g.m_width g.m_height g.m_grid →
      isInterior g cx cy → onlyWallsAndFloor g.m_grid → count2 '#' g.m_grid ≤ fuel →
      (∃ d ∈ dirs, isInterior g (cx + carveDx d) (cy + carveDy d) ∧
        cellAt g.m_grid (cy + carveDy d) (cx + carveDx d) = '#') →
      ∃ g2, dirs.foldlM (carveStep (carvePassage fuel) cx cy) g = Except.ok g2 ∧ CarvePost g g2 ∧
        ∃ d, isInterior g (cx + carveDx d) (cy + carveDy d) ∧
          cellAt g2.m_grid (cy + Int.tdiv (carveDy d) 2) (cx + Int.tdiv (carveDx d) 2) = '.' ∧
          cellAt g2.m_grid (cy + carveDy d) (cx + carveDx d) = '.' := by
  intro dirs
  induction dirs with
  | nil =>
    intro g _ _ _ _ hex
    obtain ⟨d, hd, _⟩ := hex
    exact absurd hd (List.not_mem_nil d)
  | cons d ds ihd =>
    intro g hwf hint ha hfuel hex
    obtain ⟨g1, hrun1, hpost1, hopen, hsame⟩ := carveStep_spec fuel ih g cx cy d hwf hint ha hfuel
    have hwf1 : GridWF g1.m_width g1.m_height g1.m_grid := by
      rw [hpost1.width_eq, hpost1.height_eq]; exact hpost1.wf
    have hint1 : isInterior g1 cx cy := by
      unfold isInterior at hint ⊢
      rw [hpost1.width_eq, hpost1.height_eq]; exact hint
    rw [List.foldlM_cons, hrun1]
    by_cases hd : isInterior g (cx + carveDx d) (cy + carveDy d) ∧
        cellAt g.m_grid (cy + carveDy d) (cx + carveDx d) = '#'
    · obtain ⟨hmid, htarget⟩ := hopen hd
      obtain ⟨g2, hrun2, hpost2⟩ := carveFold_spec fuel ih cx cy ds g1 hwf1 hint1 hpost1.alphabet
        (le_trans hpost1.walls_le hfuel)
      exact ⟨g2, hrun2, hpost1.trans hpost2, d, hd.1, hpost2.floor_kept _ _ hmid,
        hpost2.floor_kept _ _ htarget⟩
    · have hg1 := hsame hd
      subst hg1
      obtain ⟨e, he, hegood⟩ := hex
      have hne : e ≠ d := by
        intro h
        rw [h] at hegood
        exact hd hegood
      have hmem : e ∈ ds := by
        rcases List.mem_cons.1 he with h | h
        · exact absurd h hne
        · exact h
      exact ihd g1 hwf hint ha hfuel ⟨e, hmem, hegood⟩

/-- A call of `carvePassage` at a closed cell that has a closed interior cell two steps away
opens at least three cells in a row. -/
theorem carvePassage_opens (fuel : Nat) (g : MazeGenerator) (cx cy : Int)
    (hwf : GridWF g.m_width g.m_height g.m_grid) (hint : isInterior g cx cy)
    (ha : onlyWallsAndFloor g.m_grid) (hc : cellAt g.m_grid cy cx = '#')
    (hfuel : count2 '#' g.m_grid ≤ fuel)
    (hex : ∃ d, d < 4 ∧ isInterior g (cx + carveDx d) (cy + carveDy d) ∧
      cellAt g.m_grid (cy + carveDy d) (cx + carveDx d) = '#') :
    ∃ g2, carvePassage fuel cx cy g = Except.ok g2 ∧ CarvePost g g2 ∧
      cellAt g2.m_grid cy cx = '.' ∧
      ∃ d, isInterior g (cx + carveDx d) (cy + carveDy d) ∧
        cellAt g2.m_grid (cy + Int.tdiv (carveDy d) 2) (cx + Int.tdiv (carveDx d) 2) = '.' ∧
        cellAt g2.m_grid (cy + carveDy d) (cx + carveDx d) = '.' := by
  have hin : 0 ≤ cy ∧ cy < g.m_height ∧ 0 ≤ cx ∧ cx < g.m_width := by
    unfold isInterior at hint; omega
  obtain ⟨hpost0, hcount0⟩ := set_floor_post g hwf ha cy cx hin
  have hcount := hcount0 hc
  cases fuel with
  | zero => omega
  | succ k =>
    unfold carvePassage
    simp only []
    rw [gridSet_ok hwf _ _ '.' hin]
    simp only []
    have hpostA : CarvePost g { g with m_rng := (shuffleList [0, 1, 2, 3] g.m_rng).2, m_grid := set2 g.m_grid cy.toNat cx.toNat '.' } :=
      ⟨rfl, rfl, hpost0.wf, hpost0.alphabet, hpost0.floor_kept, hpost0.walls_le, rfl⟩
    obtain ⟨d, hd4, hdint, hdcell⟩ := hex
    have hdmem : d ∈ (shuffleList [0, 1, 2, 3] g.m_rng).1 := by
      rw [(shuffleList_perm [0, 1, 2, 3] g.m_rng).mem_iff]
      simp only [List.mem_cons, List.mem_singleton, List.not_mem_nil, or_false]
      omega
    have hne : ¬ (cy + carveDy d = cy ∧ cx + carveDx d = cx) := by
      rcases carveDir_cases d with ⟨e1, e2⟩ | ⟨e1, e2⟩ | ⟨e1, e2⟩ | ⟨e1, e2⟩ <;>
        rw [e1, e2] <;> omega
    obtain ⟨g2, hrun, hpost2, e, heint, hemid, hetarget⟩ := carveFold_opens k (carvePassage_spec k)
      cx cy (shuffleList [0, 1, 2, 3] g.m_rng).1 _ hpostA.wf hint hpostA.alphabet
      (by simp only; omega)
      ⟨d, hdmem, hdint, by
        simp only
        rw [cellAt_set2 hwf _ _ '.' hin, if_neg hne]
        exact hdcell⟩
    refine ⟨g2, hrun, hpostA.trans hpost2, ?_, e, heint, hemid, hetarget⟩
    apply hpost2.floor_kept
    simp only
    rw [cellAt_set2 hwf _ _ '.' hin, if_pos ⟨rfl, rfl⟩]

/-- Three different listed cells make a list of length three at least. -/
theorem length_ge_three {α : Type} [DecidableEq α] (l : List α) (a b c : α)
    (ha : a ∈ l) (hb : b ∈ l) (hc : c ∈ l) (hab : a ≠ b) (hac : a ≠ c) (hbc : b ≠ c) :
    3 ≤ l.length := by
  have hnd : [a, b, c].Nodup := by
    simp only [List.nodup_cons, List.mem_cons, List.mem_singleton, List.not_mem_nil,
      List.nodup_nil, not_or, or_false, not_false_eq_true, and_true]
    exact ⟨⟨hab, hac⟩, hbc⟩
  have hsub : [a, b, c] ⊆ l := by
    intro x hx
    simp only [List.mem_cons, List.mem_singleton, List.not_mem_nil, or_false] at hx
    rcases hx with h | h | h <;> rw [h] <;> assumption
  exact (List.subperm_of_subset hnd hsub).length_le

theorem mem_getEmptySpaces (g : MazeGenerator) (p : Int × Int) :
    p ∈ getEmptySpaces g ↔
      (1 ≤ p.2 ∧ p.2 < g.m_height - 1 ∧ 1 ≤ p.1 ∧ p.1 < g.m_width - 1) ∧
        cellAt g.m_grid p.2 p.1 = '.' := by
  unfold getEmptySpaces
  rw [List.mem_filter, mem_interior]
  simp only [decide_eq_true_eq]

/-- The grid that `generate` starts from and its carving from `(1, 1)`: the carving ends
within its fuel, leaves a grid of walls and floors with `(1, 1)` open, and opens three interior
cells at least unless the grid is smaller than five by five in both directions. -/
theorem carve_initial (g : MazeGenerator) (hw : 3 ≤ g.m_width) (hh : 3 ≤ g.m_height)
    (hgrid : g.m_grid = List.replicate g.m_height.toNat (List.replicate g.m_width.toNat '#')) :
    ∃ g1, carvePassage (g.m_width.toNat * g.m_height.toNat) 1 1 g = Except.ok g1 ∧
      CarvePost g g1 ∧ cellAt g1.m_grid 1 1 = '.' ∧
      ((5 ≤ g.m_width ∨ 5 ≤ g.m_height) → 3 ≤ (getEmptySpaces g1).length) := by
  have hwf : GridWF g.m_width g.m_height g.m_grid := by
    rw [hgrid]; exact GridWF.replicate _ _ (by omega) (by omega) '#'
  have hall : ∀ y x, cellAt g.m_grid y x = '#' := by
    intro y x
    rw [hgrid]
    exact cellAt_replicate _ _ y x
  have ha : onlyWallsAndFloor g.m_grid := fun y x => Or.inl (hall y x)
  have hint : isInterior g 1 1 := by unfold isInterior; omega
  have hfuel : count2 '#' g.m_grid ≤ g.m_width.toNat * g.m_height.toNat := by
    rw [hgrid]; exact count2_replicate_le '#' _ _
  by_cases hbig : 5 ≤ g.m_width ∨ 5 ≤ g.m_height
  · have hex : ∃ d, d < 4 ∧ isInterior g (1 + carveDx d) (1 + carveDy d) ∧
        cellAt g.m_grid (1 + carveDy d) (1 + carveDx d) = '#' := by
      rcases hbig with h | h
      · refine ⟨1, by decide, ?_, hall _ _⟩
        show isInterior g (1 + 2) (1 + 0)
        unfold isInterior; omega
      · refine ⟨2, by decide, ?_, hall _ _⟩
        show isInterior g (1 + 0) (1 + 2)
        unfold isInterior; omega
    obtain ⟨g1, hrun, hpost, hcell, d, hdint, hdmid, hdtarget⟩ :=
      carvePassage_opens _ g 1 1 hwf hint ha (hall 1 1) hfuel hex
    refine ⟨g1, hrun, hpost, hcell, fun _ => ?_⟩
    unfold isInterior at hdint
    have hw1 := hpost.width_eq
    have hh1 := hpost.height_eq
    apply length_ge_three (getEmptySpaces g1) ((1 : Int), (1 : Int))
      (1 + Int.tdiv (carveDx d) 2, 1 + Int.tdiv (carveDy d) 2) (1 + carveDx d, 1 + carveDy d)
    · rw [mem_getEmptySpaces]; exact ⟨by simp only; omega, hcell⟩
    · rw [mem_getEmptySpaces]
      refine ⟨?_, hdmid⟩
      simp only
      rcases carveMid_cases d with ⟨e1, e2, e3, e4⟩ | ⟨e1, e2, e3, e4⟩ | ⟨e1, e2, e3, e4⟩ |
        ⟨e1, e2, e3, e4⟩ <;> rw [e3, e4] <;> rw [e1, e2] at hdint <;> omega
    · rw [mem_getEmptySpaces]
      exact ⟨by simp only; omega, hdtarget⟩
    · rcases carveMid_cases d with ⟨e1, e2, e3, e4⟩ | ⟨e1, e2, e3, e4⟩ | ⟨e1, e2, e3, e4⟩ |
        ⟨e1, e2, e3, e4⟩ <;> rw [e3, e4] <;> (intro h; have h1 := congrArg Prod.fst h; have h2 := congrArg Prod.snd h; simp only at h1 h2; omega)
    · rcases carveDir_cases d with ⟨e1, e2⟩ | ⟨e1, e2⟩ | ⟨e1, e2⟩ | ⟨e1, e2⟩ <;>
        rw [e1, e2] <;> (intro h; have h1 := congrArg Prod.fst h; have h2 := congrArg Prod.snd h; simp only at h1 h2; omega)
    · rcases carveMid_cases d with ⟨e1, e2, e3, e4⟩ | ⟨e1, e2, e3, e4⟩ | ⟨e1, e2, e3, e4⟩ |
        ⟨e1, e2, e3, e4⟩ <;> rw [e3, e4, e1, e2] <;> (intro h; have h1 := congrArg Prod.fst h; have h2 := congrArg Prod.snd h; simp only at h1 h2; omega)
  · obtain ⟨g1, hrun, hpost, hcell, _⟩ := carvePassage_spec _ g 1 1 hwf hint ha (hall 1 1) hfuel
    exact ⟨g1, hrun, hpost, hcell, fun h => absurd h hbig⟩

end MazeGenerator
end TankMaze


namespace TankMaze

/-! ### Checked accesses -/

theorem vecGet_total {α : Type} (v : List α) (i : Nat) (h : i < v.length) :
    ∃ a, vecGet v i = Except.ok a := by
  unfold vecGet
  rw [List.getElem?_eq_getElem h]
  exact ⟨_, rfl⟩

theorem vecGet_ne_error {α : Type} (v : List α) (i : Nat) (e : GenError) (h : i < v.length) :
    vecGet v i ≠ Except.error e := by
  obtain ⟨a, ha⟩ := vecGet_total v i h
  rw [ha]
  intro hc
  cases hc

theorem vecGet_mem {α : Type} {v : List α} {i : Nat} {a : α} (h : vecGet v i = Except.ok a) :
    a ∈ v ∧ v[i]? = some a := by
  unfold vecGet at h
  cases hv : v[i]? with
  | none => rw [hv] at h; cases h
  | some b =>
    rw [hv] at h
    cases h
    exact ⟨List.getElem?_mem hv, rfl⟩

theorem gridSet_eq_ok {w h : Int} {grid : List (List Char)} (hwf : GridWF w h grid) (y x : Int)
    (c : Char) (grid1 : List (List Char)) (hr : gridSet grid y x c = Except.ok grid1) :
    (0 ≤ y ∧ y < h ∧ 0 ≤ x ∧ x < w) ∧ grid1 = set2 grid y.toNat x.toNat c := by
  by_cases hin : 0 ≤ y ∧ y < h ∧ 0 ≤ x ∧ x < w
  · rw [gridSet_ok hwf y x c hin] at hr
    cases hr
    exact ⟨hin, rfl⟩
  · rw [gridSet_error hwf y x c hin] at hr
    cases hr

/-- An index drawn below `max 1 (n * k / 10)` is an index of a vector of `n` entries. -/
theorem mod_top_lt (n k d : Nat) (hn : 0 < n) (hk : k ≤ 10) : d % (max 1 (n * k / 10)) < n := by
  have h1 : n * k / 10 ≤ n := by
    apply Nat.div_le_of_le_mul
    nlinarith
  have h2 : 0 < max 1 (n * k / 10) := by omega
  have h3 := Nat.mod_lt d h2
  omega

/-! ### Tagged grids -/

theorem TagCells.of_alphabet (g : MazeGenerator) {grid : List (List Char)}
    (ha : onlyWallsAndFloor grid) : TagCells g grid := by
  intro y x
  rcases ha y x with h | h
  · left; exact h
  · right; left; exact h

theorem TagCells.write {w h : Int} (g : MazeGenerator) {grid : List (List Char)}
    (hwf : GridWF w h grid) (ht : TagCells g grid) (c : Char) (x y : Int)
    (hin : 0 ≤ y ∧ y < h ∧ 0 ≤ x ∧ x < w) (htag : tagAt g c x y) :
    TagCells g (set2 grid y.toNat x.toNat c) := by
  intro y2 x2
  rw [cellAt_set2 hwf y x c hin]
  by_cases heq : y2 = y ∧ x2 = x
  · rw [if_pos heq]
    obtain ⟨h1, h2⟩ := heq
    subst h1
    subst h2
    right; right
    exact htag
  · rw [if_neg heq]
    exact ht y2 x2

theorem inGrid_of_mem_empty (g : MazeGenerator) (p : Int × Int) (hp : p ∈ g.getEmptySpaces) :
    0 ≤ p.2 ∧ p.2 < g.m_height ∧ 0 ≤ p.1 ∧ p.1 < g.m_width := by
  rw [MazeGenerator.mem_getEmptySpaces] at hp
  omega

namespace MazeGenerator

/-- The function `placeStartAndEnd` succeeds on a carved grid and leaves a tagged grid. -/
theorem placeStartAndEnd_spec (g : MazeGenerator) (hwf : GridWF g.m_width g.m_height g.m_grid)
    (ha : onlyWallsAndFloor g.m_grid) (hw : 3 ≤ g.m_width) (hh : 3 ≤ g.m_height)
    (hmode : g.m_multiplayerMode = false) :
    ∃ g1, placeStartAndEnd g = Except.ok g1 ∧ Tagged g1 ∧ g1.m_multiplayerMode = false := by
  have ht0 : ∀ g2 : MazeGenerator, TagCells g2 g.m_grid := fun g2 => TagCells.of_alphabet g2 ha
  unfold placeStartAndEnd
  simp only []
  by_cases hlen : (getEmptySpaces g).length < 2
  · rw [if_pos hlen]
    have hin1 : 0 ≤ (1 : Int) ∧ (1 : Int) < g.m_height ∧ 0 ≤ (1 : Int) ∧ (1 : Int) < g.m_width := by
      omega
    have hin2 : 0 ≤ g.m_height - 2 ∧ g.m_height - 2 < g.m_height ∧ 0 ≤ g.m_width - 2 ∧
        g.m_width - 2 < g.m_width := by omega
    rw [gridSet_ok hwf 1 1 'S' hin1]
    simp only []
    rw [gridSet_ok (hwf.set2 _ _ _) _ _ 'E' hin2]
    simp only []
    refine ⟨_, rfl, ⟨(hwf.set2 _ _ _).set2 _ _ _, ?_, hin2, fun _ => hin1, ?_⟩, hmode⟩
    · apply TagCells.write _ (hwf.set2 _ _ _) _ 'E' _ _ hin2 (Or.inr (Or.inl ⟨rfl, by rfl, by rfl⟩))
      apply TagCells.write _ hwf (ht0 _) 'S' _ _ hin1 (Or.inl ⟨rfl, by exact hmode, by rfl, by rfl⟩)
    · intro hm
      rw [hmode] at hm
      cases hm
  · rw [if_neg hlen]
    have hperm := shuffleList_perm (getEmptySpaces g) g.m_rng
    have hplen := hperm.length_eq
    split
    · rename_i e heq
      exact absurd heq (vecGet_ne_error _ _ _ (by omega))
    · rename_i s heqs
      have hsmem : s ∈ getEmptySpaces g := hperm.mem_iff.1 (vecGet_mem heqs).1
      have hins := inGrid_of_mem_empty g s hsmem
      split
      · rename_i e heq
        refine absurd heq (vecGet_ne_error _ _ _ (mod_top_lt _ _ _ ?_ (by decide)))
        unfold sortDescending
        rw [List.length_insertionSort, List.length_map, List.length_drop]
        omega
      · rename_i sel heqsel
        have hselmem : sel.2 ∈ getEmptySpaces g := by
          have h1 := (vecGet_mem heqsel).1
          unfold sortDescending at h1
          rw [(List.perm_insertionSort _ _).mem_iff, List.mem_map] at h1
          obtain ⟨e, he, rfl⟩ := h1
          exact hperm.mem_iff.1 (List.mem_of_mem_drop he)
        have hinsel := inGrid_of_mem_empty g sel.2 hselmem
        rw [gridSet_ok hwf _ _ 'S' hins]
        simp only []
        rw [gridSet_ok (hwf.set2 _ _ _) _ _ 'E' hinsel]
        simp only []
        refine ⟨_, rfl, ⟨(hwf.set2 _ _ _).set2 _ _ _, ?_, hinsel, fun _ => hins, ?_⟩, hmode⟩
        · apply TagCells.write _ (hwf.set2 _ _ _) _ 'E' _ _ hinsel (Or.inr (Or.inl ⟨rfl, by rfl, by rfl⟩))
          apply TagCells.write _ hwf (ht0 _) 'S' _ _ hins (Or.inl ⟨rfl, by exact hmode, by rfl, by rfl⟩)
        · intro hm
          rw [hmode] at hm
          cases hm

end MazeGenerator
end TankMaze


namespace TankMaze

/-- A computation that succeeds with a result satisfying `P` satisfies `P` whenever it succeeds,
and succeeds. -/
theorem total_to_both {α : Type} (X : Except GenError α) (P : α → Prop) (C : Prop)
    (h : ∃ a, X = Except.ok a ∧ P a) :
    (∀ a, X = Except.ok a → P a) ∧ (C → ∃ a, X = Except.ok a) := by
  obtain ⟨a, ha, hp⟩ := h
  refine ⟨?_, fun _ => ⟨a, ha⟩⟩
  intro b hb
  rw [ha] at hb
  cases hb
  exact hp

namespace MazeGenerator

/-! ### The placement of the two spawns and the exit -/

theorem spawnCandidates_spec (g : MazeGenerator) (es : List (Int × Int)) (hes : 3 ≤ es.length) :
    2 ≤ (spawnCandidates g es).length ∧ ∀ p ∈ spawnCandidates g es, p ∈ es := by
  unfold spawnCandidates
  simp only []
  split_ifs with h1 h2 h3
  · exact ⟨by omega, fun p hp => hp⟩
  · exact ⟨by omega, fun p hp => (List.mem_filter.1 hp).1⟩
  · exact ⟨by omega, fun p hp => hp⟩
  · exact ⟨by omega, fun p hp => (List.mem_filter.1 hp).1⟩

theorem mem_validSpawnPairs (sc : List (Int × Int)) (a b : Int) (ij : Nat × Nat)
    (h : ij ∈ validSpawnPairs sc a b) : ij.1 < sc.length ∧ ij.2 < sc.length := by
  unfold validSpawnPairs at h
  rw [List.mem_flatMap] at h
  obtain ⟨i, hi, h⟩ := h
  rw [List.mem_filterMap] at h
  obtain ⟨j, hj, h⟩ := h
  rw [List.mem_filter] at hj
  rw [List.mem_range] at hi
  have hj2 := List.mem_range.1 hj.1
  simp only [] at h
  split_ifs at h
  · cases h
    simp only
    omega

theorem chooseSpawns_spec (g : MazeGenerator) (es : List (Int × Int)) (hes : 3 ≤ es.length) :
    ∃ g1, chooseSpawns g es = Except.ok g1 ∧
      g1 = { g with m_rng := g1.m_rng, m_spawn1X := g1.m_spawn1X, m_spawn1Y := g1.m_spawn1Y, m_spawn2X := g1.m_spawn2X, m_spawn2Y := g1.m_spawn2Y } ∧
      (g1.m_spawn1X, g1.m_spawn1Y) ∈ es ∧ (g1.m_spawn2X, g1.m_spawn2Y) ∈ es := by
  obtain ⟨hlen, hsub⟩ := spawnCandidates_spec g es hes
  have hperm := shuffleList_perm (spawnCandidates g es) g.m_rng
  have hplen := hperm.length_eq
  have hmem : ∀ p, p ∈ (shuffleList (spawnCandidates g es) g.m_rng).1 → p ∈ es :=
    fun p hp => hsub p (hperm.mem_iff.1 hp)
  unfold chooseSpawns
  simp only []
  split
  · rename_i hpairs
    split
    · rename_i e heq
      exact absurd heq (vecGet_ne_error _ _ _ (Nat.mod_lt _ (List.length_pos.2 hpairs)))
    · rename_i ij heqij
      have hb := mem_validSpawnPairs _ _ _ _ (vecGet_mem heqij).1
      split
      · rename_i e heq
        exact absurd heq (vecGet_ne_error _ _ _ hb.1)
      · rename_i a heqa
        split
        · rename_i e heq
          exact absurd heq (vecGet_ne_error _ _ _ hb.2)
        · rename_i b heqb
          exact ⟨_, rfl, rfl, hmem _ (vecGet_mem heqa).1, hmem _ (vecGet_mem heqb).1⟩
  · split
    · split
      · rename_i e heq
        exact absurd heq (vecGet_ne_error _ _ _ (by omega))
      · rename_i a heqa
        split
        · rename_i e heq
          exact absurd heq (vecGet_ne_error _ _ _ (by omega))
        · rename_i b heqb
          exact ⟨_, rfl, rfl, hmem _ (vecGet_mem heqa).1, hmem _ (vecGet_mem heqb).1⟩
    · rename_i h2
      exact absurd (by omega) h2

theorem mem_endCandidates (g : MazeGenerator) (es : List (Int × Int)) (sel : Int × Int × Int × Int)
    (h : sel ∈ endCandidates g es) : (sel.1, sel.2.1) ∈ es := by
  unfold endCandidates sortDescending at h
  simp only [] at h
  rw [(List.perm_insertionSort _ _).mem_iff] at h
  have hentry : ∀ (f : Int × Int → Bool) (q : Int × Int × Int × Int → Bool),
      sel ∈ ((es.filter f).map (endEntry g)).filter q → (sel.1, sel.2.1) ∈ es := by
    intro f q hs
    rw [List.mem_filter, List.mem_map] at hs
    obtain ⟨⟨p, hp, rfl⟩, _⟩ := hs
    exact (List.mem_filter.1 hp).1
  split_ifs at h
  · rcases List.mem_append.1 h with h | h
    · exact hentry _ _ h
    · exact hentry _ _ h
  · exact hentry _ _ h

theorem chooseEnd_spec (g : MazeGenerator) (es : List (Int × Int)) (hw : 3 ≤ g.m_width)
    (hh : 3 ≤ g.m_height) (hsub : ∀ p ∈ es, inGrid g p.1 p.2) :
    ∃ g1, chooseEnd g es = Except.ok g1 ∧
      g1 = { g with m_rng := g1.m_rng, m_endX := g1.m_endX, m_endY := g1.m_endY } ∧
      inGrid g g1.m_endX g1.m_endY := by
  unfold chooseEnd
  simp only []
  split
  · rename_i hne
    split
    · rename_i e heq
      exact absurd heq (vecGet_ne_error _ _ _
        (mod_top_lt _ _ _ (List.length_pos.2 hne) (by decide)))
    · rename_i sel heqsel
      exact ⟨_, rfl, rfl, hsub _ (mem_endCandidates g es sel (vecGet_mem heqsel).1)⟩
  · refine ⟨_, rfl, rfl, ?_⟩
    unfold inGrid
    simp only
    omega

theorem markSpawn_spec (g : MazeGenerator) {grid : List (List Char)}
    (hwf : GridWF g.m_width g.m_height grid) (ht : TagCells g grid) (c : Char) (x y : Int)
    (htag : tagAt g c x y) :
    ∃ grid1, markSpawn g grid x y c = Except.ok grid1 ∧ GridWF g.m_width g.m_height grid1 ∧
      TagCells g grid1 := by
  unfold markSpawn
  by_cases hin : y ≥ 0 ∧ y < g.m_height ∧ x ≥ 0 ∧ x < g.m_width
  · rw [if_pos hin]
    have hin2 : 0 ≤ y ∧ y < g.m_height ∧ 0 ≤ x ∧ x < g.m_width := ⟨hin.1, hin.2.1, hin.2.2.1, hin.2.2.2⟩
    by_cases hc : cellAt grid y x = '.' ∨ cellAt grid y x = 'S'
    · rw [if_pos hc, gridSet_ok hwf y x c hin2]
      exact ⟨_, rfl, hwf.set2 _ _ _, TagCells.write g hwf ht c x y hin2 htag⟩
    · rw [if_neg hc]
      exact ⟨_, rfl, hwf, ht⟩
  · rw [if_neg hin]
    exact ⟨_, rfl, hwf, ht⟩

/-- The function `placeMultiplayerSpawns` leaves a tagged grid whenever it returns, and it
returns when three empty cells exist. -/
theorem placeMultiplayerSpawns_spec (g : MazeGenerator)
    (hwf : GridWF g.m_width g.m_height g.m_grid) (ha : onlyWallsAndFloor g.m_grid)
    (hw : 3 ≤ g.m_width) (hh : 3 ≤ g.m_height) (hmode : g.m_multiplayerMode = true) :
    (∀ g1, placeMultiplayerSpawns g = Except.ok g1 → Tagged g1 ∧ g1.m_multiplayerMode = true) ∧
    (3 ≤ (getEmptySpaces g).length → ∃ g1, placeMultiplayerSpawns g = Except.ok g1) := by
  have ht0 : ∀ g2 : MazeGenerator, TagCells g2 g.m_grid := fun g2 => TagCells.of_alphabet g2 ha
  have hnot : ∀ g2 : MazeGenerator, g2.m_multiplayerMode = true → g2.m_multiplayerMode = false →
      inGrid g2 g2.m_startX g2.m_startY := by
    intro g2 h1 h2
    rw [h1] at h2
    cases h2
  unfold placeMultiplayerSpawns
  simp only []
  by_cases hlen : (getEmptySpaces g).length < 3
  · rw [if_pos hlen]
    refine ⟨?_, fun h3 => absurd hlen (by omega)⟩
    intro g1 hrun
    split at hrun
    · cases hrun
    · rename_i grid0 heq0
      obtain ⟨hin0, hg0⟩ := gridSet_eq_ok hwf _ _ _ _ heq0
      have hwf0 : GridWF g.m_width g.m_height grid0 := by rw [hg0]; exact hwf.set2 _ _ _
      split at hrun
      · cases hrun
      · rename_i grid1 heq1
        obtain ⟨hin1, hg1⟩ := gridSet_eq_ok hwf0 _ _ _ _ heq1
        have hwf1 : GridWF g.m_width g.m_height grid1 := by rw [hg1]; exact hwf0.set2 _ _ _
        split at hrun
        · cases hrun
        · rename_i grid2 heq2
          obtain ⟨hin2, hg2⟩ := gridSet_eq_ok hwf1 _ _ _ _ heq2
          cases hrun
          refine ⟨⟨?_, ?_, hin2, hnot _ hmode, fun _ => ⟨hin0, hin1⟩⟩, hmode⟩
          · rw [hg2]; exact hwf1.set2 _ _ _
          · show TagCells _ grid2
            rw [hg2]
            apply TagCells.write _ hwf1 _ 'E' _ _ hin2 (Or.inr (Or.inl ⟨rfl, by rfl, by rfl⟩))
            rw [hg1]
            apply TagCells.write _ hwf0 _ '2' _ _ hin1
              (Or.inr (Or.inr (Or.inr ⟨rfl, by exact hmode, by rfl, by rfl⟩)))
            rw [hg0]
            apply TagCells.write _ hwf (ht0 _) '1' _ _ hin0
              (Or.inr (Or.inr (Or.inl ⟨rfl, by exact hmode, by rfl, by rfl⟩)))
  · rw [if_neg hlen]
    apply total_to_both
    obtain ⟨gs, hgs, hgseq, hs1, hs2⟩ := chooseSpawns_spec g (getEmptySpaces g) (by omega)
    rw [hgs]
    simp only []
    have hws : gs.m_width = g.m_width := by
      have h := congrArg MazeGenerator.m_width hgseq
      exact h
    have hhs : gs.m_height = g.m_height := by
      have h := congrArg MazeGenerator.m_height hgseq
      exact h
    have hgrids : gs.m_grid = g.m_grid := by
      have h := congrArg MazeGenerator.m_grid hgseq
      exact h
    have hmodes : gs.m_multiplayerMode = g.m_multiplayerMode := by
      have h := congrArg MazeGenerator.m_multiplayerMode hgseq
      exact h
    have hsub : ∀ p ∈ getEmptySpaces g, inGrid gs p.1 p.2 := by
      intro p hp
      have := inGrid_of_mem_empty g p hp
      unfold inGrid
      rw [hws, hhs]
      exact this
    obtain ⟨ge, hge, hgeeq, hein⟩ := chooseEnd_spec gs (getEmptySpaces g) (by omega) (by omega) hsub
    rw [hge]
    simp only []
    have hwe : ge.m_width = gs.m_width := by
      have h := congrArg MazeGenerator.m_width hgeeq
      exact h
    have hhe : ge.m_height = gs.m_height := by
      have h := congrArg MazeGenerator.m_height hgeeq
      exact h
    have hgride : ge.m_grid = gs.m_grid := by
      have h := congrArg MazeGenerator.m_grid hgeeq
      exact h
    have hmodee : ge.m_multiplayerMode = gs.m_multiplayerMode := by
      have h := congrArg MazeGenerator.m_multiplayerMode hgeeq
      exact h
    have h1x : ge.m_spawn1X = gs.m_spawn1X := by
      have h := congrArg MazeGenerator.m_spawn1X hgeeq
      exact h
    have h1y : ge.m_spawn1Y = gs.m_spawn1Y := by
      have h := congrArg MazeGenerator.m_spawn1Y hgeeq
      exact h
    have h2x : ge.m_spawn2X = gs.m_spawn2X := by
      have h := congrArg MazeGenerator.m_spawn2X hgeeq
      exact h
    have h2y : ge.m_spawn2Y = gs.m_spawn2Y := by
      have h := congrArg MazeGenerator.m_spawn2Y hgeeq
      exact h
    have hmodeE : ge.m_multiplayerMode = true := by rw [hmodee, hmodes, hmode]
    have hwfe : GridWF ge.m_width ge.m_height ge.m_grid := by
      rw [hwe, hhe, hgride, hws, hhs, hgrids]; exact hwf
    have hein2 : 0 ≤ ge.m_endY ∧ ge.m_endY < ge.m_height ∧ 0 ≤ ge.m_endX ∧ ge.m_endX < ge.m_width := by
      unfold inGrid at hein
      rw [hwe, hhe]
      exact hein
    have hte : TagCells ge ge.m_grid := by
      rw [hgride, hgrids]; exact ht0 ge
    rw [gridSet_ok hwfe _ _ 'E' hein2]
    simp only []
    have htE := TagCells.write ge hwfe hte 'E' _ _ hein2 (Or.inr (Or.inl ⟨rfl, rfl, rfl⟩))
    obtain ⟨grid1, hm1, hwf1, ht1⟩ := markSpawn_spec ge (hwfe.set2 _ _ _) htE '1' ge.m_spawn1X
      ge.m_spawn1Y (Or.inr (Or.inr (Or.inl ⟨rfl, hmodeE, rfl, rfl⟩)))
    rw [hm1]
    simp only []
    obtain ⟨grid2, hm2, hwf2, ht2⟩ := markSpawn_spec ge hwf1 ht1 '2' ge.m_spawn2X
      ge.m_spawn2Y (Or.inr (Or.inr (Or.inr ⟨rfl, hmodeE, rfl, rfl⟩)))
    rw [hm2]
    simp only []
    refine ⟨_, rfl, ⟨hwf2, ht2, hein2, hnot _ hmodeE, fun _ => ?_⟩, hmodeE⟩
    have i1 := hsub _ hs1
    have i2 := hsub _ hs2
    unfold inGrid at i1 i2 ⊢
    simp only at i1 i2 ⊢
    rw [h1x, h1y, h2x, h2y, hwe, hhe]
    exact ⟨i1, i2⟩

end MazeGenerator
end TankMaze


namespace TankMaze

/-! ### Connecting the exit, and the decoration of the grid -/

theorem TagCells.extend {g : MazeGenerator} {grid1 grid2 : List (List Char)}
    (ht : TagCells g grid1) (hext : GridExtends grid1 grid2) : TagCells g grid2 := by
  intro y x
  rcases hext y x with h | ⟨_, h2⟩
  · rw [h]; exact ht y x
  · right; left; exact h2

theorem Tagged.extend_grid {g g2 : MazeGenerator} (ht : Tagged g)
    (heq : g2 = { g with m_grid := g2.m_grid, m_rng := g2.m_rng })
    (hwf : GridWF g.m_width g.m_height g2.m_grid) (hext : GridExtends g.m_grid g2.m_grid) :
    Tagged g2 := by
  rw [heq]
  exact ⟨hwf, ht.cells.extend hext, ht.endIn, ht.startIn, ht.spawnIn⟩

theorem Decorated.twice {g1 g2 g3 : List (List Char)} (h12 : Decorated g1 g2)
    (h23 : Decorated g2 g3) : Decorated g1 g3 := by
  intro y x
  rcases h23 y x with h | ⟨h, h2⟩ | ⟨h, h2⟩
  · rw [h]; exact h12 y x
  · rcases h12 y x with k | ⟨_, k2⟩ | ⟨_, k2⟩
    · right; left; exact ⟨by rw [← k]; exact h, h2⟩
    · rw [k2] at h; exact absurd h (by decide)
    · rw [h] at k2
      rcases k2 with k2 | k2 | k2 <;> exact absurd k2 (by decide)
  · rcases h12 y x with k | ⟨_, k2⟩ | ⟨_, k2⟩
    · right; right; exact ⟨by rw [← k]; exact h, h2⟩
    · rw [k2] at h; exact absurd h (by decide)
    · rw [h] at k2
      rcases k2 with k2 | k2 | k2 <;> exact absurd k2 (by decide)

namespace MazeGenerator

/-- The placement branch of `generate` leaves a tagged grid whose exit is connected to the start,
or to both spawns, whenever it returns; and it returns, in dual-spawn mode when three empty cells
exist. -/
theorem placeAndConnect_spec (g : MazeGenerator) (hwf : GridWF g.m_width g.m_height g.m_grid)
    (ha : onlyWallsAndFloor g.m_grid) (hw : 3 ≤ g.m_width) (hh : 3 ≤ g.m_height) :
    (∀ g2, placeAndConnect g = Except.ok g2 → Linked g2) ∧
    ((g.m_multiplayerMode = true → 3 ≤ (getEmptySpaces g).length) →
      ∃ g2, placeAndConnect g = Except.ok g2) := by
  unfold placeAndConnect
  by_cases hmode : g.m_multiplayerMode = true
  · rw [if_pos hmode]
    obtain ⟨hpart, htot⟩ := placeMultiplayerSpawns_spec g hwf ha hw hh hmode
    cases hp : placeMultiplayerSpawns g with
    | error e =>
      refine ⟨fun g2 hrun => ?_, fun hC => ?_⟩
      · cases hrun
      · obtain ⟨g1, hg1⟩ := htot (hC hmode)
        rw [hp] at hg1
        cases hg1
    | ok g1 =>
      simp only []
      apply total_to_both
      obtain ⟨ht1, hm1⟩ := hpart g1 hp
      obtain ⟨hsp1, hsp2⟩ := ht1.spawnIn hm1
      obtain ⟨g2, hrun2, hwf2, hext2, hconn2, heq2⟩ := ensurePath_spec g1 g1.m_spawn1X g1.m_spawn1Y
        g1.m_endX g1.m_endY ht1.wf hsp1 ht1.endIn
      rw [hrun2]
      simp only []
      have ht2 : Tagged g2 := ht1.extend_grid heq2 hwf2 hext2
      have hm2 : g2.m_multiplayerMode = true := by
        have h := congrArg MazeGenerator.m_multiplayerMode heq2
        exact h.trans hm1
      have e1x : g2.m_spawn1X = g1.m_spawn1X := by
        have h := congrArg MazeGenerator.m_spawn1X heq2
        exact h
      have e1y : g2.m_spawn1Y = g1.m_spawn1Y := by
        have h := congrArg MazeGenerator.m_spawn1Y heq2
        exact h
      have eex : g2.m_endX = g1.m_endX := by
        have h := congrArg MazeGenerator.m_endX heq2
        exact h
      have eey : g2.m_endY = g1.m_endY := by
        have h := congrArg MazeGenerator.m_endY heq2
        exact h
      obtain ⟨hsq1, hsq2⟩ := ht2.spawnIn hm2
      obtain ⟨g3, hrun3, hwf3, hext3, hconn3, heq3⟩ := ensurePath_spec g2 g2.m_spawn2X g2.m_spawn2Y
        g2.m_endX g2.m_endY ht2.wf hsq2 ht2.endIn
      rw [hrun3]
      have ht3 : Tagged g3 := ht2.extend_grid heq3 hwf3 hext3
      have hm3 : g3.m_multiplayerMode = true := by
        have h := congrArg MazeGenerator.m_multiplayerMode heq3
        exact h.trans hm2
      have f1x : g3.m_spawn1X = g2.m_spawn1X := by
        have h := congrArg MazeGenerator.m_spawn1X heq3
        exact h
      have f1y : g3.m_spawn1Y = g2.m_spawn1Y := by
        have h := congrArg MazeGenerator.m_spawn1Y heq3
        exact h
      have f2x : g3.m_spawn2X = g2.m_spawn2X := by
        have h := congrArg MazeGenerator.m_spawn2X heq3
        exact h
      have f2y : g3.m_spawn2Y = g2.m_spawn2Y := by
        have h := congrArg MazeGenerator.m_spawn2Y heq3
        exact h
      have fex : g3.m_endX = g2.m_endX := by
        have h := congrArg MazeGenerator.m_endX heq3
        exact h
      have fey : g3.m_endY = g2.m_endY := by
        have h := congrArg MazeGenerator.m_endY heq3
        exact h
      refine ⟨g3, rfl, ht3, fun hf => ?_, fun _ => ⟨?_, ?_⟩⟩
      · rw [hm3] at hf
        cases hf
      · rw [f1x, f1y, fex, fey, e1x, e1y, eex, eey]
        exact hconn2.mono hext3
      · rw [f2x, f2y, fex, fey]
        exact hconn3
  · rw [if_neg hmode]
    have hmf : g.m_multiplayerMode = false := by
      cases h : g.m_multiplayerMode with
      | true => exact absurd h hmode
      | false => rfl
    apply total_to_both
    obtain ⟨g1, hrun1, ht1, hm1⟩ := placeStartAndEnd_spec g hwf ha hw hh hmf
    rw [hrun1]
    simp only []
    obtain ⟨g2, hrun2, hwf2, hext2, hconn2, heq2⟩ := ensurePath_spec g1 g1.m_startX g1.m_startY
      g1.m_endX g1.m_endY ht1.wf (ht1.startIn hm1) ht1.endIn
    rw [hrun2]
    have ht2 : Tagged g2 := ht1.extend_grid heq2 hwf2 hext2
    have hm2 : g2.m_multiplayerMode = false := by
      have h := congrArg MazeGenerator.m_multiplayerMode heq2
      exact h.trans hm1
    have esx : g2.m_startX = g1.m_startX := by
      have h := congrArg MazeGenerator.m_startX heq2
      exact h
    have esy : g2.m_startY = g1.m_startY := by
      have h := congrArg MazeGenerator.m_startY heq2
      exact h
    have eex : g2.m_endX = g1.m_endX := by
      have h := congrArg MazeGenerator.m_endX heq2
      exact h
    have eey : g2.m_endY = g1.m_endY := by
      have h := congrArg MazeGenerator.m_endY heq2
      exact h
    refine ⟨g2, rfl, ht2, fun _ => ?_, fun hf => ?_⟩
    · rw [esx, esy, eex, eey]
      exact hconn2
    · rw [hm2] at hf
      cases hf

/-- The loop `markCells` writes `c` into the listed cells and nothing else. -/
theorem markCells_spec {w h : Int} (c : Char) :
    ∀ (ps : List (Int × Int)) (grid : List (List Char)), GridWF w h grid →
      (∀ p ∈ ps, 0 ≤ p.2 ∧ p.2 < h ∧ 0 ≤ p.1 ∧ p.1 < w) →
      ∃ grid1, markCells c ps grid = Except.ok grid1 ∧ GridWF w h grid1 ∧
        ∀ y x, cellAt grid1 y x = cellAt grid y x ∨ ((x, y) ∈ ps ∧ cellAt grid1 y x = c) := by
  intro ps
  induction ps with
  | nil =>
    intro grid hwf _
    exact ⟨grid, rfl, hwf, fun y x => Or.inl rfl⟩
  | cons p ps ih =>
    intro grid hwf hin
    have hp := hin p (List.mem_cons_self _ _)
    unfold markCells
    rw [gridSet_ok hwf _ _ c hp]
    simp only []
    obtain ⟨grid1, hrun, hwf1, hcells⟩ := ih _ (hwf.set2 _ _ _)
      (fun q hq => hin q (List.mem_cons_of_mem _ hq))
    refine ⟨grid1, hrun, hwf1, ?_⟩
    intro y x
    rcases hcells y x with h1 | ⟨h1, h2⟩
    · rw [cellAt_set2 hwf _ _ c hp] at h1
      by_cases heq : y = p.2 ∧ x = p.1
      · rw [if_pos heq] at h1
        right
        refine ⟨?_, h1⟩
        rw [heq.1, heq.2]
        exact List.mem_cons_self _ _
      · rw [if_neg heq] at h1
        left; exact h1
    · right; exact ⟨List.mem_cons_of_mem _ h1, h2⟩

/-- The attribute loop writes one of `'G'`, `'H'`, `'*'` into the listed cells and nothing
else. -/
theorem assignAttributes_spec {w h : Int} (gold heal : Nat) :
    ∀ (ps : List (Int × Int)) (grid : List (List Char)) (rng : Rng), GridWF w h grid →
      (∀ p ∈ ps, 0 ≤ p.2 ∧ p.2 < h ∧ 0 ≤ p.1 ∧ p.1 < w) →
      ∃ r, assignAttributes gold heal ps grid rng = Except.ok r ∧ GridWF w h r.1 ∧
        ∀ y x, cellAt r.1 y x = cellAt grid y x ∨
          ((x, y) ∈ ps ∧
            (cellAt r.1 y x = '*' ∨ cellAt r.1 y x = 'G' ∨ cellAt r.1 y x = 'H')) := by
  intro ps
  induction ps with
  | nil =>
    intro grid rng hwf _
    exact ⟨(grid, rng), rfl, hwf, fun y x => Or.inl rfl⟩
  | cons p ps ih =>
    intro grid rng hwf hin
    have hp := hin p (List.mem_cons_self _ _)
    unfold assignAttributes
    simp only []
    rw [gridSet_ok hwf _ _ _ hp]
    simp only []
    obtain ⟨r, hrun, hwf1, hcells⟩ := ih _ rng.next.2 (hwf.set2 _ _ _)
      (fun q hq => hin q (List.mem_cons_of_mem _ hq))
    refine ⟨r, hrun, hwf1, ?_⟩
    intro y x
    rcases hcells y x with h1 | ⟨h1, h2⟩
    · rw [cellAt_set2 hwf _ _ _ hp] at h1
      by_cases heq : y = p.2 ∧ x = p.1
      · rw [if_pos heq] at h1
        right
        refine ⟨?_, ?_⟩
        · rw [heq.1, heq.2]
          exact List.mem_cons_self _ _
        · rw [h1]
          split_ifs
          · right; left; rfl
          · right; right; rfl
          · left; rfl
      · rw [if_neg heq] at h1
        left; exact h1
    · right; exact ⟨List.mem_cons_of_mem _ h1, h2⟩

theorem mem_destructibleCandidates (g : MazeGenerator) :
    ∀ (ps : List (Int × Int)) (rng : Rng) (p : Int × Int),
      p ∈ (destructibleCandidates g ps rng).1 → p ∈ ps ∧ cellAt g.m_grid p.2 p.1 = '#' := by
  intro ps
  induction ps with
  | nil =>
    intro rng p hp
    unfold destructibleCandidates at hp
    exact absurd hp (List.not_mem_nil p)
  | cons q qs ih =>
    intro rng p hp
    unfold destructibleCandidates at hp
    simp only [] at hp
    split_ifs at hp with h1 h2
    · rcases List.mem_cons.1 hp with h | h
      · rw [h]
        exact ⟨List.mem_cons_self _ _, h1.1⟩
      · obtain ⟨m1, m2⟩ := ih _ p h
        exact ⟨List.mem_cons_of_mem _ m1, m2⟩
    · obtain ⟨m1, m2⟩ := ih _ p hp
      exact ⟨List.mem_cons_of_mem _ m1, m2⟩
    · obtain ⟨m1, m2⟩ := ih _ p hp
      exact ⟨List.mem_cons_of_mem _ m1, m2⟩

/-- The function `placeEnemies` succeeds and turns floor cells into `'X'` only. -/
theorem placeEnemies_spec (g : MazeGenerator) (hwf : GridWF g.m_width g.m_height g.m_grid) :
    ∃ g1, placeEnemies g = Except.ok g1 ∧ GridWF g1.m_width g1.m_height g1.m_grid ∧
      Decorated g.m_grid g1.m_grid := by
  unfold placeEnemies
  simp only []
  have hmem : ∀ p ∈ ((shuffleList ((interior g.m_width g.m_height).filter fun p =>
      cellAt g.m_grid p.2 p.1 = '.' ∧
        |p.1 - g.m_startX| + |p.2 - g.m_startY| > 5 ∧
        |p.1 - g.m_endX| + |p.2 - g.m_endY| > 3) g.m_rng).1.take g.m_enemyCount.toNat),
      (0 ≤ p.2 ∧ p.2 < g.m_height ∧ 0 ≤ p.1 ∧ p.1 < g.m_width) ∧ cellAt g.m_grid p.2 p.1 = '.' := by
    intro p hp
    have h1 := (shuffleList_perm _ _).mem_iff.1 (List.mem_of_mem_take hp)
    rw [List.mem_filter, mem_interior] at h1
    simp only [decide_eq_true_eq] at h1
    exact ⟨by omega, h1.2.1⟩
  obtain ⟨grid1, hrun, hwf1, hcells⟩ := markCells_spec 'X' _ g.m_grid hwf (fun p hp => (hmem p hp).1)
  rw [hrun]
  refine ⟨_, rfl, hwf1, ?_⟩
  intro y x
  rcases hcells y x with h | ⟨h1, h2⟩
  · left; exact h
  · right; left
    exact ⟨(hmem _ h1).2, h2⟩

/-- The function `placeDestructibleWalls` succeeds and turns wall cells into destructible walls
only. -/
theorem placeDestructibleWalls_spec (g : MazeGenerator)
    (hwf : GridWF g.m_width g.m_height g.m_grid) :
    ∃ g1, placeDestructibleWalls g = Except.ok g1 ∧ Decorated g.m_grid g1.m_grid := by
  have hmem : ∀ p ∈ (destructibleCandidates g (interior g.m_width g.m_height) g.m_rng).1,
      (0 ≤ p.2 ∧ p.2 < g.m_height ∧ 0 ≤ p.1 ∧ p.1 < g.m_width) ∧ cellAt g.m_grid p.2 p.1 = '#' := by
    intro p hp
    obtain ⟨h1, h2⟩ := mem_destructibleCandidates g _ _ p hp
    rw [mem_interior] at h1
    exact ⟨by omega, h2⟩
  have hattr : ∀ gold heal : Nat, ∃ r,
      assignAttributes gold heal (destructibleCandidates g (interior g.m_width g.m_height) g.m_rng).1
        g.m_grid (destructibleCandidates g (interior g.m_width g.m_height) g.m_rng).2 = Except.ok r ∧
      Decorated g.m_grid r.1 := by
    intro gold heal
    obtain ⟨r, hrun, _, hcells⟩ := assignAttributes_spec gold heal _ g.m_grid
      (destructibleCandidates g (interior g.m_width g.m_height) g.m_rng).2 hwf
      (fun p hp => (hmem p hp).1)
    refine ⟨r, hrun, ?_⟩
    intro y x
    rcases hcells y x with h | ⟨h1, h2⟩
    · left; exact h
    · right; right
      exact ⟨(hmem _ h1).2, h2⟩
  have hmark : ∃ grid1,
      markCells '*' (destructibleCandidates g (interior g.m_width g.m_height) g.m_rng).1 g.m_grid =
        Except.ok grid1 ∧ Decorated g.m_grid grid1 := by
    obtain ⟨grid1, hrun, _, hcells⟩ := markCells_spec '*' _ g.m_grid hwf (fun p hp => (hmem p hp).1)
    refine ⟨grid1, hrun, ?_⟩
    intro y x
    rcases hcells y x with h | ⟨h1, h2⟩
    · left; exact h
    · right; right
      exact ⟨(hmem _ h1).2, Or.inl h2⟩
  unfold placeDestructibleWalls
  simp only []
  split_ifs
  · obtain ⟨r, hrun, hdec⟩ := hattr 0 300
    rw [hrun]
    exact ⟨_, rfl, hdec⟩
  · obtain ⟨grid1, hrun, hdec⟩ := hmark
    rw [hrun]
    exact ⟨_, rfl, hdec⟩
  · obtain ⟨r, hrun, hdec⟩ := hattr 0 300
    rw [hrun]
    exact ⟨_, rfl, hdec⟩
  · obtain ⟨r, hrun, hdec⟩ := hattr 150 250
    rw [hrun]
    exact ⟨_, rfl, hdec⟩

end MazeGenerator
end TankMaze


namespace TankMaze

/-! ### The generated grid -/

theorem rowsCell_mk (grid : List (List Char)) (y x : Int) :
    rowsCell (grid.map String.mk) y x = cellAt grid y x := by
  unfold rowsCell
  rw [List.map_map]
  have h : String.toList ∘ String.mk = id := by
    funext l
    rfl
  rw [h, List.map_id]

/-- A marker of the final grid that decoration does not write was there before decoration. -/
theorem Decorated.marker {grid1 grid2 : List (List Char)} (hd : Decorated grid1 grid2) (c : Char)
    (hc : c ≠ 'X' ∧ c ≠ '*' ∧ c ≠ 'G' ∧ c ≠ 'H') (y x : Int) (h : cellAt grid2 y x = c) :
    cellAt grid1 y x = c := by
  rcases hd y x with k | ⟨_, k⟩ | ⟨_, k⟩
  · rw [← k]; exact h
  · rw [k] at h; exact absurd h.symm hc.1
  · rw [h] at k
    rcases k with k | k | k
    · exact absurd k hc.2.1
    · exact absurd k hc.2.2.1
    · exact absurd k hc.2.2.2

/-- A non-wall cell of a tagged grid is an open cell of the decorated grid. -/
theorem Decorated.open_of_passage {g : MazeGenerator} {grid2 : List (List Char)}
    (ht : TagCells g g.m_grid) (hd : Decorated g.m_grid grid2) (c : GridPos)
    (hp : passage g.m_grid c) : openCell (grid2.map String.mk) c := by
  unfold passage at hp
  unfold openCell
  rw [rowsCell_mk]
  rcases hd c.y c.x with k | ⟨_, k⟩ | ⟨k, _⟩
  · rw [k]
    rcases ht c.y c.x with t | t | ⟨t, _⟩ | ⟨t, _⟩ | ⟨t, _⟩ | ⟨t, _⟩
    · exact absurd t hp
    all_goals rw [t]; decide
  · rw [k]; decide
  · exact absurd k hp

/-- In a grid whose exit has been connected, and after any decoration of it, every cell that
carries a start or spawn marker reaches every cell that carries the exit marker through open
cells. -/
theorem Linked.reach {g : MazeGenerator} (hl : Linked g) {grid2 : List (List Char)}
    (hd : Decorated g.m_grid grid2) (s e : GridPos)
    (hs : isSpawnMark (grid2.map String.mk) s)
    (he : rowsCell (grid2.map String.mk) e.y e.x = 'E') :
    ∃ cells, Maze.isWalk (openCell (grid2.map String.mk)) s cells e := by
  have hopen : ∀ a b, connected g.m_grid a b →
      ∃ cells, Maze.isWalk (openCell (grid2.map String.mk)) a cells b := by
    intro a b hc
    obtain ⟨cells, hcells⟩ := hc
    exact ⟨cells, Maze.isWalk_mono (fun c hp => hd.open_of_passage hl.tagged.cells c hp) cells a b
      hcells⟩
  rw [rowsCell_mk] at he
  have he1 := hd.marker 'E' (by decide) _ _ he
  have hepos : e = ⟨g.m_endX, g.m_endY⟩ := by
    rcases hl.tagged.cells e.y e.x with t | t | ⟨t, _⟩ | ⟨_, t1, t2⟩ | ⟨t, _⟩ | ⟨t, _⟩
    · rw [t] at he1; exact absurd he1 (by decide)
    · rw [t] at he1; exact absurd he1 (by decide)
    · rw [t] at he1; exact absurd he1 (by decide)
    · cases e
      simp only at t1 t2
      rw [t1, t2]
    · rw [t] at he1; exact absurd he1 (by decide)
    · rw [t] at he1; exact absurd he1 (by decide)
  unfold isSpawnMark at hs
  rw [rowsCell_mk] at hs
  rw [hepos]
  rcases hs with hs | hs | hs
  · have hs1 := hd.marker 'S' (by decide) _ _ hs
    rcases hl.tagged.cells s.y s.x with t | t | ⟨_, tm, t1, t2⟩ | ⟨t, _⟩ | ⟨t, _⟩ | ⟨t, _⟩
    · rw [t] at hs1; exact absurd hs1 (by decide)
    · rw [t] at hs1; exact absurd hs1 (by decide)
    · have hspos : s = ⟨g.m_startX, g.m_startY⟩ := by
        cases s
        simp only at t1 t2
        rw [t1, t2]
      rw [hspos]
      exact hopen _ _ (hl.single tm)
    · rw [t] at hs1; exact absurd hs1 (by decide)
    · rw [t] at hs1; exact absurd hs1 (by decide)
    · rw [t] at hs1; exact absurd hs1 (by decide)
  · have hs1 := hd.marker '1' (by decide) _ _ hs
    rcases hl.tagged.cells s.y s.x with t | t | ⟨t, _⟩ | ⟨t, _⟩ | ⟨_, tm, t1, t2⟩ | ⟨t, _⟩
    · rw [t] at hs1; exact absurd hs1 (by decide)
    · rw [t] at hs1; exact absurd hs1 (by decide)
    · rw [t] at hs1; exact absurd hs1 (by decide)
    · rw [t] at hs1; exact absurd hs1 (by decide)
    · have hspos : s = ⟨g.m_spawn1X, g.m_spawn1Y⟩ := by
        cases s
        simp only at t1 t2
        rw [t1, t2]
      rw [hspos]
      exact hopen _ _ (hl.dual tm).1
    · rw [t] at hs1; exact absurd hs1 (by decide)
  · have hs1 := hd.marker '2' (by decide) _ _ hs
    rcases hl.tagged.cells s.y s.x with t | t | ⟨t, _⟩ | ⟨t, _⟩ | ⟨t, _⟩ | ⟨_, tm, t1, t2⟩
    · rw [t] at hs1; exact absurd hs1 (by decide)
    · rw [t] at hs1; exact absurd hs1 (by decide)
    · rw [t] at hs1; exact absurd hs1 (by decide)
    · rw [t] at hs1; exact absurd hs1 (by decide)
    · rw [t] at hs1; exact absurd hs1 (by decide)
    · have hspos : s = ⟨g.m_spawn2X, g.m_spawn2Y⟩ := by
        cases s
        simp only at t1 t2
        rw [t1, t2]
      rw [hspos]
      exact hopen _ _ (hl.dual tm).2

end TankMaze


namespace TankMaze
namespace MazeGenerator

/-- C1. For every generator object of width and height at least 3, whatever its seed, engine
output, enemy count, ratio and mode flags: in the rows returned by `generate`, every cell marked
`'S'`, `'1'` or `'2'` reaches every cell marked `'E'` by 4-neighbour steps through cells that are
none of `'#'`, `'*'`, `'G'`, `'H'`. Rows are returned in single-spawn mode for every such size,
and in dual-spawn mode when the width or the height is at least 5. -/
theorem generate_exit_reachable (mt19937 : Nat → Nat → Nat) (now : Nat) (g : MazeGenerator)
    (hw : 3 ≤ g.m_width) (hh : 3 ≤ g.m_height) :
    (∀ r, generate mt19937 now g = Except.ok r →
      ∀ s e : GridPos, isSpawnMark r.1 s → rowsCell r.1 e.y e.x = 'E' →
        ∃ cells, Maze.isWalk (openCell r.1) s cells e) ∧
    ((g.m_multiplayerMode = true → 5 ≤ g.m_width ∨ 5 ≤ g.m_height) →
      ∃ r, generate mt19937 now g = Except.ok r) := by
  unfold generate
  simp only []
  obtain ⟨g1, hrun1, hpost1, _, hthree⟩ := carve_initial
    { g with m_rng := (if g.m_seedSet = true then ⟨mt19937 g.m_seed, 0⟩ else ⟨mt19937 (now % 4294967296), 0⟩), m_grid := List.replicate g.m_height.toNat (List.replicate g.m_width.toNat '#') }
    hw hh rfl
  simp only [] at hrun1
  rw [hrun1]
  simp only []
  have hw1 : g1.m_width = g.m_width := hpost1.width_eq
  have hh1 : g1.m_height = g.m_height := hpost1.height_eq
  have hm1 : g1.m_multiplayerMode = g.m_multiplayerMode := by
    have h := congrArg MazeGenerator.m_multiplayerMode hpost1.others
    exact h
  have hwf1 : GridWF g1.m_width g1.m_height g1.m_grid := by
    rw [hw1, hh1]; exact hpost1.wf
  obtain ⟨hpart, htot⟩ := placeAndConnect_spec g1 hwf1 hpost1.alphabet (by omega) (by omega)
  cases hp : placeAndConnect g1 with
  | error e =>
    refine ⟨fun r hrun => ?_, fun hC => ?_⟩
    · cases hrun
    · exfalso
      obtain ⟨g2, hg2⟩ := htot (fun hm => hthree (hC (hm1 ▸ hm)))
      rw [hp] at hg2
      cases hg2
  | ok g2 =>
    simp only []
    apply total_to_both
    have hl2 := hpart g2 hp
    obtain ⟨g3, hrun3, hwf3, hdec3⟩ := placeEnemies_spec g2 hl2.tagged.wf
    rw [hrun3]
    simp only []
    obtain ⟨g4, hrun4, hdec4⟩ := placeDestructibleWalls_spec g3 hwf3
    rw [hrun4]
    exact ⟨_, rfl, fun s e hs he => hl2.reach (hdec3.twice hdec4) s e hs he⟩

theorem generate_exit_reachable_witness :
    (3 : Int) ≤ (((MazeGenerator.new 6 5).setSeed 42).setMultiplayerMode true).m_width ∧
    (3 : Int) ≤ (((MazeGenerator.new 6 5).setSeed 42).setMultiplayerMode true).m_height ∧
    (∃ r, generate (fun seed i => seed + 7 * i) 0
        (((MazeGenerator.new 6 5).setSeed 42).setMultiplayerMode true) = Except.ok r) ∧
    (∀ r, generate (fun seed i => seed + 7 * i) 0
        (((MazeGenerator.new 6 5).setSeed 42).setMultiplayerMode true) = Except.ok r →
      ∀ s e : GridPos, isSpawnMark r.1 s → rowsCell r.1 e.y e.x = 'E' →
        ∃ cells, Maze.isWalk (openCell r.1) s cells e) :=
  ⟨by decide, by decide,
    (generate_exit_reachable (fun seed i => seed + 7 * i) 0
      (((MazeGenerator.new 6 5).setSeed 42).setMultiplayerMode true) (by decide) (by decide)).2
      (fun _ => Or.inl (by decide)),
    (generate_exit_reachable (fun seed i => seed + 7 * i) 0
      (((MazeGenerator.new 6 5).setSeed 42).setMultiplayerMode true) (by decide) (by decide)).1⟩

end MazeGenerator
end TankMaze


namespace TankMaze

/-! ### Cells of the mutable grid -/

/-- For a point of a cell with a non-negative index the conversion `static_cast<int>` of the
quotient by the tile size is that index. -/
theorem truncToInt_cell (c : Int) (hc : 0 ≤ c) (x : ℚ) (h1 : (c : ℚ) * m_tileSize ≤ x)
    (h2 : x < ((c : ℚ) + 1) * m_tileSize) : truncToInt (x / m_tileSize) = c := by
  unfold m_tileSize at *
  have hq0 : (0 : ℚ) ≤ x / 60 := by
    have : (0 : ℚ) ≤ (c : ℚ) := by exact_mod_cast hc
    have : (0 : ℚ) ≤ x := by nlinarith
    positivity
  unfold truncToInt
  rw [Int.tdiv_eq_ediv (Rat.num_nonneg.2 hq0) (by exact_mod_cast Nat.zero_le _), ← Rat.floor_def,
    Int.floor_eq_iff]
  constructor
  · rw [le_div_iff₀ (by norm_num)]; exact h1
  · rw [div_lt_iff₀ (by norm_num)]; exact h2

theorem get2_set2_self {α : Type} (d : α) (m : List (List α)) (i j : Nat) (v : α)
    (h : get2 d m i j ≠ d) : get2 d (set2 m i j v) i j = v := by
  have hi : i < m.length := by
    by_contra hc
    apply h
    unfold get2
    rw [List.getD_eq_getElem?_getD (l := m), List.getElem?_eq_none (by omega)]
    rfl
  have hj : j < (m.getD i []).length := by
    by_contra hc
    apply h
    unfold get2
    rw [List.getD_eq_getElem?_getD (l := m.getD i []), List.getElem?_eq_none (by omega)]
    rfl
  rw [get2_set2 d m i j v hi hj, if_pos ⟨rfl, rfl⟩]

theorem get2_set2_other {α : Type} (d : α) (m : List (List α)) (i j : Nat) (v : α) (i2 j2 : Nat)
    (h : ¬ (i2 = i ∧ j2 = j)) : get2 d (set2 m i j v) i2 j2 = get2 d m i2 j2 := by
  by_cases hi : i < m.length
  · by_cases hj : j < (m.getD i []).length
    · rw [get2_set2 d m i j v hi hj, if_neg h]
    · unfold get2 set2
      rw [List.set_eq_of_length_le (l := m.getD i []) (by omega)]
      rw [getD_set_eq [] m i i2 _ hi]
      split_ifs with h1
      · rw [h1]
      · rfl
  · unfold get2 set2
    rw [List.set_eq_of_length_le (l := m) (by omega)]

namespace Maze

theorem wallAt_eq (m : Maze) (r c : Int) :
    m.wallAt r c = get2 default m.m_walls r.toNat c.toNat := rfl

theorem wallAt_setWall_self (m : Maze) (r c : Int) (w : Wall)
    (h : (m.wallAt r c).type ≠ WallType.None) : (m.setWall r c w).wallAt r c = w := by
  rw [wallAt_eq]
  unfold setWall
  apply get2_set2_self
  intro hc
  apply h
  rw [wallAt_eq, hc]
  rfl

theorem wallAt_setWall_other (m : Maze) (r c : Int) (w : Wall) (r2 c2 : Int)
    (hr : 0 ≤ r) (hc : 0 ≤ c) (hr2 : 0 ≤ r2) (hc2 : 0 ≤ c2) (h : ¬ (r2 = r ∧ c2 = c)) :
    (m.setWall r c w).wallAt r2 c2 = m.wallAt r2 c2 := by
  rw [wallAt_eq, wallAt_eq]
  unfold setWall
  apply get2_set2_other
  intro hh
  apply h
  omega

theorem inBounds_iff_not (m : Maze) (r c : Int) :
    m.inBounds r c = true ↔ ¬ (r < 0 ∨ r ≥ (m.m_rows : Int) ∨ c < 0 ∨ c ≥ (m.m_cols : Int)) := by
  unfold inBounds
  simp only [Bool.not_eq_true', Bool.or_eq_false_iff, decide_eq_false_iff_not, not_or]
  tauto

/-- The cell that `bulletHit` and `bulletHitWithResult` look up for a point of an in-bounds
cell. -/
theorem cell_of_point (m : Maze) (p : Vec2) (r c : Int) (hin : m.inBounds r c = true)
    (hp : inCell p r c) :
    truncToInt (p.x / m_tileSize) = c ∧ truncToInt (p.y / m_tileSize) = r := by
  have hb := (inBounds_iff_not m r c).1 hin
  obtain ⟨a1, a2, a3, a4⟩ := hp
  exact ⟨truncToInt_cell c (by omega) p.x a1 a2, truncToInt_cell r (by omega) p.y a3 a4⟩

/-- One hit of `bulletHitWithResult` on a Destructible cell. -/
theorem bulletHitWithResult_destructible (m : Maze) (p : Vec2) (r c : Int) (d : ℚ)
    (hin : m.inBounds r c = true) (hp : inCell p r c)
    (hty : (m.wallAt r c).type = WallType.Destructible) :
    m.bulletHitWithResult p d =
      if (m.wallAt r c).health - d ≤ 0 then
        ({ destroyed := true, wallAttribute := (m.wallAt r c).wallAttribute,
           position := gridToWorld ⟨c, r⟩, gridX := c, gridY := r },
         m.setWall r c { m.wallAt r c with health := (m.wallAt r c).health - d,
                                           type := WallType.None })
      else
        ({ destroyed := false, wallAttribute := WallAttribute.None,
           position := gridToWorld ⟨c, r⟩, gridX := c, gridY := r },
         m.setWall r c { m.wallAt r c with health := (m.wallAt r c).health - d }) := by
  obtain ⟨ec, er⟩ := cell_of_point m p r c hin hp
  have hb := (inBounds_iff_not m r c).1 hin
  unfold bulletHitWithResult
  simp only []
  rw [ec, er, if_neg hb, hty, if_neg (by decide), if_pos rfl]
  rfl

end Maze
end TankMaze


namespace TankMaze
namespace Maze

/-! ### The corner classification -/

theorem SameCells.same (m : Maze) : SameCells m m :=
  ⟨rfl, rfl, fun _ _ => rfl, rfl⟩

theorem SameCells.typeAt {m m2 : Maze} (h : SameCells m m2) (r c : Int) :
    m2.typeAt r c = m.typeAt r c := by
  unfold Maze.typeAt
  rw [h.cells r c]

theorem SameCells.inBounds {m m2 : Maze} (h : SameCells m m2) (r c : Int) :
    m2.inBounds r c = m.inBounds r c := by
  unfold Maze.inBounds
  rw [h.rows_eq, h.cols_eq]

theorem SameCells.isWall {m m2 : Maze} (h : SameCells m m2) (r c : Int) :
    m2.isWall r c = m.isWall r c := by
  unfold Maze.isWall
  rw [h.rows_eq, h.cols_eq, h.typeAt]

theorem SameCells.cornerFlags {m m2 : Maze} (h : SameCells m m2) (r c : Int) :
    m2.cornerFlags r c = m.cornerFlags r c := by
  unfold Maze.cornerFlags
  simp only [h.isWall]

theorem SameCells.obstacleAt {m m2 : Maze} (h : SameCells m m2) (r c : Int) :
    m2.obstacleAt r c ↔ m.obstacleAt r c := by
  unfold Maze.obstacleAt
  rw [h.inBounds, h.typeAt]

theorem SameCells.obstacleCell {m m2 : Maze} (h : SameCells m m2) (r c : Int) :
    m2.obstacleCell r c ↔ m.obstacleCell r c := by
  unfold Maze.obstacleCell
  rw [h.typeAt]

theorem isWall_iff (m : Maze) (r c : Int) : m.isWall r c = true ↔ m.obstacleAt r c := by
  unfold isWall obstacleAt
  by_cases hb : r < 0 ∨ r ≥ (m.m_rows : Int) ∨ c < 0 ∨ c ≥ (m.m_cols : Int)
  · rw [if_pos hb]
    have : m.inBounds r c = false := by
      cases h : m.inBounds r c with
      | false => rfl
      | true => exact absurd hb ((inBounds_iff_not m r c).1 h)
    simp [this]
  · rw [if_neg hb]
    have : m.inBounds r c = true := (inBounds_iff_not m r c).2 hb
    simp [this]

theorem wallAt_toNat (m : Maze) (r c : Int) :
    m.wallAt r c = m.wallAt (r.toNat : Int) (c.toNat : Int) := by
  unfold wallAt
  simp only [Int.toNat_ofNat]

/-- Flags equal to those that the loop body computes satisfy the corner rule. -/
theorem classified_of_flags (m : Maze) (r c : Int)
    (h : (m.wallAt r c).roundedCorners = m.cornerFlags r c) : m.Classified r c := by
  have key : ∀ a b : Bool, ∀ (P Q : Prop), (a = true ↔ P) → (b = true ↔ Q) →
      ((!a && !b) = true ↔ (¬ P ∧ ¬ Q)) := by
    intro a b P Q ha hb
    rw [← ha, ← hb]
    cases a <;> cases b <;> simp
  constructor <;> rw [h] <;> unfold cornerFlags <;>
    exact key _ _ _ _ (isWall_iff m _ _) (isWall_iff m _ _)

theorem roundInv_step {m m2 : Maze} {S : Nat → Nat → Prop} (h : RoundInv m m2 S) (r c : Nat) :
    RoundInv m (m2.roundAt r c) (fun r2 c2 => S r2 c2 ∨ (r2 = r ∧ c2 = c)) := by
  unfold roundAt
  simp only []
  by_cases hk : (m2.wallAt r c).type ≠ WallType.Solid ∧
      (m2.wallAt r c).type ≠ WallType.Destructible ∧ (m2.wallAt r c).type ≠ WallType.Exit
  · rw [if_pos hk]
    refine ⟨h.same, ?_⟩
    intro r2 c2 hS hob
    rcases hS with hS | ⟨e1, e2⟩
    · exact h.done r2 c2 hS hob
    · exfalso
      subst e1
      subst e2
      unfold obstacleCell at hob
      rw [← h.same.typeAt] at hob
      unfold Maze.typeAt at hob
      rcases hob with e | e | e
      · exact hk.1 e
      · exact hk.2.1 e
      · exact hk.2.2 e
  · rw [if_neg hk]
    have hne : (m2.wallAt r c).type ≠ WallType.None := by
      intro e
      apply hk
      rw [e]
      exact ⟨by decide, by decide, by decide⟩
    have hself := wallAt_setWall_self m2 r c
      { m2.wallAt r c with roundedCorners := m2.cornerFlags r c } hne
    have hother : ∀ r2 c2 : Nat, ¬ (r2 = r ∧ c2 = c) →
        (m2.setWall r c { m2.wallAt r c with roundedCorners := m2.cornerFlags r c }).wallAt r2 c2 =
          m2.wallAt r2 c2 := by
      intro r2 c2 hne2
      apply wallAt_setWall_other m2 r c _ r2 c2 (by omega) (by omega) (by omega) (by omega)
      intro hh
      apply hne2
      omega
    have hall : ∀ r2 c2 : Int,
        (m2.setWall r c { m2.wallAt r c with roundedCorners := m2.cornerFlags r c }).wallAt r2 c2 =
          { m2.wallAt r2 c2 with roundedCorners :=
            ((m2.setWall r c { m2.wallAt r c with roundedCorners := m2.cornerFlags r c }).wallAt
              r2 c2).roundedCorners } := by
      intro r2 c2
      by_cases hh : r2.toNat = r ∧ c2.toNat = c
      · have e : (m2.setWall r c { m2.wallAt r c with roundedCorners := m2.cornerFlags r c }).wallAt r2 c2
            = (m2.setWall r c { m2.wallAt r c with roundedCorners := m2.cornerFlags r c }).wallAt r c := by
          rw [wallAt_toNat _ r2 c2, hh.1, hh.2]
        have e2 : m2.wallAt r2 c2 = m2.wallAt r c := by
          rw [wallAt_toNat _ r2 c2, hh.1, hh.2]
        rw [e, e2, hself]
      · have e : (m2.setWall r c { m2.wallAt r c with roundedCorners := m2.cornerFlags r c }).wallAt r2 c2
            = m2.wallAt r2 c2 := by
          rw [wallAt_eq, wallAt_eq]
          unfold setWall
          apply get2_set2_other
          simpa using hh
        rw [e]
    refine ⟨⟨h.same.rows_eq, h.same.cols_eq, ?_, ?_⟩, ?_⟩
    · intro r2 c2
      rw [hall r2 c2, h.same.cells r2 c2]
    · have := h.same.others
      unfold setWall
      rw [this]
    · intro r2 c2 hS hob
      by_cases hh : r2 = r ∧ c2 = c
      · rw [hh.1, hh.2, hself]
        exact h.same.cornerFlags r c
      · rw [hother r2 c2 hh]
        rcases hS with hS | hS
        · exact h.done r2 c2 hS hob
        · exact absurd hS hh

theorem roundInv_mono {m m2 : Maze} {S T : Nat → Nat → Prop} (h : RoundInv m m2 S)
    (hTS : ∀ r c, T r c → S r c) : RoundInv m m2 T :=
  ⟨h.same, fun r c hT hob => h.done r c (hTS r c hT) hob⟩

/-- The inner loop, over the columns `cs` of the row `r`. -/
theorem roundInv_row {m : Maze} (r : Nat) :
    ∀ (cs : List Nat) (m2 : Maze) (S : Nat → Nat → Prop), RoundInv m m2 S →
      RoundInv m (cs.foldl (fun (m : Maze) (c : Nat) => m.roundAt (r : Int) (c : Int)) m2)
        (fun r2 c2 => S r2 c2 ∨ (r2 = r ∧ c2 ∈ cs)) := by
  intro cs
  induction cs with
  | nil =>
    intro m2 S h
    exact roundInv_mono h (fun r2 c2 hT => by
      rcases hT with hT | ⟨_, hT⟩
      · exact hT
      · exact absurd hT (List.not_mem_nil _))
  | cons c cs ih =>
    intro m2 S h
    rw [List.foldl_cons]
    refine roundInv_mono (ih _ _ (roundInv_step h r c)) ?_
    intro r2 c2 hT
    rcases hT with hT | ⟨e, hT⟩
    · exact Or.inl (Or.inl hT)
    · rcases List.mem_cons.1 hT with hT | hT
      · exact Or.inl (Or.inr ⟨e, hT⟩)
      · exact Or.inr ⟨e, hT⟩

/-- The outer loop, over the rows `rs`. -/
theorem roundInv_rows {m : Maze} :
    ∀ (rs : List Nat) (m2 : Maze) (S : Nat → Nat → Prop), RoundInv m m2 S →
      RoundInv m
        (rs.foldl (fun (m : Maze) (r : Nat) =>
          (List.range m.m_cols).foldl (fun (m : Maze) (c : Nat) => m.roundAt (r : Int) (c : Int)) m)
          m2)
        (fun r2 c2 => S r2 c2 ∨ (r2 ∈ rs ∧ c2 < m.m_cols)) := by
  intro rs
  induction rs with
  | nil =>
    intro m2 S h
    exact roundInv_mono h (fun r2 c2 hT => by
      rcases hT with hT | ⟨hT, _⟩
      · exact hT
      · exact absurd hT (List.not_mem_nil _))
  | cons r rs ih =>
    intro m2 S h
    rw [List.foldl_cons]
    refine roundInv_mono (ih _ _ (roundInv_row r (List.range m2.m_cols) m2 S h)) ?_
    intro r2 c2 hT
    rcases hT with hT | ⟨hT, hc⟩
    · exact Or.inl (Or.inl hT)
    · rcases List.mem_cons.1 hT with hT | hT
      · refine Or.inl (Or.inr ⟨hT, ?_⟩)
        rw [List.mem_range, h.same.cols_eq]
        exact hc
      · exact Or.inr ⟨hT, hc⟩

/-- The function `calculateRoundedCorners` changes corner flags only, and leaves every in-bounds
obstacle cell with the flags of the rule. -/
theorem calculateRoundedCorners_spec (m : Maze) :
    SameCells m m.calculateRoundedCorners ∧
    ∀ r c : Int, m.calculateRoundedCorners.inBounds r c = true →
      m.calculateRoundedCorners.obstacleCell r c → m.calculateRoundedCorners.Classified r c := by
  have h0 : RoundInv m m (fun _ _ => False) := ⟨SameCells.same m, fun _ _ hS _ => absurd hS id⟩
  have h := roundInv_rows (List.range m.m_rows) m _ h0
  refine ⟨h.same, ?_⟩
  intro r c hin hob
  apply classified_of_flags
  have hS : SameCells m m.calculateRoundedCorners := h.same
  rw [hS.cornerFlags]
  rw [hS.inBounds] at hin
  have hb := (inBounds_iff_not m r c).1 hin
  have hr : ((r.toNat : Nat) : Int) = r := Int.toNat_of_nonneg (by omega)
  have hc : ((c.toNat : Nat) : Int) = c := Int.toNat_of_nonneg (by omega)
  have := h.done r.toNat c.toNat
    (Or.inr ⟨List.mem_range.2 (by omega), by omega⟩)
    (by rw [hr, hc]; exact (hS.obstacleCell r c).1 hob)
  rw [hr, hc] at this
  exact this

end Maze
end TankMaze


namespace TankMaze

theorem foldl_keeps {α β : Type} (P : α → Prop) (f : α → β → α)
    (hf : ∀ a b, P a → P (f a b)) : ∀ (l : List β) (a : α), P a → P (l.foldl f a) := by
  intro l
  induction l with
  | nil => intro a h; exact h
  | cons b l ih => intro a h; exact ih _ (hf a b h)

namespace Maze

/-! ### Shape of the matrix of cells -/

theorem MazeWF.wf_setWall {m : Maze} (h : MazeWF m) (r c : Int) (w : Wall) :
    MazeWF (m.setWall r c w) := by
  unfold MazeWF Maze.setWall
  exact GridWF.set2 h _ _ _

theorem MazeWF.wf_roundAt {m : Maze} (h : MazeWF m) (r c : Int) : MazeWF (m.roundAt r c) := by
  unfold Maze.roundAt
  simp only []
  split_ifs
  · exact h
  · exact h.wf_setWall _ _ _

theorem MazeWF.wf_calculateRoundedCorners {m : Maze} (h : MazeWF m) :
    MazeWF m.calculateRoundedCorners := by
  unfold Maze.calculateRoundedCorners
  apply foldl_keeps MazeWF _ _ _ _ h
  intro a r ha
  apply foldl_keeps MazeWF _ _ _ _ ha
  intro b c hb
  exact hb.wf_roundAt _ _

theorem LoadKeeps.start (m : Maze) : LoadKeeps m m := ⟨rfl, rfl, rfl, fun h => h⟩

theorem LoadKeeps.andThen {m m2 m3 : Maze} (h12 : LoadKeeps m m2) (h23 : LoadKeeps m2 m3) :
    LoadKeeps m m3 :=
  ⟨h23.data.trans h12.data, h23.rows.trans h12.rows, h23.cols.trans h12.cols,
    fun h => h23.wf (h12.wf h)⟩

theorem loadCell_keeps (m : Maze) (r c : Nat) (ch : Char) : LoadKeeps m (m.loadCell r c ch) := by
  have hset : ∀ w : Wall, LoadKeeps m (m.setWall r c w) :=
    fun w => ⟨rfl, rfl, rfl, fun h => h.wf_setWall _ _ _⟩
  unfold loadCell
  simp only []
  split_ifs
  · exact hset _
  · exact hset _
  · exact hset _
  · exact hset _
  · exact ⟨rfl, rfl, rfl, fun h => h.wf_setWall _ _ _⟩
  · exact ⟨rfl, rfl, rfl, fun h => h.wf_setWall _ _ _⟩
  · exact ⟨rfl, rfl, rfl, fun h => h.wf_setWall _ _ _⟩
  · exact ⟨rfl, rfl, rfl, fun h => h.wf_setWall _ _ _⟩
  · exact ⟨rfl, rfl, rfl, fun h => h.wf_setWall _ _ _⟩
  · exact hset _

theorem loadRow_keeps (r : Nat) :
    ∀ (chars : List Char) (c : Nat) (m : Maze), LoadKeeps m (loadRow r c chars m) := by
  intro chars
  induction chars with
  | nil => intro c m; exact LoadKeeps.start m
  | cons ch rest ih =>
    intro c m
    unfold loadRow
    exact (loadCell_keeps m r c ch).andThen (ih _ _)

theorem loadRows_keeps :
    ∀ (rows : List String) (r : Nat) (m : Maze), LoadKeeps m (loadRows r rows m) := by
  intro rows
  induction rows with
  | nil => intro r m; exact LoadKeeps.start m
  | cons row rest ih =>
    intro r m
    unfold loadRows
    exact (loadRow_keeps r _ _ m).andThen (ih _ _)

theorem calculateRoundedCorners_keeps (m : Maze) : LoadKeeps m m.calculateRoundedCorners := by
  have h := (calculateRoundedCorners_spec m).1
  refine ⟨?_, h.rows_eq, h.cols_eq, fun hw => hw.wf_calculateRoundedCorners⟩
  have := congrArg Maze.m_mazeData h.others
  exact this

/-- The function `loadFromString` on a non-empty text: the text is stored, the sizes are those
of the text and the matrix has that shape. -/
theorem loadFromString_keeps (m : Maze) (map : List String) (h : map ≠ []) :
    (m.loadFromString map).m_mazeData = map ∧ (m.loadFromString map).m_rows = map.length ∧
      MazeWF (m.loadFromString map) := by
  unfold loadFromString
  rw [if_neg h]
  simp only []
  have k := (loadRows_keeps map 0 _).andThen (calculateRoundedCorners_keeps
    (loadRows 0 map { m with m_mazeData := map, m_rows := map.length, m_cols := map.foldl (fun (k : Nat) (row : String) => max k row.length) 0, m_walls := List.replicate map.length (List.replicate (map.foldl (fun (k : Nat) (row : String) => max k row.length) 0) ({} : Wall)), m_enemySpawnPoints := [], m_spawn1Position := ⟨0, 0⟩, m_spawn2Position := ⟨0, 0⟩ }))
  refine ⟨k.data, k.rows, k.wf ?_⟩
  unfold MazeWF
  simp only []
  have := GridWF.replicate ((map.foldl (fun (k : Nat) (row : String) => max k row.length) 0 : Nat) : Int)
    ((map.length : Nat) : Int) (by omega) (by omega) ({} : Wall)
  simpa using this

theorem mazeWF_init : MazeWF ({} : Maze) := by
  unfold MazeWF GridWF
  exact ⟨rfl, fun row hrow => absurd hrow (List.not_mem_nil row)⟩

theorem MazeWF.wf_loadFromString {m : Maze} (h : MazeWF m) (map : List String) :
    MazeWF (m.loadFromString map) := by
  by_cases he : map = []
  · unfold Maze.loadFromString
    rw [if_pos he]
    exact h
  · exact (loadFromString_keeps m map he).2.2

theorem MazeWF.wf_bulletHit {m : Maze} (h : MazeWF m) (p : Vec2) (d : ℚ) :
    MazeWF (m.bulletHit p d).2 := by
  unfold Maze.bulletHit
  simp only []
  split_ifs
  · exact h
  · exact h
  · exact h.wf_setWall _ _ _
  · exact h.wf_setWall _ _ _
  · exact h

theorem MazeWF.wf_bulletHitWithResult {m : Maze} (h : MazeWF m) (p : Vec2) (d : ℚ) :
    MazeWF (m.bulletHitWithResult p d).2 := by
  unfold Maze.bulletHitWithResult
  simp only []
  split_ifs
  · exact h
  · exact h
  · exact h.wf_setWall _ _ _
  · exact h.wf_setWall _ _ _
  · exact h

theorem MazeWF.wf_applyWallDamage {m : Maze} (h : MazeWF m) (row col : Int) (d : ℚ) (force : Bool) :
    MazeWF (m.applyWallDamage row col d force).2 := by
  unfold Maze.applyWallDamage
  simp only []
  split_ifs
  · exact h
  · exact h.wf_setWall _ _ _
  · exact h.wf_setWall _ _ _
  · exact h.wf_setWall _ _ _
  · exact h

theorem MazeWF.wf_placeWall {m : Maze} (h : MazeWF m) (hypot : ℚ → ℚ → ℚ) (p : Vec2) :
    MazeWF (m.placeWall hypot p).2 := by
  unfold Maze.placeWall
  simp only []
  split_ifs
  · exact h
  · exact (h.wf_setWall _ _ _).wf_calculateRoundedCorners

/-- Every state of a maze object has a matrix of `m_rows` rows of `m_cols` cells. -/
theorem Reachable.wf {hypot : ℚ → ℚ → ℚ} {m : Maze} (h : Reachable hypot m) : MazeWF m := by
  induction h with
  | init => exact mazeWF_init
  | load m map _ ih => exact ih.wf_loadFromString map
  | hit m p d _ ih => exact ih.wf_bulletHit p d
  | hitWithResult m p d _ ih => exact ih.wf_bulletHitWithResult p d
  | damage m row col d force _ ih => exact ih.wf_applyWallDamage row col d force
  | place m p _ ih => exact ih.wf_placeWall hypot p

/-- In a maze of the right shape an in-bounds cell can be written. -/
theorem wallAt_setWall_inBounds {m : Maze} (h : MazeWF m) (r c : Int) (w : Wall)
    (hin : m.inBounds r c = true) : (m.setWall r c w).wallAt r c = w := by
  have hb := (inBounds_iff_not m r c).1 hin
  rw [wallAt_eq]
  unfold Maze.setWall
  have hi : r.toNat < m.m_walls.length := by have := h.1; omega
  have hj : c.toNat < (m.m_walls.getD r.toNat []).length := by
    have := h.row_length (i := r.toNat) (by omega)
    omega
  rw [get2_set2 default m.m_walls _ _ w hi hj, if_pos ⟨rfl, rfl⟩]

end Maze
end TankMaze


namespace TankMaze

theorem get2_set2_cases {α : Type} (d : α) (m : List (List α)) (i j : Nat) (v : α) (i2 j2 : Nat) :
    get2 d (set2 m i j v) i2 j2 = v ∨ get2 d (set2 m i j v) i2 j2 = get2 d m i2 j2 := by
  by_cases h : i2 = i ∧ j2 = j
  · by_cases hi : i < m.length
    · by_cases hj : j < (m.getD i []).length
      · left
        rw [get2_set2 d m i j v hi hj, if_pos h]
      · right
        unfold get2 set2
        rw [List.set_eq_of_length_le (l := m.getD i []) (by omega)]
        rw [getD_set_eq [] m i i2 _ hi]
        split_ifs with h1
        · rw [h1]
        · rfl
    · right
      unfold get2 set2
      rw [List.set_eq_of_length_le (l := m) (by omega)]
  · right
    exact get2_set2_other d m i j v i2 j2 h

namespace Maze

/-! ### The cell invariant -/

theorem cellInvariant_default : cellInvariant (default : Wall) := by
  unfold cellInvariant
  refine ⟨fun h => absurd rfl h, fun _ => by decide⟩

theorem cellsKeep.keep_setWall {m : Maze} (h : cellsKeep m) (r c : Int) (w : Wall)
    (hw : cellInvariant w) : cellsKeep (m.setWall r c w) := by
  intro i j
  unfold Maze.setWall
  rcases get2_set2_cases default m.m_walls r.toNat c.toNat w i j with e | e
  · rw [e]; exact hw
  · rw [e]; exact h i j

theorem cellsKeep.keep_wallAt {m : Maze} (h : cellsKeep m) (r c : Int) : cellInvariant (m.wallAt r c) :=
  h r.toNat c.toNat

/-- A Destructible cell after damage: destroyed when the health is used up, standing
otherwise. -/
theorem cellInvariant_damaged (w : Wall) (d : ℚ) :
    (w.health - d ≤ 0 →
      cellInvariant { w with health := w.health - d, type := WallType.None }) ∧
    (¬ w.health - d ≤ 0 → w.type = WallType.Destructible →
      cellInvariant { w with health := w.health - d }) := by
  unfold cellInvariant
  constructor
  · intro _
    exact ⟨fun _ => Or.inr rfl, fun _ => by show WallType.None ≠ WallType.Destructible; decide⟩
  · intro hpos hty
    exact ⟨fun _ => Or.inl hty, fun hle => absurd hle hpos⟩

theorem cellInvariant_destroyed (w : Wall) : cellInvariant { w with type := WallType.None } := by
  unfold cellInvariant
  exact ⟨fun _ => Or.inr rfl, fun _ => by show WallType.None ≠ WallType.Destructible; decide⟩

theorem cellsKeep.keep_bulletHit {m : Maze} (h : cellsKeep m) (p : Vec2) (d : ℚ) :
    cellsKeep (m.bulletHit p d).2 := by
  unfold Maze.bulletHit
  simp only []
  split_ifs with h1 h2 h3 h4
  · exact h
  · exact h
  · exact h.keep_setWall _ _ _ ((cellInvariant_damaged _ d).1 h4)
  · exact h.keep_setWall _ _ _ ((cellInvariant_damaged _ d).2 h4 h3)
  · exact h

theorem cellsKeep.keep_bulletHitWithResult {m : Maze} (h : cellsKeep m) (p : Vec2) (d : ℚ) :
    cellsKeep (m.bulletHitWithResult p d).2 := by
  unfold Maze.bulletHitWithResult
  simp only []
  split_ifs with h1 h2 h3 h4
  · exact h
  · exact h
  · exact h.keep_setWall _ _ _ ((cellInvariant_damaged _ d).1 h4)
  · exact h.keep_setWall _ _ _ ((cellInvariant_damaged _ d).2 h4 h3)
  · exact h

theorem cellsKeep.keep_applyWallDamage {m : Maze} (h : cellsKeep m) (row col : Int) (d : ℚ)
    (force : Bool) : cellsKeep (m.applyWallDamage row col d force).2 := by
  unfold Maze.applyWallDamage
  simp only []
  split_ifs with h1 h2 h3 h4
  · exact h
  · exact h.keep_setWall _ _ _ (cellInvariant_destroyed _)
  · exact h.keep_setWall _ _ _ ((cellInvariant_damaged _ d).1 h4)
  · exact h.keep_setWall _ _ _ ((cellInvariant_damaged _ d).2 h4 h2)
  · exact h

theorem cellsKeep.keep_calculateRoundedCorners {m : Maze} (h : cellsKeep m) :
    cellsKeep m.calculateRoundedCorners := by
  intro i j
  have hs := (calculateRoundedCorners_spec m).1.cells (i : Int) (j : Int)
  have e : ∀ m2 : Maze, m2.wallAt (i : Int) (j : Int) = get2 default m2.m_walls i j := by
    intro m2
    rw [wallAt_eq]
    simp only [Int.toNat_ofNat]
  rw [e, e] at hs
  rw [hs]
  exact h i j

theorem cellInvariant_placed (w : Wall) :
    cellInvariant { w with type := WallType.Destructible, wallAttribute := WallAttribute.None,
                           health := 100, maxHealth := 100 } := by
  unfold cellInvariant
  exact ⟨fun _ => Or.inl rfl, fun hle => absurd hle (by norm_num)⟩

theorem cellsKeep.keep_placeWall {m : Maze} (h : cellsKeep m) (hypot : ℚ → ℚ → ℚ) (p : Vec2) :
    cellsKeep (m.placeWall hypot p).2 := by
  unfold Maze.placeWall
  simp only []
  split_ifs
  · exact h
  · exact (h.keep_setWall _ _ _ (cellInvariant_placed _)).keep_calculateRoundedCorners

/-- One character of the text: the cell it is decoded into is still as `Wall()` made it. -/
theorem loadCell_inv (m : Maze) (r c : Nat) (ch : Char) (h : LoadInv m r c) :
    LoadInv (m.loadCell r c ch) r (c + 1) := by
  have hw : m.wallAt (r : Int) (c : Int) = default := by
    rw [wallAt_eq]
    simp only [Int.toNat_ofNat]
    exact h.fresh r c (Or.inr ⟨rfl, le_refl c⟩)
  have hset : ∀ w : Wall, cellInvariant w →
      cellsKeep (m.setWall (r : Int) (c : Int) w) ∧
      ∀ i j : Nat, (r < i ∨ (i = r ∧ c + 1 ≤ j)) →
        get2 default (m.setWall (r : Int) (c : Int) w).m_walls i j = default := by
    intro w hgood
    refine ⟨h.good.keep_setWall _ _ _ hgood, ?_⟩
    intro i j hij
    unfold Maze.setWall
    simp only [Int.toNat_ofNat]
    rw [get2_set2_other default m.m_walls r c w i j (by omega)]
    exact h.fresh i j (by omega)
  have g1 : cellInvariant { (default : Wall) with type := WallType.Solid } := by
    unfold cellInvariant
    exact ⟨fun hne => absurd rfl hne, fun _ => by decide⟩
  have g2 : ∀ a : WallAttribute, cellInvariant { (default : Wall) with
      type := WallType.Destructible, wallAttribute := a, health := 100, maxHealth := 100 } := by
    intro a
    unfold cellInvariant
    exact ⟨fun _ => Or.inl rfl, fun hle => absurd hle (by norm_num)⟩
  have g3 : cellInvariant { (default : Wall) with type := WallType.None } := by
    unfold cellInvariant
    exact ⟨fun hne => absurd rfl hne, fun _ => by decide⟩
  have g4 : cellInvariant { (default : Wall) with type := WallType.Exit } := by
    unfold cellInvariant
    exact ⟨fun hne => absurd rfl hne, fun _ => by decide⟩
  unfold loadCell
  simp only []
  rw [hw]
  split_ifs
  · exact ⟨(hset _ g1).1, (hset _ g1).2⟩
  · exact ⟨(hset _ (g2 _)).1, (hset _ (g2 _)).2⟩
  · exact ⟨(hset _ (g2 _)).1, (hset _ (g2 _)).2⟩
  · exact ⟨(hset _ (g2 _)).1, (hset _ (g2 _)).2⟩
  · exact ⟨(hset _ g3).1, (hset _ g3).2⟩
  · exact ⟨(hset _ g4).1, (hset _ g4).2⟩
  · exact ⟨(hset _ g3).1, (hset _ g3).2⟩
  · exact ⟨(hset _ g3).1, (hset _ g3).2⟩
  · exact ⟨(hset _ g3).1, (hset _ g3).2⟩
  · exact ⟨(hset _ g3).1, (hset _ g3).2⟩

theorem loadRow_inv (r : Nat) :
    ∀ (chars : List Char) (c : Nat) (m : Maze), LoadInv m r c →
      LoadInv (loadRow r c chars m) r (c + chars.length) := by
  intro chars
  induction chars with
  | nil => intro c m h; exact h
  | cons ch rest ih =>
    intro c m h
    unfold loadRow
    have := ih (c + 1) _ (loadCell_inv m r c ch h)
    rw [List.length_cons]
    have e : c + (rest.length + 1) = c + 1 + rest.length := by omega
    rw [e]
    exact this

theorem loadRows_inv :
    ∀ (rows : List String) (r : Nat) (m : Maze), LoadInv m r 0 → cellsKeep (loadRows r rows m) := by
  intro rows
  induction rows with
  | nil => intro r m h; exact h.good
  | cons row rest ih =>
    intro r m h
    unfold loadRows
    have h1 := loadRow_inv r row.toList 0 m h
    apply ih (r + 1)
    exact ⟨h1.good, fun i j hij => h1.fresh i j (by omega)⟩

theorem cellsKeep.keep_loadFromString {m : Maze} (h : cellsKeep m) (map : List String) :
    cellsKeep (m.loadFromString map) := by
  unfold Maze.loadFromString
  split_ifs with he
  · exact h
  · simp only []
    apply cellsKeep.keep_calculateRoundedCorners
    apply loadRows_inv
    have hfresh : ∀ (rows cols i j : Nat),
        get2 default (List.replicate rows (List.replicate cols ({} : Wall))) i j = default := by
      intro rows cols i j
      rw [get2_replicate]
      split_ifs <;> rfl
    refine ⟨?_, fun i j _ => hfresh _ _ i j⟩
    intro i j
    simp only []
    rw [hfresh]
    exact cellInvariant_default

theorem cellsKeep_init : cellsKeep ({} : Maze) := by
  intro i j
  have : get2 default ({} : Maze).m_walls i j = default := by
    unfold get2
    simp
  rw [this]
  exact cellInvariant_default

end Maze
end TankMaze


namespace TankMaze
namespace Maze

/-- C20. For every non-empty list of rows `map`, `getMazeData` after `loadFromString map`
returns `map` itself. -/
theorem loadFromString_getMazeData (m : Maze) (map : List String) (h : map ≠ []) :
    (m.loadFromString map).getMazeData = map := by
  unfold getMazeData loadFromString
  rw [if_neg h]
  simp only []
  -- the map is stored first; parsing the rows and classifying the corners keep it
  have hrows := loadRows_keeps map 0
    { m with m_mazeData := map, m_rows := map.length, m_cols := map.foldl (fun (k : Nat) (row : String) => max k row.length) 0, m_walls := List.replicate map.length (List.replicate (map.foldl (fun (k : Nat) (row : String) => max k row.length) 0) ({} : Wall)), m_enemySpawnPoints := [], m_spawn1Position := ⟨0, 0⟩, m_spawn2Position := ⟨0, 0⟩ }
  have hcorners := calculateRoundedCorners_keeps (loadRows 0 map
    { m with m_mazeData := map, m_rows := map.length, m_cols := map.foldl (fun (k : Nat) (row : String) => max k row.length) 0, m_walls := List.replicate map.length (List.replicate (map.foldl (fun (k : Nat) (row : String) => max k row.length) 0) ({} : Wall)), m_enemySpawnPoints := [], m_spawn1Position := ⟨0, 0⟩, m_spawn2Position := ⟨0, 0⟩ })
  exact (hrows.andThen hcorners).data

theorem loadFromString_getMazeData_witness :
    ["#*.", "S E", "GH"] ≠ ([] : List String) ∧
    (({} : Maze).loadFromString ["#*.", "S E", "GH"]).getMazeData = ["#*.", "S E", "GH"] :=
  ⟨by simp, loadFromString_getMazeData {} ["#*.", "S E", "GH"] (by simp)⟩

/-- C11. A Destructible cell `(r, c)` with health `h`, hit at a point of the cell. Damage `h`
destroys it: the result carries `destroyed = true`, the attribute of the cell, its centre and its
coordinates, and the cell is Empty afterwards. Damage `h - 1`, for `h > 1`, gives
`destroyed = false` and leaves the cell Destructible. Two hits `d1`, `d2` with
`0 ≤ d1 < h ≤ d1 + d2` leave it Destructible after the first and destroy it on the second. -/
theorem bulletHitWithResult_threshold (m : Maze) (p : Vec2) (r c : Int) (h : ℚ)
    (hin : m.inBounds r c = true) (hp : inCell p r c)
    (hty : (m.wallAt r c).type = WallType.Destructible) (hh : (m.wallAt r c).health = h) :
    ((m.bulletHitWithResult p h).1 =
        { destroyed := true, wallAttribute := (m.wallAt r c).wallAttribute,
          position := gridToWorld ⟨c, r⟩, gridX := c, gridY := r } ∧
      (m.bulletHitWithResult p h).2.typeAt r c = WallType.None) ∧
    (1 < h →
      (m.bulletHitWithResult p (h - 1)).1.destroyed = false ∧
      (m.bulletHitWithResult p (h - 1)).2.typeAt r c = WallType.Destructible) ∧
    (∀ d1 d2 : ℚ, 0 ≤ d1 → d1 < h → h ≤ d1 + d2 →
      (m.bulletHitWithResult p d1).1.destroyed = false ∧
      (m.bulletHitWithResult p d1).2.typeAt r c = WallType.Destructible ∧
      ((m.bulletHitWithResult p d1).2.bulletHitWithResult p d2).1 =
        { destroyed := true, wallAttribute := (m.wallAt r c).wallAttribute,
          position := gridToWorld ⟨c, r⟩, gridX := c, gridY := r } ∧
      ((m.bulletHitWithResult p d1).2.bulletHitWithResult p d2).2.typeAt r c = WallType.None) := by
  have hne : (m.wallAt r c).type ≠ WallType.None := by rw [hty]; decide
  have hstand : ∀ d : ℚ, d < h →
      m.bulletHitWithResult p d =
        ({ destroyed := false, wallAttribute := WallAttribute.None,
           position := gridToWorld ⟨c, r⟩, gridX := c, gridY := r },
         m.setWall r c { m.wallAt r c with health := (m.wallAt r c).health - d }) := by
    intro d hd
    rw [bulletHitWithResult_destructible m p r c d hin hp hty, if_neg (by rw [hh]; linarith)]
  have hfall : ∀ (m2 : Maze) (d : ℚ), m2.inBounds r c = true →
      (m2.wallAt r c).type = WallType.Destructible → (m2.wallAt r c).health ≤ d →
      (m2.bulletHitWithResult p d).1 =
        { destroyed := true, wallAttribute := (m2.wallAt r c).wallAttribute,
          position := gridToWorld ⟨c, r⟩, gridX := c, gridY := r } ∧
      (m2.bulletHitWithResult p d).2.typeAt r c = WallType.None := by
    intro m2 d hin2 hty2 hle
    rw [bulletHitWithResult_destructible m2 p r c d hin2 hp hty2, if_pos (by linarith)]
    refine ⟨rfl, ?_⟩
    unfold Maze.typeAt
    simp only []
    rw [wallAt_setWall_self m2 r c _ (by rw [hty2]; decide)]
  refine ⟨hfall m h hin hty (le_of_eq hh), ?_, ?_⟩
  · intro h1
    rw [hstand (h - 1) (by linarith)]
    refine ⟨rfl, ?_⟩
    unfold Maze.typeAt
    simp only []
    rw [wallAt_setWall_self m r c _ hne]
    exact hty
  · intro d1 d2 h0 h1 h2
    rw [hstand d1 h1]
    have hcell : (m.setWall r c { m.wallAt r c with health := (m.wallAt r c).health - d1 }).wallAt r c =
        { m.wallAt r c with health := (m.wallAt r c).health - d1 } :=
      wallAt_setWall_self m r c _ hne
    have hsecond := hfall (m.setWall r c { m.wallAt r c with health := (m.wallAt r c).health - d1 }) d2
      hin (by rw [hcell]; exact hty) (by rw [hcell]; simp only []; rw [hh]; linarith)
    rw [hcell] at hsecond
    refine ⟨rfl, ?_, hsecond.1, hsecond.2⟩
    unfold Maze.typeAt
    rw [hcell]
    exact hty

theorem bulletHitWithResult_threshold_witness :
    ((goldOnly.bulletHitWithResult ⟨10, 20⟩ 100).1 =
        { destroyed := true, wallAttribute := WallAttribute.Gold,
          position := ⟨30, 30⟩, gridX := 0, gridY := 0 } ∧
      (goldOnly.bulletHitWithResult ⟨10, 20⟩ 100).2.typeAt 0 0 = WallType.None) ∧
    ((goldOnly.bulletHitWithResult ⟨10, 20⟩ 99).1.destroyed = false ∧
      (goldOnly.bulletHitWithResult ⟨10, 20⟩ 99).2.typeAt 0 0 = WallType.Destructible) := by
  have hin : goldOnly.inBounds 0 0 = true := by decide
  have hp : inCell ⟨10, 20⟩ 0 0 := by unfold inCell m_tileSize; norm_num
  have hty : (goldOnly.wallAt 0 0).type = WallType.Destructible := by decide
  have hh : (goldOnly.wallAt 0 0).health = 100 := by decide!
  have ha : (goldOnly.wallAt 0 0).wallAttribute = WallAttribute.Gold := by decide
  have hc : gridToWorld ⟨0, 0⟩ = ⟨30, 30⟩ := by decide!
  have key := bulletHitWithResult_threshold goldOnly ⟨10, 20⟩ 0 0 100 hin hp hty hh
  rw [ha, hc] at key
  refine ⟨key.1, ?_⟩
  have h99 := key.2.1 (by norm_num)
  norm_num at h99
  exact h99

end Maze
end TankMaze


namespace TankMaze
namespace Maze

/-- C12, as the code has it. For an in-bounds cell `(r, c)` that is not Solid and a point `p` of
the cell, `applyWallDamage(r, c, d, false)` and `bulletHitWithResult(p, d)` return the same
result and leave the same maze. On a Solid cell both leave the maze as it is and report
`destroyed = false` with attribute None, but `bulletHitWithResult` reports the centre and the
coordinates of the cell where `applyWallDamage` returns the default result. -/
theorem applyWallDamage_matches_hit (m : Maze) (r c : Int) (p : Vec2) (d : ℚ)
    (hin : m.inBounds r c = true) (hp : inCell p r c) :
    (m.typeAt r c ≠ WallType.Solid →
      m.applyWallDamage r c d false = m.bulletHitWithResult p d) ∧
    (m.typeAt r c = WallType.Solid →
      m.applyWallDamage r c d false = ({}, m) ∧
      m.bulletHitWithResult p d =
        ({ destroyed := false, wallAttribute := WallAttribute.None,
           position := gridToWorld ⟨c, r⟩, gridX := c, gridY := r }, m)) := by
  obtain ⟨ec, er⟩ := cell_of_point m p r c hin hp
  have hb := (inBounds_iff_not m r c).1 hin
  unfold applyWallDamage bulletHitWithResult Maze.typeAt
  simp only []
  rw [ec, er]
  simp only [if_neg hb]
  constructor
  · intro hS
    simp only [if_neg hS]
    by_cases hD : (m.wallAt r c).type = WallType.Destructible
    · simp only [if_pos hD]
      rw [if_neg (by decide)]
    · simp only [if_neg hD]
  · intro hS
    have hD : ¬ (m.wallAt r c).type = WallType.Destructible := by rw [hS]; decide
    simp only [if_pos hS, if_neg hD]
    exact ⟨trivial, rfl⟩

theorem applyWallDamage_matches_hit_witness :
    goldOnly.applyWallDamage 0 0 40 false = goldOnly.bulletHitWithResult ⟨10, 20⟩ 40 :=
  (applyWallDamage_matches_hit goldOnly 0 0 ⟨10, 20⟩ 40 (by decide)
    (by unfold inCell m_tileSize; norm_num)).1 (by decide)

/-- C12 as stated fails on a Solid cell: in the maze `#` the cell `(0, 0)` is in bounds and the
point `(30, 30)` lies in it, yet the two results differ. -/
theorem applyWallDamage_differs_on_solid :
    solidOnly.inBounds 0 0 = true ∧ inCell ⟨30, 30⟩ 0 0 ∧
    (solidOnly.applyWallDamage 0 0 10 false).1 ≠ (solidOnly.bulletHitWithResult ⟨30, 30⟩ 10).1 :=
  ⟨by decide, by unfold inCell m_tileSize; norm_num, by decide!⟩

theorem canPlaceWall_iff (hypot : ℚ → ℚ → ℚ) (m : Maze) (p : Vec2) :
    canPlaceWall hypot m p = true ↔
      (m.inBounds (worldToGrid p).y (worldToGrid p).x = true ∧
        m.typeAt (worldToGrid p).y (worldToGrid p).x = WallType.None ∧
        m_tileSize ≤ hypot ((gridToWorld (worldToGrid p)).x - m.m_startPosition.x)
          ((gridToWorld (worldToGrid p)).y - m.m_startPosition.y) ∧
        m_tileSize ≤ hypot ((gridToWorld (worldToGrid p)).x - m.m_exitPosition.x)
          ((gridToWorld (worldToGrid p)).y - m.m_exitPosition.y)) := by
  unfold canPlaceWall worldToGrid gridToWorld Maze.typeAt
  simp only []
  rw [inBounds_iff_not]
  by_cases hb : truncToInt (p.y / m_tileSize) < 0 ∨
      truncToInt (p.y / m_tileSize) ≥ (m.m_rows : Int) ∨ truncToInt (p.x / m_tileSize) < 0 ∨
      truncToInt (p.x / m_tileSize) ≥ (m.m_cols : Int)
  · rw [if_pos hb]
    constructor
    · intro h; cases h
    · intro h; exact absurd hb h.1
  · rw [if_neg hb]
    by_cases ht : (m.wallAt (truncToInt (p.y / m_tileSize)) (truncToInt (p.x / m_tileSize))).type ≠
        WallType.None
    · rw [if_pos ht]
      constructor
      · intro h; cases h
      · intro h; exact absurd h.2.1 ht
    · rw [if_neg ht]
      rw [not_not] at ht
      split_ifs with h1 h2
      · constructor
        · intro h; cases h
        · intro h; exact absurd h1 (not_lt.2 h.2.2.1)
      · constructor
        · intro h; cases h
        · intro h; exact absurd h2 (not_lt.2 h.2.2.2)
      · exact ⟨fun _ => ⟨hb, ht, not_lt.1 h1, not_lt.1 h2⟩, fun _ => rfl⟩

theorem placeWall_fst (hypot : ℚ → ℚ → ℚ) (m : Maze) (p : Vec2) :
    (m.placeWall hypot p).1 = canPlaceWall hypot m p := by
  unfold placeWall
  cases canPlaceWall hypot m p <;> rfl

theorem placeWall_snd (hypot : ℚ → ℚ → ℚ) (m : Maze) (p : Vec2)
    (h : canPlaceWall hypot m p = true) :
    (m.placeWall hypot p).2 =
      (m.setWall (worldToGrid p).y (worldToGrid p).x
        { m.wallAt (worldToGrid p).y (worldToGrid p).x with
          type := WallType.Destructible, wallAttribute := WallAttribute.None,
          health := 100, maxHealth := 100 }).calculateRoundedCorners := by
  unfold placeWall
  rw [h]
  rfl

/-- With the cell of `p` as `worldToGrid` computes it: in a maze of the right shape,
`placeWall(p)` returns true exactly when that cell is in bounds and Empty and the distances
`hypot` from its centre to the start and to the exit are both at least the tile size; with a
`hypot` that compares like the Euclidean distance this says that both squared distances are at
least the squared tile size. After a success the cell is
Destructible with attribute None and health and maximal health 100, and every other cell keeps
its kind, attribute and health; after a failure the maze is unchanged; a second `placeWall(p)`
right after a success fails. -/
theorem placeWall_spec (hypot : ℚ → ℚ → ℚ) (m : Maze) (p : Vec2) (hwf : MazeWF m) :
    ((m.placeWall hypot p).1 = true ↔
      (m.inBounds (worldToGrid p).y (worldToGrid p).x = true ∧
        m.typeAt (worldToGrid p).y (worldToGrid p).x = WallType.None ∧
        m_tileSize ≤ hypot ((gridToWorld (worldToGrid p)).x - m.m_startPosition.x)
          ((gridToWorld (worldToGrid p)).y - m.m_startPosition.y) ∧
        m_tileSize ≤ hypot ((gridToWorld (worldToGrid p)).x - m.m_exitPosition.x)
          ((gridToWorld (worldToGrid p)).y - m.m_exitPosition.y))) ∧
    ((∀ a b : ℚ, hypot a b < m_tileSize ↔ a * a + b * b < m_tileSize * m_tileSize) →
      ((m.placeWall hypot p).1 = true ↔
        (m.inBounds (worldToGrid p).y (worldToGrid p).x = true ∧
          m.typeAt (worldToGrid p).y (worldToGrid p).x = WallType.None ∧
          m_tileSize * m_tileSize ≤
            ((gridToWorld (worldToGrid p)).x - m.m_startPosition.x) *
              ((gridToWorld (worldToGrid p)).x - m.m_startPosition.x) +
            ((gridToWorld (worldToGrid p)).y - m.m_startPosition.y) *
              ((gridToWorld (worldToGrid p)).y - m.m_startPosition.y) ∧
          m_tileSize * m_tileSize ≤
            ((gridToWorld (worldToGrid p)).x - m.m_exitPosition.x) *
              ((gridToWorld (worldToGrid p)).x - m.m_exitPosition.x) +
            ((gridToWorld (worldToGrid p)).y - m.m_exitPosition.y) *
              ((gridToWorld (worldToGrid p)).y - m.m_exitPosition.y)))) ∧
    ((m.placeWall hypot p).1 = true →
      (m.placeWall hypot p).2.typeAt (worldToGrid p).y (worldToGrid p).x = WallType.Destructible ∧
      ((m.placeWall hypot p).2.wallAt (worldToGrid p).y (worldToGrid p).x).wallAttribute =
        WallAttribute.None ∧
      ((m.placeWall hypot p).2.wallAt (worldToGrid p).y (worldToGrid p).x).health = 100 ∧
      ((m.placeWall hypot p).2.wallAt (worldToGrid p).y (worldToGrid p).x).maxHealth = 100 ∧
      ∀ r c : Int, 0 ≤ r → 0 ≤ c → ¬ (r = (worldToGrid p).y ∧ c = (worldToGrid p).x) →
        ((m.placeWall hypot p).2.wallAt r c).type = (m.wallAt r c).type ∧
        ((m.placeWall hypot p).2.wallAt r c).wallAttribute = (m.wallAt r c).wallAttribute ∧
        ((m.placeWall hypot p).2.wallAt r c).health = (m.wallAt r c).health) ∧
    ((m.placeWall hypot p).1 = false → (m.placeWall hypot p).2 = m) ∧
    ((m.placeWall hypot p).1 = true →
      ((m.placeWall hypot p).2.placeWall hypot p).1 = false) := by
  have hiff := canPlaceWall_iff hypot m p
  rw [← placeWall_fst] at hiff
  have hafter : (m.placeWall hypot p).1 = true →
      (m.placeWall hypot p).2.wallAt (worldToGrid p).y (worldToGrid p).x =
        { type := WallType.Destructible, wallAttribute := WallAttribute.None, health := 100,
          maxHealth := 100,
          roundedCorners :=
            ((m.placeWall hypot p).2.wallAt (worldToGrid p).y (worldToGrid p).x).roundedCorners } := by
    intro h
    have hin := (hiff.1 h).1
    rw [placeWall_fst] at h
    rw [placeWall_snd hypot m p h]
    rw [(calculateRoundedCorners_spec _).1.cells, wallAt_setWall_inBounds hwf _ _ _ hin]
  refine ⟨hiff, ?_, ?_, ?_, ?_⟩
  · intro hexact
    rw [hiff, ← not_lt, ← not_lt, hexact, hexact, not_lt, not_lt]
  · intro h
    have hcell := hafter h
    have hin := (hiff.1 h).1
    have hb := (inBounds_iff_not m _ _).1 hin
    refine ⟨?_, ?_, ?_, ?_, ?_⟩
    · unfold Maze.typeAt; rw [hcell]
    · rw [hcell]
    · rw [hcell]
    · rw [hcell]
    · intro r c hr hc hne
      rw [placeWall_fst] at h
      rw [placeWall_snd hypot m p h, (calculateRoundedCorners_spec _).1.cells,
        wallAt_setWall_other m _ _ _ r c (by omega) (by omega) hr hc hne]
      exact ⟨rfl, rfl, rfl⟩
  · intro h
    unfold placeWall
    rw [placeWall_fst] at h
    rw [h]
    rfl
  · intro h
    have hcell := hafter h
    cases h2 : ((m.placeWall hypot p).2.placeWall hypot p).1 with
    | false => rfl
    | true =>
      exfalso
      rw [placeWall_fst, canPlaceWall_iff] at h2
      have := h2.2.1
      unfold Maze.typeAt at this
      rw [hcell] at this
      cases this

theorem placeWall_spec_witness :
    (loneWall.placeWall (fun a b => |a| + |b|) ⟨170, 20⟩).1 = true ∧
    ((loneWall.placeWall (fun a b => |a| + |b|) ⟨170, 20⟩).2.placeWall
      (fun a b => |a| + |b|) ⟨170, 20⟩).1 = false := by
  have hwf : MazeWF loneWall := (loadFromString_keeps {} ["...", ".#.", "..."] (by simp)).2.2
  have key := placeWall_spec (fun a b => |a| + |b|) loneWall ⟨170, 20⟩ hwf
  have h1 : (loneWall.placeWall (fun a b => |a| + |b|) ⟨170, 20⟩).1 = true := by decide!
  exact ⟨h1, key.2.2.2.2 h1⟩

/-- C14. After `loadFromString` of a non-empty text, and after every successful `placeWall`,
every in-bounds cell of kind Solid, Destructible or Exit has its four corner flags as the rule
says: top-left is rounded exactly when the north and west neighbours are both not obstacles,
top-right north and east, bottom-right south and east, bottom-left south and west, an obstacle
being a cell out of bounds, Solid or Destructible. -/
theorem corners_follow_rule (hypot : ℚ → ℚ → ℚ) (m : Maze) (map : List String) (p : Vec2) :
    (map ≠ [] → ∀ r c : Int, (m.loadFromString map).inBounds r c = true →
      (m.loadFromString map).obstacleCell r c → (m.loadFromString map).Classified r c) ∧
    ((m.placeWall hypot p).1 = true → ∀ r c : Int, (m.placeWall hypot p).2.inBounds r c = true →
      (m.placeWall hypot p).2.obstacleCell r c → (m.placeWall hypot p).2.Classified r c) := by
  constructor
  · intro hne
    unfold loadFromString
    rw [if_neg hne]
    exact (calculateRoundedCorners_spec _).2
  · intro h
    rw [placeWall_fst] at h
    rw [placeWall_snd hypot m p h]
    exact (calculateRoundedCorners_spec _).2

end Maze
end TankMaze


namespace TankMaze
namespace Maze

theorem corners_eq (k : Corners) (a b c d : Bool) (h1 : k.topLeft = a) (h2 : k.topRight = b)
    (h3 : k.bottomRight = c) (h4 : k.bottomLeft = d) : k = ⟨a, b, c, d⟩ := by
  cases k
  simp only at h1 h2 h3 h4
  rw [h1, h2, h3, h4]

theorem flag_true {x : Bool} {P Q : Prop} (h : x = true ↔ (¬ P ∧ ¬ Q)) (hp : ¬ P) (hq : ¬ Q) :
    x = true := h.2 ⟨hp, hq⟩

theorem flag_false_left {x : Bool} {P Q : Prop} (h : x = true ↔ (¬ P ∧ ¬ Q)) (hp : P) :
    x = false := by
  cases x with
  | false => rfl
  | true => exact absurd hp (h.1 rfl).1

theorem flag_false_right {x : Bool} {P Q : Prop} (h : x = true ↔ (¬ P ∧ ¬ Q)) (hq : Q) :
    x = false := by
  cases x with
  | false => rfl
  | true => exact absurd hq (h.1 rfl).2

/-- A cell that is in bounds and Solid or Destructible is an obstacle for its neighbours and a
cell whose corners are classified. -/
theorem wall_is_obstacle (m : Maze) (r c : Int)
    (h : m.typeAt r c = WallType.Solid ∨ m.typeAt r c = WallType.Destructible) :
    m.obstacleAt r c ∧ m.obstacleCell r c := by
  unfold obstacleAt obstacleCell
  rcases h with h | h
  · exact ⟨Or.inr (Or.inl h), Or.inl h⟩
  · exact ⟨Or.inr (Or.inr h), Or.inr (Or.inl h)⟩

/-- C15, as the code has it. After `calculateRoundedCorners`: an in-bounds obstacle cell whose
four orthogonal neighbours are not obstacles has all four corners rounded. In a straight run of
exactly three in-bounds Solid or Destructible cells whose other orthogonal neighbours are not
obstacles, each end cell has exactly two rounded corners, the two that face away from the run,
and the middle cell has no rounded corner. The run is horizontal, centred at `(r, c)`, in the
second part and vertical in the third. -/
theorem corner_symmetry (m : Maze) (r c : Int) :
    (m.calculateRoundedCorners.inBounds r c = true → m.calculateRoundedCorners.obstacleCell r c →
      ¬ m.calculateRoundedCorners.obstacleAt (r - 1) c →
      ¬ m.calculateRoundedCorners.obstacleAt (r + 1) c →
      ¬ m.calculateRoundedCorners.obstacleAt r (c - 1) →
      ¬ m.calculateRoundedCorners.obstacleAt r (c + 1) →
      (m.calculateRoundedCorners.wallAt r c).roundedCorners = ⟨true, true, true, true⟩) ∧
    ((∀ k : Int, (k = c - 1 ∨ k = c ∨ k = c + 1) →
        m.calculateRoundedCorners.inBounds r k = true ∧
        (m.calculateRoundedCorners.typeAt r k = WallType.Solid ∨
          m.calculateRoundedCorners.typeAt r k = WallType.Destructible) ∧
        ¬ m.calculateRoundedCorners.obstacleAt (r - 1) k ∧
        ¬ m.calculateRoundedCorners.obstacleAt (r + 1) k) →
      ¬ m.calculateRoundedCorners.obstacleAt r (c - 2) →
      ¬ m.calculateRoundedCorners.obstacleAt r (c + 2) →
      (m.calculateRoundedCorners.wallAt r (c - 1)).roundedCorners = ⟨true, false, false, true⟩ ∧
      (m.calculateRoundedCorners.wallAt r c).roundedCorners = ⟨false, false, false, false⟩ ∧
      (m.calculateRoundedCorners.wallAt r (c + 1)).roundedCorners = ⟨false, true, true, false⟩) ∧
    ((∀ k : Int, (k = r - 1 ∨ k = r ∨ k = r + 1) →
        m.calculateRoundedCorners.inBounds k c = true ∧
        (m.calculateRoundedCorners.typeAt k c = WallType.Solid ∨
          m.calculateRoundedCorners.typeAt k c = WallType.Destructible) ∧
        ¬ m.calculateRoundedCorners.obstacleAt k (c - 1) ∧
        ¬ m.calculateRoundedCorners.obstacleAt k (c + 1)) →
      ¬ m.calculateRoundedCorners.obstacleAt (r - 2) c →
      ¬ m.calculateRoundedCorners.obstacleAt (r + 2) c →
      (m.calculateRoundedCorners.wallAt (r - 1) c).roundedCorners = ⟨true, true, false, false⟩ ∧
      (m.calculateRoundedCorners.wallAt r c).roundedCorners = ⟨false, false, false, false⟩ ∧
      (m.calculateRoundedCorners.wallAt (r + 1) c).roundedCorners = ⟨false, false, true, true⟩) := by
  have hcl := (calculateRoundedCorners_spec m).2
  generalize m.calculateRoundedCorners = k at hcl ⊢
  have e1 : c - 1 - 1 = c - 2 := by ring
  have e2 : c - 1 + 1 = c := by ring
  have e3 : c + 1 - 1 = c := by ring
  have e4 : c + 1 + 1 = c + 2 := by ring
  have f1 : r - 1 - 1 = r - 2 := by ring
  have f2 : r - 1 + 1 = r := by ring
  have f3 : r + 1 - 1 = r := by ring
  have f4 : r + 1 + 1 = r + 2 := by ring
  refine ⟨?_, ?_, ?_⟩
  · intro hin hob hn hs hw he
    have h := hcl r c hin hob
    exact corners_eq _ _ _ _ _ (flag_true h.topLeft hn hw) (flag_true h.topRight hn he)
      (flag_true h.bottomRight hs he) (flag_true h.bottomLeft hs hw)
  · intro hrun hwest heast
    obtain ⟨ia, ta, na, sa⟩ := hrun (c - 1) (Or.inl rfl)
    obtain ⟨ib, tb, nb, sb⟩ := hrun c (Or.inr (Or.inl rfl))
    obtain ⟨ic, tc, nc, sc⟩ := hrun (c + 1) (Or.inr (Or.inr rfl))
    have oa := (wall_is_obstacle k r (c - 1) ta)
    have ob := (wall_is_obstacle k r c tb)
    have oc := (wall_is_obstacle k r (c + 1) tc)
    have ha := hcl r (c - 1) ia oa.2
    have hb := hcl r c ib ob.2
    have hc := hcl r (c + 1) ic oc.2
    have ha1 := ha.topLeft
    have ha2 := ha.topRight
    have ha3 := ha.bottomRight
    have ha4 := ha.bottomLeft
    have hc1 := hc.topLeft
    have hc2 := hc.topRight
    have hc3 := hc.bottomRight
    have hc4 := hc.bottomLeft
    rw [e1] at ha1 ha4
    rw [e2] at ha2 ha3
    rw [e3] at hc1 hc4
    rw [e4] at hc2 hc3
    refine ⟨?_, ?_, ?_⟩
    · exact corners_eq _ _ _ _ _ (flag_true ha1 na hwest) (flag_false_right ha2 ob.1)
        (flag_false_right ha3 ob.1) (flag_true ha4 sa hwest)
    · exact corners_eq _ _ _ _ _ (flag_false_right hb.topLeft oa.1)
        (flag_false_right hb.topRight oc.1) (flag_false_right hb.bottomRight oc.1)
        (flag_false_right hb.bottomLeft oa.1)
    · exact corners_eq _ _ _ _ _ (flag_false_right hc1 ob.1) (flag_true hc2 nc heast)
        (flag_true hc3 sc heast) (flag_false_right hc4 ob.1)
  · intro hrun hnorth hsouth
    obtain ⟨ia, ta, wa, ea⟩ := hrun (r - 1) (Or.inl rfl)
    obtain ⟨ib, tb, wb, eb⟩ := hrun r (Or.inr (Or.inl rfl))
    obtain ⟨ic, tc, wc, ec⟩ := hrun (r + 1) (Or.inr (Or.inr rfl))
    have oa := (wall_is_obstacle k (r - 1) c ta)
    have ob := (wall_is_obstacle k r c tb)
    have oc := (wall_is_obstacle k (r + 1) c tc)
    have ha := hcl (r - 1) c ia oa.2
    have hb := hcl r c ib ob.2
    have hc := hcl (r + 1) c ic oc.2
    have ha1 := ha.topLeft
    have ha2 := ha.topRight
    have ha3 := ha.bottomRight
    have ha4 := ha.bottomLeft
    have hc1 := hc.topLeft
    have hc2 := hc.topRight
    have hc3 := hc.bottomRight
    have hc4 := hc.bottomLeft
    rw [f1] at ha1 ha2
    rw [f2] at ha3 ha4
    rw [f3] at hc1 hc2
    rw [f4] at hc3 hc4
    refine ⟨?_, ?_, ?_⟩
    · exact corners_eq _ _ _ _ _ (flag_true ha1 hnorth wa) (flag_true ha2 hnorth ea)
        (flag_false_left ha3 ob.1) (flag_false_left ha4 ob.1)
    · exact corners_eq _ _ _ _ _ (flag_false_left hb.topLeft oa.1)
        (flag_false_left hb.topRight oa.1) (flag_false_left hb.bottomRight oc.1)
        (flag_false_left hb.bottomLeft oc.1)
    · exact corners_eq _ _ _ _ _ (flag_false_left hc1 ob.1) (flag_false_left hc2 ob.1)
        (flag_true hc3 hsouth ec) (flag_true hc4 hsouth wc)

/-- C15 as stated fails on the middle cell of a run. In the maze with rows `.....`, `.###.`,
`.....` the cells `(1, 1)`, `(1, 2)`, `(1, 3)` are a run of exactly three Solid cells, every
other orthogonal neighbour of the run is not an obstacle, and the middle cell `(1, 2)` has no
rounded corner, not two. -/
theorem run_middle_has_no_rounded_corner :
    (wallRow3.typeAt 1 1 = WallType.Solid ∧ wallRow3.typeAt 1 2 = WallType.Solid ∧
      wallRow3.typeAt 1 3 = WallType.Solid) ∧
    (¬ wallRow3.obstacleAt 1 0 ∧ ¬ wallRow3.obstacleAt 1 4 ∧
      ¬ wallRow3.obstacleAt 0 1 ∧ ¬ wallRow3.obstacleAt 0 2 ∧ ¬ wallRow3.obstacleAt 0 3 ∧
      ¬ wallRow3.obstacleAt 2 1 ∧ ¬ wallRow3.obstacleAt 2 2 ∧ ¬ wallRow3.obstacleAt 2 3) ∧
    roundedCount (wallRow3.wallAt 1 2).roundedCorners = 0 ∧
    roundedCount (wallRow3.wallAt 1 2).roundedCorners ≠ 2 := by
  unfold obstacleAt
  decide

/-- C16 fails in the code: no damage operation recomputes the corners. In the maze with rows
`....`, `.*#.`, `....` each of `bulletHit`, `bulletHitWithResult` and `applyWallDamage` (forced
or not) destroys the Destructible cell `(1, 1)`; the Solid cell `(1, 2)` next to it keeps its
square top-left corner although its north and west neighbours are now both not obstacles, so
the corner rule does not hold at `(1, 2)` in the new grid. -/
theorem corners_stale_after_destruction :
    ((besideWall.bulletHit ⟨90, 90⟩ 100).2.typeAt 1 1 = WallType.None ∧
      ¬ (besideWall.bulletHit ⟨90, 90⟩ 100).2.Classified 1 2) ∧
    ((besideWall.bulletHitWithResult ⟨90, 90⟩ 100).1.destroyed = true ∧
      ¬ (besideWall.bulletHitWithResult ⟨90, 90⟩ 100).2.Classified 1 2) ∧
    ((besideWall.applyWallDamage 1 1 100 false).1.destroyed = true ∧
      ¬ (besideWall.applyWallDamage 1 1 100 false).2.Classified 1 2) ∧
    ((besideWall.applyWallDamage 1 1 0 true).1.destroyed = true ∧
      ¬ (besideWall.applyWallDamage 1 1 0 true).2.Classified 1 2) := by
  have key : ∀ m2 : Maze, (m2.wallAt 1 2).roundedCorners.topLeft = false →
      (¬ m2.obstacleAt (1 - 1) 2 ∧ ¬ m2.obstacleAt 1 (2 - 1)) → ¬ m2.Classified 1 2 := by
    intro m2 h1 h2 hc
    have := hc.topLeft.2 h2
    rw [h1] at this
    cases this
  refine ⟨⟨by decide!, key _ (by decide!) ?_⟩, ⟨by decide!, key _ (by decide!) ?_⟩,
    ⟨by decide!, key _ (by decide!) ?_⟩, ⟨by decide!, key _ (by decide!) ?_⟩⟩ <;>
  · unfold obstacleAt
    decide!

end Maze
end TankMaze


namespace TankMaze
namespace Maze

/-- C17, as the code has it. In every state that a maze object reaches through `loadFromString`,
`bulletHit`, `bulletHitWithResult`, `applyWallDamage` (forced or not) and `placeWall`, every cell
satisfies: an attribute other than None implies that the cell is Destructible or Empty (a
destroyed wall keeps its attribute), and health at most zero implies that the cell is not
Destructible (Solid and Exit cells keep the health 0 of `Wall()`). -/
theorem reachable_cell_invariant (hypot : ℚ → ℚ → ℚ) (m : Maze) (h : Reachable hypot m)
    (r c : Int) : cellInvariant (m.wallAt r c) := by
  have hall : cellsKeep m := by
    induction h with
    | init => exact cellsKeep_init
    | load m map _ ih => exact ih.keep_loadFromString map
    | hit m p d _ ih => exact ih.keep_bulletHit p d
    | hitWithResult m p d _ ih => exact ih.keep_bulletHitWithResult p d
    | damage m row col d force _ ih => exact ih.keep_applyWallDamage row col d force
    | place m p _ ih => exact ih.keep_placeWall hypot p
  exact hall.keep_wallAt r c

theorem reachable_cell_invariant_witness :
    Reachable (fun a b => |a| + |b|) (goldOnly.bulletHitWithResult ⟨30, 30⟩ 100).2 ∧
    cellInvariant ((goldOnly.bulletHitWithResult ⟨30, 30⟩ 100).2.wallAt 0 0) :=
  ⟨Reachable.hitWithResult _ _ _ (Reachable.load _ _ Reachable.init),
    reachable_cell_invariant (fun a b => |a| + |b|) _
      (Reachable.hitWithResult _ _ _ (Reachable.load _ _ Reachable.init)) 0 0⟩

/-- C17 as stated fails in reachable states. After `loadFromString` of `#` the Solid cell has
health 0 and is not Empty; after `loadFromString` of `G` and a hit of damage 100 the destroyed
cell is Empty and still has the attribute Gold. -/
theorem stated_cell_invariant_fails :
    (Reachable (fun a b => |a| + |b|) solidOnly ∧
      (solidOnly.wallAt 0 0).health ≤ 0 ∧ (solidOnly.wallAt 0 0).type = WallType.Solid ∧
      ¬ statedCellInvariant (solidOnly.wallAt 0 0)) ∧
    (Reachable (fun a b => |a| + |b|) (goldOnly.bulletHitWithResult ⟨30, 30⟩ 100).2 ∧
      ((goldOnly.bulletHitWithResult ⟨30, 30⟩ 100).2.wallAt 0 0).wallAttribute =
        WallAttribute.Gold ∧
      ((goldOnly.bulletHitWithResult ⟨30, 30⟩ 100).2.wallAt 0 0).type = WallType.None ∧
      ¬ statedCellInvariant ((goldOnly.bulletHitWithResult ⟨30, 30⟩ 100).2.wallAt 0 0)) := by
  have h1 : (solidOnly.wallAt 0 0).health ≤ 0 := by decide!
  have h2 : (solidOnly.wallAt 0 0).type = WallType.Solid := by decide
  have h3 : ((goldOnly.bulletHitWithResult ⟨30, 30⟩ 100).2.wallAt 0 0).wallAttribute =
      WallAttribute.Gold := by decide!
  have h4 : ((goldOnly.bulletHitWithResult ⟨30, 30⟩ 100).2.wallAt 0 0).type = WallType.None := by
    decide!
  refine ⟨⟨Reachable.load _ _ Reachable.init, h1, h2, ?_⟩,
    ⟨Reachable.hitWithResult _ _ _ (Reachable.load _ _ Reachable.init), h3, h4, ?_⟩⟩
  · intro hc
    have := hc.2 h1
    rw [h2] at this
    cases this
  · intro hc
    have := hc.1 (by rw [h3]; decide)
    rw [h4] at this
    cases this

end Maze
end TankMaze


namespace TankMaze
namespace MazeGenerator

/-! ### What the phases of `generate` leave unchanged -/

theorem onlyGrid_self (g : MazeGenerator) : OnlyGrid g g := ⟨g.m_grid, g.m_rng, rfl⟩

theorem onlyGrid_comp {g r s : MazeGenerator} (h1 : OnlyGrid g r) (h2 : OnlyGrid r s) :
    OnlyGrid g s := by
  obtain ⟨a, b, rfl⟩ := h1
  obtain ⟨c, d, rfl⟩ := h2
  exact ⟨c, d, rfl⟩

theorem carveStep_frame (recur : Int → Int → MazeGenerator → Except GenError MazeGenerator)
    (hrec : ∀ x y g r, recur x y g = Except.ok r → OnlyGrid g r) (cx cy : Int)
    (g : MazeGenerator) (dir : Nat) (r : MazeGenerator)
    (h : carveStep recur cx cy g dir = Except.ok r) : OnlyGrid g r := by
  unfold carveStep at h
  simp only [] at h
  split_ifs at h
  · split at h
    · cases h
    · rename_i grid1 _
      exact onlyGrid_comp ⟨grid1, g.m_rng, rfl⟩ (hrec _ _ _ _ h)
  · cases h
    exact onlyGrid_self _
  · cases h
    exact onlyGrid_self _

theorem carveFold_frame (recur : Int → Int → MazeGenerator → Except GenError MazeGenerator)
    (hrec : ∀ x y g r, recur x y g = Except.ok r → OnlyGrid g r) (cx cy : Int) :
    ∀ (dirs : List Nat) (g r : MazeGenerator),
      dirs.foldlM (carveStep recur cx cy) g = Except.ok r → OnlyGrid g r := by
  intro dirs
  induction dirs with
  | nil =>
    intro g r h
    cases h
    exact onlyGrid_self _
  | cons d ds ih =>
    intro g r h
    rw [List.foldlM_cons] at h
    cases hs : carveStep recur cx cy g d with
    | error e =>
      rw [hs] at h
      cases h
    | ok g1 =>
      rw [hs] at h
      exact onlyGrid_comp (carveStep_frame recur hrec cx cy g d g1 hs) (ih g1 r h)

theorem carvePassage_frame :
    ∀ (fuel : Nat) (cx cy : Int) (g r : MazeGenerator),
      carvePassage fuel cx cy g = Except.ok r → OnlyGrid g r := by
  intro fuel
  induction fuel with
  | zero =>
    intro cx cy g r h
    cases h
  | succ k ih =>
    intro cx cy g r h
    unfold carvePassage at h
    simp only [] at h
    split at h
    · cases h
    · rename_i grid0 _
      exact onlyGrid_comp ⟨grid0, (shuffleList [0, 1, 2, 3] g.m_rng).2, rfl⟩
        (carveFold_frame (carvePassage k) ih cx cy _ _ r h)

theorem ensurePath_frame (g : MazeGenerator) (sx sy ex ey : Int) (r : MazeGenerator)
    (h : ensurePath g sx sy ex ey = Except.ok r) : OnlyGrid g r := by
  unfold ensurePath at h
  simp only [] at h
  split at h
  · cases h
  · split at h
    · cases h
    · cases h
      exact onlyGrid_self _
    · split at h
      · cases h
      · cases h
        exact ⟨_, _, rfl⟩

theorem placeEnemies_frame (g r : MazeGenerator) (h : placeEnemies g = Except.ok r) :
    OnlyGrid g r := by
  unfold placeEnemies at h
  simp only [] at h
  split at h
  · cases h
  · cases h
    exact ⟨_, _, rfl⟩

theorem placeDestructibleWalls_frame (g r : MazeGenerator)
    (h : placeDestructibleWalls g = Except.ok r) : OnlyGrid g r := by
  unfold placeDestructibleWalls at h
  simp only [] at h
  split_ifs at h <;> split at h <;> first | (cases h; exact ⟨_, _, rfl⟩) | cases h

theorem placeStartAndEnd_frame (g r : MazeGenerator) (h : placeStartAndEnd g = Except.ok r) :
    PlacedSingle g r := by
  unfold placeStartAndEnd at h
  simp only [] at h
  split_ifs at h
  · split at h
    · cases h
    · split at h
      · cases h
      · cases h
        exact ⟨_, _, _, _, _, _, rfl⟩
  · split at h
    · cases h
    · split at h
      · cases h
      · split at h
        · cases h
        · split at h
          · cases h
          · cases h
            exact ⟨_, _, _, _, _, _, rfl⟩

theorem chooseSpawns_frame (g : MazeGenerator) (es : List (Int × Int)) (r : MazeGenerator)
    (h : chooseSpawns g es = Except.ok r) :
    ∃ rng ax ay bx b_y, r = { g with m_rng := rng, m_spawn1X := ax, m_spawn1Y := ay, m_spawn2X := bx, m_spawn2Y := b_y } := by
  unfold chooseSpawns at h
  simp only [] at h
  split_ifs at h
  · split at h
    · cases h
    · split at h
      · cases h
      · split at h
        · cases h
        · cases h
          exact ⟨_, _, _, _, _, rfl⟩
  · split at h
    · cases h
    · split at h
      · cases h
      · cases h
        exact ⟨_, _, _, _, _, rfl⟩
  · cases h
    exact ⟨_, _, _, _, _, rfl⟩

theorem chooseEnd_frame (g : MazeGenerator) (es : List (Int × Int)) (r : MazeGenerator)
    (h : chooseEnd g es = Except.ok r) :
    ∃ rng ex ey, r = { g with m_rng := rng, m_endX := ex, m_endY := ey } := by
  unfold chooseEnd at h
  simp only [] at h
  split_ifs at h
  · split at h
    · cases h
    · cases h
      exact ⟨_, _, _, rfl⟩
  · cases h
    exact ⟨_, _, _, rfl⟩

theorem placeMultiplayerSpawns_frame (g r : MazeGenerator)
    (h : placeMultiplayerSpawns g = Except.ok r) : PlacedDual g r := by
  unfold placeMultiplayerSpawns at h
  simp only [] at h
  split_ifs at h
  · split at h
    · cases h
    · split at h
      · cases h
      · split at h
        · cases h
        · cases h
          exact ⟨_, _, _, _, _, _, _, _, rfl⟩
  · split at h
    · cases h
    · rename_i gs hgs
      obtain ⟨rng1, ax, ay, bx, b_y, rfl⟩ := chooseSpawns_frame g _ gs hgs
      split at h
      · cases h
      · rename_i ge hge
        obtain ⟨rng2, ex, ey, rfl⟩ := chooseEnd_frame _ _ ge hge
        split at h
        · cases h
        · split at h
          · cases h
          · split at h
            · cases h
            · cases h
              exact ⟨_, _, _, _, _, _, _, _, rfl⟩

end MazeGenerator
end TankMaze


namespace TankMaze
namespace MazeGenerator

/-! ### The phases of `generate` do not read the positions they are about to set -/

theorem carveStep_withPos (recur : Int → Int → MazeGenerator → Except GenError MazeGenerator)
    (q : MazeGenerator)
    (hrec : ∀ x y g, recur x y (withPos g q) = (recur x y g).map (fun r => withPos r q))
    (cx cy : Int) (g : MazeGenerator) (dir : Nat) :
    carveStep recur cx cy (withPos g q) dir =
      (carveStep recur cx cy g dir).map (fun r => withPos r q) := by
  unfold carveStep
  dsimp only [withPos]
  split_ifs
  · generalize gridSet g.m_grid (cy + Int.tdiv (carveDy dir) 2) (cx + Int.tdiv (carveDx dir) 2) '.' = x
    cases x with
    | error e => rfl
    | ok grid1 => exact hrec _ _ { g with m_grid := grid1 }
  · rfl
  · rfl

theorem carveFold_withPos (recur : Int → Int → MazeGenerator → Except GenError MazeGenerator)
    (q : MazeGenerator)
    (hrec : ∀ x y g, recur x y (withPos g q) = (recur x y g).map (fun r => withPos r q))
    (cx cy : Int) :
    ∀ (dirs : List Nat) (g : MazeGenerator),
      dirs.foldlM (carveStep recur cx cy) (withPos g q) =
        (dirs.foldlM (carveStep recur cx cy) g).map (fun r => withPos r q) := by
  intro dirs
  induction dirs with
  | nil => intro g; rfl
  | cons d ds ih =>
    intro g
    rw [List.foldlM_cons, List.foldlM_cons, carveStep_withPos recur q hrec]
    cases carveStep recur cx cy g d with
    | error e => rfl
    | ok g1 => exact ih g1

theorem carvePassage_withPos (q : MazeGenerator) :
    ∀ (fuel : Nat) (cx cy : Int) (g : MazeGenerator),
      carvePassage fuel cx cy (withPos g q) =
        (carvePassage fuel cx cy g).map (fun r => withPos r q) := by
  intro fuel
  induction fuel with
  | zero => intro cx cy g; rfl
  | succ k ih =>
    intro cx cy g
    unfold carvePassage
    dsimp only [withPos]
    generalize gridSet g.m_grid cy cx '.' = x
    cases x with
    | error e => rfl
    | ok grid0 =>
      exact carveFold_withPos (carvePassage k) q ih cx cy _
        { g with m_rng := (shuffleList [0, 1, 2, 3] g.m_rng).2, m_grid := grid0 }

end MazeGenerator
end TankMaze


namespace TankMaze
namespace MazeGenerator

theorem placeStartAndEnd_withPos (g q : MazeGenerator) :
    placeStartAndEnd (withPos g q) = (placeStartAndEnd g).map (fun r => withSpawns r q) := by
  unfold placeStartAndEnd
  dsimp only [withPos, getEmptySpaces]
  split_ifs
  · generalize gridSet g.m_grid 1 1 'S' = x
    cases x with
    | error e => rfl
    | ok grid0 =>
      dsimp only []
      generalize gridSet grid0 (g.m_height - 2) (g.m_width - 2) 'E' = y
      cases y with
      | error e => rfl
      | ok grid1 => rfl
  · generalize vecGet (shuffleList (List.filter (fun p => decide (cellAt g.m_grid p.2 p.1 = '.')) (interior g.m_width g.m_height)) g.m_rng).1 0 = x
    cases x with
    | error e => rfl
    | ok s =>
      dsimp only []
      generalize vecGet _ _ = y
      cases y with
      | error e => rfl
      | ok sel =>
        dsimp only []
        generalize gridSet g.m_grid s.2 s.1 'S' = z
        cases z with
        | error e => rfl
        | ok grid0 =>
          dsimp only []
          generalize gridSet grid0 sel.2.2 sel.2.1 'E' = u
          cases u with
          | error e => rfl
          | ok grid1 => rfl

theorem bfsLoop_withSpawns (g q : MazeGenerator) (ex ey : Int) :
    ∀ (fuel : Nat) (queue : List (Int × Int)) (visited : List (List Bool)),
      bfsLoop (withSpawns g q) ex ey fuel queue visited = bfsLoop g ex ey fuel queue visited := by
  intro fuel
  induction fuel with
  | zero => intro queue visited; rfl
  | succ k ih =>
    intro queue visited
    cases queue with
    | nil => rfl
    | cons p rest =>
      obtain ⟨x, y⟩ := p
      unfold bfsLoop
      split_ifs
      · rfl
      · have e : bfsExpand (withSpawns g q) x y rest visited = bfsExpand g x y rest visited := rfl
        dsimp only []
        rw [e]
        exact ih _ _

theorem ensurePath_withSpawns (g q : MazeGenerator) (sx sy ex ey : Int) :
    ensurePath (withSpawns g q) sx sy ex ey =
      (ensurePath g sx sy ex ey).map (fun r => withSpawns r q) := by
  unfold ensurePath
  dsimp only [withSpawns]
  generalize visitedSet _ sy sx = x
  cases x with
  | error e => rfl
  | ok visited =>
    dsimp only []
    have e := bfsLoop_withSpawns g q ex ey (g.m_width.toNat * g.m_height.toNat + 2) [(sx, sy)] visited
    unfold withSpawns at e
    rw [e]
    generalize bfsLoop g ex ey (g.m_width.toNat * g.m_height.toNat + 2) [(sx, sy)] visited = y
    cases y with
    | error e => rfl
    | ok b =>
      cases b with
      | true => rfl
      | false =>
        dsimp only []
        generalize carvePathLoop ex ey _ sx sy g.m_grid g.m_rng = z
        cases z with
        | error e => rfl
        | ok gr => rfl

theorem placeEnemies_withSpawns (g q : MazeGenerator) :
    placeEnemies (withSpawns g q) = (placeEnemies g).map (fun r => withSpawns r q) := by
  unfold placeEnemies
  dsimp only [withSpawns]
  generalize markCells 'X' _ g.m_grid = x
  cases x with
  | error e => rfl
  | ok grid1 => rfl

theorem destructibleCandidates_withSpawns (g q : MazeGenerator) :
    ∀ (ps : List (Int × Int)) (rng : Rng),
      destructibleCandidates (withSpawns g q) ps rng = destructibleCandidates g ps rng := by
  intro ps
  induction ps with
  | nil => intro rng; rfl
  | cons p ps ih =>
    intro rng
    unfold destructibleCandidates
    have e : hasAdjacentPath (withSpawns g q) p.1 p.2 = hasAdjacentPath g p.1 p.2 := rfl
    dsimp only [withSpawns] at e ⊢
    rw [e]
    have ih2 := ih
    unfold withSpawns at ih2
    simp only [ih2]

theorem placeDestructibleWalls_withSpawns (g q : MazeGenerator) :
    placeDestructibleWalls (withSpawns g q) =
      (placeDestructibleWalls g).map (fun r => withSpawns r q) := by
  unfold placeDestructibleWalls
  have e := destructibleCandidates_withSpawns g q (interior g.m_width g.m_height) g.m_rng
  unfold withSpawns at e
  dsimp only [withSpawns]
  rw [e]
  split_ifs
  · generalize assignAttributes 0 300 _ g.m_grid _ = x
    cases x <;> rfl
  · generalize markCells '*' _ g.m_grid = x
    cases x <;> rfl
  · generalize assignAttributes 0 300 _ g.m_grid _ = x
    cases x <;> rfl
  · generalize assignAttributes 150 250 _ g.m_grid _ = x
    cases x <;> rfl

end MazeGenerator
end TankMaze


namespace TankMaze
namespace MazeGenerator

theorem generate_eq (mt19937 : Nat → Nat → Nat) (now : Nat) (g : MazeGenerator) :
    generate mt19937 now g =
      (carvePassage (g.m_width.toNat * g.m_height.toNat) 1 1 (seeded mt19937 now g)).bind
        finishRun := by
  unfold generate finishRun seeded
  dsimp only []
  cases carvePassage (g.m_width.toNat * g.m_height.toNat) 1 1 _ with
  | error e => rfl
  | ok g1 => rfl

theorem chooseSpawns_withEndSpawns (g q : MazeGenerator) (es : List (Int × Int)) :
    chooseSpawns (withEndSpawns g q) es = (chooseSpawns g es).map (fun r => withEnd r q) := by
  have e : spawnCandidates (withEndSpawns g q) es = spawnCandidates g es := rfl
  unfold chooseSpawns
  rw [e]
  dsimp only [withEndSpawns]
  split_ifs
  · generalize vecGet (validSpawnPairs _ _ _) _ = x
    cases x with
    | error e => rfl
    | ok ij =>
      dsimp only []
      generalize vecGet (shuffleList (spawnCandidates g es) g.m_rng).1 ij.1 = y
      cases y with
      | error e => rfl
      | ok a =>
        dsimp only []
        generalize vecGet (shuffleList (spawnCandidates g es) g.m_rng).1 ij.2 = z
        cases z with
        | error e => rfl
        | ok b => rfl
  · generalize vecGet (shuffleList (spawnCandidates g es) g.m_rng).1 0 = y
    cases y with
    | error e => rfl
    | ok a =>
      dsimp only []
      generalize vecGet (shuffleList (spawnCandidates g es) g.m_rng).1 1 = z
      cases z with
      | error e => rfl
      | ok b => rfl
  · rfl

theorem chooseEnd_withEnd (g q : MazeGenerator) (es : List (Int × Int)) :
    chooseEnd (withEnd g q) es = chooseEnd g es := by
  have e : endCandidates (withEnd g q) es = endCandidates g es := rfl
  unfold chooseEnd
  rw [e]
  rfl

theorem placeMultiplayerSpawns_withEndSpawns (g q : MazeGenerator) :
    placeMultiplayerSpawns (withEndSpawns g q) = placeMultiplayerSpawns g := by
  have e : getEmptySpaces (withEndSpawns g q) = getEmptySpaces g := rfl
  unfold placeMultiplayerSpawns
  rw [e]
  dsimp only []
  split_ifs
  · rfl
  · rw [chooseSpawns_withEndSpawns]
    cases chooseSpawns g (getEmptySpaces g) with
    | error e => rfl
    | ok gs =>
      dsimp only [Except.map]
      rw [chooseEnd_withEnd]

/-! ### The part of `generate` after the carving -/

theorem placeAndConnect_withPos (g q : MazeGenerator) (hm : g.m_multiplayerMode = false) :
    placeAndConnect (withPos g q) = (placeAndConnect g).map (fun r => withSpawns r q) := by
  unfold placeAndConnect
  have e : (withPos g q).m_multiplayerMode = g.m_multiplayerMode := rfl
  rw [e, hm]
  rw [if_neg (by decide), if_neg (by decide), placeStartAndEnd_withPos]
  cases placeStartAndEnd g with
  | error e => rfl
  | ok g1 => exact ensurePath_withSpawns g1 q _ _ _ _

theorem finishRun_withPos (g q : MazeGenerator) (hm : g.m_multiplayerMode = false) :
    finishRun (withPos g q) = (finishRun g).map (resultWithSpawns q) := by
  unfold finishRun
  rw [placeAndConnect_withPos g q hm]
  cases placeAndConnect g with
  | error e => rfl
  | ok g2 =>
    dsimp only [Except.map]
    rw [placeEnemies_withSpawns]
    cases placeEnemies g2 with
    | error e => rfl
    | ok g3 =>
      dsimp only [Except.map]
      rw [placeDestructibleWalls_withSpawns]
      cases placeDestructibleWalls g3 with
      | error e => rfl
      | ok g4 => rfl

theorem finishRun_withEndSpawns (g q : MazeGenerator) (hm : g.m_multiplayerMode = true) :
    finishRun (withEndSpawns g q) = finishRun g := by
  have e : placeAndConnect (withEndSpawns g q) = placeAndConnect g := by
    unfold placeAndConnect
    have e2 : (withEndSpawns g q).m_multiplayerMode = g.m_multiplayerMode := rfl
    rw [e2, hm, if_pos rfl, if_pos rfl, placeMultiplayerSpawns_withEndSpawns]
  unfold finishRun
  rw [e]

theorem rowsOf_map (q : MazeGenerator) (x : Except GenError (List String × MazeGenerator)) :
    rowsOf (x.map (resultWithSpawns q)) = rowsOf x := by
  cases x <;> rfl

/-! ### What a run keeps -/

theorem sameConfig_self (g : MazeGenerator) : SameConfig g g :=
  ⟨rfl, rfl, rfl, rfl, rfl, rfl, rfl, rfl⟩

theorem runKeeps_self (g : MazeGenerator) : RunKeeps g g :=
  ⟨sameConfig_self g, fun _ => ⟨rfl, rfl⟩, fun _ => rfl⟩

theorem runKeeps_onlyGrid {g r : MazeGenerator} (h : OnlyGrid g r) : RunKeeps g r := by
  obtain ⟨a, b, rfl⟩ := h
  exact ⟨⟨rfl, rfl, rfl, rfl, rfl, rfl, rfl, rfl⟩, fun _ => ⟨rfl, rfl⟩, fun _ => rfl⟩

theorem runKeeps_placedSingle {g r : MazeGenerator} (h : PlacedSingle g r)
    (hm : g.m_multiplayerMode = false) : RunKeeps g r := by
  obtain ⟨a, b, c, d, e, f, rfl⟩ := h
  refine ⟨⟨rfl, rfl, rfl, rfl, rfl, rfl, rfl, rfl⟩, fun h => ?_, fun _ => rfl⟩
  rw [hm] at h
  cases h

theorem runKeeps_placedDual {g r : MazeGenerator} (h : PlacedDual g r)
    (hm : g.m_multiplayerMode = true) : RunKeeps g r := by
  obtain ⟨a, b, c, d, e, f, k, l, rfl⟩ := h
  refine ⟨⟨rfl, rfl, rfl, rfl, rfl, rfl, rfl, rfl⟩, fun _ => ⟨rfl, rfl⟩, fun h => ?_⟩
  rw [hm] at h
  cases h

theorem runKeeps_comp {g r s : MazeGenerator} (h1 : RunKeeps g r) (h2 : RunKeeps r s) :
    RunKeeps g s := by
  have hm : r.m_multiplayerMode = g.m_multiplayerMode := h1.config.multiplayer
  refine ⟨⟨h2.config.width.trans h1.config.width, h2.config.height.trans h1.config.height,
    h2.config.seed.trans h1.config.seed, h2.config.seedSet.trans h1.config.seedSet,
    h2.config.enemyCount.trans h1.config.enemyCount, h2.config.ratio.trans h1.config.ratio,
    h2.config.multiplayer.trans h1.config.multiplayer,
    h2.config.escape.trans h1.config.escape⟩, ?_, ?_⟩
  · intro h
    have a := h1.start h
    have b := h2.start (hm.trans h)
    exact ⟨b.1.trans a.1, b.2.trans a.2⟩
  · intro h
    have a := h1.spawns h
    have b := h2.spawns (hm.trans h)
    have a1 : r.m_spawn1X = g.m_spawn1X := by
      have := congrArg MazeGenerator.m_spawn1X a
      exact this
    have a2 : r.m_spawn1Y = g.m_spawn1Y := by
      have := congrArg MazeGenerator.m_spawn1Y a
      exact this
    have a3 : r.m_spawn2X = g.m_spawn2X := by
      have := congrArg MazeGenerator.m_spawn2X a
      exact this
    have a4 : r.m_spawn2Y = g.m_spawn2Y := by
      have := congrArg MazeGenerator.m_spawn2Y a
      exact this
    rw [b]
    unfold withSpawns
    rw [a1, a2, a3, a4]

end MazeGenerator
end TankMaze


namespace TankMaze
namespace MazeGenerator

theorem placeAndConnect_frame (g r : MazeGenerator) (h : placeAndConnect g = Except.ok r) :
    RunKeeps g r := by
  unfold placeAndConnect at h
  split_ifs at h with hm
  · split at h
    · cases h
    · rename_i g1 h1
      have k1 := runKeeps_placedDual (placeMultiplayerSpawns_frame g g1 h1) hm
      split at h
      · cases h
      · rename_i g2 h2
        exact runKeeps_comp k1 (runKeeps_comp (runKeeps_onlyGrid (ensurePath_frame _ _ _ _ _ _ h2))
          (runKeeps_onlyGrid (ensurePath_frame _ _ _ _ _ _ h)))
  · have hmf : g.m_multiplayerMode = false := by
      cases hb : g.m_multiplayerMode with
      | true => exact absurd hb hm
      | false => rfl
    split at h
    · cases h
    · rename_i g1 h1
      exact runKeeps_comp (runKeeps_placedSingle (placeStartAndEnd_frame g g1 h1) hmf)
        (runKeeps_onlyGrid (ensurePath_frame _ _ _ _ _ _ h))

theorem finishRun_frame (g : MazeGenerator) (p : List String × MazeGenerator)
    (h : finishRun g = Except.ok p) :
    RunKeeps g p.2 ∧ ∃ g2 g3, placeAndConnect g = Except.ok g2 ∧ placeEnemies g2 = Except.ok g3 ∧
      placeDestructibleWalls g3 = Except.ok p.2 ∧ p.1 = p.2.m_grid.map String.mk := by
  unfold finishRun at h
  split at h
  · cases h
  · rename_i g2 h2
    split at h
    · cases h
    · rename_i g3 h3
      split at h
      · cases h
      · rename_i g4 h4
        cases h
        exact ⟨runKeeps_comp (placeAndConnect_frame g g2 h2)
          (runKeeps_comp (runKeeps_onlyGrid (placeEnemies_frame g2 g3 h3))
            (runKeeps_onlyGrid (placeDestructibleWalls_frame g3 g4 h4))),
          g2, g3, h2, h3, h4, rfl⟩

theorem seeded_keeps (mt19937 : Nat → Nat → Nat) (now : Nat) (g : MazeGenerator) :
    RunKeeps g (seeded mt19937 now g) :=
  runKeeps_onlyGrid ⟨_, _, rfl⟩

/-- A run of `generate` that returns has carved, and has kept the configuration of the
object. -/
theorem generate_frame (mt19937 : Nat → Nat → Nat) (now : Nat) (g : MazeGenerator)
    (p : List String × MazeGenerator) (h : generate mt19937 now g = Except.ok p) :
    RunKeeps g p.2 ∧
    ∃ g1, carvePassage (g.m_width.toNat * g.m_height.toNat) 1 1 (seeded mt19937 now g) =
        Except.ok g1 ∧ finishRun g1 = Except.ok p := by
  rw [generate_eq] at h
  cases hc : carvePassage (g.m_width.toNat * g.m_height.toNat) 1 1 (seeded mt19937 now g) with
  | error e =>
    rw [hc] at h
    cases h
  | ok g1 =>
    rw [hc] at h
    have hf : finishRun g1 = Except.ok p := h
    exact ⟨runKeeps_comp (seeded_keeps mt19937 now g)
      (runKeeps_comp (runKeeps_onlyGrid (carvePassage_frame _ _ _ _ _ hc)) (finishRun_frame g1 p hf).1),
      g1, rfl, hf⟩

/-! ### The shape of the grid after the last phase -/

theorem markCells_shape {w h : Int} (c : Char) :
    ∀ (ps : List (Int × Int)) (grid grid1 : List (List Char)), GridWF w h grid →
      markCells c ps grid = Except.ok grid1 → GridWF w h grid1 := by
  intro ps
  induction ps with
  | nil =>
    intro grid grid1 hwf hr
    cases hr
    exact hwf
  | cons p ps ih =>
    intro grid grid1 hwf hr
    unfold markCells at hr
    split at hr
    · cases hr
    · rename_i grid2 h2
      obtain ⟨_, e⟩ := gridSet_eq_ok hwf _ _ _ _ h2
      exact ih grid2 grid1 (by rw [e]; exact hwf.set2 _ _ _) hr

theorem assignAttributes_shape {w h : Int} (gold heal : Nat) :
    ∀ (ps : List (Int × Int)) (grid : List (List Char)) (rng : Rng)
      (r : List (List Char) × Rng), GridWF w h grid →
      assignAttributes gold heal ps grid rng = Except.ok r → GridWF w h r.1 := by
  intro ps
  induction ps with
  | nil =>
    intro grid rng r hwf hr
    cases hr
    exact hwf
  | cons p ps ih =>
    intro grid rng r hwf hr
    unfold assignAttributes at hr
    simp only [] at hr
    split at hr
    · cases hr
    · rename_i grid2 h2
      obtain ⟨_, e⟩ := gridSet_eq_ok hwf _ _ _ _ h2
      exact ih grid2 _ r (by rw [e]; exact hwf.set2 _ _ _) hr

theorem placeDestructibleWalls_shape {w h : Int} (g r : MazeGenerator) (hwf : GridWF w h g.m_grid)
    (hr : placeDestructibleWalls g = Except.ok r) : GridWF w h r.m_grid := by
  unfold placeDestructibleWalls at hr
  simp only [] at hr
  split_ifs at hr
  · split at hr
    · cases hr
    · rename_i gr h2
      cases hr
      exact assignAttributes_shape 0 300 _ _ _ _ hwf h2
  · split at hr
    · cases hr
    · rename_i gr h2
      cases hr
      exact markCells_shape '*' _ _ _ hwf h2
  · split at hr
    · cases hr
    · rename_i gr h2
      cases hr
      exact assignAttributes_shape 0 300 _ _ _ _ hwf h2
  · split at hr
    · cases hr
    · rename_i gr h2
      cases hr
      exact assignAttributes_shape 150 250 _ _ _ _ hwf h2

end MazeGenerator
end TankMaze


namespace TankMaze
namespace MazeGenerator

/-- What holds of the determinism of `generate`. Two runs on objects with the same sizes, the
same explicitly set seed, enemy count, ratio and mode flags return the same rows (or fail alike),
whatever the clock and whatever grid, engine state, exit and spawn positions an earlier run left
in the objects, provided that in dual-spawn mode the two objects also carry the same start
position, as two objects fresh from the constructor do. A second call of `generate` on the object
of a first call returns the rows of the first call. -/
theorem generate_deterministic (mt19937 : Nat → Nat → Nat) (now1 now2 : Nat)
    (g1 g2 : MazeGenerator) (hseed : g1.m_seedSet = true) (hcfg : SameConfig g1 g2)
    (hstart : g1.m_multiplayerMode = true → SameStart g1 g2) :
    rowsOf (generate mt19937 now1 g1) = rowsOf (generate mt19937 now2 g2) ∧
    ∀ r, generate mt19937 now1 g1 = Except.ok r →
      rowsOf (generate mt19937 now2 r.2) = Except.ok r.1 := by
  have main : ∀ (a b : MazeGenerator) (t1 t2 : Nat), a.m_seedSet = true → SameConfig a b →
      (a.m_multiplayerMode = true → SameStart a b) →
      rowsOf (generate mt19937 t1 a) = rowsOf (generate mt19937 t2 b) := by
    intro a b t1 t2 hs hc hst
    rw [generate_eq, generate_eq, hc.width, hc.height]
    have hb : seeded mt19937 t2 b = withPos (seeded mt19937 t1 a) b := by
      obtain ⟨c1, c2, c3, c4, c5, c6, c7, c8⟩ := hc
      cases a
      cases b
      simp only at c1 c2 c3 c4 c5 c6 c7 c8 hs
      subst c1 c2 c3 c4 c5 c6 c7 c8
      subst hs
      rfl
    rw [hb, carvePassage_withPos]
    cases hx : carvePassage (a.m_width.toNat * a.m_height.toNat) 1 1 (seeded mt19937 t1 a) with
    | error e => rfl
    | ok r1 =>
      show rowsOf (finishRun r1) = rowsOf (finishRun (withPos r1 b))
      obtain ⟨grid, rng, hr1⟩ := carvePassage_frame _ _ _ _ _ hx
      have hmode : r1.m_multiplayerMode = a.m_multiplayerMode := by rw [hr1]; rfl
      cases hm : a.m_multiplayerMode with
      | false =>
        rw [finishRun_withPos r1 b (hmode.trans hm), rowsOf_map]
      | true =>
        obtain ⟨s1, s2⟩ := hst hm
        have e : withPos r1 b = withEndSpawns r1 b := by
          rw [hr1]
          unfold withPos withEndSpawns seeded
          simp only [s1, s2]
        rw [e, finishRun_withEndSpawns r1 b (hmode.trans hm)]
  refine ⟨main g1 g2 now1 now2 hseed hcfg hstart, ?_⟩
  intro r hr
  obtain ⟨hk, _⟩ := generate_frame mt19937 now1 g1 r hr
  rw [← main g1 r.2 now1 now2 hseed hk.config hk.start, hr]
  rfl

theorem generate_deterministic_witness :
    rowsOf (generate (fun seed i => seed + 7 * i) 0 (configured 7 5 42 3 (15 / 100) true false)) =
      rowsOf (generate (fun seed i => seed + 7 * i) 99
        { configured 7 5 42 3 (15 / 100) true false with
          m_grid := [['x']], m_endX := 3, m_spawn1X := 5, m_spawn2Y := 2 }) :=
  (generate_deterministic (fun seed i => seed + 7 * i) 0 99
    (configured 7 5 42 3 (15 / 100) true false)
    { configured 7 5 42 3 (15 / 100) true false with
      m_grid := [['x']], m_endX := 3, m_spawn1X := 5, m_spawn2Y := 2 }
    rfl ⟨rfl, rfl, rfl, rfl, rfl, rfl, rfl, rfl⟩ (fun _ => ⟨rfl, rfl⟩)).1

/-- C18 fails in the code: in dual-spawn mode `placeEnemies` reads the start position, which
only a single-spawn run assigns. The object `freshDual` comes from the constructor and the
setters; the object `reusedDual` is configured alike through the constructor, the same setters, a
run of `generate` in single-spawn mode and `setMultiplayerMode(true)`. The two objects carry the
same sizes, seed, enemy count, ratio and mode flags, the start position left in them is `(1, 1)`
and `(7, 2)`, and their runs of `generate` return different rows. -/
theorem generate_reads_leftover_start :
    SameConfig freshDual reusedDual ∧ freshDual.m_seedSet = true ∧
    (freshDual.m_startX, freshDual.m_startY) = (1, 1) ∧
    (reusedDual.m_startX, reusedDual.m_startY) = (7, 2) ∧
    rowsOf (generate exampleEngine 0 freshDual) =
      Except.ok ["#########", "#.#...1X#", "#.###.#.#", "#.2.#.#X#", "###.#.#.#", "#....E#.#",
        "#########"] ∧
    rowsOf (generate exampleEngine 0 reusedDual) =
      Except.ok ["#########", "#X#...1.#", "#.###.#.#", "#.2.#.#.#", "###.#.#.#", "#X...E#.#",
        "#########"] ∧
    rowsOf (generate exampleEngine 0 freshDual) ≠ rowsOf (generate exampleEngine 0 reusedDual) := by
  have hA : (rowsOf (generate exampleEngine 0 freshDual)).toOption =
      some ["#########", "#.#...1X#", "#.###.#.#", "#.2.#.#X#", "###.#.#.#", "#....E#.#",
        "#########"] := by decide!
  have hB : (rowsOf (generate exampleEngine 0 reusedDual)).toOption =
      some ["#########", "#X#...1.#", "#.###.#.#", "#.2.#.#.#", "###.#.#.#", "#X...E#.#",
        "#########"] := by decide!
  have ok_of : ∀ (x : Except GenError (List String)) (l : List String),
      x.toOption = some l → x = Except.ok l := by
    intro x l h
    cases x with
    | error e => cases h
    | ok a =>
      have : a = l := by
        have h2 : some a = some l := h
        exact Option.some.inj h2
      rw [this]
  have eA := ok_of _ _ hA
  have eB := ok_of _ _ hB
  refine ⟨⟨by decide!, by decide!, by decide!, by decide!, by decide!, by decide!, by decide!,
    by decide!⟩, by decide, by decide, by decide!, eA, eB, ?_⟩
  rw [eA, eB]
  intro h
  have h2 := Except.ok.inj h
  revert h2
  decide

/-- Sizes of the grid. For a requested width and height of at least 3, a generator object whose
sizes are those that the constructor computes has width `w'` and height `h'`, the request if it
is odd and the request plus one if it is even, both odd; every list of rows that `generate` returns has
exactly `h'` rows of exactly `w'` characters each; and `generate` returns rows in single-spawn
mode, and in dual-spawn mode when `w'` or `h'` is at least 5. -/
theorem generate_dimensions (mt19937 : Nat → Nat → Nat) (now : Nat) (width height : Int)
    (hw : 3 ≤ width) (hh : 3 ≤ height) (g : MazeGenerator)
    (hgw : g.m_width = (MazeGenerator.new width height).m_width)
    (hgh : g.m_height = (MazeGenerator.new width height).m_height) :
    g.m_width = (if width % 2 = 0 then width + 1 else width) ∧
    g.m_height = (if height % 2 = 0 then height + 1 else height) ∧
    g.m_width % 2 = 1 ∧ g.m_height % 2 = 1 ∧
    (∀ r, generate mt19937 now g = Except.ok r →
      (r.1.length : Int) = g.m_height ∧ ∀ row ∈ r.1, (row.length : Int) = g.m_width) ∧
    ((g.m_multiplayerMode = true → 5 ≤ g.m_width ∨ 5 ≤ g.m_height) →
      ∃ r, generate mt19937 now g = Except.ok r) := by
  have ew : g.m_width = (if width % 2 = 0 then width + 1 else width) := hgw
  have eh : g.m_height = (if height % 2 = 0 then height + 1 else height) := hgh
  have hw3 : 3 ≤ g.m_width := by rw [ew]; split_ifs <;> omega
  have hh3 : 3 ≤ g.m_height := by rw [eh]; split_ifs <;> omega
  have ow : g.m_width % 2 = 1 := by rw [ew]; split_ifs <;> omega
  have oh : g.m_height % 2 = 1 := by rw [eh]; split_ifs <;> omega
  obtain ⟨c1, hcarve, hpost1, _, hthree⟩ := carve_initial (seeded mt19937 now g) hw3 hh3 rfl
  have hcarve2 : carvePassage (g.m_width.toNat * g.m_height.toNat) 1 1 (seeded mt19937 now g) =
      Except.ok c1 := hcarve
  have hw1 : c1.m_width = g.m_width := hpost1.width_eq
  have hh1 : c1.m_height = g.m_height := hpost1.height_eq
  have hm1 : c1.m_multiplayerMode = g.m_multiplayerMode := by
    have h := congrArg MazeGenerator.m_multiplayerMode hpost1.others
    exact h
  have hwf1 : GridWF c1.m_width c1.m_height c1.m_grid := by
    rw [hw1, hh1]; exact hpost1.wf
  obtain ⟨hpart, htot⟩ := placeAndConnect_spec c1 hwf1 hpost1.alphabet (by omega) (by omega)
  refine ⟨ew, eh, ow, oh, ?_, ?_⟩
  · intro r hr
    obtain ⟨hk, g1, hc, hf⟩ := generate_frame mt19937 now g r hr
    rw [hcarve2] at hc
    cases hc
    obtain ⟨_, g2, g3, h2, h3, h4, hrows⟩ := finishRun_frame c1 r hf
    have hl2 := hpart g2 h2
    obtain ⟨g3b, h3b, hwf3, _⟩ := placeEnemies_spec g2 hl2.tagged.wf
    rw [h3] at h3b
    cases h3b
    have hwf4 := placeDestructibleWalls_shape g3 r.2 hwf3 h4
    obtain ⟨a, b, e4⟩ := placeDestructibleWalls_frame g3 r.2 h4
    have e4w : r.2.m_width = g3.m_width := by rw [e4]
    have e4h : r.2.m_height = g3.m_height := by rw [e4]
    rw [← e4w, ← e4h, hk.config.width, hk.config.height] at hwf4
    rw [hrows]
    refine ⟨by rw [List.length_map]; exact hwf4.1, ?_⟩
    intro row hrow
    rw [List.mem_map] at hrow
    obtain ⟨l, hl, rfl⟩ := hrow
    rw [String.length_mk]
    exact hwf4.2 l hl
  · intro hC
    obtain ⟨g2, h2⟩ := htot (fun hm => hthree (hC (hm1 ▸ hm)))
    have hl2 := hpart g2 h2
    obtain ⟨g3, h3, hwf3, _⟩ := placeEnemies_spec g2 hl2.tagged.wf
    obtain ⟨g4, h4, _⟩ := placeDestructibleWalls_spec g3 hwf3
    refine ⟨(g4.m_grid.map String.mk, g4), ?_⟩
    rw [generate_eq, hcarve2]
    show finishRun c1 = _
    unfold finishRun
    rw [h2]
    dsimp only []
    rw [h3]
    dsimp only []
    rw [h4]

theorem generate_dimensions_witness :
    (∀ r, generate (fun seed i => seed + 7 * i) 0 (configured 40 30 1 8 (15 / 100) false false) =
        Except.ok r →
      (r.1.length : Int) = 31 ∧ ∀ row ∈ r.1, (row.length : Int) = 41) ∧
    ∃ r, generate (fun seed i => seed + 7 * i) 0 (configured 40 30 1 8 (15 / 100) false false) =
      Except.ok r := by
  have key := generate_dimensions (fun seed i => seed + 7 * i) 0 40 30 (by decide) (by decide)
    (configured 40 30 1 8 (15 / 100) false false) rfl rfl
  have e1 : (configured 40 30 1 8 (15 / 100) false false).m_width = 41 := by decide
  have e2 : (configured 40 30 1 8 (15 / 100) false false).m_height = 31 := by decide
  rw [e1, e2] at key
  exact ⟨key.2.2.2.2.1, key.2.2.2.2.2 (fun h => absurd h (by decide))⟩

end MazeGenerator
end TankMaze


namespace TankMaze

/-- The conversion `static_cast<int>` of the quotient by the tile size is negative for a
coordinate at least one tile below zero. -/
theorem truncToInt_neg (x : ℚ) (h : x ≤ -m_tileSize) : truncToInt (x / m_tileSize) < 0 := by
  unfold m_tileSize at *
  have hq : x / 60 ≤ -1 := by
    rw [div_le_iff₀ (by norm_num)]; linarith
  unfold truncToInt
  have hden : (0 : ℚ) < ((x / 60).den : ℚ) := by exact_mod_cast (x / 60).den_pos
  have hnum : (x / 60).num ≤ -((x / 60).den : Int) := by
    have h1 : ((x / 60).num : ℚ) / ((x / 60).den : ℚ) ≤ -1 := by rw [Rat.num_div_den]; exact hq
    rw [div_le_iff₀ hden] at h1
    have h2 : ((x / 60).num : ℚ) ≤ ((-((x / 60).den : Int) : Int) : ℚ) := by push_cast; linarith
    exact_mod_cast h2
  have hd : (0 : Int) < ((x / 60).den : Int) := by exact_mod_cast (x / 60).den_pos
  have key : Int.tdiv (x / 60).num ((x / 60).den : Int) =
      -(Int.tdiv (-(x / 60).num) ((x / 60).den : Int)) := by
    rw [Int.neg_tdiv, neg_neg]
  rw [key, Int.tdiv_eq_ediv (by omega) (by omega)]
  have : 1 ≤ (-(x / 60).num) / ((x / 60).den : Int) :=
    (Int.le_ediv_iff_mul_le hd).2 (by omega)
  omega

/-- The conversion `static_cast<int>` of the quotient by the tile size is at least `n` for a
coordinate of at least `n` tiles. -/
theorem truncToInt_ge (n : Nat) (x : ℚ) (h : (n : ℚ) * m_tileSize ≤ x) :
    (n : Int) ≤ truncToInt (x / m_tileSize) := by
  unfold m_tileSize at *
  have hq0 : (0 : ℚ) ≤ x / 60 := by
    have : (0 : ℚ) ≤ (n : ℚ) := by exact_mod_cast Nat.zero_le n
    have : (0 : ℚ) ≤ x := by nlinarith
    positivity
  unfold truncToInt
  rw [Int.tdiv_eq_ediv (Rat.num_nonneg.2 hq0) (by exact_mod_cast Nat.zero_le _), ← Rat.floor_def,
    Int.le_floor]
  rw [le_div_iff₀ (by norm_num)]
  exact_mod_cast h

namespace Maze

/-- The truncated cell coordinates of a point at least one tile outside the grid on a low side,
or outside of it on a high side, fail the bounds test. -/
theorem farOutside_fails_bounds (m : Maze) (p : Vec2) (h : farOutsideGrid m p) :
    truncToInt (p.y / m_tileSize) < 0 ∨ truncToInt (p.y / m_tileSize) ≥ (m.m_rows : Int) ∨
      truncToInt (p.x / m_tileSize) < 0 ∨ truncToInt (p.x / m_tileSize) ≥ (m.m_cols : Int) := by
  rcases h with h | h | h | h
  · exact Or.inr (Or.inr (Or.inl (truncToInt_neg _ h)))
  · exact Or.inr (Or.inr (Or.inr (truncToInt_ge _ _ h)))
  · exact Or.inl (truncToInt_neg _ h)
  · exact Or.inr (Or.inl (truncToInt_ge _ _ h))

/-- What holds of C24. For a world point at least one tile outside the grid rectangle on the
west or north side, or outside of it on the east or south side, `bulletHit` returns false,
`bulletHitWithResult` returns the default result, `placeWall` returns false, and each of them
leaves the maze as it is. -/
theorem far_outside_point_rejected (hypot : ℚ → ℚ → ℚ) (m : Maze) (p : Vec2) (d : ℚ)
    (h : farOutsideGrid m p) :
    m.bulletHit p d = (false, m) ∧ m.bulletHitWithResult p d = ({}, m) ∧
      m.placeWall hypot p = (false, m) := by
  have hb := farOutside_fails_bounds m p h
  refine ⟨?_, ?_, ?_⟩
  · unfold bulletHit
    simp only []
    rw [if_pos hb]
  · unfold bulletHitWithResult
    simp only []
    rw [if_pos hb]
  · unfold placeWall canPlaceWall
    simp only []
    rw [if_pos hb]
    rfl

theorem far_outside_point_rejected_witness :
    brickOnly.bulletHit ⟨-60, 30⟩ 100 = (false, brickOnly) ∧
      brickOnly.bulletHitWithResult ⟨-60, 30⟩ 100 = ({}, brickOnly) ∧
      brickOnly.placeWall axisHypot ⟨-60, 30⟩ = (false, brickOnly) :=
  far_outside_point_rejected axisHypot brickOnly ⟨-60, 30⟩ 100
    (Or.inl (by unfold m_tileSize; norm_num))

/-- C24 fails in the code: the cell of a point is found by truncation toward zero, so that a
negative coordinate above minus one tile gives the index 0, which passes the bounds test. In
the one-cell maze `*` the point `(-30, 30)` lies outside the grid rectangle, yet `bulletHit`
returns true and `bulletHitWithResult` reports a destroyed wall, and both turn the cell
`(0, 0)` into an Empty cell; in the maze `..S.E` the call `placeWall` at the same point
returns true and turns the cell `(0, 0)` into a Destructible cell. -/
theorem negative_point_hits_first_cell :
    outsideGrid brickOnly ⟨-30, 30⟩ ∧ brickOnly.typeAt 0 0 = WallType.Destructible ∧
    (brickOnly.bulletHit ⟨-30, 30⟩ 100).1 = true ∧
    (brickOnly.bulletHit ⟨-30, 30⟩ 100).2.typeAt 0 0 = WallType.None ∧
    (brickOnly.bulletHitWithResult ⟨-30, 30⟩ 100).1 =
      { destroyed := true, wallAttribute := WallAttribute.None, position := ⟨30, 30⟩,
        gridX := 0, gridY := 0 } ∧
    (brickOnly.bulletHitWithResult ⟨-30, 30⟩ 100).2.typeAt 0 0 = WallType.None ∧
    outsideGrid corridorFar ⟨-30, 30⟩ ∧ corridorFar.typeAt 0 0 = WallType.None ∧
    (corridorFar.placeWall axisHypot ⟨-30, 30⟩).1 = true ∧
    (corridorFar.placeWall axisHypot ⟨-30, 30⟩).2.typeAt 0 0 = WallType.Destructible := by
  refine ⟨Or.inl (by norm_num), by decide!, by decide!, by decide!, by decide!, by decide!,
    Or.inl (by norm_num), by decide!, by decide!, by decide!⟩

end Maze

end TankMaze


namespace TankMaze

namespace Maze

/-- C21, as the code has it. `getMazeData` returns the text that the last `loadFromString`
stored, whatever damage and placement calls followed: after a non-empty text `map` is loaded,
every state reached through `bulletHit`, `bulletHitWithResult`, `applyWallDamage` and
`placeWall` still returns `map`, so that a destroyed wall still shows its wall character and a
placed wall still shows the character that the text had at its cell. -/
theorem getMazeData_keeps_loaded_text (hypot : ℚ → ℚ → ℚ) (m : Maze) (map : List String)
    (h : map ≠ []) (m2 : Maze) (hm : MutatedFrom hypot (m.loadFromString map) m2) :
    m2.getMazeData = map := by
  have hload : (m.loadFromString map).getMazeData = map := (loadFromString_keeps m map h).1
  induction hm with
  | start => exact hload
  | hit m3 p d _ ih =>
    rw [← ih]
    unfold getMazeData bulletHit
    simp only []
    split_ifs <;> rfl
  | hitWithResult m3 p d _ ih =>
    rw [← ih]
    unfold getMazeData bulletHitWithResult
    simp only []
    split_ifs <;> rfl
  | damage m3 row col d force _ ih =>
    rw [← ih]
    unfold getMazeData applyWallDamage
    simp only []
    split_ifs <;> rfl
  | place m3 p _ ih =>
    rw [← ih]
    unfold getMazeData placeWall
    simp only []
    split_ifs
    · rfl
    · exact (calculateRoundedCorners_keeps _).data

theorem getMazeData_keeps_loaded_text_witness :
    ["G"] ≠ ([] : List String) ∧
    MutatedFrom axisHypot (({} : Maze).loadFromString ["G"])
      ((({} : Maze).loadFromString ["G"]).bulletHitWithResult ⟨30, 30⟩ 100).2 ∧
    ((({} : Maze).loadFromString ["G"]).bulletHitWithResult ⟨30, 30⟩ 100).2.getMazeData = ["G"] :=
  ⟨by simp, MutatedFrom.hitWithResult _ _ _ MutatedFrom.start,
    getMazeData_keeps_loaded_text axisHypot {} ["G"] (by simp) _
      (MutatedFrom.hitWithResult _ _ _ MutatedFrom.start)⟩

/-- C21 as stated fails. In the one-cell maze `G` a hit of damage 100 at `(30, 30)` destroys the
wall and leaves an Empty cell, and the character of `getMazeData` at row 0, column 0 is still
`G`, not `.`. In the maze `S...E` the call `placeWall` at `(150, 30)` succeeds and makes the
cell in row 0, column 2 Destructible, and the character of `getMazeData` there is still `.`,
not `*`. On this input both differences passed to `std::hypot` have a zero ordinate. -/
theorem getMazeData_ignores_mutation :
    ((goldOnly.bulletHitWithResult ⟨30, 30⟩ 100).1.destroyed = true ∧
      (goldOnly.bulletHitWithResult ⟨30, 30⟩ 100).2.typeAt 0 0 = WallType.None ∧
      rowsCell (goldOnly.bulletHitWithResult ⟨30, 30⟩ 100).2.getMazeData 0 0 = 'G' ∧
      rowsCell (goldOnly.bulletHitWithResult ⟨30, 30⟩ 100).2.getMazeData 0 0 ≠ '.') ∧
    ((corridorSE.placeWall axisHypot ⟨150, 30⟩).1 = true ∧
      (corridorSE.placeWall axisHypot ⟨150, 30⟩).2.typeAt 0 2 = WallType.Destructible ∧
      rowsCell (corridorSE.placeWall axisHypot ⟨150, 30⟩).2.getMazeData 0 2 = '.' ∧
      rowsCell (corridorSE.placeWall axisHypot ⟨150, 30⟩).2.getMazeData 0 2 ≠ '*') := by
  decide!

/-- C23, as the code has it. Both walks skip the cells of the line that lie outside the grid:
with `line` the integer cell line from the start cell to the end cell, `checkLineOfSight`
returns the classification of the in-bounds cells of `line` alone and
`getFirstBlockedPosition` the centre of the first in-bounds cell that is Solid or Destructible,
or the target when there is none. In particular a line all of whose cells lie outside the grid
is reported clear. -/
theorem sight_skips_outside_cells (m : Maze) (start end_ : Vec2) :
    ∃ line : List GridPos,
      cellLine (worldToGrid start) (worldToGrid end_) = some line ∧
      m.checkLineOfSight start end_ =
        some (if (line.filter fun c => m.inBounds c.y c.x).any
                  (fun c => decide (m.typeAt c.y c.x = WallType.Solid)) then 2
              else if (line.filter fun c => m.inBounds c.y c.x).any
                  (fun c => decide (m.typeAt c.y c.x = WallType.Destructible)) then 1
              else 0) ∧
      m.getFirstBlockedPosition start end_ =
        some (match (line.filter fun c => m.inBounds c.y c.x).find?
                  (fun c => decide (m.typeAt c.y c.x = WallType.Solid) ||
                    decide (m.typeAt c.y c.x = WallType.Destructible)) with
              | some c => gridToWorld c
              | none => end_) ∧
      ((∀ c ∈ line, m.inBounds c.y c.x = false) →
        m.checkLineOfSight start end_ = some 0 ∧
          m.getFirstBlockedPosition start end_ = some end_) := by
  obtain ⟨line, hline, _, _⟩ := cellLine_total (worldToGrid start) (worldToGrid end_)
  have hlos : m.checkLineOfSight start end_ =
      some (if line.any m.solidAt then 2 else if line.any m.destructibleAt then 1 else 0) :=
    losLoop_eq m _ _ _ 0 line hline
  have hblk : m.getFirstBlockedPosition start end_ =
      some (match line.find? m.blockedAt with
            | some c => gridToWorld c
            | none => end_) :=
    blockedLoop_eq m _ end_ _ _ line hline
  have e1 : (line.filter fun c => m.inBounds c.y c.x).any
      (fun c => decide (m.typeAt c.y c.x = WallType.Solid)) = line.any m.solidAt := by
    rw [List.any_filter]
    rfl
  have e2 : (line.filter fun c => m.inBounds c.y c.x).any
      (fun c => decide (m.typeAt c.y c.x = WallType.Destructible)) =
        line.any m.destructibleAt := by
    rw [List.any_filter]
    rfl
  have e3 : (line.filter fun c => m.inBounds c.y c.x).find?
      (fun c => decide (m.typeAt c.y c.x = WallType.Solid) ||
        decide (m.typeAt c.y c.x = WallType.Destructible)) = line.find? m.blockedAt := by
    rw [List.find?_filter]
    congr 1
    funext c
    unfold blockedAt
    cases m.inBounds c.y c.x <;> simp
  refine ⟨line, hline, ?_, ?_, ?_⟩
  · rw [e1, e2]; exact hlos
  · rw [e3]; exact hblk
  · intro hout
    have n1 : line.any m.solidAt = false := by
      rw [List.any_eq_false]
      intro c hc
      unfold solidAt
      rw [hout c hc]
      simp
    have n2 : line.any m.destructibleAt = false := by
      rw [List.any_eq_false]
      intro c hc
      unfold destructibleAt
      rw [hout c hc]
      simp
    have n3 : line.find? m.blockedAt = none := by
      rw [List.find?_eq_none]
      intro c hc
      unfold blockedAt
      rw [hout c hc]
      simp
    rw [hlos, hblk, n1, n2, n3]
    exact ⟨rfl, rfl⟩

/-- C23 as stated fails. In the one-cell maze `.` the cell line from the point `(30, 30)` to
the point `(150, 30)` is `(0, 0)`, `(1, 0)`, `(2, 0)`, whose last two cells lie outside the
grid, and the cell line from `(90, 30)` to `(150, 30)` lies outside the grid altogether; on
both `checkLineOfSight` returns 0 and `getFirstBlockedPosition` returns the target. -/
theorem sight_passes_outside_cells :
    cellLine (worldToGrid ⟨30, 30⟩) (worldToGrid ⟨150, 30⟩) = some [⟨0, 0⟩, ⟨1, 0⟩, ⟨2, 0⟩] ∧
    floorOnly.inBounds 0 0 = true ∧ floorOnly.inBounds 0 1 = false ∧
    floorOnly.inBounds 0 2 = false ∧
    floorOnly.checkLineOfSight ⟨30, 30⟩ ⟨150, 30⟩ = some 0 ∧
    floorOnly.getFirstBlockedPosition ⟨30, 30⟩ ⟨150, 30⟩ = some ⟨150, 30⟩ ∧
    cellLine (worldToGrid ⟨90, 30⟩) (worldToGrid ⟨150, 30⟩) = some [⟨1, 0⟩, ⟨2, 0⟩] ∧
    floorOnly.checkLineOfSight ⟨90, 30⟩ ⟨150, 30⟩ = some 0 ∧
    floorOnly.getFirstBlockedPosition ⟨90, 30⟩ ⟨150, 30⟩ = some ⟨150, 30⟩ := by
  decide!

/-- C22 fails in the code: `loadFromString` resets the spawn positions and the list of enemy
spawn points, but not the start and exit positions. Decoding the text `1.2`, which has no `S`
and no `E`, into a fresh maze object leaves the start and the exit at `(0, 0)`; decoding the
same text into an object that has decoded `S.E` before leaves them at `(30, 30)` and
`(150, 30)`, the centres of the `S` and `E` cells of the earlier text. -/
theorem loadFromString_keeps_old_start :
    (({} : Maze).loadFromString ["1.2"]).m_startPosition = ⟨0, 0⟩ ∧
    (({} : Maze).loadFromString ["1.2"]).m_exitPosition = ⟨0, 0⟩ ∧
    (usedMaze.loadFromString ["1.2"]).m_startPosition = ⟨30, 30⟩ ∧
    (usedMaze.loadFromString ["1.2"]).m_exitPosition = ⟨150, 30⟩ ∧
    (({} : Maze).loadFromString ["1.2"]).m_startPosition ≠
      (usedMaze.loadFromString ["1.2"]).m_startPosition ∧
    (({} : Maze).loadFromString ["1.2"]).m_exitPosition ≠
      (usedMaze.loadFromString ["1.2"]).m_exitPosition := by
  decide!

end Maze

end TankMaze


namespace TankMaze

end TankMaze


namespace TankMaze

namespace Maze

end Maze

end TankMaze


namespace TankMaze
namespace MazeGenerator

/-- The stages of a run of `generate` that returns, on an object of width and height at least
3: the carved object `g1`, the object `g2` after the placement and `ensurePath`, the object `g3`
after `placeEnemies`, and the returned object after `placeDestructibleWalls`. -/
theorem generate_stages (mt19937 : Nat → Nat → Nat) (now : Nat) (g : MazeGenerator)
    (hw : 3 ≤ g.m_width) (hh : 3 ≤ g.m_height) (r : List String × MazeGenerator)
    (h : generate mt19937 now g = Except.ok r) :
    ∃ g1 g2 g3,
      carvePassage (g.m_width.toNat * g.m_height.toNat) 1 1 (seeded mt19937 now g) =
        Except.ok g1 ∧
      CarvePost (seeded mt19937 now g) g1 ∧
      placeAndConnect g1 = Except.ok g2 ∧ Linked g2 ∧
      placeEnemies g2 = Except.ok g3 ∧
      placeDestructibleWalls g3 = Except.ok r.2 ∧ r.1 = r.2.m_grid.map String.mk ∧
      RunKeeps g g2 ∧ OnlyGrid g2 g3 ∧ OnlyGrid g3 r.2 := by
  obtain ⟨_, g1, hc, hf⟩ := generate_frame mt19937 now g r h
  obtain ⟨c1, hcarve, hpost1, _, _⟩ := carve_initial (seeded mt19937 now g) hw hh rfl
  have hcarve2 : carvePassage (g.m_width.toNat * g.m_height.toNat) 1 1 (seeded mt19937 now g) =
      Except.ok c1 := hcarve
  rw [hcarve2] at hc
  have hg1 : c1 = g1 := Except.ok.inj hc
  subst hg1
  obtain ⟨_, g2, g3, h2, h3, h4, hrows⟩ := finishRun_frame c1 r hf
  have hw1 : c1.m_width = g.m_width := hpost1.width_eq
  have hh1 : c1.m_height = g.m_height := hpost1.height_eq
  have hwf1 : GridWF c1.m_width c1.m_height c1.m_grid := by
    rw [hw1, hh1]; exact hpost1.wf
  obtain ⟨hpart, _⟩ := placeAndConnect_spec c1 hwf1 hpost1.alphabet (by omega) (by omega)
  have hk : RunKeeps g g2 :=
    runKeeps_comp (runKeeps_comp (seeded_keeps mt19937 now g)
      (runKeeps_onlyGrid (carvePassage_frame _ _ _ _ _ hcarve2))) (placeAndConnect_frame c1 g2 h2)
  exact ⟨c1, g2, g3, hcarve2, hpost1, h2, hpart g2 h2, h3, h4, hrows, hk,
    placeEnemies_frame g2 g3 h3, placeDestructibleWalls_frame g3 r.2 h4⟩

/-- A run of `generate` on an object of width and height at least 3 returns, in single-spawn
mode always and in dual-spawn mode when the width or the height is at least 5. -/
theorem generate_total (mt19937 : Nat → Nat → Nat) (now : Nat) (g : MazeGenerator)
    (hw : 3 ≤ g.m_width) (hh : 3 ≤ g.m_height)
    (hC : g.m_multiplayerMode = true → 5 ≤ g.m_width ∨ 5 ≤ g.m_height) :
    ∃ r, generate mt19937 now g = Except.ok r := by
  obtain ⟨c1, hcarve, hpost1, _, hthree⟩ := carve_initial (seeded mt19937 now g) hw hh rfl
  have hcarve2 : carvePassage (g.m_width.toNat * g.m_height.toNat) 1 1 (seeded mt19937 now g) =
      Except.ok c1 := hcarve
  have hw1 : c1.m_width = g.m_width := hpost1.width_eq
  have hh1 : c1.m_height = g.m_height := hpost1.height_eq
  have hm1 : c1.m_multiplayerMode = g.m_multiplayerMode := by
    have h := congrArg MazeGenerator.m_multiplayerMode hpost1.others
    exact h
  have hwf1 : GridWF c1.m_width c1.m_height c1.m_grid := by
    rw [hw1, hh1]; exact hpost1.wf
  obtain ⟨hpart, htot⟩ := placeAndConnect_spec c1 hwf1 hpost1.alphabet (by omega) (by omega)
  obtain ⟨g2, h2⟩ := htot (fun hm => hthree (hC (hm1 ▸ hm)))
  have hl2 := hpart g2 h2
  obtain ⟨g3, h3, hwf3, _⟩ := placeEnemies_spec g2 hl2.tagged.wf
  obtain ⟨g4, h4, _⟩ := placeDestructibleWalls_spec g3 hwf3
  refine ⟨(g4.m_grid.map String.mk, g4), ?_⟩
  rw [generate_eq, hcarve2]
  show finishRun c1 = _
  unfold finishRun
  rw [h2]
  dsimp only []
  rw [h3]
  dsimp only []
  rw [h4]

end MazeGenerator
end TankMaze


namespace TankMaze
namespace MazeGenerator

/-- C28 fails in the code: on a 3 by 3 grid in dual-spawn mode, whatever the engine, the clock,
the seed, the enemy count, the ratio and the escape flag, the carving leaves a single Empty
cell, `placeMultiplayerSpawns` takes its fallback, whose first spawn position is
`(m_width / 2 - 2, m_height / 2) = (-1, 1)` and whose second is `(3, 1)`, and the write
`m_grid[m_spawn1Y][m_spawn1X] = '1'` falls outside the grid; the model of `generate` stops with
the out-of-bounds error there. -/
theorem small_dual_grid_out_of_bounds (mt19937 : Nat → Nat → Nat) (now seed : Nat)
    (enemyCount : Int) (ratio : ℚ) (escape : Bool) :
    (configured 3 3 seed enemyCount ratio true escape).m_width = 3 ∧
    (configured 3 3 seed enemyCount ratio true escape).m_height = 3 ∧
    Int.tdiv (configured 3 3 seed enemyCount ratio true escape).m_width 2 - 2 = -1 ∧
    Int.tdiv (configured 3 3 seed enemyCount ratio true escape).m_width 2 + 2 = 3 ∧
    generate mt19937 now (configured 3 3 seed enemyCount ratio true escape) =
      Except.error GenError.outOfBounds := by
  refine ⟨rfl, rfl, by show Int.tdiv 3 2 - 2 = -1; decide, by show Int.tdiv 3 2 + 2 = 3; decide, ?_⟩
  obtain ⟨c1, hcarve, hpost, _, _⟩ := carve_initial
    (seeded mt19937 now (configured 3 3 seed enemyCount ratio true escape))
    (by show (3 : Int) ≤ 3; decide) (by show (3 : Int) ≤ 3; decide) rfl
  have hcarve2 : carvePassage
      ((configured 3 3 seed enemyCount ratio true escape).m_width.toNat *
        (configured 3 3 seed enemyCount ratio true escape).m_height.toNat) 1 1
      (seeded mt19937 now (configured 3 3 seed enemyCount ratio true escape)) =
      Except.ok c1 := hcarve
  have hw1 : c1.m_width = 3 := hpost.width_eq
  have hh1 : c1.m_height = 3 := hpost.height_eq
  have hm1 : c1.m_multiplayerMode = true := by
    have h := congrArg MazeGenerator.m_multiplayerMode hpost.others
    exact h
  have hlen : (getEmptySpaces c1).length < 3 := by
    unfold getEmptySpaces
    rw [hw1, hh1]
    have h1 : (interior 3 3).length = 1 := by decide
    have h2 := List.length_filter_le (fun p : Int × Int => decide (cellAt c1.m_grid p.2 p.1 = '.'))
      (interior 3 3)
    omega
  rw [generate_eq, hcarve2]
  show finishRun c1 = _
  unfold finishRun placeAndConnect
  rw [if_pos hm1]
  unfold placeMultiplayerSpawns
  simp only []
  rw [if_pos hlen]
  have hset : gridSet c1.m_grid (Int.tdiv c1.m_height 2) (Int.tdiv c1.m_width 2 - 2) '1' =
      Except.error GenError.outOfBounds := by
    unfold gridSet inRange2
    rw [hw1, hh1]
    rw [if_neg]
    rw [decide_eq_true_eq]
    intro hc
    have h3 := hc.2.2.1
    revert h3
    decide
  rw [hset]

end MazeGenerator
end TankMaze


namespace TankMaze
namespace MazeGenerator

theorem carveStep_small (recur : Int → Int → MazeGenerator → Except GenError MazeGenerator)
    (g : MazeGenerator) (hw : g.m_width = 3) (hh : g.m_height = 3) (dir : Nat) :
    carveStep recur 1 1 g dir = Except.ok g := by
  unfold carveStep
  simp only []
  rw [if_neg]
  rw [hw, hh]
  unfold carveDx carveDy
  split <;> omega

theorem carveFold_small (recur : Int → Int → MazeGenerator → Except GenError MazeGenerator) :
    ∀ (dirs : List Nat) (g : MazeGenerator), g.m_width = 3 → g.m_height = 3 →
      dirs.foldlM (carveStep recur 1 1) g = Except.ok g := by
  intro dirs
  induction dirs with
  | nil => intro g _ _; rfl
  | cons d ds ih =>
    intro g hw hh
    rw [List.foldlM_cons, carveStep_small recur g hw hh d]
    exact ih g hw hh

/-- The run of `generate` after the carving of a 3 by 3 grid in single-spawn mode: the start
and the exit fall on the only Empty cell and the `E` overwrites the `S`. -/
theorem finishRun_small (g : MazeGenerator) (hw : g.m_width = 3) (hh : g.m_height = 3)
    (hm : g.m_multiplayerMode = false)
    (hgrid : g.m_grid = [['#', '#', '#'], ['#', '.', '#'], ['#', '#', '#']]) :
    rowsOf (finishRun g) = Except.ok ["###", "#E#", "###"] := by
  obtain ⟨w, h, grid, rng, seed, seedSet, ec, ratio, multi, escape, sx, sy, ex, ey, ax, ay, bx,
    b_y⟩ := g
  simp only at hw hh hm hgrid
  subst hw hh hm hgrid
  have hA : placeAndConnect ⟨3, 3, [['#', '#', '#'], ['#', '.', '#'], ['#', '#', '#']], rng, seed,
      seedSet, ec, ratio, false, escape, sx, sy, ex, ey, ax, ay, bx, b_y⟩ =
      Except.ok ⟨3, 3, [['#', '#', '#'], ['#', 'E', '#'], ['#', '#', '#']], rng, seed,
      seedSet, ec, ratio, false, escape, 1, 1, 1, 1, ax, ay, bx, b_y⟩ := rfl
  have hB : placeEnemies ⟨3, 3, [['#', '#', '#'], ['#', 'E', '#'], ['#', '#', '#']], rng, seed,
      seedSet, ec, ratio, false, escape, 1, 1, 1, 1, ax, ay, bx, b_y⟩ =
      Except.ok ⟨3, 3, [['#', '#', '#'], ['#', 'E', '#'], ['#', '#', '#']], rng, seed,
      seedSet, ec, ratio, false, escape, 1, 1, 1, 1, ax, ay, bx, b_y⟩ := by
    unfold placeEnemies
    simp only []
    have he : ((interior 3 3).filter fun p =>
        decide (cellAt [['#', '#', '#'], ['#', 'E', '#'], ['#', '#', '#']] p.2 p.1 = '.' ∧
          |p.1 - 1| + |p.2 - 1| > 5 ∧ |p.1 - 1| + |p.2 - 1| > 3)) = [] := by decide
    rw [he]
    have hs : shuffleList ([] : List (Int × Int)) rng = ([], rng) := rfl
    rw [hs]
    simp only [List.take_nil]
    rfl
  unfold finishRun
  rw [hA]
  simp only []
  rw [hB]
  simp only []
  cases escape <;> rfl

/-- C30 fails in the code. In single-spawn mode on a 3 by 3 grid, whatever the engine, the
clock, the seed, the enemy count, the ratio and the escape flag, the fallback of
`placeStartAndEnd` puts the start and the exit on the only Empty cell `(1, 1)`, the `E`
overwrites the `S`, and the returned grid has no `S`. In dual-spawn mode the exit may be put on
a spawn cell, whose marker is then not written: the run of the 3 by 5 generator with seed 0
puts the second spawn and the exit on the cell `(1, 3)`, and the grid has no `2`. -/
theorem markers_can_be_missing (mt19937 : Nat → Nat → Nat) (now seed : Nat)
    (enemyCount : Int) (ratio : ℚ) (escape : Bool) :
    rowsOf (generate mt19937 now (configured 3 3 seed enemyCount ratio false escape)) =
      Except.ok ["###", "#E#", "###"] ∧
    countChar 'S' ["###", "#E#", "###"] = 0 ∧
    dualSummary (generate exampleEngine 0 (configured 3 5 0 0 0 true false)) =
      some (["###", "#.#", "#1#", "#E#", "###"], (1, 2), (1, 3), (1, 3)) ∧
    countChar '2' ["###", "#.#", "#1#", "#E#", "###"] = 0 := by
  refine ⟨?_, by decide!, by decide!, by decide!⟩
  rw [generate_eq]
  have hc : ∃ c1, carvePassage ((configured 3 3 seed enemyCount ratio false escape).m_width.toNat *
      (configured 3 3 seed enemyCount ratio false escape).m_height.toNat) 1 1
      (seeded mt19937 now (configured 3 3 seed enemyCount ratio false escape)) = Except.ok c1 ∧
      c1.m_width = 3 ∧ c1.m_height = 3 ∧ c1.m_multiplayerMode = false ∧
      c1.m_grid = [['#', '#', '#'], ['#', '.', '#'], ['#', '#', '#']] := by
    refine ⟨{ seeded mt19937 now (configured 3 3 seed enemyCount ratio false escape) with
        m_rng := (shuffleList [0, 1, 2, 3] ⟨mt19937 seed, 0⟩).2,
        m_grid := [['#', '#', '#'], ['#', '.', '#'], ['#', '#', '#']] }, ?_, rfl, rfl, rfl, rfl⟩
    show carvePassage (8 + 1) 1 1 _ = _
    unfold carvePassage
    simp only []
    exact carveFold_small _ _ _ rfl rfl
  obtain ⟨c1, hc1, hw1, hh1, hm1, hg1⟩ := hc
  rw [hc1]
  exact finishRun_small c1 hw1 hh1 hm1 hg1


end MazeGenerator
end TankMaze


namespace TankMaze
namespace MazeGenerator

/-- The cells of `interior` are listed once each. -/
theorem interior_nodup (width height : Int) : (interior width height).Nodup := by
  unfold interior
  rw [List.nodup_flatMap]
  constructor
  · intro y _
    apply List.Nodup.map
    · intro a b hab
      have := congrArg Prod.fst hab
      simp only at this
      exact_mod_cast this
    · exact List.nodup_range' _ _
  · apply List.Pairwise.imp_of_mem _ (List.nodup_range' 1 (height - 2).toNat)
    intro a b _ _ hab
    intro p hpa hpb
    rw [List.mem_map] at hpa hpb
    obtain ⟨x1, _, rfl⟩ := hpa
    obtain ⟨x2, _, h2⟩ := hpb
    have := congrArg Prod.snd h2
    simp only at this
    apply hab
    exact_mod_cast this.symm

/-- The selected walls are listed in the order of the cells scanned, each once at most. -/
theorem destructibleCandidates_sublist (g : MazeGenerator) :
    ∀ (ps : List (Int × Int)) (rng : Rng), (destructibleCandidates g ps rng).1.Sublist ps := by
  intro ps
  induction ps with
  | nil => intro rng; exact List.Sublist.refl _
  | cons q qs ih =>
    intro rng
    unfold destructibleCandidates
    simp only []
    split_ifs
    · exact (ih _).cons₂ q
    · exact (ih _).cons q
    · exact (ih _).cons q

/-- The attribute loop on a list of different cells: every cell off the list is kept, and the
cell of index `i` carries the character of the `i`-th roll. -/
theorem assignAttributes_at {w h : Int} (gold heal : Nat) :
    ∀ (ps : List (Int × Int)) (grid : List (List Char)) (rng : Rng), GridWF w h grid →
      (∀ p ∈ ps, 0 ≤ p.2 ∧ p.2 < h ∧ 0 ≤ p.1 ∧ p.1 < w) → ps.Nodup →
      ∃ r, assignAttributes gold heal ps grid rng = Except.ok r ∧ GridWF w h r.1 ∧
        (∀ y x, (x, y) ∉ ps → cellAt r.1 y x = cellAt grid y x) ∧
        (∀ (i : Nat) (p : Int × Int), ps[i]? = some p →
          cellAt r.1 p.2 p.1 =
            (if rng.draws (rng.pos + i) % 1000 < gold then 'G'
              else if rng.draws (rng.pos + i) % 1000 < heal then 'H' else '*')) := by
  intro ps
  induction ps with
  | nil =>
    intro grid rng hwf _ _
    refine ⟨(grid, rng), rfl, hwf, fun y x _ => rfl, ?_⟩
    intro i p hp
    simp at hp
  | cons q qs ih =>
    intro grid rng hwf hin hnd
    have hq := hin q (List.mem_cons_self _ _)
    rw [List.nodup_cons] at hnd
    unfold assignAttributes
    simp only []
    rw [gridSet_ok hwf _ _ _ hq]
    simp only []
    obtain ⟨r, hrun, hwf1, hout, hat⟩ := ih _ rng.next.2 (hwf.set2 _ _ _)
      (fun p hp => hin p (List.mem_cons_of_mem _ hp)) hnd.2
    refine ⟨r, hrun, hwf1, ?_, ?_⟩
    · intro y x hxy
      rw [hout y x (fun hc => hxy (List.mem_cons_of_mem _ hc)),
        cellAt_set2 hwf _ _ _ hq, if_neg]
      intro hc
      apply hxy
      rw [hc.1, hc.2]
      exact List.mem_cons_self _ _
    · intro i p hp
      cases i with
      | zero =>
        have hpq : q = p := by
          have h0 : (q :: qs)[0]? = some q := List.getElem?_cons_zero
          rw [h0] at hp
          exact Option.some.inj hp
        subst hpq
        rw [hout q.2 q.1 hnd.1, cellAt_set2 hwf _ _ _ hq, if_pos ⟨rfl, rfl⟩]
        rfl
      | succ j =>
        have hp2 : qs[j]? = some p := by
          have h1 : (q :: qs)[j + 1]? = qs[j]? := List.getElem?_cons_succ
          rw [h1] at hp
          exact hp
        have := hat j p hp2
        rw [this]
        have e : rng.next.2.pos + j = rng.pos + (j + 1) := by
          show rng.pos + 1 + j = rng.pos + (j + 1)
          omega
        have e2 : rng.next.2.draws = rng.draws := rfl
        rw [e, e2]

/-- The function `placeEnemies` writes no other character than `X`. -/
theorem placeEnemies_chars (g g1 : MazeGenerator)
    (hwf : GridWF g.m_width g.m_height g.m_grid) (h : placeEnemies g = Except.ok g1) :
    GridWF g.m_width g.m_height g1.m_grid ∧
      ∀ y x, cellAt g1.m_grid y x = cellAt g.m_grid y x ∨ cellAt g1.m_grid y x = 'X' := by
  unfold placeEnemies at h
  simp only [] at h
  have hmem : ∀ p ∈ ((shuffleList ((interior g.m_width g.m_height).filter fun p =>
      cellAt g.m_grid p.2 p.1 = '.' ∧
        |p.1 - g.m_startX| + |p.2 - g.m_startY| > 5 ∧
        |p.1 - g.m_endX| + |p.2 - g.m_endY| > 3) g.m_rng).1.take g.m_enemyCount.toNat),
      (0 ≤ p.2 ∧ p.2 < g.m_height ∧ 0 ≤ p.1 ∧ p.1 < g.m_width) := by
    intro p hp
    have h1 := (shuffleList_perm _ _).mem_iff.1 (List.mem_of_mem_take hp)
    rw [List.mem_filter, mem_interior] at h1
    omega
  obtain ⟨grid1, hrun, hwf1, hcells⟩ := markCells_spec 'X' _ g.m_grid hwf hmem
  rw [hrun] at h
  simp only [] at h
  have hg : g1.m_grid = grid1 := by
    have h2 := congrArg MazeGenerator.m_grid (Except.ok.inj h)
    exact h2.symm
  rw [hg]
  refine ⟨hwf1, fun y x => ?_⟩
  rcases hcells y x with h1 | ⟨_, h2⟩
  · left; exact h1
  · right; exact h2

/-- The marked grid after the placement and `ensurePath` has no other characters than walls,
floors and position markers. -/
theorem TagCells.alphabet {g : MazeGenerator} {grid : List (List Char)} (ht : TagCells g grid)
    (y x : Int) :
    cellAt grid y x = '#' ∨ cellAt grid y x = '.' ∨ cellAt grid y x = 'S' ∨
      cellAt grid y x = 'E' ∨ cellAt grid y x = '1' ∨ cellAt grid y x = '2' := by
  rcases ht y x with h | h | h | h | h | h
  · exact Or.inl h
  · exact Or.inr (Or.inl h)
  · exact Or.inr (Or.inr (Or.inl h.1))
  · exact Or.inr (Or.inr (Or.inr (Or.inl h.1)))
  · exact Or.inr (Or.inr (Or.inr (Or.inr (Or.inl h.1))))
  · exact Or.inr (Or.inr (Or.inr (Or.inr (Or.inr h.1))))

/-- The comparison of a roll with a bound in per mille. -/
theorem roll_lt_iff (k b : Nat) : ((k : ℚ) / 1000 < (b : ℚ) / 1000) ↔ k < b := by
  rw [div_lt_div_iff_of_pos_right (by norm_num)]
  exact_mod_cast Iff.rfl

/-- The character of a roll, by per-mille bounds. -/
theorem rolledChar_eq (d : Nat) :
    rolledChar d = (if d % 1000 < 150 then 'G' else if d % 1000 < 250 then 'H' else '*') := by
  unfold rolledChar
  have h1 : (((d % 1000 : Nat) : ℚ) / 1000 < 15 / 100) ↔ d % 1000 < 150 := by
    have := roll_lt_iff (d % 1000) 150
    rw [← this]
    norm_num
  have h2 : (((d % 1000 : Nat) : ℚ) / 1000 < 25 / 100) ↔ d % 1000 < 250 := by
    have := roll_lt_iff (d % 1000) 250
    rw [← this]
    norm_num
  simp only [h1, h2]

/-- C26. For every generator object of width and height at least 3, every engine and clock: a
grid returned with the escape flag set has no `G` cell, in single-spawn and in dual-spawn mode;
a grid returned in single-spawn mode without the escape flag has neither a `G` nor an `H` cell;
and in dual-spawn mode without the escape flag the selected wall of index `i`, in the order of
selection, shows `G` when its roll `(m_rng() % 1000) / 1000` is below 0.15, `H` when the roll
is in `[0.15, 0.25)`, and `*` otherwise, its roll being the `i`-th output of the engine after
the selection. A grid is returned in single-spawn mode always, and in dual-spawn mode when the
width or the height is at least 5. -/
theorem attributes_follow_mode (mt19937 : Nat → Nat → Nat) (now : Nat) (g : MazeGenerator)
    (hw : 3 ≤ g.m_width) (hh : 3 ≤ g.m_height) :
    (∀ r, generate mt19937 now g = Except.ok r →
      (g.m_escapeMode = true → ∀ y x, rowsCell r.1 y x ≠ 'G') ∧
      (g.m_multiplayerMode = false → g.m_escapeMode = false →
        ∀ y x, rowsCell r.1 y x ≠ 'G' ∧ rowsCell r.1 y x ≠ 'H') ∧
      (g.m_multiplayerMode = true → g.m_escapeMode = false →
        ∃ g3, placeDestructibleWalls g3 = Except.ok r.2 ∧
          ∀ (i : Nat) (p : Int × Int),
            (destructibleCandidates g3 (interior g3.m_width g3.m_height) g3.m_rng).1[i]? =
              some p →
            rowsCell r.1 p.2 p.1 =
              rolledChar ((destructibleCandidates g3 (interior g3.m_width g3.m_height)
                g3.m_rng).2.draws ((destructibleCandidates g3 (interior g3.m_width g3.m_height)
                g3.m_rng).2.pos + i)))) ∧
    ((g.m_multiplayerMode = true → 5 ≤ g.m_width ∨ 5 ≤ g.m_height) →
      ∃ r, generate mt19937 now g = Except.ok r) := by
  refine ⟨?_, generate_total mt19937 now g hw hh⟩
  intro r hr
  obtain ⟨g1, g2, g3, _, _, _, hl2, h3, h4, hrows, hk, ho23, _⟩ :=
    generate_stages mt19937 now g hw hh r hr
  obtain ⟨grid3, rng3, e3⟩ := ho23
  have hw3 : g3.m_width = g2.m_width := by rw [e3]
  have hh3 : g3.m_height = g2.m_height := by rw [e3]
  have hm3 : g3.m_multiplayerMode = g.m_multiplayerMode := by rw [e3]; exact hk.config.multiplayer
  have he3 : g3.m_escapeMode = g.m_escapeMode := by rw [e3]; exact hk.config.escape
  obtain ⟨hwf3, hch3⟩ := placeEnemies_chars g2 g3 hl2.tagged.wf h3
  rw [← hw3, ← hh3] at hwf3
  -- the grid before the walls are placed has walls, floors and markers only
  have hpre : ∀ y x, cellAt g3.m_grid y x ≠ 'G' ∧ cellAt g3.m_grid y x ≠ 'H' := by
    intro y x
    rcases hch3 y x with h | h
    · rw [h]
      rcases TagCells.alphabet hl2.tagged.cells y x with k | k | k | k | k | k <;> rw [k] <;>
        exact ⟨by decide, by decide⟩
    · rw [h]; exact ⟨by decide, by decide⟩
  have hin : ∀ p ∈ (destructibleCandidates g3 (interior g3.m_width g3.m_height) g3.m_rng).1,
      0 ≤ p.2 ∧ p.2 < g3.m_height ∧ 0 ≤ p.1 ∧ p.1 < g3.m_width := by
    intro p hp
    obtain ⟨h1, _⟩ := mem_destructibleCandidates g3 _ _ p hp
    rw [mem_interior] at h1
    omega
  have hnd : (destructibleCandidates g3 (interior g3.m_width g3.m_height) g3.m_rng).1.Nodup :=
    (destructibleCandidates_sublist g3 _ _).nodup (interior_nodup _ _)
  have hattr : ∀ gold heal : Nat, ∀ gr,
      assignAttributes gold heal (destructibleCandidates g3 (interior g3.m_width g3.m_height)
        g3.m_rng).1 g3.m_grid (destructibleCandidates g3 (interior g3.m_width g3.m_height)
        g3.m_rng).2 = Except.ok gr →
      (∀ y x, cellAt gr.1 y x = cellAt g3.m_grid y x ∨
        ∃ d : Nat, cellAt gr.1 y x =
          (if d % 1000 < gold then 'G' else if d % 1000 < heal then 'H' else '*')) ∧
      (∀ (i : Nat) (p : Int × Int),
        (destructibleCandidates g3 (interior g3.m_width g3.m_height) g3.m_rng).1[i]? = some p →
        cellAt gr.1 p.2 p.1 =
          (if (destructibleCandidates g3 (interior g3.m_width g3.m_height) g3.m_rng).2.draws
              ((destructibleCandidates g3 (interior g3.m_width g3.m_height) g3.m_rng).2.pos + i)
                % 1000 < gold then 'G'
            else if (destructibleCandidates g3 (interior g3.m_width g3.m_height) g3.m_rng).2.draws
              ((destructibleCandidates g3 (interior g3.m_width g3.m_height) g3.m_rng).2.pos + i)
                % 1000 < heal then 'H' else '*')) := by
    intro gold heal gr hgr
    obtain ⟨r2, hrun, _, hout, hat⟩ := assignAttributes_at gold heal _ g3.m_grid
      (destructibleCandidates g3 (interior g3.m_width g3.m_height) g3.m_rng).2 hwf3 hin hnd
    rw [hrun] at hgr
    have e : r2 = gr := Except.ok.inj hgr
    subst e
    refine ⟨fun y x => ?_, hat⟩
    by_cases hmem : (x, y) ∈
        (destructibleCandidates g3 (interior g3.m_width g3.m_height) g3.m_rng).1
    · right
      obtain ⟨i, hi, hget⟩ := List.mem_iff_getElem.1 hmem
      have hsome : (destructibleCandidates g3 (interior g3.m_width g3.m_height) g3.m_rng).1[i]? =
          some (x, y) := by
        rw [List.getElem?_eq_getElem hi, hget]
      exact ⟨_, hat i (x, y) hsome⟩
    · left; exact hout y x hmem
  rw [hrows]
  have h4b := h4
  unfold placeDestructibleWalls at h4
  simp only [] at h4
  rw [hm3, he3] at h4
  refine ⟨?_, ?_, ?_⟩
  · intro hesc y x
    rw [rowsCell_mk]
    rw [hesc] at h4
    simp only [if_true, ite_self] at h4
    split at h4
    · cases h4
    · rename_i gr hgr
      have hg : r.2.m_grid = gr.1 := by
        have h5 := congrArg MazeGenerator.m_grid (Except.ok.inj h4)
        exact h5.symm
      rw [hg]
      rcases (hattr 0 300 gr hgr).1 y x with h | ⟨d, h⟩
      · rw [h]; exact (hpre y x).1
      · rw [h]
        rw [if_neg (Nat.not_lt_zero _)]
        split_ifs <;> decide
  · intro hmode hesc y x
    rw [rowsCell_mk]
    rw [hmode, hesc] at h4
    simp only [if_true, Bool.false_eq_true, if_false] at h4
    split at h4
    · cases h4
    · rename_i grid1 hgr
      have hg : r.2.m_grid = grid1 := by
        have h5 := congrArg MazeGenerator.m_grid (Except.ok.inj h4)
        exact h5.symm
      rw [hg]
      obtain ⟨grid2, hrun, _, hcells⟩ := markCells_spec '*'
        (destructibleCandidates g3 (interior g3.m_width g3.m_height) g3.m_rng).1 g3.m_grid
        hwf3 hin
      rw [hrun] at hgr
      have e : grid2 = grid1 := Except.ok.inj hgr
      subst e
      rcases hcells y x with h | ⟨_, h⟩
      · rw [h]; exact hpre y x
      · rw [h]; exact ⟨by decide, by decide⟩
  · intro hmode hesc
    refine ⟨g3, h4b, ?_⟩
    intro i p hp
    rw [rowsCell_mk]
    rw [hmode, hesc] at h4
    simp only [Bool.true_eq_false, Bool.false_eq_true, if_false] at h4
    split at h4
    · cases h4
    · rename_i gr hgr
      have hg : r.2.m_grid = gr.1 := by
        have h5 := congrArg MazeGenerator.m_grid (Except.ok.inj h4)
        exact h5.symm
      rw [hg, (hattr 150 250 gr hgr).2 i p hp, rolledChar_eq]

theorem attributes_follow_mode_witness :
    ∃ r, generate exampleEngine 0 (configured 7 5 1 2 (15 / 100) true true) = Except.ok r ∧
      ∀ y x, rowsCell r.1 y x ≠ 'G' := by
  have key := attributes_follow_mode exampleEngine 0 (configured 7 5 1 2 (15 / 100) true true)
    (by decide) (by decide)
  obtain ⟨r, hr⟩ := key.2 (fun _ => Or.inl (by decide))
  exact ⟨r, hr, (key.1 r hr).1 rfl⟩

end MazeGenerator
end TankMaze


namespace TankMaze

/-! ### A fair exit candidate exists: the arithmetic -/

/-- A sequence of integers that starts at or below zero, ends at or above zero and moves by
`2 * s` at most in one step takes a value within `s` of zero. -/
theorem crossing_up (F : Nat → Int) (s : Int) (hs : 0 ≤ s) :
    ∀ n : Nat, (∀ i, i < n → F (i + 1) - F i ≤ 2 * s) → F 0 ≤ 0 → 0 ≤ F n →
      ∃ i, i ≤ n ∧ -s ≤ F i ∧ F i ≤ s := by
  intro n
  induction n with
  | zero =>
    intro _ h0 hn
    exact ⟨0, le_refl _, by omega, by omega⟩
  | succ k ih =>
    intro hstep h0 hn
    by_cases hk : 0 ≤ F k
    · obtain ⟨i, hi, h1, h2⟩ := ih (fun i hi => hstep i (by omega)) h0 hk
      exact ⟨i, by omega, h1, h2⟩
    · have := hstep k (by omega)
      by_cases hlow : -s ≤ F k
      · exact ⟨k, by omega, hlow, by omega⟩
      · exact ⟨k + 1, le_refl _, by omega, by omega⟩

/-- A sequence of integers whose ends lie on opposite sides of zero and that moves by `2 * s`
at most in one step takes a value within `s` of zero. -/
theorem crossing (F : Nat → Int) (s : Int) (hs : 0 ≤ s) (n : Nat)
    (hstep : ∀ i, i < n → F (i + 1) - F i ≤ 2 * s ∧ F i - F (i + 1) ≤ 2 * s)
    (hends : (F 0 ≤ 0 ∧ 0 ≤ F n) ∨ (0 ≤ F 0 ∧ F n ≤ 0)) :
    ∃ i, i ≤ n ∧ -s ≤ F i ∧ F i ≤ s := by
  rcases hends with ⟨h0, hn⟩ | ⟨h0, hn⟩
  · exact crossing_up F s hs n (fun i hi => (hstep i hi).1) h0 hn
  · obtain ⟨i, hi, h1, h2⟩ := crossing_up (fun i => - F i) s hs n
      (fun i hi => by have := (hstep i hi).2; simp only; omega) (by simp only; omega)
      (by simp only; omega)
    have h3 : -s ≤ -F i := h1
    have h4 : -F i ≤ s := h2
    exact ⟨i, hi, by omega, by omega⟩

/-- The difference of the distances to two spawns along the odd cells of a column. -/
theorem column_crossing (H x0 x1 y1 x2 y2 : Int) (hH : 3 ≤ H) (hHo : H % 2 = 1)
    (hy1 : 1 ≤ y1 ∧ y1 ≤ H - 2) (hy2 : 1 ≤ y2 ∧ y2 ≤ H - 2)
    (hAB : |x0 - x1| - |x0 - x2| ≤ |y1 - y2| ∧ |x0 - x2| - |x0 - x1| ≤ |y1 - y2|) :
    ∃ y, 1 ≤ y ∧ y ≤ H - 2 ∧ y % 2 = 1 ∧
      |(|x0 - x1| + |y - y1|) - (|x0 - x2| + |y - y2|)| ≤ 2 := by
  obtain ⟨i, hi, h1, h2⟩ := crossing
    (fun i : Nat => (|x0 - x1| + |1 + 2 * (i : Int) - y1|) - (|x0 - x2| + |1 + 2 * (i : Int) - y2|))
    2 (by decide) ((H - 3) / 2).toNat
    (by
      intro i _
      simp only [abs_eq_max_neg]
      push_cast
      omega)
    (by
      have hn : (((H - 3) / 2).toNat : Int) = (H - 3) / 2 := Int.toNat_of_nonneg (by omega)
      simp only [abs_eq_max_neg] at hAB ⊢
      push_cast
      rw [hn]
      omega)
  have hn : (((H - 3) / 2).toNat : Int) = (H - 3) / 2 := Int.toNat_of_nonneg (by omega)
  have hi2 : (i : Int) ≤ (H - 3) / 2 := by rw [← hn]; exact_mod_cast hi
  refine ⟨1 + 2 * (i : Int), by omega, by omega, by omega, ?_⟩
  rw [abs_le]
  exact ⟨h1, h2⟩

end TankMaze


namespace TankMaze

/-- The difference of the distances to two spawns along all cells of a row. -/
theorem corridor_crossing (W x1 x2 : Int) (hW : 3 ≤ W)
    (hx1 : 1 ≤ x1 ∧ x1 ≤ W - 2) (hx2 : 1 ≤ x2 ∧ x2 ≤ W - 2) :
    ∃ x, 1 ≤ x ∧ x ≤ W - 2 ∧ |(|x - x1|) - (|x - x2|)| ≤ 1 := by
  obtain ⟨i, hi, h1, h2⟩ := crossing
    (fun i : Nat => |1 + (i : Int) - x1| - |1 + (i : Int) - x2|)
    1 (by decide) (W - 3).toNat
    (by
      intro i _
      simp only [abs_eq_max_neg]
      push_cast
      omega)
    (by
      have hn : (((W - 3)).toNat : Int) = W - 3 := Int.toNat_of_nonneg (by omega)
      simp only [abs_eq_max_neg]
      push_cast
      rw [hn]
      omega)
  have hn : (((W - 3)).toNat : Int) = W - 3 := Int.toNat_of_nonneg (by omega)
  have hi2 : (i : Int) ≤ W - 3 := by rw [← hn]; exact_mod_cast hi
  refine ⟨1 + (i : Int), by omega, by omega, ?_⟩
  rw [abs_le]
  exact ⟨h1, h2⟩

/-- On a grid of odd width at least 9 and odd height at least 5, for any two interior cells
taken as spawns, some interior cell with odd coordinates lies at distances from the spawns that
differ by 3 at most, and lies in the first quarter of the columns or farther than a third of the
height from both spawns. -/
theorem exit_wide (W H x1 y1 x2 y2 : Int) (hW : 9 ≤ W) (hH : 5 ≤ H) (hWo : W % 2 = 1)
    (hHo : H % 2 = 1) (hx1 : 1 ≤ x1 ∧ x1 ≤ W - 2) (hy1 : 1 ≤ y1 ∧ y1 ≤ H - 2)
    (hx2 : 1 ≤ x2 ∧ x2 ≤ W - 2) (hy2 : 1 ≤ y2 ∧ y2 ≤ H - 2) :
    ∃ x y, (1 ≤ x ∧ x ≤ W - 2 ∧ 1 ≤ y ∧ y ≤ H - 2) ∧ (x % 2 = 1 ∧ y % 2 = 1) ∧
      |(|x - x1| + |y - y1|) - (|x - x2| + |y - y2|)| ≤ 3 ∧
      (x < W / 4 ∨ min (|x - x1| + |y - y1|) (|x - x2| + |y - y2|) > H / 3) := by
  by_cases hD : |x1 - x2| + |y1 - y2| ≤ 3
  · refine ⟨1, 1, by omega, by omega, ?_, Or.inl (by omega)⟩
    simp only [abs_eq_max_neg] at hD ⊢
    omega
  by_cases hB : |x1 - x2| ≤ |y1 - y2|
  · obtain ⟨y, hy1b, hy2b, hyo, hf⟩ := column_crossing H 1 x1 y1 x2 y2 (by omega) hHo hy1 hy2
      (by
        simp only [abs_eq_max_neg] at hB ⊢
        omega)
    refine ⟨1, y, by omega, ⟨by omega, hyo⟩, ?_, Or.inl (by omega)⟩
    simp only [abs_eq_max_neg] at hf ⊢
    omega
  by_cases hs : y1 + y2 ≤ H - 1
  · obtain ⟨x, hx1b, hx2b, hxo, hf⟩ := column_crossing W (H - 2) y1 x1 y2 x2 (by omega) hWo hx1 hx2
      (by
        simp only [abs_eq_max_neg] at hB ⊢
        omega)
    refine ⟨x, H - 2, by omega, ⟨hxo, by omega⟩, ?_, Or.inr ?_⟩
    · simp only [abs_eq_max_neg] at hf ⊢
      omega
    · simp only [abs_eq_max_neg] at hf hB hD ⊢
      omega
  · obtain ⟨x, hx1b, hx2b, hxo, hf⟩ := column_crossing W 1 y1 x1 y2 x2 (by omega) hWo hx1 hx2
      (by
        simp only [abs_eq_max_neg] at hB ⊢
        omega)
    refine ⟨x, 1, by omega, ⟨hxo, by omega⟩, ?_, Or.inr ?_⟩
    · simp only [abs_eq_max_neg] at hf ⊢
      omega
    · simp only [abs_eq_max_neg] at hf hB hD ⊢
      omega

/-- On a corridor of width at least 9, for any two cells taken as spawns, some cell lies at
distances from the spawns that differ by 3 at most, and lies in the first quarter of the columns
or farther than one step from both spawns. -/
theorem exit_corridor (W x1 x2 : Int) (hW : 9 ≤ W)
    (hx1 : 1 ≤ x1 ∧ x1 ≤ W - 2) (hx2 : 1 ≤ x2 ∧ x2 ≤ W - 2) :
    ∃ x, (1 ≤ x ∧ x ≤ W - 2) ∧ |(|x - x1|) - (|x - x2|)| ≤ 3 ∧
      (x < W / 4 ∨ min (|x - x1|) (|x - x2|) > 1) := by
  by_cases hD : |x1 - x2| ≤ 3
  · refine ⟨1, by omega, ?_, Or.inl (by omega)⟩
    simp only [abs_eq_max_neg] at hD ⊢
    omega
  · obtain ⟨x, hx1b, hx2b, hf⟩ := corridor_crossing W x1 x2 (by omega) hx1 hx2
    refine ⟨x, ⟨hx1b, hx2b⟩, ?_, Or.inr ?_⟩
    · simp only [abs_eq_max_neg] at hf ⊢
      omega
    · simp only [abs_eq_max_neg] at hf hD ⊢
      omega

end TankMaze


namespace TankMaze
namespace MazeGenerator

/-! ### A fair exit candidate exists: the tests of `placeMultiplayerSpawns` -/

theorem exitCandidate_intro (g : MazeGenerator) (x y : Int) (hw : 0 ≤ g.m_width)
    (hh : 0 ≤ g.m_height)
    (hfair : |(|x - g.m_spawn1X| + |y - g.m_spawn1Y|) - (|x - g.m_spawn2X| + |y - g.m_spawn2Y|)| ≤ 3)
    (hclass : x < g.m_width / 4 ∨ y < g.m_height / 4 ∨
      min (|x - g.m_spawn1X| + |y - g.m_spawn1Y|) (|x - g.m_spawn2X| + |y - g.m_spawn2Y|) >
        (min g.m_width g.m_height) / 3) :
    exitCandidate g (x, y) = true := by
  unfold exitCandidate isFair endEntry isEdgeArea
  simp only [Bool.and_eq_true, Bool.or_eq_true, decide_eq_true_eq]
  rw [Int.tdiv_eq_ediv hw (by decide), Int.tdiv_eq_ediv hh (by decide),
    Int.tdiv_eq_ediv (le_min hw hh) (by decide)]
  refine ⟨le_trans hfair (le_max_left _ _), ?_⟩
  rcases hclass with h | h | h
  · exact Or.inl (Or.inl h)
  · exact Or.inl (Or.inr (Or.inr (Or.inl h)))
  · exact Or.inr h

theorem exitServed_spec (W H : Int) (cells : List (Int × Int)) (h : exitServed W H cells = true)
    (a b : Int × Int) (ha : a ∈ interior W H) (hb : b ∈ interior W H) :
    isFair (endEntry (withSpawnsAt W H a b) (W - 2, H - 2)) = true ∨
      ∃ p ∈ cells, exitCandidate (withSpawnsAt W H a b) p = true := by
  unfold exitServed at h
  rw [List.all_eq_true] at h
  have h2 := h a ha
  rw [List.all_eq_true] at h2
  have h3 := h2 b hb
  rw [Bool.or_eq_true, List.any_eq_true] at h3
  exact h3

theorem mem_latticeCells (W H : Int) (p : Int × Int) :
    p ∈ latticeCells W H ↔
      (1 ≤ p.2 ∧ p.2 < H - 1 ∧ 1 ≤ p.1 ∧ p.1 < W - 1) ∧ p.1 % 2 = 1 ∧ p.2 % 2 = 1 := by
  unfold latticeCells
  rw [List.mem_filter, mem_interior]
  simp only [decide_eq_true_eq]

/-- The grids with sides 3, 5 or 7, the one of 3 by 3 apart: corridors with all their cells,
the others with their cells of odd coordinates. -/
theorem small_served (W H : Int) (hW : W = 3 ∨ W = 5 ∨ W = 7) (hH : H = 3 ∨ H = 5 ∨ H = 7)
    (hne : ¬ (W = 3 ∧ H = 3)) :
    exitServed W H (if W = 3 ∨ H = 3 then interior W H else latticeCells W H) = true := by
  rcases hW with h | h | h <;> rcases hH with h2 | h2 | h2 <;> subst h <;> subst h2
  · exact absurd ⟨rfl, rfl⟩ hne
  · decide!
  · decide!
  · decide!
  · decide!
  · decide!
  · decide!
  · decide!
  · decide!

end MazeGenerator
end TankMaze


namespace TankMaze
namespace MazeGenerator

theorem exitCandidate_fields (g : MazeGenerator) (p : Int × Int) :
    exitCandidate (withSpawnsAt g.m_width g.m_height (g.m_spawn1X, g.m_spawn1Y)
      (g.m_spawn2X, g.m_spawn2Y)) p = exitCandidate g p := rfl

theorem fallback_fields (g : MazeGenerator) (p : Int × Int) :
    isFair (endEntry (withSpawnsAt g.m_width g.m_height (g.m_spawn1X, g.m_spawn1Y)
      (g.m_spawn2X, g.m_spawn2Y)) p) = isFair (endEntry g p) := rfl

/-- On a carved grid of odd sides, the one of 3 by 3 apart, whatever interior cells the two
spawns are: the fallback exit is fair, or some empty cell passes the tests of
`endCandidates`. -/
theorem exit_served (g : MazeGenerator) (hw : 3 ≤ g.m_width) (hh : 3 ≤ g.m_height)
    (hwo : g.m_width % 2 = 1) (hho : g.m_height % 2 = 1) (hne : 5 ≤ g.m_width ∨ 5 ≤ g.m_height)
    (hs1 : isInterior g g.m_spawn1X g.m_spawn1Y) (hs2 : isInterior g g.m_spawn2X g.m_spawn2Y)
    (hlat : ∀ x y, isInterior g x y → x % 2 = 1 → y % 2 = 1 → cellAt g.m_grid y x = '.')
    (hcor : (g.m_width = 3 ∨ g.m_height = 3) → ∀ x y, isInterior g x y → cellAt g.m_grid y x = '.') :
    isFair (endEntry g (g.m_width - 2, g.m_height - 2)) = true ∨
      ∃ p ∈ getEmptySpaces g, exitCandidate g p = true := by
  unfold isInterior at hs1 hs2
  by_cases hW9 : 9 ≤ g.m_width
  · right
    by_cases hH3 : g.m_height = 3
    · obtain ⟨x, hxb, hf, hc⟩ := exit_corridor g.m_width g.m_spawn1X g.m_spawn2X hW9
        (by omega) (by omega)
      have hy1 : g.m_spawn1Y = 1 := by omega
      have hy2 : g.m_spawn2Y = 1 := by omega
      refine ⟨(x, 1), ?_, ?_⟩
      · rw [mem_getEmptySpaces]
        refine ⟨by simp only; omega, ?_⟩
        exact hcor (Or.inr hH3) x 1 (by unfold isInterior; omega)
      · apply exitCandidate_intro g x 1 (by omega) (by omega)
        · rw [hy1, hy2]
          simp only [abs_eq_max_neg] at hf ⊢
          omega
        · rw [hy1, hy2, hH3]
          simp only [abs_eq_max_neg] at hc ⊢
          omega
    · obtain ⟨x, y, hb, ho, hf, hc⟩ := exit_wide g.m_width g.m_height g.m_spawn1X g.m_spawn1Y
        g.m_spawn2X g.m_spawn2Y hW9 (by omega) hwo hho (by omega) (by omega) (by omega) (by omega)
      refine ⟨(x, y), ?_, ?_⟩
      · rw [mem_getEmptySpaces]
        refine ⟨by simp only; omega, ?_⟩
        exact hlat x y (by unfold isInterior; omega) ho.1 ho.2
      · apply exitCandidate_intro g x y (by omega) (by omega) hf
        rcases hc with h | h
        · exact Or.inl h
        · right; right
          have : min g.m_width g.m_height / 3 ≤ g.m_height / 3 := by omega
          omega
  by_cases hH9 : 9 ≤ g.m_height
  · right
    by_cases hW3 : g.m_width = 3
    · obtain ⟨y, hyb, hf, hc⟩ := exit_corridor g.m_height g.m_spawn1Y g.m_spawn2Y hH9
        (by omega) (by omega)
      have hx1 : g.m_spawn1X = 1 := by omega
      have hx2 : g.m_spawn2X = 1 := by omega
      refine ⟨(1, y), ?_, ?_⟩
      · rw [mem_getEmptySpaces]
        refine ⟨by simp only; omega, ?_⟩
        exact hcor (Or.inl hW3) 1 y (by unfold isInterior; omega)
      · apply exitCandidate_intro g 1 y (by omega) (by omega)
        · rw [hx1, hx2]
          simp only [abs_eq_max_neg] at hf ⊢
          omega
        · rw [hx1, hx2, hW3]
          simp only [abs_eq_max_neg] at hc ⊢
          omega
    · obtain ⟨y, x, hb, ho, hf, hc⟩ := exit_wide g.m_height g.m_width g.m_spawn1Y g.m_spawn1X
        g.m_spawn2Y g.m_spawn2X hH9 (by omega) hho hwo (by omega) (by omega) (by omega) (by omega)
      refine ⟨(x, y), ?_, ?_⟩
      · rw [mem_getEmptySpaces]
        refine ⟨by simp only; omega, ?_⟩
        exact hlat x y (by unfold isInterior; omega) ho.2 ho.1
      · apply exitCandidate_intro g x y (by omega) (by omega)
        · simp only [abs_eq_max_neg] at hf ⊢
          omega
        · rcases hc with h | h
          · exact Or.inr (Or.inl h)
          · right; right
            have h3 : min g.m_width g.m_height / 3 ≤ g.m_width / 3 := by omega
            simp only [abs_eq_max_neg] at h ⊢
            omega
  · have hsmall := small_served g.m_width g.m_height (by omega) (by omega) (by omega)
    have hmem1 : (g.m_spawn1X, g.m_spawn1Y) ∈ interior g.m_width g.m_height := by
      rw [mem_interior]; simp only; omega
    have hmem2 : (g.m_spawn2X, g.m_spawn2Y) ∈ interior g.m_width g.m_height := by
      rw [mem_interior]; simp only; omega
    have h := exitServed_spec _ _ _ hsmall _ _ hmem1 hmem2
    rw [fallback_fields] at h
    rcases h with h | ⟨p, hp, hc⟩
    · exact Or.inl h
    · right
      rw [exitCandidate_fields] at hc
      refine ⟨p, ?_, hc⟩
      rw [mem_getEmptySpaces]
      split_ifs at hp with hthin
      · have hp2 := (mem_interior _ _ _).1 hp
        exact ⟨hp2, hcor hthin p.1 p.2 (by unfold isInterior; omega)⟩
      · have hp2 := (mem_latticeCells _ _ _).1 hp
        exact ⟨hp2.1, hlat p.1 p.2 (by unfold isInterior; omega) hp2.2.1 hp2.2.2⟩

end MazeGenerator
end TankMaze


namespace TankMaze

/-! ### The carving opens every interior cell with odd coordinates -/

theorem Branched.carry {g : MazeGenerator} {grid1 grid2 : List (List Char)} {x y : Int}
    (h : Branched g grid1 x y) (hk : ∀ y x, cellAt grid1 y x = '.' → cellAt grid2 y x = '.') :
    Branched g grid2 x y :=
  fun d hd => hk _ _ (h d hd)

theorem Branched.resize {g g2 : MazeGenerator} {grid : List (List Char)} {x y : Int}
    (h : Branched g grid x y) (hw : g2.m_width = g.m_width) (hh : g2.m_height = g.m_height) :
    Branched g2 grid x y := by
  intro d hd
  apply h d
  unfold isInterior at hd ⊢
  rw [← hw, ← hh]
  exact hd

namespace MazeGenerator

/-- One direction of the loop of `carvePassage`: the odd cells that it opens are branched, and
the cell two steps away in that direction ends open when it is an interior cell. -/
theorem carveStep_full (fuel : Nat) (ih : CarveSpec fuel) (ihf : CarveFull fuel)
    (g : MazeGenerator) (cx cy : Int) (dir : Nat) (hwf : GridWF g.m_width g.m_height g.m_grid)
    (hint : isInterior g cx cy) (ha : onlyWallsAndFloor g.m_grid)
    (hfuel : count2 '#' g.m_grid ≤ fuel) (hxo : cx % 2 = 1) (hyo : cy % 2 = 1)
    (g2 : MazeGenerator) (hrun : carveStep (carvePassage fuel) cx cy g dir = Except.ok g2) :
    CarveClosed g g2 ∧
      (isInterior g (cx + carveDx dir) (cy + carveDy dir) →
        cellAt g2.m_grid (cy + carveDy dir) (cx + carveDx dir) = '.') := by
  obtain ⟨g2b, hrunb, _, hopen, hsame⟩ := carveStep_spec fuel ih g cx cy dir hwf hint ha hfuel
  rw [hrunb] at hrun
  have hg : g2b = g2 := Except.ok.inj hrun
  subst hg
  by_cases hcond : isInterior g (cx + carveDx dir) (cy + carveDy dir) ∧
      cellAt g.m_grid (cy + carveDy dir) (cx + carveDx dir) = '#'
  · refine ⟨?_, fun _ => (hopen hcond).2⟩
    have hmid : (0 ≤ cy + Int.tdiv (carveDy dir) 2 ∧ cy + Int.tdiv (carveDy dir) 2 < g.m_height ∧
          0 ≤ cx + Int.tdiv (carveDx dir) 2 ∧ cx + Int.tdiv (carveDx dir) 2 < g.m_width) ∧
        ¬ (cy + carveDy dir = cy + Int.tdiv (carveDy dir) 2 ∧
          cx + carveDx dir = cx + Int.tdiv (carveDx dir) 2) ∧
        ((cx + Int.tdiv (carveDx dir) 2) % 2 = 0 ∨ (cy + Int.tdiv (carveDy dir) 2) % 2 = 0) ∧
        (cx + carveDx dir) % 2 = 1 ∧ (cy + carveDy dir) % 2 = 1 := by
      have hv := hcond.1
      unfold isInterior at hv hint
      rcases carveMid_cases dir with ⟨e1, e2, e3, e4⟩ | ⟨e1, e2, e3, e4⟩ | ⟨e1, e2, e3, e4⟩ |
        ⟨e1, e2, e3, e4⟩ <;> rw [e3, e4] <;> rw [e1, e2] at hv ⊢ <;> omega
    obtain ⟨hmin, hne, heven, hnxo, hnyo⟩ := hmid
    unfold carveStep at hrunb
    simp only [] at hrunb
    have hv : cx + carveDx dir > 0 ∧ cx + carveDx dir < g.m_width - 1 ∧ cy + carveDy dir > 0 ∧
        cy + carveDy dir < g.m_height - 1 := hcond.1
    rw [if_pos hv, if_pos hcond.2, gridSet_ok hwf _ _ '.' hmin] at hrunb
    simp only [] at hrunb
    obtain ⟨hpost1, _⟩ := set_floor_post g hwf ha _ _ hmin
    have hcell1 : cellAt (set2 g.m_grid (cy + Int.tdiv (carveDy dir) 2).toNat
        (cx + Int.tdiv (carveDx dir) 2).toNat '.') (cy + carveDy dir) (cx + carveDx dir) = '#' := by
      rw [cellAt_set2 hwf _ _ '.' hmin, if_neg hne]
      exact hcond.2
    have hclosed := ihf _ (cx + carveDx dir) (cy + carveDy dir) g2b hpost1.wf hv hpost1.alphabet
      hcell1 (le_trans hpost1.walls_le hfuel) hnxo hnyo hrunb
    intro x y hx hy hc hc2
    have hne2 : ¬ (y = cy + Int.tdiv (carveDy dir) 2 ∧ x = cx + Int.tdiv (carveDx dir) 2) := by
      intro h
      rw [← h.1, ← h.2] at heven
      omega
    have := hclosed x y hx hy (by
      simp only
      rw [cellAt_set2 hwf _ _ '.' hmin, if_neg hne2]
      exact hc) hc2
    exact this
  · have hg := hsame hcond
    subst hg
    refine ⟨?_, ?_⟩
    · intro x y _ _ hc hc2
      rw [hc] at hc2
      exact absurd hc2 (by decide)
    · intro hi
      rcases ha (cy + carveDy dir) (cx + carveDx dir) with h | h
      · exact absurd ⟨hi, h⟩ hcond
      · exact h

/-- The loop over the directions: the odd cells that it opens are branched, and the cell two
steps away in each listed direction ends open when it is an interior cell. -/
theorem carveFold_full (fuel : Nat) (ih : CarveSpec fuel) (ihf : CarveFull fuel) (cx cy : Int)
    (hxo : cx % 2 = 1) (hyo : cy % 2 = 1) :
    ∀ (dirs : List Nat) (g g2 : MazeGenerator), GridWF g.m_width g.m_height g.m_grid →
      isInterior g cx cy → onlyWallsAndFloor g.m_grid → count2 '#' g.m_grid ≤ fuel →
      dirs.foldlM (carveStep (carvePassage fuel) cx cy) g = Except.ok g2 →
      CarveClosed g g2 ∧
        ∀ d ∈ dirs, isInterior g (cx + carveDx d) (cy + carveDy d) →
          cellAt g2.m_grid (cy + carveDy d) (cx + carveDx d) = '.' := by
  intro dirs
  induction dirs with
  | nil =>
    intro g g2 _ _ _ _ hrun
    have hg : g = g2 := Except.ok.inj hrun
    subst hg
    refine ⟨?_, fun d hd => absurd hd (List.not_mem_nil d)⟩
    intro x y _ _ hc hc2
    rw [hc] at hc2
    exact absurd hc2 (by decide)
  | cons d ds ihd =>
    intro g g2 hwf hint ha hfuel hrun
    obtain ⟨g1, hrun1, hpost1, _, _⟩ := carveStep_spec fuel ih g cx cy d hwf hint ha hfuel
    have hwf1 : GridWF g1.m_width g1.m_height g1.m_grid := by
      rw [hpost1.width_eq, hpost1.height_eq]; exact hpost1.wf
    have hint1 : isInterior g1 cx cy := by
      unfold isInterior at hint ⊢
      rw [hpost1.width_eq, hpost1.height_eq]; exact hint
    rw [List.foldlM_cons, hrun1] at hrun
    have hrun2 : ds.foldlM (carveStep (carvePassage fuel) cx cy) g1 = Except.ok g2 := hrun
    obtain ⟨g2b, hrun2b, hpost2⟩ := carveFold_spec fuel ih cx cy ds g1 hwf1 hint1 hpost1.alphabet
      (le_trans hpost1.walls_le hfuel)
    rw [hrun2b] at hrun2
    have hg : g2b = g2 := Except.ok.inj hrun2
    subst hg
    obtain ⟨hstep1, hstep2⟩ := carveStep_full fuel ih ihf g cx cy d hwf hint ha hfuel hxo hyo g1 hrun1
    obtain ⟨hrest1, hrest2⟩ := ihd g1 g2b hwf1 hint1 hpost1.alphabet
      (le_trans hpost1.walls_le hfuel) hrun2b
    refine ⟨?_, ?_⟩
    · intro x y hx hy hc hc2
      rcases hpost1.alphabet y x with h | h
      · exact (hrest1 x y hx hy h hc2).resize hpost1.width_eq.symm hpost1.height_eq.symm
      · exact (hstep1 x y hx hy hc h).carry hpost2.floor_kept
    · intro e he hi
      rcases List.mem_cons.1 he with h | h
      · rw [h]
        rw [h] at hi
        exact hpost2.floor_kept _ _ (hstep2 hi)
      · apply hrest2 e h
        unfold isInterior at hi ⊢
        rw [hpost1.width_eq, hpost1.height_eq]
        exact hi

/-- Every direction has the offsets of one of the four listed directions. -/
theorem carveDir_listed (d : Nat) :
    ∃ e, e ∈ [0, 1, 2, 3] ∧ carveDx e = carveDx d ∧ carveDy e = carveDy d := by
  rcases d with _ | _ | _ | d
  · exact ⟨0, by decide, rfl, rfl⟩
  · exact ⟨1, by decide, rfl, rfl⟩
  · exact ⟨2, by decide, rfl, rfl⟩
  · exact ⟨3, by decide, rfl, rfl⟩

/-- The odd cells opened by a call of `carvePassage` at a cell with odd coordinates are
branched. -/
theorem carvePassage_full : ∀ fuel, CarveFull fuel := by
  intro fuel
  induction fuel with
  | zero =>
    intro g cx cy g2 _ _ _ _ _ _ _ hrun
    unfold carvePassage at hrun
    cases hrun
  | succ k ihf =>
    intro g cx cy g2 hwf hint ha hc hfuel hxo hyo hrun
    have hin : 0 ≤ cy ∧ cy < g.m_height ∧ 0 ≤ cx ∧ cx < g.m_width := by
      unfold isInterior at hint; omega
    obtain ⟨hpost0, hcount0⟩ := set_floor_post g hwf ha cy cx hin
    have hcount := hcount0 hc
    unfold carvePassage at hrun
    simp only [] at hrun
    rw [gridSet_ok hwf _ _ '.' hin] at hrun
    simp only [] at hrun
    have hpostA : CarvePost g { g with m_rng := (shuffleList [0, 1, 2, 3] g.m_rng).2, m_grid := set2 g.m_grid cy.toNat cx.toNat '.' } :=
      ⟨rfl, rfl, hpost0.wf, hpost0.alphabet, hpost0.floor_kept, hpost0.walls_le, rfl⟩
    obtain ⟨hclosed, htargets⟩ := carveFold_full k (carvePassage_spec k) ihf cx cy hxo hyo
      (shuffleList [0, 1, 2, 3] g.m_rng).1 _ g2 hpostA.wf hint hpostA.alphabet
      (by simp only; omega) hrun
    intro x y hx hy hcx hcx2
    by_cases hself : y = cy ∧ x = cx
    · intro d hd
      obtain ⟨e, he, hex, hey⟩ := carveDir_listed d
      rw [hself.1, hself.2, ← hex, ← hey]
      apply htargets e ((shuffleList_perm [0, 1, 2, 3] g.m_rng).mem_iff.2 he)
      rw [hself.1, hself.2, ← hex, ← hey] at hd
      exact hd
    · have := hclosed x y hx hy (by
        simp only
        rw [cellAt_set2 hwf _ _ '.' hin, if_neg hself]
        exact hcx) hcx2
      exact this

/-- A grid in which `(1, 1)` is open and every open odd cell is branched has all its interior
cells with odd coordinates open. -/
theorem lattice_open (g : MazeGenerator) (grid : List (List Char))
    (h11 : cellAt grid 1 1 = '.')
    (hbr : ∀ x y, x % 2 = 1 → y % 2 = 1 → cellAt grid y x = '.' → Branched g grid x y) :
    ∀ (n : Nat) (x y : Int), isInterior g x y → x % 2 = 1 → y % 2 = 1 → x + y = 2 + 2 * (n : Int) →
      cellAt grid y x = '.' := by
  intro n
  induction n with
  | zero =>
    intro x y hi hx hy hs
    unfold isInterior at hi
    have hx1 : x = 1 := by omega
    have hy1 : y = 1 := by omega
    rw [hx1, hy1]
    exact h11
  | succ k ih =>
    intro x y hi hx hy hs
    unfold isInterior at hi
    by_cases hx3 : 3 ≤ x
    · have hprev := ih (x - 2) y (by unfold isInterior; omega) (by omega) hy (by push_cast at hs ⊢; omega)
      have hb := hbr (x - 2) y (by omega) hy hprev 1
      have e1 : x - 2 + carveDx 1 = x := by show x - 2 + 2 = x; omega
      have e2 : y + carveDy 1 = y := by show y + 0 = y; omega
      rw [e1, e2] at hb
      exact hb (by unfold isInterior; omega)
    · have hprev := ih x (y - 2) (by unfold isInterior; push_cast at hs; omega) hx (by omega)
        (by push_cast at hs ⊢; omega)
      have hb := hbr x (y - 2) hx (by omega) hprev 2
      have e1 : x + carveDx 2 = x := by show x + 0 = x; omega
      have e2 : y - 2 + carveDy 2 = y := by show y - 2 + 2 = y; omega
      rw [e1, e2] at hb
      exact hb (by unfold isInterior; omega)

end MazeGenerator
end TankMaze


namespace TankMaze
namespace MazeGenerator

/-! ### The carving opens every cell of a corridor -/

/-- The loop over the directions on a grid of height 3: the middle row ends open, or nothing
has changed and the direction east was not listed. -/
theorem rowFold_full (fuel : Nat) (ih : CarveSpec fuel) (ihr : RowFull fuel) (cx : Int)
    (hxo : cx % 2 = 1) :
    ∀ (dirs : List Nat) (g g2 : MazeGenerator), GridWF g.m_width g.m_height g.m_grid →
      g.m_height = 3 → g.m_width % 2 = 1 → isInterior g cx 1 → onlyWallsAndFloor g.m_grid →
      count2 '#' g.m_grid ≤ fuel →
      (∀ x, cx < x → cellAt g.m_grid 1 x = '#') →
      (∀ x, 1 ≤ x → x ≤ cx → cellAt g.m_grid 1 x = '.') →
      dirs.foldlM (carveStep (carvePassage fuel) cx 1) g = Except.ok g2 →
      (∀ x, 1 ≤ x → x < g.m_width - 1 → cellAt g2.m_grid 1 x = '.') ∨
        (g2 = g ∧ ∀ d ∈ dirs, ¬ (carveDx d = 2 ∧ carveDy d = 0)) := by
  intro dirs
  induction dirs with
  | nil =>
    intro g g2 _ _ _ _ _ _ _ _ hrun
    have hg : g = g2 := Except.ok.inj hrun
    exact Or.inr ⟨hg.symm, fun d hd => absurd hd (List.not_mem_nil d)⟩
  | cons d ds ihd =>
    intro g g2 hwf hh3 hwo hint ha hfuel hright hleft hrun
    obtain ⟨g1, hrun1, hpost1, _, hsame⟩ := carveStep_spec fuel ih g cx 1 d hwf hint ha hfuel
    have hwf1 : GridWF g1.m_width g1.m_height g1.m_grid := by
      rw [hpost1.width_eq, hpost1.height_eq]; exact hpost1.wf
    have hint1 : isInterior g1 cx 1 := by
      unfold isInterior at hint ⊢
      rw [hpost1.width_eq, hpost1.height_eq]; exact hint
    rw [List.foldlM_cons, hrun1] at hrun
    have hrun2 : ds.foldlM (carveStep (carvePassage fuel) cx 1) g1 = Except.ok g2 := hrun
    obtain ⟨g2b, hrun2b, hpost2⟩ := carveFold_spec fuel ih cx 1 ds g1 hwf1 hint1 hpost1.alphabet
      (le_trans hpost1.walls_le hfuel)
    rw [hrun2b] at hrun2
    have hg : g2b = g2 := Except.ok.inj hrun2
    subst hg
    have hint0 := hint
    unfold isInterior at hint0
    by_cases hcond : isInterior g (cx + carveDx d) (1 + carveDy d) ∧
        cellAt g.m_grid (1 + carveDy d) (cx + carveDx d) = '#'
    · left
      have hdir : carveDx d = 2 ∧ carveDy d = 0 ∧ Int.tdiv (carveDx d) 2 = 1 ∧
          Int.tdiv (carveDy d) 2 = 0 := by
        have hv := hcond.1
        have hcell := hcond.2
        unfold isInterior at hv
        rcases carveMid_cases d with ⟨e1, e2, e3, e4⟩ | ⟨e1, e2, e3, e4⟩ | ⟨e1, e2, e3, e4⟩ |
          ⟨e1, e2, e3, e4⟩
        · rw [e1, e2] at hv; omega
        · exact ⟨e1, e2, e3, e4⟩
        · rw [e1, e2] at hv; omega
        · rw [e1, e2] at hv hcell
          have h1 : (1 : Int) + 0 = 1 := by omega
          rw [h1] at hcell
          rw [hleft (cx + -2) (by omega) (by omega)] at hcell
          exact absurd hcell (by decide)
      obtain ⟨e1, e2, e3, e4⟩ := hdir
      have hmx : cx + Int.tdiv (carveDx d) 2 = cx + 1 := by rw [e3]
      have hmy : (1 : Int) + Int.tdiv (carveDy d) 2 = 1 := by rw [e4]; rfl
      have htx : cx + carveDx d = cx + 2 := by rw [e1]
      have hty : (1 : Int) + carveDy d = 1 := by rw [e2]; rfl
      unfold carveStep at hrun1
      simp only [] at hrun1
      rw [hmx, hmy, htx, hty] at hrun1
      rw [htx, hty] at hcond
      have hv : cx + 2 > 0 ∧ cx + 2 < g.m_width - 1 ∧ (1 : Int) > 0 ∧ 1 < g.m_height - 1 := hcond.1
      have hmin : 0 ≤ (1 : Int) ∧ 1 < g.m_height ∧ 0 ≤ cx + 1 ∧ cx + 1 < g.m_width := by omega
      rw [if_pos hv, if_pos hcond.2, gridSet_ok hwf _ _ '.' hmin] at hrun1
      simp only [] at hrun1
      obtain ⟨hpostm, _⟩ := set_floor_post g hwf ha _ _ hmin
      have hall1 := ihr _ (cx + 2) g1 hpostm.wf hh3 hwo (by omega) hv hpostm.alphabet
        (le_trans hpostm.walls_le hfuel)
        (by
          intro x hx
          simp only
          rw [cellAt_set2 hwf _ _ '.' hmin, if_neg (by omega)]
          exact hright x (by omega))
        (by
          intro x hx1 hx2
          simp only
          rw [cellAt_set2 hwf _ _ '.' hmin]
          split_ifs with hx
          · rfl
          · exact hleft x hx1 (by omega))
        hrun1
      intro x hx1 hx2
      exact hpost2.floor_kept _ _ (hall1 x hx1 hx2)
    · have hg := hsame hcond
      subst hg
      by_cases heast : carveDx d = 2 ∧ carveDy d = 0
      · left
        have hlast : cx = g1.m_width - 2 := by
          by_contra hne
          apply hcond
          rw [heast.1, heast.2]
          have h10 : (1 : Int) + 0 = 1 := by omega
          rw [h10]
          refine ⟨by unfold isInterior; omega, hright _ (by omega)⟩
        intro x hx1 hx2
        exact hpost2.floor_kept _ _ (hleft x hx1 (by omega))
      · rcases ihd g1 g2b hwf hh3 hwo hint ha hfuel hright hleft hrun2b with h | h
        · exact Or.inl h
        · refine Or.inr ⟨h.1, ?_⟩
          intro e he
          rcases List.mem_cons.1 he with h2 | h2
          · rw [h2]; exact heast
          · exact h.2 e h2

/-- The recursion of `carvePassage` along the middle row of a grid of height 3. -/
theorem rowPassage_full : ∀ fuel, RowFull fuel := by
  intro fuel
  induction fuel with
  | zero =>
    intro g cx g2 _ _ _ _ _ _ _ _ _ hrun
    unfold carvePassage at hrun
    cases hrun
  | succ k ihr =>
    intro g cx g2 hwf hh3 hwo hxo hint ha hfuel hright hleft hrun
    have hin : 0 ≤ (1 : Int) ∧ 1 < g.m_height ∧ 0 ≤ cx ∧ cx < g.m_width := by
      unfold isInterior at hint; omega
    obtain ⟨hpost0, hcount0⟩ := set_floor_post g hwf ha 1 cx hin
    have hcount := hcount0 (hright cx (le_refl _))
    unfold carvePassage at hrun
    simp only [] at hrun
    rw [gridSet_ok hwf _ _ '.' hin] at hrun
    simp only [] at hrun
    have hpostA : CarvePost g { g with m_rng := (shuffleList [0, 1, 2, 3] g.m_rng).2, m_grid := set2 g.m_grid (1 : Int).toNat cx.toNat '.' } :=
      ⟨rfl, rfl, hpost0.wf, hpost0.alphabet, hpost0.floor_kept, hpost0.walls_le, rfl⟩
    rcases rowFold_full k (carvePassage_spec k) ihr cx hxo
      (shuffleList [0, 1, 2, 3] g.m_rng).1 _ g2 hpostA.wf hh3 hwo hint hpostA.alphabet
      (by simp only; omega)
      (by
        intro x hx
        simp only
        rw [cellAt_set2 hwf _ _ '.' hin, if_neg (by omega)]
        exact hright x (by omega))
      (by
        intro x hx1 hx2
        simp only
        rw [cellAt_set2 hwf _ _ '.' hin]
        split_ifs with hx
        · rfl
        · exact hleft x hx1 (by omega))
      hrun with h | h
    · exact h
    · exact absurd ⟨rfl, rfl⟩
        (h.2 1 ((shuffleList_perm [0, 1, 2, 3] g.m_rng).mem_iff.2 (by decide)))

end MazeGenerator
end TankMaze


namespace TankMaze
namespace MazeGenerator

/-- The loop over the directions on a grid of width 3: the middle column ends open, or nothing
has changed and the direction south was not listed. -/
theorem columnFold_full (fuel : Nat) (ih : CarveSpec fuel) (ihr : ColumnFull fuel) (cy : Int)
    (hyo : cy % 2 = 1) :
    ∀ (dirs : List Nat) (g g2 : MazeGenerator), GridWF g.m_width g.m_height g.m_grid →
      g.m_width = 3 → g.m_height % 2 = 1 → isInterior g 1 cy → onlyWallsAndFloor g.m_grid →
      count2 '#' g.m_grid ≤ fuel →
      (∀ y, cy < y → cellAt g.m_grid y 1 = '#') →
      (∀ y, 1 ≤ y → y ≤ cy → cellAt g.m_grid y 1 = '.') →
      dirs.foldlM (carveStep (carvePassage fuel) 1 cy) g = Except.ok g2 →
      (∀ y, 1 ≤ y → y < g.m_height - 1 → cellAt g2.m_grid y 1 = '.') ∨
        (g2 = g ∧ ∀ d ∈ dirs, ¬ (carveDx d = 0 ∧ carveDy d = 2)) := by
  intro dirs
  induction dirs with
  | nil =>
    intro g g2 _ _ _ _ _ _ _ _ hrun
    have hg : g = g2 := Except.ok.inj hrun
    exact Or.inr ⟨hg.symm, fun d hd => absurd hd (List.not_mem_nil d)⟩
  | cons d ds ihd =>
    intro g g2 hwf hw3 hho hint ha hfuel hright hleft hrun
    obtain ⟨g1, hrun1, hpost1, _, hsame⟩ := carveStep_spec fuel ih g 1 cy d hwf hint ha hfuel
    have hwf1 : GridWF g1.m_width g1.m_height g1.m_grid := by
      rw [hpost1.width_eq, hpost1.height_eq]; exact hpost1.wf
    have hint1 : isInterior g1 1 cy := by
      unfold isInterior at hint ⊢
      rw [hpost1.width_eq, hpost1.height_eq]; exact hint
    rw [List.foldlM_cons, hrun1] at hrun
    have hrun2 : ds.foldlM (carveStep (carvePassage fuel) 1 cy) g1 = Except.ok g2 := hrun
    obtain ⟨g2b, hrun2b, hpost2⟩ := carveFold_spec fuel ih 1 cy ds g1 hwf1 hint1 hpost1.alphabet
      (le_trans hpost1.walls_le hfuel)
    rw [hrun2b] at hrun2
    have hg : g2b = g2 := Except.ok.inj hrun2
    subst hg
    have hint0 := hint
    unfold isInterior at hint0
    by_cases hcond : isInterior g (1 + carveDx d) (cy + carveDy d) ∧
        cellAt g.m_grid (cy + carveDy d) (1 + carveDx d) = '#'
    · left
      have hdir : carveDx d = 0 ∧ carveDy d = 2 ∧ Int.tdiv (carveDx d) 2 = 0 ∧
          Int.tdiv (carveDy d) 2 = 1 := by
        have hv := hcond.1
        have hcell := hcond.2
        unfold isInterior at hv
        rcases carveMid_cases d with ⟨e1, e2, e3, e4⟩ | ⟨e1, e2, e3, e4⟩ | ⟨e1, e2, e3, e4⟩ |
          ⟨e1, e2, e3, e4⟩
        · rw [e1, e2] at hv hcell
          have h1 : (1 : Int) + 0 = 1 := by omega
          rw [h1] at hcell
          rw [hleft (cy + -2) (by omega) (by omega)] at hcell
          exact absurd hcell (by decide)
        · rw [e1, e2] at hv; omega
        · exact ⟨e1, e2, e3, e4⟩
        · rw [e1, e2] at hv; omega
      obtain ⟨e1, e2, e3, e4⟩ := hdir
      have hmx : (1 : Int) + Int.tdiv (carveDx d) 2 = 1 := by rw [e3]; rfl
      have hmy : cy + Int.tdiv (carveDy d) 2 = cy + 1 := by rw [e4]
      have htx : (1 : Int) + carveDx d = 1 := by rw [e1]; rfl
      have hty : cy + carveDy d = cy + 2 := by rw [e2]
      unfold carveStep at hrun1
      simp only [] at hrun1
      rw [hmx, hmy, htx, hty] at hrun1
      rw [htx, hty] at hcond
      have hv : (1 : Int) > 0 ∧ 1 < g.m_width - 1 ∧ cy + 2 > 0 ∧ cy + 2 < g.m_height - 1 := hcond.1
      have hmin : 0 ≤ cy + 1 ∧ cy + 1 < g.m_height ∧ 0 ≤ (1 : Int) ∧ 1 < g.m_width := by omega
      rw [if_pos hv, if_pos hcond.2, gridSet_ok hwf _ _ '.' hmin] at hrun1
      simp only [] at hrun1
      obtain ⟨hpostm, _⟩ := set_floor_post g hwf ha _ _ hmin
      have hall1 := ihr _ (cy + 2) g1 hpostm.wf hw3 hho (by omega) hv hpostm.alphabet
        (le_trans hpostm.walls_le hfuel)
        (by
          intro y hy
          simp only
          rw [cellAt_set2 hwf _ _ '.' hmin, if_neg (by omega)]
          exact hright y (by omega))
        (by
          intro y hy1 hy2
          simp only
          rw [cellAt_set2 hwf _ _ '.' hmin]
          split_ifs with hy
          · rfl
          · exact hleft y hy1 (by omega))
        hrun1
      intro y hy1 hy2
      exact hpost2.floor_kept _ _ (hall1 y hy1 hy2)
    · have hg := hsame hcond
      subst hg
      by_cases hsouth : carveDx d = 0 ∧ carveDy d = 2
      · left
        have hlast : cy = g1.m_height - 2 := by
          by_contra hne
          apply hcond
          rw [hsouth.1, hsouth.2]
          have h10 : (1 : Int) + 0 = 1 := by omega
          rw [h10]
          refine ⟨by unfold isInterior; omega, hright _ (by omega)⟩
        intro y hy1 hy2
        exact hpost2.floor_kept _ _ (hleft y hy1 (by omega))
      · rcases ihd g1 g2b hwf hw3 hho hint ha hfuel hright hleft hrun2b with h | h
        · exact Or.inl h
        · refine Or.inr ⟨h.1, ?_⟩
          intro e he
          rcases List.mem_cons.1 he with h2 | h2
          · rw [h2]; exact hsouth
          · exact h.2 e h2

/-- The recursion of `carvePassage` along the middle column of a grid of width 3. -/
theorem columnPassage_full : ∀ fuel, ColumnFull fuel := by
  intro fuel
  induction fuel with
  | zero =>
    intro g cy g2 _ _ _ _ _ _ _ _ _ hrun
    unfold carvePassage at hrun
    cases hrun
  | succ k ihr =>
    intro g cy g2 hwf hw3 hho hyo hint ha hfuel hright hleft hrun
    have hin : 0 ≤ cy ∧ cy < g.m_height ∧ 0 ≤ (1 : Int) ∧ 1 < g.m_width := by
      unfold isInterior at hint; omega
    obtain ⟨hpost0, hcount0⟩ := set_floor_post g hwf ha cy 1 hin
    have hcount := hcount0 (hright cy (le_refl _))
    unfold carvePassage at hrun
    simp only [] at hrun
    rw [gridSet_ok hwf _ _ '.' hin] at hrun
    simp only [] at hrun
    have hpostA : CarvePost g { g with m_rng := (shuffleList [0, 1, 2, 3] g.m_rng).2, m_grid := set2 g.m_grid cy.toNat (1 : Int).toNat '.' } :=
      ⟨rfl, rfl, hpost0.wf, hpost0.alphabet, hpost0.floor_kept, hpost0.walls_le, rfl⟩
    rcases columnFold_full k (carvePassage_spec k) ihr cy hyo
      (shuffleList [0, 1, 2, 3] g.m_rng).1 _ g2 hpostA.wf hw3 hho hint hpostA.alphabet
      (by simp only; omega)
      (by
        intro y hy
        simp only
        rw [cellAt_set2 hwf _ _ '.' hin, if_neg (by omega)]
        exact hright y (by omega))
      (by
        intro y hy1 hy2
        simp only
        rw [cellAt_set2 hwf _ _ '.' hin]
        split_ifs with hy
        · rfl
        · exact hleft y hy1 (by omega))
      hrun with h | h
    · exact h
    · exact absurd ⟨rfl, rfl⟩
        (h.2 2 ((shuffleList_perm [0, 1, 2, 3] g.m_rng).mem_iff.2 (by decide)))

/-- The carving that `generate` starts from `(1, 1)` on a grid of odd sides filled with walls
opens every interior cell with odd coordinates, and every interior cell when the grid is a
corridor of width or height 3. -/
theorem carve_complete (g g1 : MazeGenerator) (hw : 3 ≤ g.m_width) (hh : 3 ≤ g.m_height)
    (hwo : g.m_width % 2 = 1) (hho : g.m_height % 2 = 1)
    (hgrid : g.m_grid = List.replicate g.m_height.toNat (List.replicate g.m_width.toNat '#'))
    (hrun : carvePassage (g.m_width.toNat * g.m_height.toNat) 1 1 g = Except.ok g1) :
    (∀ x y, isInterior g x y → x % 2 = 1 → y % 2 = 1 → cellAt g1.m_grid y x = '.') ∧
    ((g.m_width = 3 ∨ g.m_height = 3) → ∀ x y, isInterior g x y → cellAt g1.m_grid y x = '.') := by
  have hwf : GridWF g.m_width g.m_height g.m_grid := by
    rw [hgrid]; exact GridWF.replicate _ _ (by omega) (by omega) '#'
  have hall : ∀ y x, cellAt g.m_grid y x = '#' := by
    intro y x
    rw [hgrid]
    exact cellAt_replicate _ _ y x
  have ha : onlyWallsAndFloor g.m_grid := fun y x => Or.inl (hall y x)
  have hint : isInterior g 1 1 := by unfold isInterior; omega
  have hfuel : count2 '#' g.m_grid ≤ g.m_width.toNat * g.m_height.toNat := by
    rw [hgrid]; exact count2_replicate_le '#' _ _
  obtain ⟨g1b, hrunb, _, h11, _⟩ := carvePassage_spec _ g 1 1 hwf hint ha (hall 1 1) hfuel
  have hg : g1b = g1 := by
    rw [hrunb] at hrun
    exact Except.ok.inj hrun
  subst hg
  have hclosed := carvePassage_full _ g 1 1 g1b hwf hint ha (hall 1 1) hfuel (by decide) (by decide)
    hrunb
  refine ⟨?_, ?_⟩
  · intro x y hi hx hy
    have hi0 := hi
    unfold isInterior at hi0
    have hn : ((((x + y - 2) / 2).toNat : Nat) : Int) = (x + y - 2) / 2 :=
      Int.toNat_of_nonneg (by omega)
    exact lattice_open g g1b.m_grid h11 (fun x y hx hy hc => hclosed x y hx hy (hall y x) hc)
      ((x + y - 2) / 2).toNat x y hi hx hy (by rw [hn]; omega)
  · intro hthin x y hi
    have hi0 := hi
    unfold isInterior at hi0
    rcases hthin with h3 | h3
    · have hx : x = 1 := by omega
      rw [hx]
      exact columnPassage_full _ g 1 g1b hwf h3 hho (by decide) hint ha hfuel
        (fun y _ => hall y 1) (fun y h1 h2 => absurd h2 (by omega)) hrunb y (by omega) (by omega)
    · have hy : y = 1 := by omega
      rw [hy]
      exact rowPassage_full _ g 1 g1b hwf h3 hwo (by decide) hint ha hfuel
        (fun x _ => hall 1 x) (fun x h1 h2 => absurd h2 (by omega)) hrunb x (by omega) (by omega)

end MazeGenerator
end TankMaze


namespace TankMaze
namespace MazeGenerator

/-! ### The exit that `placeMultiplayerSpawns` chooses is fair -/

theorem mem_endCandidates_fair (g : MazeGenerator) (es : List (Int × Int))
    (sel : Int × Int × Int × Int) (h : sel ∈ endCandidates g es) :
    isFair sel = true ∧ ∃ p ∈ es, sel = endEntry g p := by
  unfold endCandidates sortDescending at h
  simp only [] at h
  rw [(List.perm_insertionSort _ _).mem_iff] at h
  have hedge : sel ∈ ((es.filter fun p => isFree g p && isEdgeArea g p.1 p.2).map
      (endEntry g)).filter isFair → isFair sel = true ∧ ∃ p ∈ es, sel = endEntry g p := by
    intro hs
    rw [List.mem_filter, List.mem_map] at hs
    obtain ⟨⟨p, hp, hpe⟩, hf⟩ := hs
    exact ⟨hf, p, (List.mem_filter.1 hp).1, hpe.symm⟩
  split_ifs at h
  · rcases List.mem_append.1 h with h | h
    · exact hedge h
    · rw [List.mem_filter, List.mem_map] at h
      obtain ⟨⟨p, hp, hpe⟩, hf⟩ := h
      rw [Bool.and_eq_true] at hf
      exact ⟨hf.2, p, (List.mem_filter.1 hp).1, hpe.symm⟩
  · exact hedge h

theorem endCandidates_ne_nil (g : MazeGenerator) (es : List (Int × Int)) (p : Int × Int)
    (hp : p ∈ es) (hfree : isFree g p = true) (hc : exitCandidate g p = true) :
    endCandidates g es ≠ [] := by
  unfold exitCandidate at hc
  rw [Bool.and_eq_true, Bool.or_eq_true] at hc
  obtain ⟨hfair, hclass⟩ := hc
  intro hnil
  have hlen := congrArg List.length hnil
  unfold endCandidates sortDescending at hlen
  simp only [] at hlen
  rw [(List.perm_insertionSort _ _).length_eq] at hlen
  by_cases hedge : isEdgeArea g p.1 p.2 = true
  · have hmem : endEntry g p ∈ ((es.filter fun p => isFree g p && isEdgeArea g p.1 p.2).map
        (endEntry g)).filter isFair := by
      rw [List.mem_filter, List.mem_map]
      refine ⟨⟨p, ?_, rfl⟩, hfair⟩
      rw [List.mem_filter, Bool.and_eq_true]
      exact ⟨hp, hfree, hedge⟩
    have hpos := List.length_pos_of_mem hmem
    split_ifs at hlen
    · rw [List.length_append] at hlen
      simp only [List.length_nil] at hlen
      omega
    · simp only [List.length_nil] at hlen
      omega
  · have hfar : decide ((endEntry g p).2.2.1 > Int.tdiv (min g.m_width g.m_height) 3) = true := by
      rcases hclass with h | h
      · exact absurd h hedge
      · exact h
    have hmem : endEntry g p ∈ ((es.filter fun p => isFree g p && !(isEdgeArea g p.1 p.2)).map
        (endEntry g)).filter
          (fun e => decide (e.2.2.1 > Int.tdiv (min g.m_width g.m_height) 3) && isFair e) := by
      rw [List.mem_filter, List.mem_map]
      refine ⟨⟨p, ?_, rfl⟩, ?_⟩
      · rw [List.mem_filter, Bool.and_eq_true]
        refine ⟨hp, hfree, ?_⟩
        rw [Bool.not_eq_true] at hedge
        rw [hedge]
        rfl
      · rw [Bool.and_eq_true]
        exact ⟨hfar, hfair⟩
    have hpos := List.length_pos_of_mem hmem
    split_ifs at hlen
    · rw [List.length_append] at hlen
      simp only [List.length_nil] at hlen
      omega
    · simp only [List.length_nil] at hlen
      omega

/-- The exit chosen by `placeMultiplayerSpawns` passes the fairness test whenever the fallback
exit passes it or an empty cell passes the tests of `endCandidates`. -/
theorem chooseEnd_fair (g : MazeGenerator) (es : List (Int × Int))
    (hserved : isFair (endEntry g (g.m_width - 2, g.m_height - 2)) = true ∨
      ∃ p ∈ es, isFree g p = true ∧ exitCandidate g p = true)
    (g1 : MazeGenerator) (hrun : chooseEnd g es = Except.ok g1) :
    isFair (endEntry g (g1.m_endX, g1.m_endY)) = true := by
  unfold chooseEnd at hrun
  simp only [] at hrun
  split at hrun
  · split at hrun
    · cases hrun
    · rename_i sel heqsel
      have hg := Except.ok.inj hrun
      subst hg
      obtain ⟨hfair, p, _, hsel⟩ := mem_endCandidates_fair g es sel (vecGet_mem heqsel).1
      have hentry : endEntry g (sel.1, sel.2.1) = sel := by
        rw [hsel]
        rfl
      show isFair (endEntry g (sel.1, sel.2.1)) = true
      rw [hentry]
      exact hfair
  · rename_i hempty
    have hg := Except.ok.inj hrun
    subst hg
    rcases hserved with h | ⟨p, hp, hfree, hc⟩
    · exact h
    · exact absurd (endCandidates_ne_nil g es p hp hfree hc) hempty

theorem isFair_fairExit (g : MazeGenerator) (e : Int × Int)
    (h : isFair (endEntry g e) = true) :
    fairExit e (g.m_spawn1X, g.m_spawn1Y) (g.m_spawn2X, g.m_spawn2Y) := by
  unfold isFair endEntry at h
  unfold fairExit manhattan
  exact of_decide_eq_true h

end MazeGenerator
end TankMaze


namespace TankMaze
namespace MazeGenerator

/-! ### The distance of the two spawns -/

theorem getD_of_getElem? {α : Type} (l : List α) (i : Nat) (a d : α) (h : l[i]? = some a) :
    l.getD i d = a := by
  rw [List.getD_eq_getElem?_getD, h]
  rfl

theorem mem_validSpawnPairs_band (sc : List (Int × Int)) (lo hi : Int) (ij : Nat × Nat)
    (h : ij ∈ validSpawnPairs sc lo hi) :
    lo ≤ manhattan (sc.getD ij.1 (0, 0)) (sc.getD ij.2 (0, 0)) ∧
      manhattan (sc.getD ij.1 (0, 0)) (sc.getD ij.2 (0, 0)) ≤ hi := by
  unfold validSpawnPairs at h
  rw [List.mem_flatMap] at h
  obtain ⟨i, _, h⟩ := h
  rw [List.mem_filterMap] at h
  obtain ⟨j, _, h⟩ := h
  simp only [] at h
  split_ifs at h with hb
  cases h
  exact ⟨hb.1, hb.2⟩

theorem validSpawnPairs_ne_nil (sc : List (Int × Int)) (lo hi : Int) (i j : Nat) (hij : i < j)
    (hj : j < min sc.length 30)
    (hb : lo ≤ manhattan (sc.getD i (0, 0)) (sc.getD j (0, 0)) ∧
      manhattan (sc.getD i (0, 0)) (sc.getD j (0, 0)) ≤ hi) :
    validSpawnPairs sc lo hi ≠ [] := by
  apply List.ne_nil_of_mem (a := (i, j))
  unfold validSpawnPairs
  rw [List.mem_flatMap]
  refine ⟨i, List.mem_range.2 (by omega), ?_⟩
  rw [List.mem_filterMap]
  refine ⟨j, ?_, ?_⟩
  · rw [List.mem_filter]
    exact ⟨List.mem_range.2 hj, decide_eq_true (by omega)⟩
  · simp only []
    rw [if_pos]
    exact ⟨hb.1, hb.2⟩

/-- The spawns chosen by `placeMultiplayerSpawns` lie within the distance band whenever two of
the candidates examined do. -/
theorem chooseSpawns_band (g : MazeGenerator) (es : List (Int × Int)) (g1 : MazeGenerator)
    (hrun : chooseSpawns g es = Except.ok g1)
    (hex : ∃ (i j : Nat) (a b : Int × Int), i < j ∧
      ((shuffleList (spawnCandidates g es) g.m_rng).1.take 30)[i]? = some a ∧
      ((shuffleList (spawnCandidates g es) g.m_rng).1.take 30)[j]? = some b ∧
      inBand g.m_width g.m_height (manhattan a b)) :
    inBand g.m_width g.m_height
      (manhattan (g1.m_spawn1X, g1.m_spawn1Y) (g1.m_spawn2X, g1.m_spawn2Y)) := by
  obtain ⟨i, j, a, b, hij, hi, hj, hb⟩ := hex
  rw [List.getElem?_take] at hi hj
  have hj30 : j < 30 := by
    by_contra hn
    rw [if_neg hn] at hj
    cases hj
  rw [if_pos (by omega)] at hi
  rw [if_pos hj30] at hj
  have hjlen : j < (shuffleList (spawnCandidates g es) g.m_rng).1.length := by
    by_contra hn
    rw [List.getElem?_eq_none (by omega)] at hj
    cases hj
  have hne := validSpawnPairs_ne_nil (shuffleList (spawnCandidates g es) g.m_rng).1
    (max 6 (Int.tdiv (min g.m_width g.m_height) 4)) (max 15 (Int.tdiv (min g.m_width g.m_height) 2))
    i j hij (by omega)
    (by
      rw [getD_of_getElem? _ _ _ _ hi, getD_of_getElem? _ _ _ _ hj]
      exact hb)
  unfold chooseSpawns at hrun
  simp only [] at hrun
  rw [if_pos hne] at hrun
  split at hrun
  · cases hrun
  · rename_i ij heqij
    split at hrun
    · cases hrun
    · rename_i a2 heqa
      split at hrun
      · cases hrun
      · rename_i b2 heqb
        have hg := Except.ok.inj hrun
        subst hg
        have hband := mem_validSpawnPairs_band _ _ _ _ (vecGet_mem heqij).1
        rw [getD_of_getElem? _ _ _ _ (vecGet_mem heqa).2,
          getD_of_getElem? _ _ _ _ (vecGet_mem heqb).2] at hband
        exact hband

end MazeGenerator
end TankMaze


namespace TankMaze
namespace MazeGenerator

/-! ### The placement of the spawns and the exit on a carved grid -/

/-- On a grid of 3 by 3 the function `placeMultiplayerSpawns` writes outside the grid. -/
theorem placeMultiplayerSpawns_tiny (g : MazeGenerator)
    (hwf : GridWF g.m_width g.m_height g.m_grid) (hw : g.m_width = 3) (hh : g.m_height = 3)
    (g1 : MazeGenerator) : placeMultiplayerSpawns g ≠ Except.ok g1 := by
  have hlen : (getEmptySpaces g).length < 3 := by
    unfold getEmptySpaces
    rw [hw, hh]
    have h1 := List.length_filter_le (fun p : Int × Int => decide (cellAt g.m_grid p.2 p.1 = '.'))
      (interior 3 3)
    have h2 : (interior 3 3).length = 1 := by decide
    omega
  unfold placeMultiplayerSpawns
  simp only []
  rw [if_pos hlen]
  rw [gridSet_error hwf _ _ '1' (by
    rw [hw]
    have h : Int.tdiv 3 2 - 2 = -1 := by decide
    rw [h]
    omega)]
  intro h
  cases h

theorem getEmptySpaces_congr (g g2 : MazeGenerator) (hw : g2.m_width = g.m_width)
    (hh : g2.m_height = g.m_height) (hg : g2.m_grid = g.m_grid) :
    getEmptySpaces g2 = getEmptySpaces g := by
  unfold getEmptySpaces
  rw [hw, hh, hg]

/-- On a carved grid of odd sides with three empty cells, the exit that
`placeMultiplayerSpawns` records is fair to the two spawns that it records, and the spawns
lie within the distance band whenever two of the candidates examined do. -/
theorem placeMultiplayerSpawns_fair (g : MazeGenerator)
    (hw : 3 ≤ g.m_width) (hh : 3 ≤ g.m_height)
    (hwo : g.m_width % 2 = 1) (hho : g.m_height % 2 = 1) (hne : 5 ≤ g.m_width ∨ 5 ≤ g.m_height)
    (h3 : 3 ≤ (getEmptySpaces g).length)
    (hlat : ∀ x y, isInterior g x y → x % 2 = 1 → y % 2 = 1 → cellAt g.m_grid y x = '.')
    (hcor : (g.m_width = 3 ∨ g.m_height = 3) → ∀ x y, isInterior g x y → cellAt g.m_grid y x = '.')
    (g1 : MazeGenerator) (hrun : placeMultiplayerSpawns g = Except.ok g1) :
    fairExit (g1.m_endX, g1.m_endY) (g1.m_spawn1X, g1.m_spawn1Y) (g1.m_spawn2X, g1.m_spawn2Y) ∧
    ((∃ (i j : Nat) (a b : Int × Int), i < j ∧ (examinedSpawns g)[i]? = some a ∧
        (examinedSpawns g)[j]? = some b ∧ inBand g.m_width g.m_height (manhattan a b)) →
      inBand g.m_width g.m_height
        (manhattan (g1.m_spawn1X, g1.m_spawn1Y) (g1.m_spawn2X, g1.m_spawn2Y))) := by
  unfold placeMultiplayerSpawns at hrun
  simp only [] at hrun
  rw [if_neg (by omega)] at hrun
  obtain ⟨gs, hgs, hgseq, hs1, hs2⟩ := chooseSpawns_spec g (getEmptySpaces g) h3
  rw [hgs] at hrun
  simp only [] at hrun
  have hws : gs.m_width = g.m_width := by
    have h := congrArg MazeGenerator.m_width hgseq
    exact h
  have hhs : gs.m_height = g.m_height := by
    have h := congrArg MazeGenerator.m_height hgseq
    exact h
  have hgrids : gs.m_grid = g.m_grid := by
    have h := congrArg MazeGenerator.m_grid hgseq
    exact h
  have hes : getEmptySpaces gs = getEmptySpaces g := getEmptySpaces_congr g gs hws hhs hgrids
  have hint : ∀ p, p ∈ getEmptySpaces g → isInterior gs p.1 p.2 := by
    intro p hp
    have := ((mem_getEmptySpaces g p).1 hp).1
    unfold isInterior
    rw [hws, hhs]
    omega
  have hserved := exit_served gs (by omega) (by omega) (by rw [hws]; exact hwo)
    (by rw [hhs]; exact hho) (by rw [hws, hhs]; exact hne) (hint _ hs1) (hint _ hs2)
    (by
      intro x y hi
      rw [hgrids]
      apply hlat
      unfold isInterior at hi ⊢
      rw [← hws, ← hhs]
      exact hi)
    (by
      intro hthin x y hi
      rw [hgrids]
      apply hcor (by rw [← hws, ← hhs]; exact hthin)
      unfold isInterior at hi ⊢
      rw [← hws, ← hhs]
      exact hi)
  have hserved2 : isFair (endEntry gs (gs.m_width - 2, gs.m_height - 2)) = true ∨
      ∃ p ∈ getEmptySpaces g, isFree gs p = true ∧ exitCandidate gs p = true := by
    rcases hserved with h | ⟨p, hp, hc⟩
    · exact Or.inl h
    · refine Or.inr ⟨p, hes ▸ hp, ?_, hc⟩
      have hcell := ((mem_getEmptySpaces gs p).1 hp).2
      unfold isFree
      rw [hcell]
      rfl
  have hsub : ∀ p ∈ getEmptySpaces g, inGrid gs p.1 p.2 := by
    intro p hp
    have := inGrid_of_mem_empty g p hp
    unfold inGrid
    rw [hws, hhs]
    exact this
  obtain ⟨ge, hge, hgeeq, _⟩ := chooseEnd_spec gs (getEmptySpaces g) (by omega) (by omega) hsub
  rw [hge] at hrun
  simp only [] at hrun
  have hfair := isFair_fairExit gs _ (chooseEnd_fair gs (getEmptySpaces g) hserved2 ge hge)
  have h1x : ge.m_spawn1X = gs.m_spawn1X := by
    have h := congrArg MazeGenerator.m_spawn1X hgeeq
    exact h
  have h1y : ge.m_spawn1Y = gs.m_spawn1Y := by
    have h := congrArg MazeGenerator.m_spawn1Y hgeeq
    exact h
  have h2x : ge.m_spawn2X = gs.m_spawn2X := by
    have h := congrArg MazeGenerator.m_spawn2X hgeeq
    exact h
  have h2y : ge.m_spawn2Y = gs.m_spawn2Y := by
    have h := congrArg MazeGenerator.m_spawn2Y hgeeq
    exact h
  have hfields : g1.m_endX = ge.m_endX ∧ g1.m_endY = ge.m_endY ∧ g1.m_spawn1X = ge.m_spawn1X ∧
      g1.m_spawn1Y = ge.m_spawn1Y ∧ g1.m_spawn2X = ge.m_spawn2X ∧ g1.m_spawn2Y = ge.m_spawn2Y := by
    split at hrun
    · cases hrun
    · split at hrun
      · cases hrun
      · split at hrun
        · cases hrun
        · have hg := Except.ok.inj hrun
          rw [← hg]
          exact ⟨rfl, rfl, rfl, rfl, rfl, rfl⟩
  obtain ⟨f1, f2, f3, f4, f5, f6⟩ := hfields
  rw [f1, f2, f3, f4, f5, f6, h1x, h1y, h2x, h2y]
  refine ⟨hfair, fun hex => ?_⟩
  exact chooseSpawns_band g (getEmptySpaces g) gs hgs hex

theorem placeAndConnect_dual (g g2 : MazeGenerator) (hm : g.m_multiplayerMode = true)
    (h : placeAndConnect g = Except.ok g2) :
    ∃ gp, placeMultiplayerSpawns g = Except.ok gp ∧ OnlyGrid gp g2 := by
  unfold placeAndConnect at h
  rw [if_pos hm] at h
  split at h
  · cases h
  · rename_i gp hp
    split at h
    · cases h
    · rename_i gq hq
      exact ⟨gp, hp, onlyGrid_comp (ensurePath_frame _ _ _ _ _ _ hq)
        (ensurePath_frame _ _ _ _ _ _ h)⟩

end MazeGenerator
end TankMaze


namespace TankMaze

/-- The position of a cell that carries a position marker of dual-spawn mode in a tagged
grid. -/
theorem TagCells.dual_marker {g : MazeGenerator} {grid : List (List Char)} (ht : TagCells g grid)
    (y x : Int) :
    (cellAt grid y x = 'E' → x = g.m_endX ∧ y = g.m_endY) ∧
    (cellAt grid y x = '1' → x = g.m_spawn1X ∧ y = g.m_spawn1Y) ∧
    (cellAt grid y x = '2' → x = g.m_spawn2X ∧ y = g.m_spawn2Y) := by
  rcases ht y x with t | t | ⟨t, _⟩ | ⟨t, t1, t2⟩ | ⟨t, _, t1, t2⟩ | ⟨t, _, t1, t2⟩
  all_goals
    rw [t]
    refine ⟨fun h => ?_, fun h => ?_, fun h => ?_⟩
    all_goals first | exact ⟨t1, t2⟩ | exact absurd h (by decide)

namespace MazeGenerator

theorem onlyGrid_positions {g r : MazeGenerator} (h : OnlyGrid g r) :
    r.m_endX = g.m_endX ∧ r.m_endY = g.m_endY ∧ r.m_spawn1X = g.m_spawn1X ∧
      r.m_spawn1Y = g.m_spawn1Y ∧ r.m_spawn2X = g.m_spawn2X ∧ r.m_spawn2Y = g.m_spawn2Y := by
  obtain ⟨a, b, rfl⟩ := h
  exact ⟨rfl, rfl, rfl, rfl, rfl, rfl⟩

/-- C27. For every generator object in dual-spawn mode whose width and height are odd and at
least 3, whatever its seed, engine output, enemy count, ratio and escape flag: in every result
of `generate` the exit recorded is fair to the two spawns recorded, that is, with `d1` and `d2`
the Manhattan distances from the exit to the spawns, `|d1 - d2| ≤ max 3 (min d1 d2 / 3)`; every
cell of the rows marked `'E'` is fair to every cell marked `'1'` and every cell marked `'2'`; and
the spawns recorded lie at a Manhattan distance within
`[max 6 (min w h / 4), max 15 (min w h / 2)]` whenever two of the candidates examined, the first
30 of the shuffled spawn candidates of the carved grid, lie at a distance within that band. A
result is returned when the width or the height is at least 5. -/
theorem dual_exit_fair (mt19937 : Nat → Nat → Nat) (now : Nat) (g : MazeGenerator)
    (hw : 3 ≤ g.m_width) (hh : 3 ≤ g.m_height) (hwo : g.m_width % 2 = 1)
    (hho : g.m_height % 2 = 1) (hm : g.m_multiplayerMode = true) :
    (∀ r, generate mt19937 now g = Except.ok r →
      fairExit (r.2.m_endX, r.2.m_endY) (r.2.m_spawn1X, r.2.m_spawn1Y)
        (r.2.m_spawn2X, r.2.m_spawn2Y) ∧
      (∀ e a b : Int × Int, rowsCell r.1 e.2 e.1 = 'E' → rowsCell r.1 a.2 a.1 = '1' →
        rowsCell r.1 b.2 b.1 = '2' → fairExit e a b) ∧
      ∃ g1, carvePassage (g.m_width.toNat * g.m_height.toNat) 1 1 (seeded mt19937 now g) =
          Except.ok g1 ∧
        ((∃ (i j : Nat) (a b : Int × Int), i < j ∧ (examinedSpawns g1)[i]? = some a ∧
            (examinedSpawns g1)[j]? = some b ∧ inBand g.m_width g.m_height (manhattan a b)) →
          inBand g.m_width g.m_height
            (manhattan (r.2.m_spawn1X, r.2.m_spawn1Y) (r.2.m_spawn2X, r.2.m_spawn2Y)))) ∧
    ((5 ≤ g.m_width ∨ 5 ≤ g.m_height) → ∃ r, generate mt19937 now g = Except.ok r) := by
  refine ⟨?_, fun hC => generate_total mt19937 now g hw hh (fun _ => hC)⟩
  intro r hr
  obtain ⟨g1, g2, g3, hcarve, hpost1, h2, hl2, h3, h4, hrows, _, ho3, ho4⟩ :=
    generate_stages mt19937 now g hw hh r hr
  have hw1 : g1.m_width = g.m_width := hpost1.width_eq
  have hh1 : g1.m_height = g.m_height := hpost1.height_eq
  have hm1 : g1.m_multiplayerMode = true := by
    have h := congrArg MazeGenerator.m_multiplayerMode hpost1.others
    exact h.trans hm
  have hwf1 : GridWF g1.m_width g1.m_height g1.m_grid := by
    rw [hw1, hh1]; exact hpost1.wf
  obtain ⟨gp, hp, hogp⟩ := placeAndConnect_dual g1 g2 hm1 h2
  have hne : 5 ≤ g.m_width ∨ 5 ≤ g.m_height := by
    by_contra hsmall
    exact placeMultiplayerSpawns_tiny g1 hwf1 (by omega) (by omega) gp hp
  obtain ⟨c1, hc1, _, _, hthree⟩ := carve_initial (seeded mt19937 now g) hw hh rfl
  have hc2 : carvePassage (g.m_width.toNat * g.m_height.toNat) 1 1 (seeded mt19937 now g) =
      Except.ok c1 := hc1
  rw [hcarve] at hc2
  have hg1 : g1 = c1 := Except.ok.inj hc2
  subst hg1
  obtain ⟨hlat, hcor⟩ := carve_complete (seeded mt19937 now g) g1 hw hh hwo hho rfl hcarve
  have hint : ∀ x y, isInterior g1 x y → isInterior (seeded mt19937 now g) x y := by
    intro x y hi
    unfold isInterior at hi ⊢
    rw [hw1, hh1] at hi
    exact hi
  obtain ⟨hfair, hband⟩ := placeMultiplayerSpawns_fair g1 (by omega) (by omega)
    (by rw [hw1]; exact hwo) (by rw [hh1]; exact hho) (by rw [hw1, hh1]; exact hne) (hthree hne)
    (fun x y hi => hlat x y (hint x y hi))
    (fun hthin x y hi => hcor (by rw [hw1, hh1] at hthin; exact hthin) x y (hint x y hi))
    gp hp
  obtain ⟨p1, p2, p3, p4, p5, p6⟩ := onlyGrid_positions hogp
  obtain ⟨q1, q2, q3, q4, q5, q6⟩ := onlyGrid_positions ho3
  obtain ⟨r1, r2, r3, r4, r5, r6⟩ := onlyGrid_positions ho4
  have hfinal : fairExit (r.2.m_endX, r.2.m_endY) (r.2.m_spawn1X, r.2.m_spawn1Y)
      (r.2.m_spawn2X, r.2.m_spawn2Y) := by
    rw [r1, r2, r3, r4, r5, r6, q1, q2, q3, q4, q5, q6, p1, p2, p3, p4, p5, p6]
    exact hfair
  refine ⟨hfinal, ?_, g1, hcarve, ?_⟩
  · intro e a b he ha hb
    obtain ⟨g3b, h3b, hwf3, hdec3⟩ := placeEnemies_spec g2 hl2.tagged.wf
    rw [h3] at h3b
    have hg3 : g3 = g3b := Except.ok.inj h3b
    subst hg3
    obtain ⟨g4b, h4b, hdec4⟩ := placeDestructibleWalls_spec g3 hwf3
    rw [h4] at h4b
    have hg4 : r.2 = g4b := Except.ok.inj h4b
    have hdec : Decorated g2.m_grid r.2.m_grid := by
      rw [hg4]
      exact hdec3.twice hdec4
    rw [hrows, rowsCell_mk] at he ha hb
    have he2 := ((hl2.tagged.cells.dual_marker e.2 e.1).1 (hdec.marker 'E' (by decide) _ _ he))
    have ha2 := ((hl2.tagged.cells.dual_marker a.2 a.1).2.1 (hdec.marker '1' (by decide) _ _ ha))
    have hb2 := ((hl2.tagged.cells.dual_marker b.2 b.1).2.2 (hdec.marker '2' (by decide) _ _ hb))
    have hee : e = (r.2.m_endX, r.2.m_endY) := by
      rw [r1, r2, q1, q2]
      exact Prod.ext he2.1 he2.2
    have hae : a = (r.2.m_spawn1X, r.2.m_spawn1Y) := by
      rw [r3, r4, q3, q4]
      exact Prod.ext ha2.1 ha2.2
    have hbe : b = (r.2.m_spawn2X, r.2.m_spawn2Y) := by
      rw [r5, r6, q5, q6]
      exact Prod.ext hb2.1 hb2.2
    rw [hee, hae, hbe]
    exact hfinal
  · intro hex
    rw [hw1, hh1] at hband
    rw [r3, r4, r5, r6, q3, q4, q5, q6, p3, p4, p5, p6]
    exact hband hex

/-- The statement of `dual_exit_fair` for the object made by the constructor for 9 by 7 cells,
configured for dual-spawn mode, with the engine outputs `0, 7, 14, ...`. -/
theorem dual_exit_fair_witness :
    (3 ≤ (configured 9 7 5 2 0 true false).m_width ∧
      3 ≤ (configured 9 7 5 2 0 true false).m_height ∧
      (configured 9 7 5 2 0 true false).m_width % 2 = 1 ∧
      (configured 9 7 5 2 0 true false).m_height % 2 = 1 ∧
      (configured 9 7 5 2 0 true false).m_multiplayerMode = true) ∧
    ((∀ r, generate exampleEngine 0 (configured 9 7 5 2 0 true false) = Except.ok r →
      fairExit (r.2.m_endX, r.2.m_endY) (r.2.m_spawn1X, r.2.m_spawn1Y)
        (r.2.m_spawn2X, r.2.m_spawn2Y) ∧
      (∀ e a b : Int × Int, rowsCell r.1 e.2 e.1 = 'E' → rowsCell r.1 a.2 a.1 = '1' →
        rowsCell r.1 b.2 b.1 = '2' → fairExit e a b) ∧
      ∃ g1, carvePassage ((configured 9 7 5 2 0 true false).m_width.toNat *
            (configured 9 7 5 2 0 true false).m_height.toNat) 1 1
            (seeded exampleEngine 0 (configured 9 7 5 2 0 true false)) = Except.ok g1 ∧
        ((∃ (i j : Nat) (a b : Int × Int), i < j ∧ (examinedSpawns g1)[i]? = some a ∧
            (examinedSpawns g1)[j]? = some b ∧
            inBand (configured 9 7 5 2 0 true false).m_width
              (configured 9 7 5 2 0 true false).m_height (manhattan a b)) →
          inBand (configured 9 7 5 2 0 true false).m_width
            (configured 9 7 5 2 0 true false).m_height
            (manhattan (r.2.m_spawn1X, r.2.m_spawn1Y) (r.2.m_spawn2X, r.2.m_spawn2Y)))) ∧
    ((5 ≤ (configured 9 7 5 2 0 true false).m_width ∨
        5 ≤ (configured 9 7 5 2 0 true false).m_height) →
      ∃ r, generate exampleEngine 0 (configured 9 7 5 2 0 true false) = Except.ok r)) :=
  ⟨⟨by decide, by decide, by decide, by decide, rfl⟩,
    dual_exit_fair exampleEngine 0 (configured 9 7 5 2 0 true false) (by decide) (by decide)
      (by decide) (by decide) rfl⟩

/-- A run in dual-spawn mode on 9 by 7 cells, seed 5, engine outputs `5, 12, 19, ...`: the rows,
the two spawns and the exit recorded. The spawns lie at distance 6, within the band `[6, 15]`, and
the exit lies at distance 5 from both. -/
theorem dual_run_example :
    dualSummary (generate exampleEngine 0 (configured 9 7 5 2 0 true false)) =
      some (["#########", "#.#...1X#", "#.###.#.#", "#.2.#.#X#", "###.#.#.#", "#....E#.#",
        "#########"], (6, 1), (2, 3), (5, 5)) ∧
    manhattan (6, 1) (2, 3) = 6 ∧ manhattan (5, 5) (6, 1) = 5 ∧ manhattan (5, 5) (2, 3) = 5 := by
  refine ⟨by decide!, by decide, by decide, by decide⟩

end MazeGenerator
end TankMaze


namespace TankMaze
namespace Maze

/-! ### What `loadFromString` decodes -/

theorem lastOr_append (d : Vec2) (l1 l2 : List Vec2) :
    lastOr d (l1 ++ l2) = lastOr (lastOr d l1) l2 := by
  unfold lastOr
  rw [List.getLast?_append]
  cases l2.getLast? with
  | none => rfl
  | some a => rfl

theorem rowCentres_cons (ch : Char) (r c : Nat) (x : Char) (rest : List Char) :
    rowCentres ch r c (x :: rest) = rowCentres ch r c [x] ++ rowCentres ch r (c + 1) rest := by
  by_cases h : x = ch
  · simp [rowCentres, h]
  · simp [rowCentres, h]

theorem Decoded.noText (m : Maze) : Decoded m m [] [] [] [] [] :=
  ⟨rfl, rfl, (List.append_nil _).symm, rfl, rfl⟩

theorem Decoded.followedBy {m m2 m3 : Maze} {s1 e1 x1 a1 b1 s2 e2 x2 a2 b2 : List Vec2}
    (h1 : Decoded m m2 s1 e1 x1 a1 b1) (h2 : Decoded m2 m3 s2 e2 x2 a2 b2) :
    Decoded m m3 (s1 ++ s2) (e1 ++ e2) (x1 ++ x2) (a1 ++ a2) (b1 ++ b2) := by
  refine ⟨?_, ?_, ?_, ?_, ?_⟩
  · rw [lastOr_append, ← h1.start]; exact h2.start
  · rw [lastOr_append, ← h1.exitPos]; exact h2.exitPos
  · rw [← List.append_assoc, ← h1.enemyList]; exact h2.enemyList
  · rw [lastOr_append, ← h1.spawn1]; exact h2.spawn1
  · rw [lastOr_append, ← h1.spawn2]; exact h2.spawn2

theorem loadCell_decoded (m : Maze) (r c : Nat) (ch : Char) :
    Decoded m (m.loadCell r c ch) (rowCentres 'S' r c [ch]) (rowCentres 'E' r c [ch])
      (rowCentres 'X' r c [ch]) (rowCentres '1' r c [ch]) (rowCentres '2' r c [ch]) := by
  unfold loadCell
  simp only []
  split_ifs with h1 h2 h3 h4 h5 h6 h7 h8 h9
  all_goals first
    | (subst h1; exact ⟨rfl, rfl, (List.append_nil _).symm, rfl, rfl⟩)
    | (subst h2; exact ⟨rfl, rfl, (List.append_nil _).symm, rfl, rfl⟩)
    | (subst h3; exact ⟨rfl, rfl, (List.append_nil _).symm, rfl, rfl⟩)
    | (subst h4; exact ⟨rfl, rfl, (List.append_nil _).symm, rfl, rfl⟩)
    | (subst h5; exact ⟨rfl, rfl, (List.append_nil _).symm, rfl, rfl⟩)
    | (subst h6; exact ⟨rfl, rfl, (List.append_nil _).symm, rfl, rfl⟩)
    | (subst h7; exact ⟨rfl, rfl, rfl, rfl, rfl⟩)
    | (subst h8; exact ⟨rfl, rfl, (List.append_nil _).symm, rfl, rfl⟩)
    | (subst h9; exact ⟨rfl, rfl, (List.append_nil _).symm, rfl, rfl⟩)
    | skip
  have e : ∀ k : Char, ¬ ch = k → rowCentres k r c [ch] = [] := by
    intro k hk
    simp [rowCentres, hk]
  rw [e _ h5, e _ h6, e _ h7, e _ h8, e _ h9]
  exact ⟨rfl, rfl, (List.append_nil _).symm, rfl, rfl⟩

theorem loadRow_decoded (r : Nat) :
    ∀ (chars : List Char) (c : Nat) (m : Maze),
      Decoded m (loadRow r c chars m) (rowCentres 'S' r c chars) (rowCentres 'E' r c chars)
        (rowCentres 'X' r c chars) (rowCentres '1' r c chars) (rowCentres '2' r c chars) := by
  intro chars
  induction chars with
  | nil =>
    intro c m
    exact Decoded.noText m
  | cons ch rest ih =>
    intro c m
    rw [rowCentres_cons 'S', rowCentres_cons 'E', rowCentres_cons 'X', rowCentres_cons '1',
      rowCentres_cons '2']
    exact (loadCell_decoded m r c ch).followedBy (ih (c + 1) _)

theorem loadRows_decoded :
    ∀ (rows : List String) (r : Nat) (m : Maze),
      Decoded m (loadRows r rows m) (markerCentres 'S' r rows) (markerCentres 'E' r rows)
        (markerCentres 'X' r rows) (markerCentres '1' r rows) (markerCentres '2' r rows) := by
  intro rows
  induction rows with
  | nil =>
    intro r m
    exact Decoded.noText m
  | cons row rest ih =>
    intro r m
    exact (loadRow_decoded r row.toList 0 m).followedBy (ih (r + 1) _)

/-- One character of the text: the cell that it is decoded into, still as `Wall()` made it,
becomes the cell of the character, and no other cell changes. -/
theorem loadCell_cells (m : Maze) (r c : Nat) (ch : Char) (hwf : MazeWF m) (hr : r < m.m_rows)
    (hc : c < m.m_cols) (hfresh : get2 default m.m_walls r c = default) (i j : Nat) :
    get2 default (m.loadCell r c ch).m_walls i j =
      if i = r ∧ j = c then decodeChar (some ch) else get2 default m.m_walls i j := by
  have hi : r < m.m_walls.length := by have := hwf.1; omega
  have hj : c < (m.m_walls.getD r []).length := by
    have := hwf.row_length (i := r) (by omega)
    omega
  have hw : m.wallAt (r : Int) (c : Int) = default := by
    rw [wallAt_eq]
    simp only [Int.toNat_ofNat]
    exact hfresh
  have hset : ∀ w : Wall, get2 default (m.setWall (r : Int) (c : Int) w).m_walls i j =
      if i = r ∧ j = c then w else get2 default m.m_walls i j := by
    intro w
    unfold Maze.setWall
    simp only [Int.toNat_ofNat]
    exact get2_set2 default m.m_walls r c w hi hj i j
  have key : (m.loadCell r c ch).m_walls =
      (m.setWall (r : Int) (c : Int) (decodeChar (some ch))).m_walls := by
    unfold loadCell
    simp only []
    rw [hw]
    split_ifs with h1 h2 h3 h4 h5 h6 h7 h8 h9
    · subst h1; rfl
    · subst h2; rfl
    · subst h3; rfl
    · subst h4; rfl
    · subst h5; rfl
    · subst h6; rfl
    · subst h7; rfl
    · subst h8; rfl
    · subst h9; rfl
    · have e : decodeChar (some ch) = {} := by
        unfold decodeChar
        simp only [Option.some.injEq]
        rw [if_neg h1, if_neg h2, if_neg h3, if_neg h4, if_neg h6]
      rw [e]
      rfl
  rw [key]
  exact hset _

/-- The characters of one row, from column `c` on: the cells of the columns from `c` on are
those of the characters, as far as the characters reach. -/
theorem loadRow_cells (r : Nat) :
    ∀ (chars : List Char) (c : Nat) (m : Maze), MazeWF m → r < m.m_rows →
      c + chars.length ≤ m.m_cols → (∀ j, c ≤ j → get2 default m.m_walls r j = default) →
      ∀ i j, get2 default (loadRow r c chars m).m_walls i j =
        if i = r ∧ c ≤ j then decodeChar (chars.get? (j - c)) else get2 default m.m_walls i j := by
  intro chars
  induction chars with
  | nil =>
    intro c m _ _ _ hfresh i j
    unfold loadRow
    split_ifs with h
    · rw [h.1, hfresh j h.2]
      rfl
    · rfl
  | cons ch rest ih =>
    intro c m hwf hr hc hfresh i j
    rw [List.length_cons] at hc
    have hk := loadCell_keeps m r c ch
    have hcell := loadCell_cells m r c ch hwf hr (by omega) (hfresh c (le_refl c))
    unfold loadRow
    rw [ih (c + 1) (m.loadCell r c ch) (hk.wf hwf) (by rw [hk.rows]; exact hr)
      (by rw [hk.cols]; omega)
      (by
        intro j2 hj2
        rw [hcell r j2, if_neg (by omega)]
        exact hfresh j2 (by omega)) i j]
    rw [hcell i j]
    by_cases hi : i = r
    · by_cases hj : c + 1 ≤ j
      · rw [if_pos ⟨hi, hj⟩, if_pos ⟨hi, by omega⟩]
        have e : j - c = (j - (c + 1)) + 1 := by omega
        rw [e]
        rfl
      · rw [if_neg (fun h => hj h.2)]
        by_cases hjc : j = c
        · rw [if_pos ⟨hi, hjc⟩, if_pos ⟨hi, by omega⟩, hjc, Nat.sub_self]
          rfl
        · rw [if_neg (fun h => hjc h.2), if_neg (fun h => by omega)]
    · rw [if_neg (fun h => hi h.1), if_neg (fun h => hi h.1), if_neg (fun h => hi h.1)]

theorem charAt_cons_zero (row : String) (rest : List String) (j : Nat) :
    charAt (row :: rest) 0 j = row.toList.get? j := rfl

theorem charAt_cons_succ (row : String) (rest : List String) (i j : Nat) :
    charAt (row :: rest) (i + 1) j = charAt rest i j := rfl

/-- The rows of the text, from row `r` on: the cells of the rows from `r` on are those of the
characters, as far as the characters reach. -/
theorem loadRows_cells :
    ∀ (rows : List String) (r : Nat) (m : Maze), MazeWF m → r + rows.length ≤ m.m_rows →
      (∀ row ∈ rows, row.length ≤ m.m_cols) →
      (∀ i j, r ≤ i → get2 default m.m_walls i j = default) →
      ∀ i j, get2 default (loadRows r rows m).m_walls i j =
        if r ≤ i then decodeChar (charAt rows (i - r) j) else get2 default m.m_walls i j := by
  intro rows
  induction rows with
  | nil =>
    intro r m _ _ _ hfresh i j
    unfold loadRows
    split_ifs with h
    · rw [hfresh i j h]
      rfl
    · rfl
  | cons row rest ih =>
    intro r m hwf hr hcols hfresh i j
    rw [List.length_cons] at hr
    have hk := loadRow_keeps r row.toList 0 m
    have hrow := loadRow_cells r row.toList 0 m hwf (by omega)
      (by
        have := hcols row (List.mem_cons_self _ _)
        have e : row.toList.length = row.length := rfl
        omega)
      (fun j _ => hfresh r j (le_refl r))
    unfold loadRows
    rw [ih (r + 1) (loadRow r 0 row.toList m) (hk.wf hwf) (by rw [hk.rows]; omega)
      (by
        intro row2 h2
        rw [hk.cols]
        exact hcols row2 (List.mem_cons_of_mem _ h2))
      (by
        intro i2 j2 h2
        rw [hrow i2 j2, if_neg (by omega)]
        exact hfresh i2 j2 (by omega)) i j]
    rw [hrow i j]
    by_cases h1 : r + 1 ≤ i
    · rw [if_pos h1, if_pos (by omega)]
      have e : i - r = (i - (r + 1)) + 1 := by omega
      rw [e, charAt_cons_succ]
    · rw [if_neg h1]
      by_cases h2 : i = r
      · rw [if_pos ⟨h2, Nat.zero_le j⟩, if_pos (by omega), h2, Nat.sub_self, charAt_cons_zero,
          Nat.sub_zero]
      · rw [if_neg (fun h => h2 h.1), if_neg (by omega)]

theorem foldl_max_ge (rows : List String) :
    ∀ k : Nat, k ≤ rows.foldl (fun (k : Nat) (row : String) => max k row.length) k ∧
      ∀ row ∈ rows, row.length ≤ rows.foldl (fun (k : Nat) (row : String) => max k row.length) k := by
  induction rows with
  | nil =>
    intro k
    exact ⟨le_refl k, fun row h => absurd h (List.not_mem_nil row)⟩
  | cons a rest ih =>
    intro k
    rw [List.foldl_cons]
    obtain ⟨h1, h2⟩ := ih (max k a.length)
    refine ⟨le_trans (le_max_left _ _) h1, ?_⟩
    intro row hrow
    rcases List.mem_cons.1 hrow with h | h
    · rw [h]
      exact le_trans (le_max_right _ _) h1
    · exact h2 row h

theorem foldl_max_attained (rows : List String) :
    ∀ k : Nat, rows.foldl (fun (k : Nat) (row : String) => max k row.length) k = k ∨
      ∃ row ∈ rows, row.length = rows.foldl (fun (k : Nat) (row : String) => max k row.length) k := by
  induction rows with
  | nil =>
    intro k
    exact Or.inl rfl
  | cons a rest ih =>
    intro k
    rw [List.foldl_cons]
    rcases ih (max k a.length) with h | ⟨row, hrow, h⟩
    · rw [h]
      rcases le_total k a.length with hle | hle
      · right
        exact ⟨a, List.mem_cons_self _ _, (max_eq_right hle).symm⟩
      · left
        exact max_eq_left hle
    · exact Or.inr ⟨row, List.mem_cons_of_mem _ hrow, h⟩

/-- What `loadFromString` makes of a non-empty text `map`, whatever the object was before: the
rows are those of the text and the columns those of its longest row; every cell has the kind,
attribute and health of its character, and is Empty past the end of a row; the enemy spawn
points are the centres of the `X` cells in reading order; each spawn position is the centre of
the last cell of its marker, or `(0, 0)` without one. The start and exit positions are the
centres of the last `S` and `E` cells, and without one they are what they were before the
call. -/
theorem loadFromString_decodes (m : Maze) (map : List String) (h : map ≠ []) :
    (m.loadFromString map).m_rows = map.length ∧
    (∀ row ∈ map, row.length ≤ (m.loadFromString map).m_cols) ∧
    (∃ row ∈ map, row.length = (m.loadFromString map).m_cols) ∧
    (∀ r c : Nat,
      sameKind ((m.loadFromString map).wallAt (r : Int) (c : Int)) (decodeChar (charAt map r c))) ∧
    (m.loadFromString map).m_enemySpawnPoints = markerCentres 'X' 0 map ∧
    (m.loadFromString map).m_spawn1Position = lastOr ⟨0, 0⟩ (markerCentres '1' 0 map) ∧
    (m.loadFromString map).m_spawn2Position = lastOr ⟨0, 0⟩ (markerCentres '2' 0 map) ∧
    (m.loadFromString map).m_startPosition = lastOr m.m_startPosition (markerCentres 'S' 0 map) ∧
    (m.loadFromString map).m_exitPosition = lastOr m.m_exitPosition (markerCentres 'E' 0 map) := by
  unfold loadFromString
  rw [if_neg h]
  simp only []
  generalize hm0 : ({ m with m_mazeData := map, m_rows := map.length, m_cols := map.foldl (fun (k : Nat) (row : String) => max k row.length) 0, m_walls := List.replicate map.length (List.replicate (map.foldl (fun (k : Nat) (row : String) => max k row.length) 0) ({} : Wall)), m_enemySpawnPoints := [], m_spawn1Position := ⟨0, 0⟩, m_spawn2Position := ⟨0, 0⟩ } : Maze) = m0
  have hrows0 : m0.m_rows = map.length := by rw [← hm0]
  have hcols0 : m0.m_cols = map.foldl (fun (k : Nat) (row : String) => max k row.length) 0 := by
    rw [← hm0]
  have hwalls0 : m0.m_walls = List.replicate map.length (List.replicate (map.foldl (fun (k : Nat) (row : String) => max k row.length) 0) ({} : Wall)) := by
    rw [← hm0]
  have hwf0 : MazeWF m0 := by
    unfold MazeWF
    rw [hrows0, hcols0, hwalls0]
    exact GridWF.replicate _ _ (by omega) (by omega) _
  have hfresh0 : ∀ i j : Nat, get2 default m0.m_walls i j = default := by
    intro i j
    rw [hwalls0, get2_replicate]
    split_ifs <;> rfl
  have hk := loadRows_keeps map 0 m0
  have hsame := (calculateRoundedCorners_spec (loadRows 0 map m0)).1
  have hdec := loadRows_decoded map 0 m0
  have hcells := loadRows_cells map 0 m0 hwf0 (by rw [hrows0]; omega)
    (by
      intro row hrow
      rw [hcols0]
      exact (foldl_max_ge map 0).2 row hrow)
    (fun i j _ => hfresh0 i j)
  have hothers := hsame.others
  have e1 : (loadRows 0 map m0).calculateRoundedCorners.m_enemySpawnPoints =
      (loadRows 0 map m0).m_enemySpawnPoints := by
    have h := congrArg Maze.m_enemySpawnPoints hothers
    exact h
  have e2 : (loadRows 0 map m0).calculateRoundedCorners.m_spawn1Position =
      (loadRows 0 map m0).m_spawn1Position := by
    have h := congrArg Maze.m_spawn1Position hothers
    exact h
  have e3 : (loadRows 0 map m0).calculateRoundedCorners.m_spawn2Position =
      (loadRows 0 map m0).m_spawn2Position := by
    have h := congrArg Maze.m_spawn2Position hothers
    exact h
  have e4 : (loadRows 0 map m0).calculateRoundedCorners.m_startPosition =
      (loadRows 0 map m0).m_startPosition := by
    have h := congrArg Maze.m_startPosition hothers
    exact h
  have e5 : (loadRows 0 map m0).calculateRoundedCorners.m_exitPosition =
      (loadRows 0 map m0).m_exitPosition := by
    have h := congrArg Maze.m_exitPosition hothers
    exact h
  have f1 : m0.m_enemySpawnPoints = [] := by rw [← hm0]
  have f2 : m0.m_spawn1Position = ⟨0, 0⟩ := by rw [← hm0]
  have f3 : m0.m_spawn2Position = ⟨0, 0⟩ := by rw [← hm0]
  have f4 : m0.m_startPosition = m.m_startPosition := by rw [← hm0]
  have f5 : m0.m_exitPosition = m.m_exitPosition := by rw [← hm0]
  have hcolsF : (loadRows 0 map m0).calculateRoundedCorners.m_cols =
      map.foldl (fun (k : Nat) (row : String) => max k row.length) 0 := by
    rw [hsame.cols_eq, hk.cols, hcols0]
  refine ⟨?_, ?_, ?_, ?_, ?_, ?_, ?_, ?_, ?_⟩
  · rw [hsame.rows_eq, hk.rows, hrows0]
  · intro row hrow
    rw [hcolsF]
    exact (foldl_max_ge map 0).2 row hrow
  · rw [hcolsF]
    rcases foldl_max_attained map 0 with h0 | h0
    · rw [h0]
      cases map with
      | nil => exact absurd rfl h
      | cons a rest =>
        refine ⟨a, List.mem_cons_self _ _, ?_⟩
        have := (foldl_max_ge (a :: rest) 0).2 a (List.mem_cons_self _ _)
        rw [h0] at this
        omega
    · exact h0
  · intro r c
    have hc := hsame.cells (r : Int) (c : Int)
    have hget : (loadRows 0 map m0).wallAt (r : Int) (c : Int) = decodeChar (charAt map r c) := by
      rw [wallAt_eq]
      simp only [Int.toNat_ofNat]
      rw [hcells r c, if_pos (Nat.zero_le r), Nat.sub_zero]
    rw [hc, hget]
    exact ⟨rfl, rfl, rfl, rfl⟩
  · rw [e1, hdec.enemyList, f1]
    rfl
  · rw [e2, hdec.spawn1, f2]
  · rw [e3, hdec.spawn2, f3]
  · rw [e4, hdec.start, f4]
  · rw [e5, hdec.exitPos, f5]

end Maze
end TankMaze


namespace TankMaze
namespace MazeGenerator

/-! ### The enemy markers of a generated grid -/

/-- The loop `markCells` writes `c` into the listed cells and keeps every other cell. -/
theorem markCells_exact {w h : Int} (c : Char) :
    ∀ (ps : List (Int × Int)) (grid grid1 : List (List Char)), GridWF w h grid →
      (∀ p ∈ ps, 0 ≤ p.2 ∧ p.2 < h ∧ 0 ≤ p.1 ∧ p.1 < w) →
      markCells c ps grid = Except.ok grid1 →
      ∀ y x, cellAt grid1 y x = if (x, y) ∈ ps then c else cellAt grid y x := by
  intro ps
  induction ps with
  | nil =>
    intro grid grid1 _ _ hrun y x
    have hg : grid = grid1 := Except.ok.inj hrun
    rw [← hg, if_neg (List.not_mem_nil _)]
  | cons p ps ih =>
    intro grid grid1 hwf hin hrun y x
    have hp := hin p (List.mem_cons_self _ _)
    unfold markCells at hrun
    rw [gridSet_ok hwf _ _ c hp] at hrun
    simp only [] at hrun
    rw [ih _ grid1 (hwf.set2 _ _ _) (fun q hq => hin q (List.mem_cons_of_mem _ hq)) hrun y x]
    by_cases hmem : (x, y) ∈ ps
    · rw [if_pos hmem, if_pos (List.mem_cons_of_mem _ hmem)]
    · rw [if_neg hmem, cellAt_set2 hwf _ _ c hp]
      by_cases heq : y = p.2 ∧ x = p.1
      · rw [if_pos heq, if_pos]
        rw [heq.1, heq.2]
        exact List.mem_cons_self _ _
      · rw [if_neg heq, if_neg]
        intro hc
        rcases List.mem_cons.1 hc with h1 | h1
        · apply heq
          rw [← h1]
          exact ⟨rfl, rfl⟩
        · exact hmem h1

/-- The function `placeEnemies` marks the first `m_enemyCount` cells of its shuffled candidates:
pairwise different cells, each an interior floor cell at a distance above 5 from the recorded
start and above 3 from the exit, as many as the count asks for and the candidates allow. -/
theorem placeEnemies_exact (g g1 : MazeGenerator) (hwf : GridWF g.m_width g.m_height g.m_grid)
    (h : placeEnemies g = Except.ok g1) :
    ∃ xs : List (Int × Int), xs.Nodup ∧
      xs.length = min g.m_enemyCount.toNat ((interior g.m_width g.m_height).filter fun p =>
        cellAt g.m_grid p.2 p.1 = '.' ∧ |p.1 - g.m_startX| + |p.2 - g.m_startY| > 5 ∧
          |p.1 - g.m_endX| + |p.2 - g.m_endY| > 3).length ∧
      (∀ p ∈ xs, p ∈ (interior g.m_width g.m_height).filter fun p =>
        cellAt g.m_grid p.2 p.1 = '.' ∧ |p.1 - g.m_startX| + |p.2 - g.m_startY| > 5 ∧
          |p.1 - g.m_endX| + |p.2 - g.m_endY| > 3) ∧
      ∀ y x, cellAt g1.m_grid y x = if (x, y) ∈ xs then 'X' else cellAt g.m_grid y x := by
  unfold placeEnemies at h
  simp only [] at h
  have hperm := shuffleList_perm ((interior g.m_width g.m_height).filter fun p =>
      cellAt g.m_grid p.2 p.1 = '.' ∧
        |p.1 - g.m_startX| + |p.2 - g.m_startY| > 5 ∧
        |p.1 - g.m_endX| + |p.2 - g.m_endY| > 3) g.m_rng
  have hsub : ∀ p ∈ ((shuffleList ((interior g.m_width g.m_height).filter fun p =>
      cellAt g.m_grid p.2 p.1 = '.' ∧
        |p.1 - g.m_startX| + |p.2 - g.m_startY| > 5 ∧
        |p.1 - g.m_endX| + |p.2 - g.m_endY| > 3) g.m_rng).1.take g.m_enemyCount.toNat),
      p ∈ (interior g.m_width g.m_height).filter fun p =>
        cellAt g.m_grid p.2 p.1 = '.' ∧ |p.1 - g.m_startX| + |p.2 - g.m_startY| > 5 ∧
          |p.1 - g.m_endX| + |p.2 - g.m_endY| > 3 :=
    fun p hp => hperm.mem_iff.1 (List.mem_of_mem_take hp)
  have hmem : ∀ p ∈ ((shuffleList ((interior g.m_width g.m_height).filter fun p =>
      cellAt g.m_grid p.2 p.1 = '.' ∧
        |p.1 - g.m_startX| + |p.2 - g.m_startY| > 5 ∧
        |p.1 - g.m_endX| + |p.2 - g.m_endY| > 3) g.m_rng).1.take g.m_enemyCount.toNat),
      (0 ≤ p.2 ∧ p.2 < g.m_height ∧ 0 ≤ p.1 ∧ p.1 < g.m_width) := by
    intro p hp
    have h1 := hsub p hp
    rw [List.mem_filter, mem_interior] at h1
    omega
  split at h
  · cases h
  · rename_i grid1 hrun
    have hg : g1.m_grid = grid1 := by
      have h2 := congrArg MazeGenerator.m_grid (Except.ok.inj h)
      exact h2.symm
    refine ⟨_, ?_, ?_, hsub, ?_⟩
    · exact ((hperm.nodup_iff).2 ((interior_nodup _ _).filter _)).sublist (List.take_sublist _ _)
    · rw [List.length_take, hperm.length_eq]
    · rw [hg]
      exact markCells_exact 'X' _ _ _ hwf hmem hrun

/-- The function `placeDestructibleWalls` changes wall cells only, into destructible walls. -/
theorem placeDestructibleWalls_exact (g g1 : MazeGenerator)
    (hwf : GridWF g.m_width g.m_height g.m_grid) (h : placeDestructibleWalls g = Except.ok g1) :
    ∀ y x, cellAt g1.m_grid y x = cellAt g.m_grid y x ∨ (cellAt g.m_grid y x = '#' ∧
      (cellAt g1.m_grid y x = '*' ∨ cellAt g1.m_grid y x = 'G' ∨ cellAt g1.m_grid y x = 'H')) := by
  have hmem : ∀ p ∈ (destructibleCandidates g (interior g.m_width g.m_height) g.m_rng).1,
      (0 ≤ p.2 ∧ p.2 < g.m_height ∧ 0 ≤ p.1 ∧ p.1 < g.m_width) ∧ cellAt g.m_grid p.2 p.1 = '#' := by
    intro p hp
    obtain ⟨h1, h2⟩ := mem_destructibleCandidates g _ _ p hp
    rw [mem_interior] at h1
    exact ⟨by omega, h2⟩
  have hattr : ∀ (gold heal : Nat) (r : List (List Char) × Rng),
      assignAttributes gold heal (destructibleCandidates g (interior g.m_width g.m_height) g.m_rng).1
        g.m_grid (destructibleCandidates g (interior g.m_width g.m_height) g.m_rng).2 = Except.ok r →
      ∀ y x, cellAt r.1 y x = cellAt g.m_grid y x ∨ (cellAt g.m_grid y x = '#' ∧
        (cellAt r.1 y x = '*' ∨ cellAt r.1 y x = 'G' ∨ cellAt r.1 y x = 'H')) := by
    intro gold heal r hr y x
    obtain ⟨r2, hrun, _, hcells⟩ := assignAttributes_spec gold heal _ g.m_grid
      (destructibleCandidates g (interior g.m_width g.m_height) g.m_rng).2 hwf
      (fun p hp => (hmem p hp).1)
    rw [hrun] at hr
    have hrr : r2 = r := Except.ok.inj hr
    subst hrr
    rcases hcells y x with h1 | ⟨h1, h2⟩
    · left; exact h1
    · right
      exact ⟨(hmem _ h1).2, h2⟩
  have hmark : ∀ grid1 : List (List Char),
      markCells '*' (destructibleCandidates g (interior g.m_width g.m_height) g.m_rng).1 g.m_grid =
        Except.ok grid1 →
      ∀ y x, cellAt grid1 y x = cellAt g.m_grid y x ∨ (cellAt g.m_grid y x = '#' ∧
        (cellAt grid1 y x = '*' ∨ cellAt grid1 y x = 'G' ∨ cellAt grid1 y x = 'H')) := by
    intro grid1 hr y x
    have hcell := markCells_exact '*' _ _ _ hwf (fun p hp => (hmem p hp).1) hr y x
    by_cases hin : (x, y) ∈ (destructibleCandidates g (interior g.m_width g.m_height) g.m_rng).1
    · rw [if_pos hin] at hcell
      right
      exact ⟨(hmem _ hin).2, Or.inl hcell⟩
    · rw [if_neg hin] at hcell
      left; exact hcell
  unfold placeDestructibleWalls at h
  simp only [] at h
  split_ifs at h
  · split at h
    · cases h
    · rename_i gr h2
      have hg : g1.m_grid = gr.1 := by
        have h3 := congrArg MazeGenerator.m_grid (Except.ok.inj h)
        exact h3.symm
      rw [hg]
      exact hattr 0 300 gr h2
  · split at h
    · cases h
    · rename_i grid1 h2
      have hg : g1.m_grid = grid1 := by
        have h3 := congrArg MazeGenerator.m_grid (Except.ok.inj h)
        exact h3.symm
      rw [hg]
      exact hmark grid1 h2
  · split at h
    · cases h
    · rename_i gr h2
      have hg : g1.m_grid = gr.1 := by
        have h3 := congrArg MazeGenerator.m_grid (Except.ok.inj h)
        exact h3.symm
      rw [hg]
      exact hattr 0 300 gr h2
  · split at h
    · cases h
    · rename_i gr h2
      have hg : g1.m_grid = gr.1 := by
        have h3 := congrArg MazeGenerator.m_grid (Except.ok.inj h)
        exact h3.symm
      rw [hg]
      exact hattr 150 250 gr h2

theorem onlyGrid_start {g r : MazeGenerator} (h : OnlyGrid g r) :
    r.m_startX = g.m_startX ∧ r.m_startY = g.m_startY ∧ r.m_width = g.m_width ∧
      r.m_height = g.m_height := by
  obtain ⟨a, b, rfl⟩ := h
  exact ⟨rfl, rfl, rfl, rfl⟩

/-- What holds of C25, for every object of width and height at least 3, every engine and both
modes. In the rows returned by `generate` the cells marked `X` are pairwise different cells of
the set that the code draws from: the interior cells left Empty by the placement whose
Manhattan distance from the recorded start is above 5 and from the recorded exit above 3; and
their number is the smaller of the enemy count and the size of that set. -/
theorem enemies_follow_code (mt19937 : Nat → Nat → Nat) (now : Nat) (g : MazeGenerator)
    (hw : 3 ≤ g.m_width) (hh : 3 ≤ g.m_height) (r : List String × MazeGenerator)
    (hr : generate mt19937 now g = Except.ok r) :
    ∃ xs : List (Int × Int), xs.Nodup ∧
      (∀ p : Int × Int, p ∈ xs ↔ rowsCell r.1 p.2 p.1 = 'X') ∧
      xs.length = min g.m_enemyCount.toNat (enemyCells r.1 g.m_width g.m_height
        (r.2.m_startX, r.2.m_startY) (r.2.m_endX, r.2.m_endY) 5).length ∧
      ∀ p ∈ xs, p ∈ enemyCells r.1 g.m_width g.m_height (r.2.m_startX, r.2.m_startY)
        (r.2.m_endX, r.2.m_endY) 5 := by
  obtain ⟨g1, g2, g3, _, _, _, hl2, h3, h4, hrows, hk, ho3, ho4⟩ :=
    generate_stages mt19937 now g hw hh r hr
  have hwf2 := hl2.tagged.wf
  obtain ⟨xs, hnd, hlen, hsub, hcell3⟩ := placeEnemies_exact g2 g3 hwf2 h3
  obtain ⟨hwf3a, _⟩ := placeEnemies_chars g2 g3 hwf2 h3
  obtain ⟨s3x, s3y, w3, h3h⟩ := onlyGrid_start ho3
  obtain ⟨s4x, s4y, _, _⟩ := onlyGrid_start ho4
  obtain ⟨q1, q2, _, _, _, _⟩ := onlyGrid_positions ho3
  obtain ⟨r1, r2, _, _, _, _⟩ := onlyGrid_positions ho4
  have hwf3 : GridWF g3.m_width g3.m_height g3.m_grid := by
    rw [w3, h3h]; exact hwf3a
  have hcell4 := placeDestructibleWalls_exact g3 r.2 hwf3 h4
  have hw2 : g2.m_width = g.m_width := hk.config.width
  have hh2 : g2.m_height = g.m_height := hk.config.height
  have hn2 : g2.m_enemyCount = g.m_enemyCount := hk.config.enemyCount
  have hnoX : ∀ y x, cellAt g2.m_grid y x ≠ 'X' := by
    intro y x hc
    rcases TagCells.alphabet hl2.tagged.cells y x with t | t | t | t | t | t <;>
      · rw [hc] at t
        exact absurd t (by decide)
  have hX : ∀ p : Int × Int, p ∈ xs ↔ cellAt r.2.m_grid p.2 p.1 = 'X' := by
    intro p
    constructor
    · intro hp
      have h3c := hcell3 p.2 p.1
      rw [if_pos hp] at h3c
      rcases hcell4 p.2 p.1 with k | ⟨k, _⟩
      · rw [k]; exact h3c
      · rw [h3c] at k
        exact absurd k (by decide)
    · intro hp
      by_contra hnot
      have h3c := hcell3 p.2 p.1
      rw [if_neg hnot] at h3c
      rcases hcell4 p.2 p.1 with k | ⟨_, k⟩
      · rw [hp] at k
        rw [← k] at h3c
        exact hnoX _ _ h3c.symm
      · rw [hp] at k
        rcases k with k | k | k <;> exact absurd k (by decide)
  have hfloor : ∀ p : Int × Int, cellAt g2.m_grid p.2 p.1 = '.' ↔
      (cellAt r.2.m_grid p.2 p.1 = '.' ∨ cellAt r.2.m_grid p.2 p.1 = 'X') := by
    intro p
    have h3c := hcell3 p.2 p.1
    constructor
    · intro hp
      by_cases hin : p ∈ xs
      · exact Or.inr ((hX p).1 hin)
      · rw [if_neg hin, hp] at h3c
        rcases hcell4 p.2 p.1 with k | ⟨k, _⟩
        · left; rw [k]; exact h3c
        · rw [h3c] at k
          exact absurd k (by decide)
    · intro hp
      rcases hp with hp | hp
      · by_cases hin : p ∈ xs
        · have := (hX p).1 hin
          rw [hp] at this
          exact absurd this (by decide)
        · rw [if_neg hin] at h3c
          rcases hcell4 p.2 p.1 with k | ⟨_, k⟩
          · rw [← h3c, ← k]; exact hp
          · rw [hp] at k
            rcases k with k | k | k <;> exact absurd k (by decide)
      · have hin := (hX p).2 hp
        have := hsub p hin
        rw [List.mem_filter] at this
        exact (of_decide_eq_true this.2).1
  have hsets : ((interior g2.m_width g2.m_height).filter fun p =>
        cellAt g2.m_grid p.2 p.1 = '.' ∧ |p.1 - g2.m_startX| + |p.2 - g2.m_startY| > 5 ∧
          |p.1 - g2.m_endX| + |p.2 - g2.m_endY| > 3) =
      enemyCells r.1 g.m_width g.m_height (r.2.m_startX, r.2.m_startY)
        (r.2.m_endX, r.2.m_endY) 5 := by
    unfold enemyCells
    rw [hw2, hh2, s4x, s4y, s3x, s3y, r1, r2, q1, q2]
    apply List.filter_congr
    intro p _
    apply decide_eq_decide.2
    rw [hrows, rowsCell_mk, hfloor p]
  rw [hsets] at hlen hsub
  refine ⟨xs, hnd, ?_, ?_, hsub⟩
  · intro p
    rw [hrows, rowsCell_mk]
    exact hX p
  · rw [hlen, hn2]

end MazeGenerator
end TankMaze


namespace TankMaze
namespace Maze

/-! ### The search in rounded arithmetic, for costs that are summed exactly -/

/-- The sum `current.gCost + moveCost` of a relaxation is a multiple of `1 / den` with a factor
within `bound + top`. -/
theorem tentative_whole {moveCost : GridPos → Option ℚ} {cells : Finset GridPos} {s : GridPos}
    {den top bound : Nat} (hden : 0 < den)
    (hmc : ∀ n w, moveCost n = some w →
      (∃ k : Nat, w * (den : ℚ) = (k : ℚ) ∧ k ≤ top) ∧ n ∈ cells)
    {cur : Node} {st : SearchState} {rank : GridPos → Nat} (nb : GridPos)
    (hinv : WeakInv moveCost cells s den top bound st rank)
    (hg : st.gScore cur.pos = some cur.gCost) (w : ℚ) (hmove : moveCost nb = some w) :
    ∃ k : Nat, cur.gCost + w = (k : ℚ) / (den : ℚ) ∧ k ≤ bound + top := by
  obtain ⟨⟨kw, hkw, hkwtop⟩, _⟩ := hmc nb w hmove
  obtain ⟨kc, hkc, hkcb⟩ := hinv.g_units cur.pos cur.gCost hg
  have hd : (den : ℚ) ≠ 0 := by exact_mod_cast (Nat.pos_iff_ne_zero.1 hden)
  refine ⟨kc + kw, ?_, by omega⟩
  push_cast
  rw [← hkc, ← hkw]
  field_simp
  ring

/-- One relaxation in rounded arithmetic keeps the invariant and does not raise the measure of
the loop, when the rounding leaves the multiples of `1 / den` with a factor up to `bound + top` as
they are. -/
theorem relaxF_weak {fl : ℚ → ℚ} {moveCost : GridPos → Option ℚ} {cells : Finset GridPos}
    {s : GridPos} {den top bound : Nat} (t : GridPos) (hden : 0 < den)
    (hmc : ∀ n w, moveCost n = some w →
      (∃ k : Nat, w * (den : ℚ) = (k : ℚ) ∧ k ≤ top) ∧ n ∈ cells)
    (hfl : ∀ k : Nat, k ≤ bound + top → fl ((k : ℚ) / (den : ℚ)) = (k : ℚ) / (den : ℚ))
    {cur : Node} {st : SearchState} {rank : GridPos → Nat} (nb : GridPos)
    (hnb : nb ∈ neighbours cur.pos)
    (hinv : WeakInv moveCost cells s den top bound st rank)
    (hg : st.gScore cur.pos = some cur.gCost) :
    ∃ rank2, WeakInv moveCost cells s den top bound (relaxF fl moveCost t cur st nb) rank2 ∧
      (relaxF fl moveCost t cur st nb).gScore cur.pos = some cur.gCost ∧
      (relaxF fl moveCost t cur st nb).openSet.length +
          2 * potential cells den bound (relaxF fl moveCost t cur st nb) ≤
        st.openSet.length + 2 * potential cells den bound st := by
  unfold relaxF
  cases hmove : moveCost nb with
  | none => exact ⟨rank, hinv, hg, le_refl _⟩
  | some w =>
    obtain ⟨k, hk, hkb⟩ := tentative_whole hden hmc nb hinv hg w hmove
    have hexact : fl (cur.gCost + w) = cur.gCost + w := by
      rw [hk]; exact hfl k hkb
    simp only []
    rw [hexact]
    by_cases himp : improves (cur.gCost + w) (st.gScore nb) = true
    · rw [if_pos himp]
      exact push_weak hden hmc nb hnb hinv hg w hmove himp _
    · rw [if_neg himp]
      exact ⟨rank, hinv, hg, le_refl _⟩

theorem relaxAllF_weak {fl : ℚ → ℚ} {moveCost : GridPos → Option ℚ} {cells : Finset GridPos}
    {s : GridPos} {den top bound : Nat} (t : GridPos) (hden : 0 < den)
    (hmc : ∀ n w, moveCost n = some w →
      (∃ k : Nat, w * (den : ℚ) = (k : ℚ) ∧ k ≤ top) ∧ n ∈ cells)
    (hfl : ∀ k : Nat, k ≤ bound + top → fl ((k : ℚ) / (den : ℚ)) = (k : ℚ) / (den : ℚ))
    {cur : Node} :
    ∀ (l : List GridPos) (st : SearchState) (rank : GridPos → Nat),
      (∀ b ∈ l, b ∈ neighbours cur.pos) →
      WeakInv moveCost cells s den top bound st rank →
      st.gScore cur.pos = some cur.gCost →
      ∃ rank2, WeakInv moveCost cells s den top bound
          (l.foldl (relaxF fl moveCost t cur) st) rank2 ∧
        (l.foldl (relaxF fl moveCost t cur) st).openSet.length +
            2 * potential cells den bound (l.foldl (relaxF fl moveCost t cur) st) ≤
          st.openSet.length + 2 * potential cells den bound st := by
  intro l
  induction l with
  | nil => intro st rank _ hinv _; exact ⟨rank, hinv, le_refl _⟩
  | cons b bs ih =>
    intro st rank hl hinv hg
    obtain ⟨rank1, hinv1, hg1, hle1⟩ := relaxF_weak t hden hmc hfl b (hl b (List.mem_cons_self _ _))
      hinv hg
    obtain ⟨rank2, hinv2, hle2⟩ := ih _ rank1
      (fun c hc => hl c (List.mem_cons_of_mem _ hc)) hinv1 hg1
    exact ⟨rank2, hinv2, le_trans hle2 hle1⟩

/-- The search loop in rounded arithmetic ends within a fuel above its measure. -/
theorem searchLoopF_weak {fl : ℚ → ℚ} {moveCost : GridPos → Option ℚ} {cells : Finset GridPos}
    {s : GridPos} {den top bound : Nat} (t : GridPos) (hden : 0 < den)
    (hmc : ∀ n w, moveCost n = some w →
      (∃ k : Nat, w * (den : ℚ) = (k : ℚ) ∧ k ≤ top) ∧ n ∈ cells)
    (hfl : ∀ k : Nat, k ≤ bound + top → fl ((k : ℚ) / (den : ℚ)) = (k : ℚ) / (den : ℚ)) :
    ∀ (fuel : Nat) (st : SearchState) (rank : GridPos → Nat),
      WeakInv moveCost cells s den top bound st rank →
      st.openSet.length + 2 * potential cells den bound st < fuel →
      ∃ out, searchLoopF fl moveCost t fuel st = some out ∧
        ∀ st2, out = some st2 →
          (∃ rank2, WeakInv moveCost cells s den top bound st2 rank2) ∧
          ∃ v, st2.gScore t = some v := by
  intro fuel
  induction fuel with
  | zero => intro st rank _ h; omega
  | succ k ih =>
    intro st rank hinv hfuel
    unfold searchLoopF
    cases htop : pqTop st.openSet with
    | none => exact ⟨none, rfl, fun st2 h => by cases h⟩
    | some cur =>
      obtain ⟨hmem, _⟩ := pqTop_some htop
      simp only []
      have hinv1 : WeakInv moveCost cells s den top bound
          { st with openSet := st.openSet.erase cur } rank :=
        ⟨hinv.g_start, hinv.g_cells, hinv.g_units, hinv.chain,
          fun e he => hinv.open_ok e (List.mem_of_mem_erase he)⟩
      have hlen : (st.openSet.erase cur).length = st.openSet.length - 1 :=
        List.length_erase_of_mem hmem
      have hpos : 0 < st.openSet.length := List.length_pos_of_mem hmem
      have hpot : potential cells den bound { st with openSet := st.openSet.erase cur } =
          potential cells den bound st := rfl
      obtain ⟨v, hv, hvle, _⟩ := hinv.open_ok cur hmem
      by_cases htgt : cur.pos = t
      · rw [if_pos htgt]
        refine ⟨_, rfl, ?_⟩
        intro st2 h2
        have : st2 = { st with openSet := st.openSet.erase cur } := (Option.some.inj h2).symm
        rw [this]
        exact ⟨⟨rank, hinv1⟩, v, by rw [← htgt]; exact hv⟩
      · rw [if_neg htgt]
        by_cases hst : isStale cur.gCost (st.gScore cur.pos) = true
        · rw [if_pos hst]
          exact ih _ rank hinv1 (by rw [hpot, hlen]; omega)
        · rw [if_neg hst]
          have hg : st.gScore cur.pos = some cur.gCost := by
            rw [hv] at hst ⊢
            simp only [isStale, decide_eq_true_eq, gt_iff_lt, not_lt] at hst
            rw [le_antisymm hvle hst]
          obtain ⟨rank2, hinv2, hle2⟩ := relaxAllF_weak t hden hmc hfl (neighbours cur.pos)
            { st with openSet := st.openSet.erase cur } rank (fun b hb => hb) hinv1 hg
          refine ih _ rank2 hinv2 ?_
          rw [hpot] at hle2
          have hlen2 : ({ st with openSet := st.openSet.erase cur } : SearchState).openSet.length =
              st.openSet.length - 1 := hlen
          rw [hlen2] at hle2
          omega

/-- One relaxation in rounded arithmetic is the exact one when the rounding leaves the
multiples of `1 / den` with a factor up to `bound + top + H * den` as they are and the heuristic
is within `H`. -/
theorem relaxF_eq {fl : ℚ → ℚ} {moveCost : GridPos → Option ℚ} {cells : Finset GridPos}
    {s : GridPos} {den top bound H : Nat} (t : GridPos) (hden : 0 < den)
    (hmc : ∀ n w, moveCost n = some w →
      (∃ k : Nat, w * (den : ℚ) = (k : ℚ) ∧ k ≤ top) ∧ n ∈ cells)
    (hH : ∀ n ∈ cells, ∃ k : Nat, heuristic n t = (k : ℚ) ∧ k ≤ H)
    (hfl : ∀ k : Nat, k ≤ bound + top + H * den →
      fl ((k : ℚ) / (den : ℚ)) = (k : ℚ) / (den : ℚ))
    {cur : Node} {st : SearchState} {rank : GridPos → Nat} (nb : GridPos)
    (hinv : WeakInv moveCost cells s den top bound st rank)
    (hg : st.gScore cur.pos = some cur.gCost) :
    relaxF fl moveCost t cur st nb = relax moveCost t cur st nb := by
  unfold relaxF relax
  cases hmove : moveCost nb with
  | none => rfl
  | some w =>
    obtain ⟨k, hk, hkb⟩ := tentative_whole hden hmc nb hinv hg w hmove
    obtain ⟨kh, hkh, hkhb⟩ := hH nb (hmc nb w hmove).2
    have hexact : fl (cur.gCost + w) = cur.gCost + w := by
      rw [hk]; exact hfl k (by omega)
    have hd : (den : ℚ) ≠ 0 := by exact_mod_cast (Nat.pos_iff_ne_zero.1 hden)
    have hkd : kh * den ≤ H * den := Nat.mul_le_mul_right _ hkhb
    have hexh : fl (heuristic nb t) = heuristic nb t := by
      have h1 : heuristic nb t = ((kh * den : Nat) : ℚ) / (den : ℚ) := by
        rw [hkh]; push_cast; field_simp
      rw [h1]; exact hfl (kh * den) (by omega)
    have hexf : fl (cur.gCost + w + heuristic nb t) = cur.gCost + w + heuristic nb t := by
      have h1 : cur.gCost + w + heuristic nb t = ((k + kh * den : Nat) : ℚ) / (den : ℚ) := by
        rw [hk, hkh]; push_cast; field_simp
      rw [h1]; exact hfl (k + kh * den) (by omega)
    simp only []
    rw [hexact, hexh, hexf]

theorem relaxAllF_eq {fl : ℚ → ℚ} {moveCost : GridPos → Option ℚ} {cells : Finset GridPos}
    {s : GridPos} {den top bound H : Nat} (t : GridPos) (hden : 0 < den)
    (hmc : ∀ n w, moveCost n = some w →
      (∃ k : Nat, w * (den : ℚ) = (k : ℚ) ∧ k ≤ top) ∧ n ∈ cells)
    (hH : ∀ n ∈ cells, ∃ k : Nat, heuristic n t = (k : ℚ) ∧ k ≤ H)
    (hfl : ∀ k : Nat, k ≤ bound + top + H * den →
      fl ((k : ℚ) / (den : ℚ)) = (k : ℚ) / (den : ℚ))
    {cur : Node} :
    ∀ (l : List GridPos) (st : SearchState) (rank : GridPos → Nat),
      (∀ b ∈ l, b ∈ neighbours cur.pos) →
      WeakInv moveCost cells s den top bound st rank →
      st.gScore cur.pos = some cur.gCost →
      l.foldl (relaxF fl moveCost t cur) st = l.foldl (relax moveCost t cur) st := by
  intro l
  induction l with
  | nil => intro st rank _ _ _; rfl
  | cons b bs ih =>
    intro st rank hl hinv hg
    rw [List.foldl_cons, List.foldl_cons, relaxF_eq t hden hmc hH hfl b hinv hg]
    obtain ⟨rank1, hinv1, hg1, _⟩ := relax_weak t hden hmc b
      (hl b (List.mem_cons_self _ _)) hinv hg
    exact ih _ rank1 (fun c hc => hl c (List.mem_cons_of_mem _ hc)) hinv1 hg1

/-- The search loop in rounded arithmetic is the exact one when the rounding leaves the
multiples of `1 / den` with a factor up to `bound + top + H * den` as they are. -/
theorem searchLoopF_eq {fl : ℚ → ℚ} {moveCost : GridPos → Option ℚ} {cells : Finset GridPos}
    {s : GridPos} {den top bound H : Nat} (t : GridPos) (hden : 0 < den)
    (hmc : ∀ n w, moveCost n = some w →
      (∃ k : Nat, w * (den : ℚ) = (k : ℚ) ∧ k ≤ top) ∧ n ∈ cells)
    (hH : ∀ n ∈ cells, ∃ k : Nat, heuristic n t = (k : ℚ) ∧ k ≤ H)
    (hfl : ∀ k : Nat, k ≤ bound + top + H * den →
      fl ((k : ℚ) / (den : ℚ)) = (k : ℚ) / (den : ℚ)) :
    ∀ (fuel : Nat) (st : SearchState) (rank : GridPos → Nat),
      WeakInv moveCost cells s den top bound st rank →
      searchLoopF fl moveCost t fuel st = searchLoop moveCost t fuel st := by
  intro fuel
  induction fuel with
  | zero => intro st rank _; rfl
  | succ k ih =>
    intro st rank hinv
    unfold searchLoopF searchLoop
    cases htop : pqTop st.openSet with
    | none => rfl
    | some cur =>
      obtain ⟨hmem, _⟩ := pqTop_some htop
      simp only []
      have hinv1 : WeakInv moveCost cells s den top bound
          { st with openSet := st.openSet.erase cur } rank :=
        ⟨hinv.g_start, hinv.g_cells, hinv.g_units, hinv.chain,
          fun e he => hinv.open_ok e (List.mem_of_mem_erase he)⟩
      obtain ⟨v, hv, hvle, _⟩ := hinv.open_ok cur hmem
      by_cases htgt : cur.pos = t
      · rw [if_pos htgt, if_pos htgt]
      · rw [if_neg htgt, if_neg htgt]
        by_cases hst : isStale cur.gCost (st.gScore cur.pos) = true
        · rw [if_pos hst, if_pos hst]
          exact ih _ rank hinv1
        · rw [if_neg hst, if_neg hst]
          have hg : st.gScore cur.pos = some cur.gCost := by
            rw [hv] at hst ⊢
            simp only [isStale, decide_eq_true_eq, gt_iff_lt, not_lt] at hst
            rw [le_antisymm hvle hst]
          rw [relaxAllF_eq t hden hmc hH hfl (neighbours cur.pos)
            { st with openSet := st.openSet.erase cur } rank (fun b hb => hb) hinv1 hg]
          obtain ⟨rank2, hinv2, _⟩ := relaxAll_weak t hden hmc (neighbours cur.pos)
            { st with openSet := st.openSet.erase cur } rank (fun b hb => hb) hinv1 hg
          exact ih _ rank2 hinv2

end Maze
end TankMaze


namespace TankMaze

/-! ### Whole numbers up to `2 ^ 24` are binary32 values -/

theorem log2Up_le (n : Nat) : ∀ (fuel k : Nat), 2 ^ k ≤ n → 2 ^ (log2Up n fuel k) ≤ n := by
  intro fuel
  induction fuel with
  | zero => intro k h; exact h
  | succ f ih =>
    intro k h
    unfold log2Up
    split_ifs with h2
    · exact ih (k + 1) h2
    · exact h

theorem natLog2_le (n : Nat) (hn : 1 ≤ n) : 2 ^ natLog2 n ≤ n :=
  log2Up_le n n 0 (by simpa using hn)

theorem roundToMultiple_multiple (ulp : ℚ) (hu : 0 < ulp) (K : Int) :
    roundToMultiple ulp ((K : ℚ) * ulp) = (K : ℚ) * ulp := by
  unfold roundToMultiple
  have h1 : (K : ℚ) * ulp / ulp = (K : ℚ) := by field_simp
  simp only [h1, Int.floor_intCast, sub_self]
  rw [if_pos (by norm_num)]

/-- Rounding to binary32 leaves a whole number up to `2 ^ 24` as it is. -/
theorem binary32_natCast (k : Nat) (hk : k ≤ 2 ^ 24) : binary32 (k : ℚ) = (k : ℚ) := by
  unfold binary32
  rcases Nat.eq_zero_or_pos k with h0 | hpos
  · subst h0; simp
  · have hne : (k : ℚ) ≠ 0 := by exact_mod_cast (Nat.pos_iff_ne_zero.1 hpos)
    rw [if_neg hne]
    have hL := natLog2_le k hpos
    have hL24 : natLog2 k ≤ 24 := by
      by_contra hc
      have h25 : 2 ^ 25 ≤ 2 ^ natLog2 k := Nat.pow_le_pow_right (by decide) (by omega)
      have : (2 : Nat) ^ 24 < 2 ^ 25 := by decide
      omega
    have hone : natLog2 1 = 0 := by decide
    have hexp : binaryExponent (k : ℚ) = (natLog2 k : Int) := by
      unfold binaryExponent
      simp only [Rat.num_natCast, Int.natAbs_ofNat, Rat.den_natCast, hone, Nat.cast_zero,
        sub_zero]
      rw [if_pos]
      unfold pow2
      rw [if_pos (by omega), Int.toNat_natCast, abs_of_nonneg (by positivity)]
      exact_mod_cast hL
    rw [hexp, max_eq_left (by omega)]
    have hmult : ∃ K : Int, (k : ℚ) = (K : ℚ) * pow2 ((natLog2 k : Int) - 23) ∧
        0 < pow2 ((natLog2 k : Int) - 23) := by
      unfold pow2
      by_cases h24 : natLog2 k = 24
      · have hk24 : k = 2 ^ 24 := by
          rw [h24] at hL
          omega
        rw [h24, hk24]
        refine ⟨2 ^ 23, ?_, ?_⟩ <;> norm_num
      · have hle : natLog2 k ≤ 23 := by omega
        by_cases h23 : natLog2 k = 23
        · rw [h23]
          exact ⟨k, by norm_num, by norm_num⟩
        · have hlt : (natLog2 k : Int) - 23 < 0 := by omega
          rw [if_neg (by omega)]
          refine ⟨(k : Int) * 2 ^ (-((natLog2 k : Int) - 23)).toNat, ?_, by positivity⟩
          push_cast
          field_simp
    obtain ⟨K, hK, hu⟩ := hmult
    rw [hK, roundToMultiple_multiple _ hu]

/-! ### Multiples of a power `1 / 2 ^ j` with a factor up to `2 ^ 24` are binary32 values -/

theorem log2Up_lt (n : Nat) : ∀ (fuel k : Nat), n < 2 ^ (k + fuel + 1) →
    n < 2 ^ (log2Up n fuel k + 1) := by
  intro fuel
  induction fuel with
  | zero => intro k h; exact h
  | succ f ih =>
    intro k h
    unfold log2Up
    split_ifs with h2
    · exact ih (k + 1) (by rw [show k + 1 + f + 1 = k + (f + 1) + 1 by omega]; exact h)
    · omega

theorem lt_natLog2 (n : Nat) : n < 2 ^ (natLog2 n + 1) :=
  log2Up_lt n n 0 (by rw [Nat.zero_add]; exact lt_trans (Nat.lt_two_pow n) (by
    exact Nat.pow_lt_pow_right (by decide) (by omega)))

theorem pow2_eq_zpow (e : Int) : pow2 e = (2 : ℚ) ^ e := by
  unfold pow2
  split_ifs with h
  · obtain ⟨n, rfl⟩ := Int.eq_ofNat_of_zero_le h
    simp
  · obtain ⟨n, hn⟩ := Int.eq_ofNat_of_zero_le (show 0 ≤ -e by omega)
    have he : e = -(n : Int) := by omega
    rw [hn, he]
    simp

/-- The exponent computed for a positive rational is not above its binary logarithm. -/
theorem binaryExponent_le (q : ℚ) (hq : 0 < q) : pow2 (binaryExponent q) ≤ q := by
  unfold binaryExponent
  simp only []
  rw [abs_of_pos hq]
  split_ifs with h
  · exact h
  · rw [pow2_eq_zpow]
    have hnum : 0 < q.num := Rat.num_pos.2 hq
    have hna : ((q.num.natAbs : Nat) : Int) = q.num := Int.natAbs_of_nonneg (le_of_lt hnum)
    have h1 : 2 ^ natLog2 q.num.natAbs ≤ q.num.natAbs := natLog2_le _ (by omega)
    have h2 : q.den < 2 ^ (natLog2 q.den + 1) := lt_natLog2 q.den
    have h1q : ((2 : ℚ) ^ (natLog2 q.num.natAbs : Int)) ≤ (q.num : ℚ) := by
      rw [zpow_natCast]
      have : ((2 ^ natLog2 q.num.natAbs : Nat) : ℚ) ≤ ((q.num.natAbs : Nat) : ℚ) := by
        exact_mod_cast h1
      have hc : ((q.num.natAbs : Nat) : ℚ) = (q.num : ℚ) := by
        rw [Nat.cast_natAbs, abs_of_pos hnum]
      rw [hc] at this
      simpa using this
    have h2q : (q.den : ℚ) ≤ (2 : ℚ) ^ ((natLog2 q.den : Int) + 1) := by
      have : ((q.den : Nat) : ℚ) ≤ ((2 ^ (natLog2 q.den + 1) : Nat) : ℚ) := by
        exact_mod_cast le_of_lt h2
      rw [show ((natLog2 q.den : Int) + 1) = ((natLog2 q.den + 1 : Nat) : Int) by push_cast; rfl,
        zpow_natCast]
      simpa using this
    have hden : (0 : ℚ) < (q.den : ℚ) := by exact_mod_cast q.den_pos
    have hsplit : (natLog2 q.num.natAbs : Int) - (natLog2 q.den : Int) - 1 =
        (natLog2 q.num.natAbs : Int) - ((natLog2 q.den : Int) + 1) := by ring
    rw [hsplit, zpow_sub₀ (by norm_num)]
    have hp : (0 : ℚ) < (2 : ℚ) ^ ((natLog2 q.den : Int) + 1) := by positivity
    have hfrac : (2 : ℚ) ^ (natLog2 q.num.natAbs : Int) / (2 : ℚ) ^ ((natLog2 q.den : Int) + 1) ≤
        (q.num : ℚ) / (q.den : ℚ) := by
      rw [div_le_div_iff₀ hp hden]
      calc (2 : ℚ) ^ (natLog2 q.num.natAbs : Int) * (q.den : ℚ)
          ≤ (q.num : ℚ) * (q.den : ℚ) := mul_le_mul_of_nonneg_right h1q (le_of_lt hden)
        _ ≤ (q.num : ℚ) * (2 : ℚ) ^ ((natLog2 q.den : Int) + 1) :=
            mul_le_mul_of_nonneg_left h2q (by exact_mod_cast le_of_lt hnum)
    rw [Rat.num_div_den] at hfrac
    exact hfrac

/-- Rounding to binary32 leaves `k / 2 ^ j` as it is, for `k ≤ 2 ^ 24` and `j ≤ 149`. -/
theorem binary32_dyadic (k j : Nat) (hk : k ≤ 2 ^ 24) (hj : j ≤ 149) :
    binary32 ((k : ℚ) / ((2 ^ j : Nat) : ℚ)) = (k : ℚ) / ((2 ^ j : Nat) : ℚ) := by
  unfold binary32
  rcases Nat.eq_zero_or_pos k with h0 | hpos
  · subst h0; simp
  · have hkq : (0 : ℚ) < (k : ℚ) := by exact_mod_cast hpos
    have hjq : (0 : ℚ) < ((2 ^ j : Nat) : ℚ) := by positivity
    have hq : (0 : ℚ) < (k : ℚ) / ((2 ^ j : Nat) : ℚ) := div_pos hkq hjq
    rw [if_neg (ne_of_gt hq)]
    have hform : (k : ℚ) / ((2 ^ j : Nat) : ℚ) = (k : ℚ) * (2 : ℚ) ^ (-(j : Int)) := by
      rw [zpow_neg, zpow_natCast]
      push_cast
      rfl
    have hle := binaryExponent_le _ hq
    generalize binaryExponent ((k : ℚ) / ((2 ^ j : Nat) : ℚ)) = e at hle
    rw [pow2_eq_zpow, hform] at hle
    rw [pow2_eq_zpow, hform]
    have hk24 : (k : ℚ) ≤ (2 : ℚ) ^ (24 : Int) := by
      have h16 : (k : ℚ) ≤ (16777216 : ℚ) := by exact_mod_cast hk
      have e16 : (2 : ℚ) ^ (24 : Int) = 16777216 := by norm_num
      rw [e16]
      exact h16
    have he : e ≤ 24 - (j : Int) := by
      have h1 : (2 : ℚ) ^ e ≤ (2 : ℚ) ^ (24 - (j : Int)) := by
        rw [sub_eq_add_neg, zpow_add₀ (by norm_num)]
        exact le_trans hle (mul_le_mul_of_nonneg_right hk24 (by positivity))
      exact (zpow_le_zpow_iff_right₀ (by norm_num)).1 h1
    have hu : (0 : ℚ) < (2 : ℚ) ^ (max e (-126) - 23) := by positivity
    by_cases hE : max e (-126) - 23 ≤ -(j : Int)
    · obtain ⟨d, hd⟩ := Int.eq_ofNat_of_zero_le (show 0 ≤ -(j : Int) - (max e (-126) - 23) by omega)
      have hK : (k : ℚ) * (2 : ℚ) ^ (-(j : Int)) =
          (((k : Int) * 2 ^ d : Int) : ℚ) * (2 : ℚ) ^ (max e (-126) - 23) := by
        have hsum : -(j : Int) = (d : Int) + (max e (-126) - 23) := by omega
        rw [hsum, zpow_add₀ (by norm_num), zpow_natCast]
        push_cast
        ring
      rw [hK, roundToMultiple_multiple _ hu]
    · have hemax : max e (-126) = e := by
        apply max_eq_left
        by_contra hc
        rw [max_eq_right (by omega)] at hE
        omega
      rw [hemax] at hE hu ⊢
      have hee : e = 24 - (j : Int) := by omega
      have hkk : (k : ℚ) = (2 : ℚ) ^ (24 : Int) := by
        apply le_antisymm hk24
        rw [hee, sub_eq_add_neg, zpow_add₀ (by norm_num)] at hle
        exact le_of_mul_le_mul_right hle (by positivity)
      have hK : (k : ℚ) * (2 : ℚ) ^ (-(j : Int)) =
          (((2 : Int) ^ 23 : Int) : ℚ) * (2 : ℚ) ^ (e - 23) := by
        rw [hkk, hee, ← zpow_add₀ (by norm_num)]
        have h23 : (((2 : Int) ^ 23 : Int) : ℚ) = (2 : ℚ) ^ (23 : Int) := by norm_num
        rw [h23, ← zpow_add₀ (by norm_num)]
        congr 1
        ring
      rw [hK, roundToMultiple_multiple _ hu]

end TankMaze


namespace TankMaze
namespace Maze

/-- The heuristic between two in-bounds cells is a whole number within `rows + cols`. -/
theorem heuristic_bound (m : Maze) (n t : GridPos) (hn : n ∈ m.cellSet) (ht : t ∈ m.cellSet) :
    ∃ k : Nat, heuristic n t = (k : ℚ) ∧ k ≤ m.m_rows + m.m_cols := by
  rw [mem_cellSet, inBounds_iff] at hn ht
  refine ⟨(|n.x - t.x| + |n.y - t.y|).toNat, ?_, ?_⟩
  · unfold heuristic
    have h0 : 0 ≤ |n.x - t.x| + |n.y - t.y| := by positivity
    have : (((|n.x - t.x| + |n.y - t.y|).toNat : Nat) : Int) = |n.x - t.x| + |n.y - t.y| :=
      Int.toNat_of_nonneg h0
    exact_mod_cast this.symm
  · have h1 : |n.x - t.x| + |n.y - t.y| ≤ (m.m_rows : Int) + (m.m_cols : Int) := by
      simp only [abs_eq_max_neg]
      omega
    omega

/-- With a cost `p / q ≥ 0` in lowest terms and a rounding that leaves the multiples of `1 / q`
with a factor up to `(cells + 1) * max p q + (rows + cols) * q` as they are, the search in
rounded arithmetic returns a result with enough fuel: the result of the exact search when the
target cell lies in bounds, and the empty result when it does not. -/
theorem findPathThroughDestructibleF_exact (fl : ℚ → ℚ) (m : Maze) (start target : Vec2)
    (dc : ℚ) (fuel : Nat) (hdc : 0 ≤ dc)
    (hfl : ∀ k : Nat, k ≤ m.m_rows * m.m_cols * max dc.num.toNat dc.den +
        max dc.num.toNat dc.den + (m.m_rows + m.m_cols) * dc.den →
      fl ((k : ℚ) / (dc.den : ℚ)) = (k : ℚ) / (dc.den : ℚ))
    (hfuel : weightedSearchFuel m dc ≤ fuel) :
    (worldToGrid target ∈ m.cellSet →
      m.findPathThroughDestructibleF fl fuel start target dc =
        m.findPathThroughDestructible start target dc) ∧
    (worldToGrid target ∉ m.cellSet →
      m.findPathThroughDestructibleF fl fuel start target dc = some {}) := by
  have hmc := destructibleMoveCost_units m dc hdc
  have hden : 0 < dc.den := dc.den_pos
  have hd : (dc.den : ℚ) ≠ 0 := by exact_mod_cast dc.den_nz
  have hcard := card_cellSet_le m
  generalize hM : max dc.num.toNat dc.den = M at hfl hmc
  have hb : M * m.cellSet.card ≤ m.m_rows * m.m_cols * M := by
    rw [Nat.mul_comm]
    exact Nat.mul_le_mul_right _ hcard
  have hW : weightedSearchFuel m dc =
      2 * (m.m_rows * m.m_cols) * (m.m_rows * m.m_cols * M + 1) + 2 := by
    unfold weightedSearchFuel
    rw [hM]
  have hfl1 : ∀ k : Nat, k ≤ m.m_rows * m.m_cols * M + M →
      fl ((k : ℚ) / (dc.den : ℚ)) = (k : ℚ) / (dc.den : ℚ) :=
    fun k hk => hfl k (by omega)
  constructor
  · intro ht
    unfold findPathThroughDestructibleF findPathThroughDestructible
    simp only []
    by_cases h1 : (!(m.isWalkable (worldToGrid start).y (worldToGrid start).x)) = true
    · rw [if_pos h1, if_pos h1]
    · rw [if_neg h1, if_neg h1]
      split_ifs with h2
      · rfl
      · have hs : worldToGrid start ∈ m.cellSet := by
          rw [mem_cellSet]
          apply isWalkable_inBounds
          simpa using h1
        obtain ⟨kh, hkh, hkhb⟩ := heuristic_bound m _ _ hs ht
        have hkd : kh * dc.den ≤ (m.m_rows + m.m_cols) * dc.den := Nat.mul_le_mul_right _ hkhb
        have hinit : searchInitF fl (worldToGrid start) (worldToGrid target) =
            searchInit (worldToGrid start) (worldToGrid target) := by
          unfold searchInitF searchInit
          have h3 : heuristic (worldToGrid start) (worldToGrid target) =
              ((kh * dc.den : Nat) : ℚ) / (dc.den : ℚ) := by
            rw [hkh]; push_cast; field_simp
          rw [h3, hfl (kh * dc.den) (by omega)]
        have hinv := (weak_init (destructibleMoveCost m dc) m.cellSet (worldToGrid start)
          (heuristic (worldToGrid start) (worldToGrid target)) dc.den M
          (m.m_rows * m.m_cols * M) hs hb).1
        have hinv2 : WeakInv (destructibleMoveCost m dc) m.cellSet (worldToGrid start) dc.den
            M (m.m_rows * m.m_cols * M)
            (searchInit (worldToGrid start) (worldToGrid target)) (fun _ => 0) := hinv
        rw [hinit, searchLoopF_eq (worldToGrid target) hden hmc
          (fun n hn => heuristic_bound m n _ hn ht) hfl fuel _ _ hinv2]
        have hsame : searchLoop (destructibleMoveCost m dc) (worldToGrid target) fuel
            (searchInit (worldToGrid start) (worldToGrid target)) =
            searchLoop (destructibleMoveCost m dc) (worldToGrid target)
              (weightedSearchFuel m dc)
              (searchInit (worldToGrid start) (worldToGrid target)) := by
          rcases weighted_search_ends m (worldToGrid start) (worldToGrid target) dc hdc hs
            with h | ⟨st, _, h, _⟩
          · rw [h, searchLoop_mono _ _ _ fuel _ _ h hfuel]
          · rw [h, searchLoop_mono _ _ _ fuel _ _ h hfuel]
        exact hsame ▸ rfl
  · intro ht
    unfold findPathThroughDestructibleF
    simp only []
    split_ifs with h1 h2
    · rfl
    · rfl
    · have hs : worldToGrid start ∈ m.cellSet := by
        rw [mem_cellSet]
        apply isWalkable_inBounds
        simpa using h1
      obtain ⟨hinv, hmeasure⟩ := weak_init (destructibleMoveCost m dc) m.cellSet
        (worldToGrid start) (fl (heuristic (worldToGrid start) (worldToGrid target))) dc.den
        M (m.m_rows * m.m_cols * M) hs hb
      have hinv2 : WeakInv (destructibleMoveCost m dc) m.cellSet (worldToGrid start) dc.den
          M (m.m_rows * m.m_cols * M)
          (searchInitF fl (worldToGrid start) (worldToGrid target)) (fun _ => 0) := hinv
      have hmeasure2 : (searchInitF fl (worldToGrid start) (worldToGrid target)).openSet.length +
          2 * potential m.cellSet dc.den (m.m_rows * m.m_cols * M)
            (searchInitF fl (worldToGrid start) (worldToGrid target)) ≤
          1 + 2 * (m.cellSet.card * (m.m_rows * m.m_cols * M + 1)) := hmeasure
      have hlt : (searchInitF fl (worldToGrid start) (worldToGrid target)).openSet.length +
          2 * potential m.cellSet dc.den (m.m_rows * m.m_cols * M)
            (searchInitF fl (worldToGrid start) (worldToGrid target)) < fuel := by
        have h3 : m.cellSet.card * (m.m_rows * m.m_cols * M + 1) ≤
            m.m_rows * m.m_cols * (m.m_rows * m.m_cols * M + 1) :=
          Nat.mul_le_mul_right _ hcard
        have h4 : 2 * (m.m_rows * m.m_cols) * (m.m_rows * m.m_cols * M + 1) =
            2 * (m.m_rows * m.m_cols * (m.m_rows * m.m_cols * M + 1)) := by ring
        omega
      obtain ⟨out, hout, hpost⟩ := searchLoopF_weak (worldToGrid target) hden hmc hfl1 fuel _ _
        hinv2 hlt
      cases out with
      | none => rw [hout]
      | some st =>
        exfalso
        obtain ⟨⟨rank2, hinv3⟩, v, hv⟩ := hpost st rfl
        exact ht (hinv3.g_cells _ v hv)

end Maze
end TankMaze


namespace TankMaze
namespace Maze

/-- C13 fails in the code: `placeWall` finds the cell of a point by truncation toward zero, so
that a coordinate between minus one tile and zero gives the index 0, which passes the bounds
test of `canPlaceWall`. In the maze `..S.E` the point `(90, -30)` lies above the grid rectangle,
in no in-bounds cell, yet `placeWall` returns true there and turns the Empty cell of row 0,
column 1 into a Destructible cell. -/
theorem placeWall_accepts_point_above_grid :
    outsideGrid corridorFar ⟨90, -30⟩ ∧
    (∀ r c : Int, corridorFar.inBounds r c = true → ¬ inCell ⟨90, -30⟩ r c) ∧
    corridorFar.typeAt 0 1 = WallType.None ∧
    (corridorFar.placeWall axisHypot ⟨90, -30⟩).1 = true ∧
    (corridorFar.placeWall axisHypot ⟨90, -30⟩).2.typeAt 0 1 = WallType.Destructible := by
  refine ⟨Or.inr (Or.inr (Or.inl (by norm_num))), ?_, by decide!, by decide!, by decide!⟩
  intro r c hin hcell
  have hr : 0 ≤ r := ((inBounds_iff corridorFar r c).1 hin).1
  have h3 : (r : ℚ) * m_tileSize ≤ -30 := hcell.2.2.1
  have h4 : (0 : ℚ) ≤ (r : ℚ) := by exact_mod_cast hr
  unfold m_tileSize at h3
  linarith

/-- C7 fails in the code: both searches find the cell of an endpoint by truncation toward zero,
so that the point `(-30, 30)`, which lies west of the grid rectangle of the maze `..` and in no
in-bounds cell, is taken for the cell `(0, 0)`. With it as start `findPath` and
`findPathThroughDestructible` return the one-waypoint path to the cell `(1, 0)`, and with it as
target they return the path that ends on the centre of the cell `(0, 0)`. -/
theorem pathfinders_accept_point_outside_grid :
    outsideGrid floorPair ⟨-30, 30⟩ ∧
    (∀ r c : Int, floorPair.inBounds r c = true → ¬ inCell ⟨-30, 30⟩ r c) ∧
    floorPair.findPath ⟨-30, 30⟩ ⟨90, 30⟩ = some [⟨90, 30⟩] ∧
    floorPair.findPath ⟨90, 30⟩ ⟨-30, 30⟩ = some [⟨30, 30⟩] ∧
    (floorPair.findPathThroughDestructible ⟨-30, 30⟩ ⟨90, 30⟩ 3).map PathResult.path =
      some [⟨90, 30⟩] ∧
    (floorPair.findPathThroughDestructible ⟨90, 30⟩ ⟨-30, 30⟩ 3).map PathResult.path =
      some [⟨30, 30⟩] := by
  refine ⟨Or.inl (by norm_num), ?_, by decide!, by decide!, by decide!, by decide!⟩
  intro r c hin hcell
  have hc : 0 ≤ c := ((inBounds_iff floorPair r c).1 hin).2.2.1
  have h3 : (c : ℚ) * m_tileSize ≤ -30 := hcell.1
  have h4 : (0 : ℚ) ≤ (c : ℚ) := by exact_mod_cast hc
  unfold m_tileSize at h3
  linarith

end Maze
end TankMaze


namespace TankMaze
namespace MazeGenerator

/-- C19 fails in the code for the request 3 by 3 in dual-spawn mode: the sizes are at least 3,
the constructor keeps them, and for every engine, clock, seed, enemy count, ratio and escape
flag `generate` returns no list of rows at all: after the carving a single cell is Empty, so
that fewer than three empty cells are found and `placeMultiplayerSpawns` writes the marker `1`
at column `3 / 2 - 2 = -1`, outside the grid. -/
theorem tiny_dual_request_returns_no_rows (mt19937 : Nat → Nat → Nat) (now seed : Nat)
    (enemyCount : Int) (ratio : ℚ) (escape : Bool) :
    (3 : Int) ≤ 3 ∧ (MazeGenerator.new 3 3).m_width = 3 ∧ (MazeGenerator.new 3 3).m_height = 3 ∧
    (configured 3 3 seed enemyCount ratio true escape).m_multiplayerMode = true ∧
    ∀ r, generate mt19937 now (configured 3 3 seed enemyCount ratio true escape) ≠
      Except.ok r := by
  refine ⟨le_refl _, rfl, rfl, rfl, ?_⟩
  obtain ⟨c1, hcarve, hpost, _, _⟩ := carve_initial
    (seeded mt19937 now (configured 3 3 seed enemyCount ratio true escape))
    (by show (3 : Int) ≤ 3; decide) (by show (3 : Int) ≤ 3; decide) rfl
  have hcarve2 : carvePassage
      ((configured 3 3 seed enemyCount ratio true escape).m_width.toNat *
        (configured 3 3 seed enemyCount ratio true escape).m_height.toNat) 1 1
      (seeded mt19937 now (configured 3 3 seed enemyCount ratio true escape)) =
      Except.ok c1 := hcarve
  have hw1 : c1.m_width = 3 := hpost.width_eq
  have hh1 : c1.m_height = 3 := hpost.height_eq
  have hm1 : c1.m_multiplayerMode = true := by
    have h := congrArg MazeGenerator.m_multiplayerMode hpost.others
    exact h
  have hfew : (getEmptySpaces c1).length < 3 := by
    unfold getEmptySpaces
    rw [hw1, hh1]
    have h1 : (interior 3 3).length = 1 := by decide
    have h2 := List.length_filter_le (fun p : Int × Int => decide (cellAt c1.m_grid p.2 p.1 = '.'))
      (interior 3 3)
    omega
  have hwrite : gridSet c1.m_grid (Int.tdiv c1.m_height 2) (Int.tdiv c1.m_width 2 - 2) '1' =
      Except.error GenError.outOfBounds := by
    unfold gridSet inRange2
    rw [hw1, hh1]
    rw [if_neg]
    rw [decide_eq_true_eq]
    intro hc
    have h3 := hc.2.2.1
    revert h3
    decide
  intro r hr
  rw [generate_eq, hcarve2] at hr
  have hrun : finishRun c1 = Except.error GenError.outOfBounds := by
    unfold finishRun placeAndConnect
    rw [if_pos hm1]
    unfold placeMultiplayerSpawns
    simp only []
    rw [if_pos hfew, hwrite]
  have hr2 : finishRun c1 = Except.ok r := hr
  rw [hrun] at hr2
  cases hr2

end MazeGenerator
end TankMaze


namespace TankMaze

namespace Maze

end Maze
end TankMaze


namespace TankMaze

end TankMaze


namespace TankMaze
namespace Maze

end Maze
end TankMaze


namespace TankMaze
namespace Maze

end Maze
end TankMaze


namespace TankMaze

/-- In a list sorted by descending key, the entry at an index below the number of entries with
a key of at least `D` has a key of at least `D`. -/
theorem sorted_prefix_key {α : Type} (key : α → Int) (L : List α)
    (hs : L.Pairwise (fun a b => key a ≥ key b)) (D : Int) (k : Nat) (a : α)
    (hk : L[k]? = some a)
    (hcount : k < (L.filter (fun x => decide (key x ≥ D))).length) : key a ≥ D := by
  by_contra hlt
  have hsplit : L = L.take k ++ L.drop k := (List.take_append_drop k L).symm
  have hdrop : L.drop k = a :: L.drop (k + 1) := by
    have hklt : k < L.length := by
      by_contra hc
      rw [List.getElem?_eq_none (by omega)] at hk
      cases hk
    rw [List.drop_eq_getElem_cons hklt]
    congr 1
    rw [List.getElem?_eq_getElem hklt] at hk
    exact Option.some.inj hk
  have hpw : (L.drop k).Pairwise (fun a b => key a ≥ key b) := hs.sublist (List.drop_sublist k L)
  rw [hdrop, List.pairwise_cons] at hpw
  have hnone : (L.drop k).filter (fun x => decide (key x ≥ D)) = [] := by
    rw [List.filter_eq_nil_iff]
    intro x hx
    rw [hdrop] at hx
    rw [decide_eq_true_eq]
    rcases List.mem_cons.1 hx with rfl | hx
    · exact hlt
    · have := hpw.1 x hx
      omega
  rw [hsplit, List.filter_append, hnone, List.append_nil] at hcount
  have h1 := List.length_filter_le (fun x => decide (key x ≥ D)) (L.take k)
  have h2 := List.length_take_le k L
  omega

namespace MazeGenerator

/-- What `placeStartAndEnd` records and writes when at least two cells are empty: the start `s`
and the exit `e` are two different empty cells, the exit is at a distance of at least `D` from
the start whenever the empty cells other than the start at such a distance number more than
the index bound `max 1 (0.4 * (n - 1))`, and the grid changes at these two cells only. -/
theorem placeStartAndEnd_far (g gp : MazeGenerator) (hwf : GridWF g.m_width g.m_height g.m_grid)
    (hlen : 2 ≤ (getEmptySpaces g).length) (h : placeStartAndEnd g = Except.ok gp) :
    (gp.m_startX, gp.m_startY) ∈ getEmptySpaces g ∧
    (gp.m_endX, gp.m_endY) ∈ getEmptySpaces g ∧
    (gp.m_startX, gp.m_startY) ≠ (gp.m_endX, gp.m_endY) ∧
    (∀ D : Int, 0 < D →
      max 1 (((getEmptySpaces g).length - 1) * 4 / 10) ≤
        ((getEmptySpaces g).filter (fun p =>
          decide (|p.1 - gp.m_startX| + |p.2 - gp.m_startY| ≥ D))).length →
      |gp.m_endX - gp.m_startX| + |gp.m_endY - gp.m_startY| ≥ D) ∧
    (∀ y x, cellAt gp.m_grid y x =
      if y = gp.m_endY ∧ x = gp.m_endX then 'E'
      else if y = gp.m_startY ∧ x = gp.m_startX then 'S' else cellAt g.m_grid y x) := by
  have hnd : (getEmptySpaces g).Nodup := (interior_nodup _ _).filter _
  unfold placeStartAndEnd at h
  simp only [] at h
  rw [if_neg (by omega)] at h
  have hperm := shuffleList_perm (getEmptySpaces g) g.m_rng
  have hplen := hperm.length_eq
  split at h
  · cases h
  · rename_i s heqs
    have hs0 := (vecGet_mem heqs).2
    have hsmem : s ∈ getEmptySpaces g := hperm.mem_iff.1 (vecGet_mem heqs).1
    have hins := inGrid_of_mem_empty g s hsmem
    have hshape : (shuffleList (getEmptySpaces g) g.m_rng).1 =
        s :: (shuffleList (getEmptySpaces g) g.m_rng).1.drop 1 := by
      cases hsh : (shuffleList (getEmptySpaces g) g.m_rng).1 with
      | nil => rw [hsh] at hs0; cases hs0
      | cons a as =>
        rw [hsh] at hs0
        simp only [List.getElem?_cons_zero, Option.some.injEq] at hs0
        rw [hs0]
        rfl
    have hnd2 : (s :: (shuffleList (getEmptySpaces g) g.m_rng).1.drop 1).Nodup := by
      rw [← hshape]; exact hperm.nodup_iff.2 hnd
    split at h
    · cases h
    · rename_i sel heqsel
      have hsel1 := (vecGet_mem heqsel).1
      have hselidx := (vecGet_mem heqsel).2
      unfold sortDescending at hsel1 hselidx
      rw [(List.perm_insertionSort _ _).mem_iff, List.mem_map] at hsel1
      obtain ⟨e, he, hesel⟩ := hsel1
      have hselmem : sel.2 ∈ getEmptySpaces g := by
        rw [← hesel]
        exact hperm.mem_iff.1 (List.mem_of_mem_drop he)
      have hselkey : sel.1 = |sel.2.1 - s.1| + |sel.2.2 - s.2| := by
        rw [← hesel]
      have hinsel := inGrid_of_mem_empty g sel.2 hselmem
      rw [gridSet_ok hwf _ _ 'S' hins] at h
      simp only [] at h
      rw [gridSet_ok (hwf.set2 _ _ _) _ _ 'E' hinsel] at h
      simp only [] at h
      have hgp := Except.ok.inj h
      have e1 : gp.m_startX = s.1 := by rw [← hgp]
      have e2 : gp.m_startY = s.2 := by rw [← hgp]
      have e3 : gp.m_endX = sel.2.1 := by rw [← hgp]
      have e4 : gp.m_endY = sel.2.2 := by rw [← hgp]
      have e5 : gp.m_grid = set2 (set2 g.m_grid s.2.toNat s.1.toNat 'S') sel.2.2.toNat
          sel.2.1.toNat 'E' := by rw [← hgp]
      rw [e1, e2, e3, e4, e5]
      refine ⟨hsmem, hselmem, ?_, ?_, ?_⟩
      · intro hc
        have hc2 : s = sel.2 := hc
        have hc3 : sel.2 = e := by rw [← hesel]
        rw [hc3] at hc2
        rw [← hc2] at he
        exact (List.nodup_cons.1 hnd2).1 he
      · intro D hD hcount
        rw [← hselkey]
        have hsorted : ((List.map (fun e => (|e.1 - s.1| + |e.2 - s.2|, e))
            (List.drop 1 (shuffleList (getEmptySpaces g) g.m_rng).1)).insertionSort
            (fun a b => a.1 ≥ b.1)).Pairwise (fun a b => a.1 ≥ b.1) := by
          have : IsTotal (Int × (Int × Int)) (fun a b => a.1 ≥ b.1) :=
            ⟨fun a b => le_total b.1 a.1⟩
          have : IsTrans (Int × (Int × Int)) (fun a b => a.1 ≥ b.1) :=
            ⟨fun a b c hab hbc => le_trans hbc hab⟩
          exact List.sorted_insertionSort _ _
        apply sorted_prefix_key (fun a : Int × (Int × Int) => a.1) _ hsorted D _ sel hselidx
        -- the entries at a distance of at least `D`
        have hc1 : List.length (List.filter (fun x : Int × (Int × Int) => decide (x.1 ≥ D))
            ((List.map (fun e => (|e.1 - s.1| + |e.2 - s.2|, e))
            (List.drop 1 (shuffleList (getEmptySpaces g) g.m_rng).1)).insertionSort
            (fun a b => a.1 ≥ b.1))) =
            ((getEmptySpaces g).filter (fun p =>
              decide (|p.1 - s.1| + |p.2 - s.2| ≥ D))).length := by
          rw [((List.perm_insertionSort _ _).filter _).length_eq, List.filter_map,
            List.length_map]
          have hcomp : ((fun x : Int × (Int × Int) => decide (x.1 ≥ D)) ∘
              fun e : Int × Int => (|e.1 - s.1| + |e.2 - s.2|, e)) =
              (fun p => decide (|p.1 - s.1| + |p.2 - s.2| ≥ D)) := rfl
          rw [hcomp, ← (hperm.filter _).length_eq]
          conv_rhs => rw [hshape]
          rw [List.filter_cons_of_neg
            (by rw [decide_eq_true_eq]; simp only [sub_self, abs_zero, add_zero]; omega)]
        have hLlen : (List.insertionSort (fun a b : Int × (Int × Int) => a.1 ≥ b.1)
            (List.map (fun e => (|e.1 - s.1| + |e.2 - s.2|, e))
              (List.drop 1 (shuffleList (getEmptySpaces g) g.m_rng).1))).length =
            (getEmptySpaces g).length - 1 := by
          rw [List.length_insertionSort, List.length_map, List.length_drop, hplen]
        rw [hc1, hLlen]
        have hmod := Nat.mod_lt (shuffleList (getEmptySpaces g) g.m_rng).2.next.1
          (show 0 < max 1 (((getEmptySpaces g).length - 1) * 4 / 10) by omega)
        omega
      · intro y x
        rw [cellAt_set2 (hwf.set2 _ _ _) _ _ 'E' hinsel, cellAt_set2 hwf _ _ 'S' hins]

end MazeGenerator
end TankMaze


namespace TankMaze
namespace MazeGenerator

/-- In the corridor of width 23, at least eight of the 21 interior cells lie at a distance of
at least 9 from a cell among the five westmost or the five eastmost. -/
theorem corridor_far_count : ∀ sx ∈ ([1, 2, 3, 4, 5, 17, 18, 19, 20, 21] : List Int),
    8 ≤ ((interior 23 3).filter (fun p => decide (|p.1 - sx| + |p.2 - 1| ≥ 9))).length := by
  decide!

/-- A filter that keeps fewer conditions keeps more cells: strictly more when some cell passes
the weaker test only. -/
theorem length_filter_lt_of_mem {α : Type} (p q : α → Bool) (l : List α)
    (hpq : ∀ x, p x = true → q x = true) (c : α) (hc : c ∈ l) (hq : q c = true)
    (hp : p c = false) : (l.filter p).length < (l.filter q).length := by
  have e : l.filter p = (l.filter q).filter p := by
    rw [List.filter_filter]
    apply List.filter_congr
    intro x _
    cases hx : p x with
    | false => rfl
    | true => rw [hpq x hx]; rfl
  rw [e, List.length_filter_lt_length_iff_exists]
  exact ⟨c, List.mem_filter.2 ⟨hc, hq⟩, by rw [hp]; simp⟩

/-- A cell of the corridor at a distance of exactly 5 from the start and above 3 from the exit,
for a start and an exit as `placeStartAndEnd` chooses them in the corridor of width 23. -/
theorem corridor_cell_at_five (sx ex : Int) (hs : 1 ≤ sx ∧ sx ≤ 21)
    (hfar : 8 ≤ ((interior 23 3).filter (fun p => decide (|p.1 - sx| + |p.2 - 1| ≥ 9))).length →
      |ex - sx| ≥ 9) :
    ∃ cx : Int, 1 ≤ cx ∧ cx ≤ 21 ∧ |cx - sx| = 5 ∧ |cx - ex| > 3 := by
  by_cases h1 : sx ≤ 5
  · have hmem : sx ∈ ([1, 2, 3, 4, 5, 17, 18, 19, 20, 21] : List Int) := by
      have : sx = 1 ∨ sx = 2 ∨ sx = 3 ∨ sx = 4 ∨ sx = 5 := by omega
      rcases this with h | h | h | h | h <;> rw [h] <;> decide
    have hd := hfar (corridor_far_count sx hmem)
    refine ⟨sx + 5, by omega, by omega, ?_, ?_⟩
    · simp
    · simp only [abs_eq_max_neg] at hd ⊢
      omega
  · by_cases h2 : 17 ≤ sx
    · have hmem : sx ∈ ([1, 2, 3, 4, 5, 17, 18, 19, 20, 21] : List Int) := by
        have : sx = 17 ∨ sx = 18 ∨ sx = 19 ∨ sx = 20 ∨ sx = 21 := by omega
        rcases this with h | h | h | h | h <;> rw [h] <;> decide
      have hd := hfar (corridor_far_count sx hmem)
      refine ⟨sx - 5, by omega, by omega, ?_, ?_⟩
      · simp
      · simp only [abs_eq_max_neg] at hd ⊢
        omega
    · by_cases h3 : |sx + 5 - ex| > 3
      · refine ⟨sx + 5, by omega, by omega, by simp, h3⟩
      · refine ⟨sx - 5, by omega, by omega, by simp, ?_⟩
        simp only [abs_eq_max_neg] at h3 ⊢
        omega

end MazeGenerator
end TankMaze


namespace TankMaze
namespace MazeGenerator

/-- C25 fails in the code, whatever the engine, the clock and the seed. On the corridor of 23
by 3 cells in single-spawn mode with 100 enemies asked for and no destructible walls,
`generate` returns rows in which some interior cell `c` left Empty lies at a Manhattan distance
of exactly 5 from the start and above 3 from the exit and is still Empty: `c` belongs to the
set `C` of the claim, yet `placeEnemies` leaves it out, since it tests
`distFromStart > minDistFromStart` with `minDistFromStart = 5`. So the number of `X` cells is
below `min(enemyCount, |C|)`. -/
theorem corridor_enemies_fall_short (mt19937 : Nat → Nat → Nat) (now seed : Nat) :
    ∃ r, generate mt19937 now (configured 23 3 seed 100 0 false false) = Except.ok r ∧
      ∃ xs : List (Int × Int), xs.Nodup ∧
        (∀ p : Int × Int, p ∈ xs ↔ rowsCell r.1 p.2 p.1 = 'X') ∧
        xs.length < min 100 (enemyCells r.1 23 3 (r.2.m_startX, r.2.m_startY)
          (r.2.m_endX, r.2.m_endY) 4).length ∧
        ∃ c ∈ enemyCells r.1 23 3 (r.2.m_startX, r.2.m_startY) (r.2.m_endX, r.2.m_endY) 4,
          rowsCell r.1 c.2 c.1 = '.' ∧ |c.1 - r.2.m_startX| + |c.2 - r.2.m_startY| = 5 := by
  have hw : (3 : Int) ≤ (configured 23 3 seed 100 0 false false).m_width := by
    show (3 : Int) ≤ 23; decide
  have hh : (3 : Int) ≤ (configured 23 3 seed 100 0 false false).m_height := by
    show (3 : Int) ≤ 3; decide
  obtain ⟨r, hr⟩ := generate_total mt19937 now (configured 23 3 seed 100 0 false false) hw hh
    (fun hm => absurd (show false = true from hm) (by decide))
  refine ⟨r, hr, ?_⟩
  obtain ⟨g1, g2, g3, hcarve, hpost1, h2, hl2, h3, h4, hrows, hk, ho3, ho4⟩ :=
    generate_stages mt19937 now _ hw hh r hr
  have hw1 : g1.m_width = 23 := hpost1.width_eq
  have hh1 : g1.m_height = 3 := hpost1.height_eq
  have hm1 : g1.m_multiplayerMode = false := by
    have h := congrArg MazeGenerator.m_multiplayerMode hpost1.others
    exact h
  have hwf1 : GridWF g1.m_width g1.m_height g1.m_grid := by
    rw [hw1, hh1]; exact hpost1.wf
  -- the carving opens the whole corridor
  have hopen := (carve_complete (seeded mt19937 now (configured 23 3 seed 100 0 false false)) g1
    hw hh (by show (23 : Int) % 2 = 1; decide) (by show (3 : Int) % 2 = 1; decide) rfl hcarve).2
    (Or.inr rfl)
  have hfloor : ∀ p ∈ interior 23 3, cellAt g1.m_grid p.2 p.1 = '.' := by
    intro p hp
    rw [mem_interior] at hp
    apply hopen
    show 0 < p.1 ∧ p.1 < (23 : Int) - 1 ∧ 0 < p.2 ∧ p.2 < (3 : Int) - 1
    omega
  have hE : getEmptySpaces g1 = interior 23 3 := by
    unfold getEmptySpaces
    rw [hw1, hh1, List.filter_eq_self]
    intro p hp
    rw [decide_eq_true_eq]
    exact hfloor p hp
  have hElen : (interior 23 3).length = 21 := by decide
  -- the placement
  unfold placeAndConnect at h2
  rw [if_neg (by rw [hm1]; decide)] at h2
  split at h2
  · cases h2
  · rename_i gp hp
    obtain ⟨gq, hq, htag, _⟩ := placeStartAndEnd_spec g1 hwf1 hpost1.alphabet (by omega) (by omega)
      hm1
    have hgq : gq = gp := by
      rw [hq] at hp
      exact Except.ok.inj hp
    subst hgq
    obtain ⟨hs, he, hne, hfar, hcells⟩ := placeStartAndEnd_far g1 gq hwf1
      (by rw [hE, hElen]; decide) hq
    rw [hE] at hs he hfar
    rw [mem_interior] at hs he
    have hsy : gq.m_startY = 1 := by omega
    have hey : gq.m_endY = 1 := by omega
    have hmq : gq.m_multiplayerMode = false := by
      obtain ⟨_, _, _, _, _, _, e⟩ := placeStartAndEnd_frame g1 gq hq
      rw [e]; exact hm1
    obtain ⟨gz, hz, _, hext, _, _⟩ := ensurePath_spec gq gq.m_startX gq.m_startY gq.m_endX
      gq.m_endY htag.wf (htag.startIn hmq) htag.endIn
    have hgz : g2 = gz := by
      rw [hz] at h2
      exact (Except.ok.inj h2).symm
    subst hgz
    have ho2 := ensurePath_frame _ _ _ _ _ _ hz
    obtain ⟨a2x, a2y, _, _⟩ := onlyGrid_start ho2
    obtain ⟨b2x, b2y, _, _, _, _⟩ := onlyGrid_positions ho2
    obtain ⟨a3x, a3y, w3, h3h⟩ := onlyGrid_start ho3
    obtain ⟨b3x, b3y, _, _, _, _⟩ := onlyGrid_positions ho3
    obtain ⟨a4x, a4y, _, _⟩ := onlyGrid_start ho4
    obtain ⟨b4x, b4y, _, _, _, _⟩ := onlyGrid_positions ho4
    have esx : r.2.m_startX = gq.m_startX := by rw [a4x, a3x, a2x]
    have esy : r.2.m_startY = 1 := by rw [a4y, a3y, a2y, hsy]
    have eex : r.2.m_endX = gq.m_endX := by rw [b4x, b3x, b2x]
    have eey : r.2.m_endY = 1 := by rw [b4y, b3y, b2y, hey]
    have hxne : gq.m_startX ≠ gq.m_endX := by
      intro hc
      apply hne
      rw [hc, hsy, hey]
    -- a cell at distance 5
    obtain ⟨cx, hc1, hc2, hc3, hc4⟩ := corridor_cell_at_five gq.m_startX gq.m_endX
      ⟨hs.2.2.1, by omega⟩ (by
        intro hcount
        have := hfar 9 (by decide) (by
          rw [hElen, hsy]
          exact hcount)
        rw [hsy, hey] at this
        simpa using this)
    have hcne1 : cx ≠ gq.m_endX := by
      intro hc
      rw [hc] at hc4
      simp at hc4
    have hcne2 : cx ≠ gq.m_startX := by
      intro hc
      rw [hc] at hc3
      simp at hc3
    have hcint : ((cx, 1) : Int × Int) ∈ interior 23 3 := by
      rw [mem_interior]
      show 1 ≤ (1 : Int) ∧ (1 : Int) < 3 - 1 ∧ 1 ≤ cx ∧ cx < 23 - 1
      omega
    have hcq : cellAt gq.m_grid 1 cx = '.' := by
      rw [hcells 1 cx, if_neg (fun h => hcne1 h.2), if_neg (fun h => hcne2 h.2)]
      exact hfloor (cx, 1) hcint
    have hc2g : cellAt g2.m_grid 1 cx = '.' := by
      rcases hext 1 cx with k | ⟨_, k⟩
      · rw [k]; exact hcq
      · exact k
    obtain ⟨xs0, _, _, hsub0, hcell3⟩ := placeEnemies_exact g2 g3 hl2.tagged.wf h3
    have hc3g : cellAt g3.m_grid 1 cx = '.' := by
      rw [hcell3 1 cx, if_neg, hc2g]
      intro hin
      have := hsub0 _ hin
      rw [List.mem_filter, decide_eq_true_eq] at this
      have hd := this.2.2.1
      rw [a2x, a2y, hsy] at hd
      simp only [sub_self, abs_zero, add_zero] at hd
      omega
    have hwf3 : GridWF g3.m_width g3.m_height g3.m_grid := by
      rw [w3, h3h]
      exact (placeEnemies_chars g2 g3 hl2.tagged.wf h3).1
    have hc4g : cellAt r.2.m_grid 1 cx = '.' := by
      rcases placeDestructibleWalls_exact g3 r.2 hwf3 h4 1 cx with k | ⟨k, _⟩
      · rw [k]; exact hc3g
      · rw [hc3g] at k
        exact absurd k (by decide)
    have hrow : rowsCell r.1 1 cx = '.' := by
      rw [hrows, rowsCell_mk]; exact hc4g
    have hin4 : ((cx, 1) : Int × Int) ∈ enemyCells r.1 23 3 (r.2.m_startX, r.2.m_startY)
        (r.2.m_endX, r.2.m_endY) 4 := by
      unfold enemyCells
      rw [List.mem_filter, decide_eq_true_eq]
      refine ⟨hcint, Or.inl hrow, ?_, ?_⟩
      · show |cx - r.2.m_startX| + |(1 : Int) - r.2.m_startY| > 4
        rw [esx, esy, hc3]; simp
      · show |cx - r.2.m_endX| + |(1 : Int) - r.2.m_endY| > 3
        rw [eex, eey]; simpa using hc4
    have hnot5 : ((cx, 1) : Int × Int) ∉ enemyCells r.1 23 3 (r.2.m_startX, r.2.m_startY)
        (r.2.m_endX, r.2.m_endY) 5 := by
      unfold enemyCells
      rw [List.mem_filter, decide_eq_true_eq]
      rintro ⟨_, _, hd, _⟩
      have hd2 : |cx - r.2.m_startX| + |(1 : Int) - r.2.m_startY| > 5 := hd
      rw [esx, esy, hc3] at hd2
      simp at hd2
    obtain ⟨xs, hnd, hiff, hlen, _⟩ := enemies_follow_code mt19937 now _ hw hh r hr
    have hlen2 : xs.length = min 100 (enemyCells r.1 23 3 (r.2.m_startX, r.2.m_startY)
        (r.2.m_endX, r.2.m_endY) 5).length := hlen
    have hlt : (enemyCells r.1 23 3 (r.2.m_startX, r.2.m_startY) (r.2.m_endX, r.2.m_endY) 5).length
        < (enemyCells r.1 23 3 (r.2.m_startX, r.2.m_startY) (r.2.m_endX, r.2.m_endY) 4).length := by
      unfold enemyCells at hin4 hnot5 ⊢
      apply length_filter_lt_of_mem _ _ _ _ (cx, 1) hcint
      · exact (List.mem_filter.1 hin4).2
      · by_contra hc
        apply hnot5
        rw [List.mem_filter]
        exact ⟨hcint, by simpa using hc⟩
      · intro x hx
        rw [decide_eq_true_eq] at hx ⊢
        exact ⟨hx.1, by omega, hx.2.2⟩
    have hle4 : (enemyCells r.1 23 3 (r.2.m_startX, r.2.m_startY) (r.2.m_endX, r.2.m_endY) 4).length
        ≤ 21 := by
      unfold enemyCells
      rw [← hElen]
      exact List.length_filter_le _ _
    refine ⟨xs, hnd, hiff, ?_, (cx, 1), hin4, hrow, ?_⟩
    · rw [hlen2]
      omega
    · show |cx - r.2.m_startX| + |(1 : Int) - r.2.m_startY| = 5
      rw [esx, esy, hc3]; simp

end MazeGenerator
end TankMaze


namespace TankMaze
namespace Maze

/-- C4. Let the cost be a binary fraction `p / 2 ^ j ≥ 1` in lowest terms (every value of type
`float` is a binary fraction) with `(rows * cols + 1) * p + (rows + cols) * 2 ^ j ≤ 2 ^ 24`, so
that every sum the search forms is a binary32 value. Then `findPathThroughDestructible`, run in
binary32 arithmetic, returns, and when its path is non-empty the path is the list of centres of
a walk from the start cell to the target cell through in-bounds non-Solid cells whose cost (1
for each cell entered, `destructibleCost` for each Destructible cell entered) is at most that of
every such walk. -/
theorem binary32_route_minimal (m : Maze) (start target : Vec2) (destructibleCost : ℚ)
    (j fuel : Nat) (hcost : 1 ≤ destructibleCost) (hdyadic : destructibleCost.den = 2 ^ j)
    (hsize : (m.m_rows * m.m_cols + 1) * destructibleCost.num.toNat +
      (m.m_rows + m.m_cols) * destructibleCost.den ≤ 2 ^ 24)
    (hfuel : weightedSearchFuel m destructibleCost ≤ fuel) :
    ∃ r, m.findPathThroughDestructibleF binary32 fuel start target destructibleCost = some r ∧
      (r.path ≠ [] → ∃ cells, r.path = cells.map gridToWorld ∧
        isWalk m.nonSolidCell (worldToGrid start) cells (worldToGrid target) ∧
        ∀ cs, isWalk m.nonSolidCell (worldToGrid start) cs (worldToGrid target) →
          walkCost m destructibleCost cells ≤ walkCost m destructibleCost cs) := by
  have h0 : (0 : ℚ) ≤ destructibleCost := le_trans (by norm_num) hcost
  have hnum : 0 ≤ destructibleCost.num := Rat.num_nonneg.2 h0
  -- the numerator is at least the denominator
  have hge : destructibleCost.den ≤ destructibleCost.num.toNat := by
    have h1 : ((destructibleCost.den : Nat) : ℚ) ≤ ((destructibleCost.num : Int) : ℚ) := by
      have hd : (0 : ℚ) < (destructibleCost.den : ℚ) := by exact_mod_cast destructibleCost.den_pos
      have hq : (1 : ℚ) ≤ (destructibleCost.num : ℚ) / (destructibleCost.den : ℚ) := by
        rw [Rat.num_div_den]
        exact hcost
      have h5 := (le_div_iff₀ hd).1 hq
      rw [one_mul] at h5
      exact h5
    have h2 : ((destructibleCost.den : Nat) : Int) ≤ destructibleCost.num := by exact_mod_cast h1
    omega
  have hmax : max destructibleCost.num.toNat destructibleCost.den = destructibleCost.num.toNat :=
    max_eq_left hge
  have hpos : 0 < destructibleCost.num.toNat := lt_of_lt_of_le destructibleCost.den_pos hge
  have hj : j ≤ 149 := by
    by_contra hc
    have h1 : 2 ^ 25 ≤ 2 ^ j := Nat.pow_le_pow_right (by decide) (by omega)
    have h2 : destructibleCost.num.toNat ≤
        (m.m_rows * m.m_cols + 1) * destructibleCost.num.toNat :=
      Nat.le_mul_of_pos_left _ (by omega)
    have h3 : (2 : Nat) ^ 24 < 2 ^ 25 := by decide
    omega
  have hfl : ∀ k : Nat, k ≤ m.m_rows * m.m_cols * max destructibleCost.num.toNat
        destructibleCost.den + max destructibleCost.num.toNat destructibleCost.den +
        (m.m_rows + m.m_cols) * destructibleCost.den →
      binary32 ((k : ℚ) / (destructibleCost.den : ℚ)) = (k : ℚ) / (destructibleCost.den : ℚ) := by
    intro k hk
    rw [hmax] at hk
    have hk24 : k ≤ 2 ^ 24 := by
      have h4 : (m.m_rows * m.m_cols + 1) * destructibleCost.num.toNat =
          m.m_rows * m.m_cols * destructibleCost.num.toNat + destructibleCost.num.toNat := by
        ring
      omega
    rw [hdyadic]
    exact binary32_dyadic k j hk24 hj
  obtain ⟨hin, hout⟩ := findPathThroughDestructibleF_exact binary32 m start target
    destructibleCost fuel h0 hfl hfuel
  by_cases ht : worldToGrid target ∈ m.cellSet
  · rw [hin ht]
    exact findPathThroughDestructible_cost_minimal m start target destructibleCost hcost
  · rw [hout ht]
    exact ⟨{}, rfl, fun h => absurd rfl h⟩

/-- The row Empty, Destructible, Empty with the cost 5/2. -/
theorem binary32_route_minimal_witness :
    (1 : ℚ) ≤ 5 / 2 ∧ (5 / 2 : ℚ).den = 2 ^ 1 ∧
    (breakable3.m_rows * breakable3.m_cols + 1) * (5 / 2 : ℚ).num.toNat +
      (breakable3.m_rows + breakable3.m_cols) * (5 / 2 : ℚ).den ≤ 2 ^ 24 ∧
    ∃ r, breakable3.findPathThroughDestructibleF binary32 (weightedSearchFuel breakable3 (5 / 2))
        ⟨30, 30⟩ ⟨150, 30⟩ (5 / 2) = some r ∧
      (r.path ≠ [] → ∃ cells, r.path = cells.map gridToWorld ∧
        isWalk breakable3.nonSolidCell (worldToGrid ⟨30, 30⟩) cells (worldToGrid ⟨150, 30⟩) ∧
        ∀ cs, isWalk breakable3.nonSolidCell (worldToGrid ⟨30, 30⟩) cs (worldToGrid ⟨150, 30⟩) →
          walkCost breakable3 (5 / 2) cells ≤ walkCost breakable3 (5 / 2) cs) :=
  ⟨by norm_num, by decide!, by decide!,
    binary32_route_minimal breakable3 ⟨30, 30⟩ ⟨150, 30⟩ (5 / 2) 1
      (weightedSearchFuel breakable3 (5 / 2)) (by norm_num) (by decide!) (by decide!)
      (le_refl _)⟩

/-- At the cost 100000000 the sums of the search are rounded: in the maze `twoRoutes`, from the
cell of row 5, column 3 to the cell of row 2, column 1, the search in binary32 arithmetic
returns the nine cells through the Destructible cell of row 4, column 3, of cost 100000008,
though the seven cells through the Destructible cell of row 3, column 1 are a walk through
non-Solid cells of cost 100000006. -/
theorem binary32_route_not_minimal :
    (1 : ℚ) ≤ 100000000 ∧
    ∃ r, twoRoutes.findPathThroughDestructibleF binary32
        (weightedSearchFuel twoRoutes 100000000) ⟨210, 330⟩ ⟨90, 150⟩ 100000000 = some r ∧
      r.path ≠ [] ∧
      r.path = ([⟨3, 4⟩, ⟨3, 3⟩, ⟨3, 2⟩, ⟨3, 1⟩, ⟨3, 0⟩, ⟨2, 0⟩, ⟨1, 0⟩, ⟨1, 1⟩, ⟨1, 2⟩] :
        List GridPos).map gridToWorld ∧
      isWalk twoRoutes.nonSolidCell (worldToGrid ⟨210, 330⟩)
        [⟨3, 4⟩, ⟨3, 3⟩, ⟨3, 2⟩, ⟨3, 1⟩, ⟨3, 0⟩, ⟨2, 0⟩, ⟨1, 0⟩, ⟨1, 1⟩, ⟨1, 2⟩]
        (worldToGrid ⟨90, 150⟩) ∧
      isWalk twoRoutes.nonSolidCell (worldToGrid ⟨210, 330⟩)
        [⟨2, 5⟩, ⟨1, 5⟩, ⟨0, 5⟩, ⟨0, 4⟩, ⟨0, 3⟩, ⟨1, 3⟩, ⟨1, 2⟩] (worldToGrid ⟨90, 150⟩) ∧
      walkCost twoRoutes 100000000
          [⟨2, 5⟩, ⟨1, 5⟩, ⟨0, 5⟩, ⟨0, 4⟩, ⟨0, 3⟩, ⟨1, 3⟩, ⟨1, 2⟩] = 100000006 ∧
      walkCost twoRoutes 100000000
          [⟨3, 4⟩, ⟨3, 3⟩, ⟨3, 2⟩, ⟨3, 1⟩, ⟨3, 0⟩, ⟨2, 0⟩, ⟨1, 0⟩, ⟨1, 1⟩, ⟨1, 2⟩] = 100000008 := by
  refine ⟨by norm_num, ⟨[⟨210, 270⟩, ⟨210, 210⟩, ⟨210, 150⟩, ⟨210, 90⟩, ⟨210, 30⟩, ⟨150, 30⟩,
      ⟨90, 30⟩, ⟨90, 90⟩, ⟨90, 150⟩], true, ⟨210, 270⟩, ⟨3, 4⟩⟩, ?_, ?_, ?_, ?_, ?_, ?_, ?_⟩
  · decide!
  · decide
  · decide!
  · simp only [isWalk, nonSolidCell]
    decide!
  · simp only [isWalk, nonSolidCell]
    decide!
  · decide!
  · decide!

end Maze
end TankMaze


namespace TankMaze
namespace Maze

/-- What the collecting loop records over the cells of a path: the flag is set exactly when one
of the cells is an in-bounds Destructible cell, the recorded cell is the first such cell and the
recorded position its centre, and without such a cell the recorded cell stays `(-1, -1)`. -/
theorem collect_first_wall (m : Maze) (cells : List GridPos) :
    (cells.foldl (collectStep m) {}).path = cells.map gridToWorld ∧
    ((cells.foldl (collectStep m) {}).hasDestructibleWall = true ↔
      ∃ c ∈ cells, m.inBounds c.y c.x = true ∧ m.typeAt c.y c.x = WallType.Destructible) ∧
    ((cells.foldl (collectStep m) {}).hasDestructibleWall = true →
      cells.find? (fun c => m.inBounds c.y c.x &&
        decide (m.typeAt c.y c.x = WallType.Destructible)) =
          some (cells.foldl (collectStep m) {}).firstDestructibleWallGrid ∧
      (cells.foldl (collectStep m) {}).firstDestructibleWallPos =
        gridToWorld (cells.foldl (collectStep m) {}).firstDestructibleWallGrid) ∧
    ((cells.foldl (collectStep m) {}).hasDestructibleWall = false →
      (cells.foldl (collectStep m) {}).firstDestructibleWallGrid = ⟨-1, -1⟩) := by
  have hfun : (fun c : GridPos => m.inBounds c.y c.x &&
      decide (m.typeAt c.y c.x = WallType.Destructible)) =
      (fun c => m.isDestructibleWall c.y c.x) := by
    funext c
    unfold isDestructibleWall
    by_cases h : m.inBounds c.y c.x = true <;> simp [h]
  simp only [hfun]
  obtain ⟨c1, _, c3⟩ := collect_spec m cells {}
  obtain ⟨d1, d2, d3⟩ := c3 rfl
  refine ⟨by simpa using c1, ?_, ?_, ?_⟩
  · rw [d1, List.any_eq_true]
    constructor
    · rintro ⟨c, hc, hd⟩
      exact ⟨c, hc, (isDestructibleWall_iff m _ _).1 hd⟩
    · rintro ⟨c, hc, hd⟩
      exact ⟨c, hc, (isDestructibleWall_iff m _ _).2 hd⟩
  · intro hhas
    cases hf : cells.find? (fun c => m.isDestructibleWall c.y c.x) with
    | none =>
      rw [d1] at hhas
      rw [List.find?_eq_none] at hf
      obtain ⟨c, hc, hd⟩ := List.any_eq_true.1 hhas
      exact absurd hd (hf c hc)
    | some d =>
      obtain ⟨e1, e2⟩ := d2 d hf
      rw [e1, e2]
      exact ⟨rfl, rfl⟩
  · intro hhas
    have hnone : cells.find? (fun c => m.isDestructibleWall c.y c.x) = none := by
      rw [List.find?_eq_none]
      intro c hc hd
      rw [d1] at hhas
      have : cells.any (fun c => m.isDestructibleWall c.y c.x) = true :=
        List.any_eq_true.2 ⟨c, hc, hd⟩
      rw [this] at hhas
      exact absurd hhas (by simp)
    exact (d3 hnone).1

/-- Every result of the search in exact arithmetic is the collecting loop run over some cells. -/
theorem findPathThroughDestructible_shape (m : Maze) (start target : Vec2) (dc : ℚ)
    (r : PathResult) (hr : m.findPathThroughDestructible start target dc = some r) :
    ∃ cells : List GridPos, r = cells.foldl (collectStep m) {} := by
  unfold findPathThroughDestructible at hr
  simp only [] at hr
  split_ifs at hr with h1 h2
  · exact ⟨[], (Option.some.inj hr).symm⟩
  · exact ⟨[], (Option.some.inj hr).symm⟩
  · split at hr
    · exact absurd hr (by simp)
    · exact ⟨[], (Option.some.inj hr).symm⟩
    · rw [Option.map_eq_some'] at hr
      obtain ⟨gp, _, hgp⟩ := hr
      exact ⟨gp.reverse, hgp.symm⟩

/-- Every result of the search in rounded arithmetic is the collecting loop run over some
cells. -/
theorem findPathThroughDestructibleF_shape (fl : ℚ → ℚ) (fuel : Nat) (m : Maze)
    (start target : Vec2) (dc : ℚ) (r : PathResult)
    (hr : m.findPathThroughDestructibleF fl fuel start target dc = some r) :
    ∃ cells : List GridPos, r = cells.foldl (collectStep m) {} := by
  unfold findPathThroughDestructibleF at hr
  simp only [] at hr
  split_ifs at hr with h1 h2
  · exact ⟨[], (Option.some.inj hr).symm⟩
  · exact ⟨[], (Option.some.inj hr).symm⟩
  · split at hr
    · exact absurd hr (by simp)
    · exact ⟨[], (Option.some.inj hr).symm⟩
    · rw [Option.map_eq_some'] at hr
      obtain ⟨gp, _, hgp⟩ := hr
      exact ⟨gp.reverse, hgp.symm⟩

/-- C5. For every cost of at least 0 the search returns. In every result, of the search in exact
arithmetic and of the search in binary32 arithmetic, for every cost, with `cells` the cells whose
centres make up `path`: `hasDestructibleWall` is true exactly when some cell of `cells` is an
in-bounds Destructible cell; when it is true, `firstDestructibleWallGrid` is the first such cell
in path order and `firstDestructibleWallPos` its centre; when it is false,
`firstDestructibleWallGrid` is still `(-1, -1)`. -/
theorem findPathThroughDestructible_first_wall (m : Maze) (start target : Vec2)
    (destructibleCost : ℚ) :
    (0 ≤ destructibleCost →
      ∃ r, m.findPathThroughDestructible start target destructibleCost = some r) ∧
    (∀ r, (m.findPathThroughDestructible start target destructibleCost = some r ∨
        ∃ fuel, m.findPathThroughDestructibleF binary32 fuel start target destructibleCost =
          some r) →
      ∃ cells : List GridPos, r.path = cells.map gridToWorld ∧
        (r.hasDestructibleWall = true ↔
          ∃ c ∈ cells, m.inBounds c.y c.x = true ∧ m.typeAt c.y c.x = WallType.Destructible) ∧
        (r.hasDestructibleWall = true →
          cells.find? (fun c => m.inBounds c.y c.x &&
            decide (m.typeAt c.y c.x = WallType.Destructible)) = some r.firstDestructibleWallGrid ∧
          r.firstDestructibleWallPos = gridToWorld r.firstDestructibleWallGrid) ∧
        (r.hasDestructibleWall = false → r.firstDestructibleWallGrid = ⟨-1, -1⟩)) := by
  constructor
  · exact findPathThroughDestructible_returns m start target destructibleCost
  · intro r hr
    have hcells : ∃ cells : List GridPos, r = cells.foldl (collectStep m) {} := by
      rcases hr with hr | ⟨fuel, hr⟩
      · exact findPathThroughDestructible_shape m start target destructibleCost r hr
      · exact findPathThroughDestructibleF_shape binary32 fuel m start target destructibleCost
          r hr
    obtain ⟨cells, rfl⟩ := hcells
    exact ⟨cells, collect_first_wall m cells⟩

/-- The row Empty, Destructible, Empty at the cost 1/2: the search returns the path through the
Destructible cell with the flag set and that cell recorded. -/
theorem findPathThroughDestructible_first_wall_witness :
    (0 : ℚ) ≤ 1 / 2 ∧
    (∃ r, breakable3.findPathThroughDestructible ⟨30, 30⟩ ⟨150, 30⟩ (1 / 2) = some r) ∧
    breakable3.findPathThroughDestructible ⟨30, 30⟩ ⟨150, 30⟩ (1 / 2) =
      some ⟨[⟨90, 30⟩, ⟨150, 30⟩], true, ⟨90, 30⟩, ⟨1, 0⟩⟩ :=
  ⟨by norm_num,
    (findPathThroughDestructible_first_wall breakable3 ⟨30, 30⟩ ⟨150, 30⟩ (1 / 2)).1
      (by norm_num),
    by decide!⟩

end Maze
end TankMaze
